import Mathlib

/-! # mOS lightweight-kernel memory manager (`mOS/mem_mgmt.c`)

A shallow embedding of the block allocator of `mem_mgmt.c` and theorems about it.

Conventions of the embedding.

* `enum lwkmem_kind_t` values are natural numbers (`kind_4k = 0` … `kind_last = 4`);
  the per-kind C arrays (`wanted[]`, `num_blks[]`, `blk_list[]`) are functions on `Nat`
  that the code reads and writes at indices `0..3` only.
* `int64_t` quantities (`len`, `wanted`, `total`, `kind_size`, the free counters) are `Int`;
  unsigned quantities (addresses, offsets, granule lengths, unit counts held in a block)
  are `Nat`.  Arithmetic is unbounded: all values in play are bounded by the size of
  physical memory, far below `2^63`.
* A kernel linked list is a Lean `List` whose head is the first entry after the list head;
  a pointer to a list entry is its kind and its position in the list.
* Kernel services whose outcome depends on state outside the module (`vmalloc`, and the
  virtual-mapping collaborator `build_lwkvma`) are oracles of an `Env`, indexed by a call
  counter kept in the process state.
* Loops without an a-priori bound take a `fuel` argument and return `none` when it runs out.
-/

namespace MOS

/-! ## Size classes -/

def kind_4k : Nat := 0
def kind_2m : Nat := 1
def kind_4m : Nat := 2
def kind_1g : Nat := 3
def kind_last : Nat := 4

def lwkmem_dram : Nat := 0
def lwkmem_mcdram : Nat := 1
def lwkmem_type_last : Nat := 2

def ENOMEM : Int := 12
def EINVAL : Int := 22
def MAP_FIXED : Nat := 16

/-- Table `kind_size[kind_last] = {SZ_4K, SZ_2M, SZ_4M, SZ_1G}`. -/
def kind_size : Nat → Int
  | 0 => 4096
  | 1 => 2097152
  | 2 => 4194304
  | 3 => 1073741824
  | _ => 0

/-- The value of `kind_size[k]` used in unsigned arithmetic. -/
def kind_size_u (k : Nat) : Nat := (kind_size k).toNat

/-- Hardware and build description: the configuration `CONFIG_X86_64 || CONFIG_X86_PAE`
and the `tlb_lld_*[ENTRIES]` counts read by `num_dTLB`, and whether the compiler gives
`enum lwkmem_kind_t` (declared in `lwkmem.h`) an unsigned underlying type, which decides
the loop test `knd >= 0` of `partition_task_mem`. -/
structure Hw where
  x86_64_or_pae : Bool := true
  kind_t_unsigned : Bool := true
  tlb_lld_4k : Nat := 0
  tlb_lld_2m : Nat := 0
  tlb_lld_4m : Nat := 0
  tlb_lld_1g : Nat := 0
  deriving DecidableEq, Repr

/-- Function `num_dTLB`: number of dTLB entries of this kind on this architecture. -/
def num_dTLB (hw : Hw) (kind : Nat) : Int :=
  match kind with
  | 3 => if hw.tlb_lld_1g ≠ 0 then hw.tlb_lld_1g else 16
  | 2 => if hw.x86_64_or_pae then 0 else hw.tlb_lld_4m
  | 1 => if hw.x86_64_or_pae then (if hw.tlb_lld_2m ≠ 0 then hw.tlb_lld_2m else 128) else 0
  | 0 => if hw.tlb_lld_4k ≠ 0 then hw.tlb_lld_4k else 256
  | _ => 0

/-! ## Data model -/

/-- Record `struct mos_lwk_mem_granule`. -/
structure mos_lwk_mem_granule where
  base : Nat := 0
  length : Nat := 0
  nid : Int := 0
  owner : Int := -1
  deriving DecidableEq, Repr

/-- Record `struct lwk_process_granule`; the granule pointer is held by value. -/
structure lwk_process_granule where
  granule : mos_lwk_mem_granule := {}
  offset : Nat := 0
  deriving DecidableEq, Repr

/-- Record `struct blk_list`; `phys` is the granule the block was cut from. -/
structure blk_list where
  phys : mos_lwk_mem_granule := {}
  offset : Nat := 0
  num_blks : Nat := 0
  free : Bool := true
  vma_addr : Nat := 0
  deriving DecidableEq, Repr

/-- Record `struct mos_process_t`, restricted to the fields `mem_mgmt.c` uses for block
management, plus `tick`, the number of oracle calls made so far. -/
structure mos_process_t where
  lwkmem : Int := 0
  max_page_size : Int := 1073741824
  heap_page_size : Int := 2097152
  mcdram_minimum : Nat := 0
  mcdram_exempt_flags : Nat := 0
  lwkmem_interleave_disable : Bool := false
  lwkmem_list : List lwk_process_granule := []
  blk_list : Nat → List blk_list := fun _ => []
  num_blks : Nat → Int := fun _ => 0
  report_blks_allocated : Bool := false
  blks_allocated : Nat → Int → Int := fun _ _ => 0
  domain_order_index : Nat → Nat → Nat := fun _ _ => 0
  domain_info : Nat → Nat → Int := fun _ _ => 0
  domain_info_len : Nat → Nat := fun _ => 0
  tick : Nat := 0

/-- Which function `allocate_options_t.find_available` points to. -/
inductive find_available_t where
  | find_available_blk_list
  | find_available_by_nid_list
  deriving DecidableEq, Repr

/-- Record `struct allocate_options_t`.  Its `blocks_wanted` and `divide_block` members
always point to the functions of those names and are called directly; `mosp` is passed
alongside as the process state. -/
structure allocate_options_t where
  find_available : find_available_t := find_available_t.find_available_blk_list
  max_page_size : Int := 1073741824
  type_order : Nat → Nat := fun i => i
  nid_order : Nat → Nat → Int := fun _ _ => 0
  nid_order_len : Nat → Nat := fun _ => 0

/-- Kernel services consulted by the allocator. `vmalloc t` tells whether the allocation
made at call counter `t` succeeds; `build_lwkvma t knd addr len prot mmap_flags pgoff phys
total_length` is the value returned by the virtual-mapping collaborator. -/
structure Env where
  vmalloc : Nat → Bool := fun _ => true
  build_lwkvma : Nat → Nat → Nat → Int → Nat → Nat → Nat → Nat → Int → Int :=
    fun _ _ addr _ _ _ _ _ _ => addr

/-- Array store `a[i] = v`. -/
def upd {α : Type} (a : Nat → α) (i : Nat) (v : α) : Nat → α :=
  fun j => if j = i then v else a j

/-- C division of `int64_t` values (truncating). -/
def cdiv (a b : Int) : Int := Int.tdiv a b

/-- Kernel macro `roundup(x, y)` on signed operands. -/
def roundup (x y : Int) : Int := cdiv (x + (y - 1)) y * y

/-- Kernel macro `roundup(x, y)` on unsigned operands. -/
def roundup_u (x y : Nat) : Nat := (x + (y - 1)) / y * y

/-- Kernel macro `rounddown(x, y)` on unsigned operands. -/
def rounddown_u (x y : Nat) : Nat := x - x % y

/-! ## Placement policy: `blocks_wanted` -/

/-- Loop of `blocks_wanted`; the first argument is `k + 1` for the loop variable `k`
(the loop runs while `(int)k >= 0 && len > 0`). Returns `(total, wanted)`. -/
def blocks_wanted_loop (hw : Hw) (max_page_size : Int) :
    Nat → Int → (Nat → Int) → Int → Int × (Nat → Int)
  | 0, _, wanted, total => (total, wanted)
  | k + 1, len, wanted, total =>
    if 0 < len then
      if num_dTLB hw k ≤ 0 ∨ kind_size k > max_page_size then
        blocks_wanted_loop hw max_page_size k len wanted total
      else
        let w := cdiv len (kind_size k)
        blocks_wanted_loop hw max_page_size k (len - w * kind_size k) (upd wanted k w)
          (total + w * kind_size k)
    else (total, wanted)

/-- Function `blocks_wanted(len, wanted, options)`: returns `(total, wanted)`. -/
def blocks_wanted (hw : Hw) (len : Int) (wanted : Nat → Int) (options : allocate_options_t) :
    Int × (Nat → Int) :=
  blocks_wanted_loop hw options.max_page_size kind_last len wanted 0

/-- Sum over the four classes of `wanted[k] * kind_size[k]`. -/
def wanted_bytes (wanted : Nat → Int) : Int :=
  wanted 0 * kind_size 0 + wanted 1 * kind_size 1 + wanted 2 * kind_size 2 +
    wanted 3 * kind_size 3

/-! ## Lists of blocks -/

/-- Position and value of the first entry of a list that satisfies `p`. -/
def find_first {α : Type} (p : α → Bool) : List α → Option (Nat × α)
  | [] => none
  | b :: bs =>
    if p b then some (0, b)
    else match find_first p bs with
      | some (i, e) => some (i + 1, e)
      | none => none

/-- Kernel `list_add(new, &entry->list)` for the entry at position `i`: insert after it. -/
def insert_after {α : Type} (l : List α) (i : Nat) (x : α) : List α :=
  l.take (i + 1) ++ x :: l.drop (i + 1)

/-- Two-dimensional array store `a[i][j] = v`. -/
def upd2 {α β : Type} (a : Nat → β → α) [DecidableEq β] (i : Nat) (j : β) (v : α) :
    Nat → β → α :=
  fun i' j' => if i' = i ∧ j' = j then v else a i' j'

/-! ## Searching for a free block -/

/-- Function `find_available_blk_list(knd, opts)`: the first free entry of `blk_list[knd]`. -/
def find_available_blk_list (s : mos_process_t) (knd : Nat) : Option (Nat × blk_list) :=
  find_first (fun elt => elt.free) (s.blk_list knd)

/-- Function `find_available_by_nid(knd, nid, opts)`. -/
def find_available_by_nid (s : mos_process_t) (knd : Nat) (nid : Int) :
    Option (Nat × blk_list) :=
  find_first (fun elt => elt.free && (elt.phys.nid == nid || nid == -1)) (s.blk_list knd)

/-- Inner loop `for (k = knd; k < kind_last; k++)` of `find_available_by_nid_list`; the
first argument counts the kinds left.  `some r` means the function returns `r`. -/
def nid_scan (s : mos_process_t) (knd : Nat) (nid : Int) :
    Nat → Nat → Option (Option (Nat × blk_list))
  | 0, _ => none
  | n + 1, k =>
    match find_available_by_nid s k nid with
    | some e => some (if k > knd then none else some e)
    | none => nid_scan s knd nid n (k + 1)

/-- The `do … while (domain_order_index[t][knd] != start_domain_index)` loop of
`find_available_by_nid_list`.  `some (some r, s)` means the function returns `r`;
`some (none, s)` means the loop ended without a result. -/
def nid_do_while (opts : allocate_options_t) (knd t start : Nat) :
    Nat → mos_process_t → Option (Option (Option (Nat × blk_list)) × mos_process_t)
  | 0, _ => none
  | fuel + 1, s =>
    let domain_index := s.domain_order_index t knd
    let nid := opts.nid_order t domain_index
    let doi := upd2 s.domain_order_index t knd ((domain_index + 1) % opts.nid_order_len t)
    let s1 := { s with domain_order_index := doi }
    match nid_scan s1 knd nid (kind_last - knd) knd with
    | some r => some (some r, s1)
    | none =>
      if s1.domain_order_index t knd ≠ start then nid_do_while opts knd t start fuel s1
      else some (none, s1)

/-- Loop `for (i = 0; i < lwkmem_type_last; i++)` of `find_available_by_nid_list`; the
second argument counts the memory types left. -/
def nid_types (opts : allocate_options_t) (knd : Nat) (fuel : Nat) :
    Nat → Nat → mos_process_t → Option (Option (Nat × blk_list) × mos_process_t)
  | 0, _, s => some (none, s)
  | n + 1, i, s =>
    let t := opts.type_order i
    if opts.nid_order_len t = 0 then nid_types opts knd fuel n (i + 1) s
    else
      let s0 := if s.lwkmem_interleave_disable then
          { s with domain_order_index := upd2 s.domain_order_index t knd 0 }
        else s
      match nid_do_while opts knd t (s0.domain_order_index t knd) fuel s0 with
      | none => none
      | some (some r, s1) => some (r, s1)
      | some (none, s1) => nid_types opts knd fuel n (i + 1) s1

/-- Function `find_available_by_nid_list(knd, opts)`. -/
def find_available_by_nid_list (fuel : Nat) (opts : allocate_options_t) (knd : Nat)
    (s : mos_process_t) : Option (Option (Nat × blk_list) × mos_process_t) :=
  nid_types opts knd fuel lwkmem_type_last 0 s

/-- Call `opts->find_available(knd, opts)`. -/
def find_available (fuel : Nat) (opts : allocate_options_t) (knd : Nat) (s : mos_process_t) :
    Option (Option (Nat × blk_list) × mos_process_t) :=
  match opts.find_available with
  | find_available_t.find_available_blk_list => some (find_available_blk_list s knd, s)
  | find_available_t.find_available_by_nid_list => find_available_by_nid_list fuel opts knd s

/-! ## Dividing a block -/

/-- Loop `for (nxt = knd + 1; num_dTLB(nxt) == 0 && nxt < kind_last; nxt++)` of
`divide_block`, started at `nxt`; the first argument bounds the iterations. -/
def next_larger (hw : Hw) : Nat → Nat → Nat
  | 0, nxt => nxt
  | n + 1, nxt => if num_dTLB hw nxt = 0 ∧ nxt < kind_last then next_larger hw n (nxt + 1) else nxt

/-- Second half of `divide_block(knd, opts)`, once a free block `elt` of the next larger
kind `nxt` is in hand at position `i` of `blk_list[nxt]`: "If there is more than one free
block of the next larger size, then consume just the first free block.  Otherwise the
entire block needs to be consumed."  On success the new block is the head of
`blk_list[knd]` and the result carries its position `0` and value. -/
def divide_consume (env : Env) (knd nxt : Nat) (s1 : mos_process_t) (i : Nat)
    (elt : blk_list) : Option (Nat × blk_list) × mos_process_t :=
  let ratio := (cdiv (kind_size nxt) (kind_size knd)).toNat
  if elt.num_blks > 1 then
    if env.vmalloc s1.tick then
      let newb : blk_list :=
        { phys := elt.phys, offset := elt.offset, num_blks := ratio, free := true,
          vma_addr := 0 }
      let elt1 := { elt with num_blks := elt.num_blks - 1,
                             offset := elt.offset + kind_size_u nxt }
      let lists := upd (upd s1.blk_list nxt ((s1.blk_list nxt).set i elt1)) knd
        (newb :: s1.blk_list knd)
      let counts1 := upd s1.num_blks knd (s1.num_blks knd + newb.num_blks)
      let counts := upd counts1 nxt (counts1 nxt - 1)
      (some (0, newb), { s1 with blk_list := lists, num_blks := counts, tick := s1.tick + 1 })
    else (none, { s1 with tick := s1.tick + 1 })
  else
    let newb := { elt with num_blks := elt.num_blks * ratio }
    let lists := upd (upd s1.blk_list nxt ((s1.blk_list nxt).eraseIdx i)) knd
      (newb :: s1.blk_list knd)
    let counts1 := upd s1.num_blks knd (s1.num_blks knd + newb.num_blks)
    let counts := upd counts1 nxt (counts1 nxt - 1)
    (some (0, newb), { s1 with blk_list := lists, num_blks := counts })

/-- Function `divide_block(knd, opts)`; the first argument bounds the recursion and the
searches. -/
def divide_block (env : Env) (hw : Hw) (opts : allocate_options_t) :
    Nat → Nat → mos_process_t → Option (Option (Nat × blk_list) × mos_process_t)
  | 0, _, _ => none
  | fuel + 1, knd, s =>
    let nxt := next_larger hw kind_last (knd + 1)
    if nxt ≥ kind_last then some (none, s)
    else
      match find_available fuel opts nxt s with
      | none => none
      | some (some (i, elt), s1) => some (divide_consume env knd nxt s1 i elt)
      | some (none, s1) =>
        match divide_block env hw opts fuel nxt s1 with
        | none => none
        | some (none, s2) => some (none, s2)
        | some (some (i, elt), s2) => some (divide_consume env knd nxt s2 i elt)

/-! ## Allocation -/

/-- Local variables of `allocate_blocks` that change in its loops. -/
structure alloc_locals where
  wanted : Nat → Int := fun _ => 0
  total : Int := 0
  addr : Nat := 0
  mmap_flags : Nat := 0
  first_addr : Int := 0

/-- How a call of `allocate_blocks` ends. `returned` is the normal `return first_addr`;
the others are the `goto alloc_err` exits, except `wanted_underflow`, which stands for a
store to `wanted[k - 1]` with `k = 0`. -/
inductive alloc_exit where
  | returned (first_addr : Int)
  | block_list_empty
  | build_failed (new_addr : Int)
  | vmalloc_failed
  | bytes_unallocated (total : Int)
  | wanted_underflow
  deriving DecidableEq, Repr

/-- The `long` value returned by `allocate_blocks` for each exit. -/
def alloc_exit.ret : alloc_exit → Int
  | alloc_exit.returned first_addr => first_addr
  | alloc_exit.block_list_empty => -ENOMEM
  | alloc_exit.build_failed new_addr => new_addr
  | alloc_exit.vmalloc_failed => -ENOMEM
  | alloc_exit.bytes_unallocated _ => -ENOMEM
  | alloc_exit.wanted_underflow => 0

/-- Either the loop goes on with new locals, or the call leaves through an exit. -/
inductive alloc_flow where
  | next (l : alloc_locals)
  | quit (e : alloc_exit)

/-- The statement `wanted[k - 1] += wanted[k] * kind_size[k] / kind_size[k - 1];
wanted[k] = 0;` for `k > 0`. -/
def fold_wanted (wanted : Nat → Int) (k : Nat) : Nat → Int :=
  upd (upd wanted (k - 1)
    (wanted (k - 1) + cdiv (wanted k * kind_size k) (kind_size (k - 1)))) k 0

/-- The statements `if (!first_addr) { first_addr = new_addr; mmap_flags |= MAP_FIXED; }`
together with the updates of `addr` and `total` after `bytes` were mapped at `new_addr`. -/
def note_mapped (l : alloc_locals) (new_addr : Int) (bytes : Int) : alloc_locals :=
  { l with
    addr := (new_addr + bytes).toNat
    total := l.total - bytes
    first_addr := if l.first_addr = 0 then new_addr else l.first_addr
    mmap_flags := if l.first_addr = 0 then l.mmap_flags ||| MAP_FIXED else l.mmap_flags }

/-- Body of the `while (wanted[k] > 0)` loop of `allocate_blocks` once a free block `elt`
at position `i` of `blk_list[k]` is in hand ("Let's grab some or all of this block"). -/
def grab_block (env : Env) (prot pgoff : Nat) (len : Int) (k : Nat) (l : alloc_locals)
    (s : mos_process_t) (i : Nat) (elt : blk_list) : alloc_flow × mos_process_t :=
  let w := l.wanted k
  if w < elt.num_blks then
    let new_addr := env.build_lwkvma s.tick k l.addr (w * kind_size k) prot l.mmap_flags pgoff
      (elt.phys.base + elt.offset) len
    let s1 := { s with tick := s.tick + 1 }
    if new_addr ≤ 0 then (alloc_flow.quit (alloc_exit.build_failed new_addr), s1)
    else if env.vmalloc s1.tick then
      let new_blk : blk_list :=
        { phys := elt.phys, offset := elt.offset, num_blks := w.toNat, free := false,
          vma_addr := new_addr.toNat }
      let elt1 := { elt with offset := elt.offset + (w * kind_size k).toNat,
                             num_blks := elt.num_blks - w.toNat }
      let lists := upd s1.blk_list k (insert_after ((s1.blk_list k).set i elt1) i new_blk)
      let hist := if s1.report_blks_allocated then
          upd2 s1.blks_allocated k elt.phys.nid (s1.blks_allocated k elt.phys.nid + w)
        else s1.blks_allocated
      let l1 := note_mapped l new_addr (w * kind_size k)
      (alloc_flow.next { l1 with wanted := upd l1.wanted k 0 },
        { s1 with blk_list := lists, num_blks := upd s1.num_blks k (s1.num_blks k - w),
                  blks_allocated := hist, tick := s1.tick + 1 })
    else (alloc_flow.quit alloc_exit.vmalloc_failed, { s1 with tick := s1.tick + 1 })
  else
    let new_addr := env.build_lwkvma s.tick k l.addr (elt.num_blks * kind_size k) prot
      l.mmap_flags pgoff (elt.phys.base + elt.offset) len
    let s1 := { s with tick := s.tick + 1 }
    if new_addr ≤ 0 then (alloc_flow.quit (alloc_exit.build_failed new_addr), s1)
    else
      let elt1 := { elt with vma_addr := new_addr.toNat, free := false }
      let lists := upd s1.blk_list k ((s1.blk_list k).set i elt1)
      let hist := if s1.report_blks_allocated then
          upd2 s1.blks_allocated k elt.phys.nid
            (s1.blks_allocated k elt.phys.nid + elt.num_blks)
        else s1.blks_allocated
      let l1 := note_mapped l new_addr (elt.num_blks * kind_size k)
      (alloc_flow.next { l1 with wanted := upd l1.wanted k (w - elt.num_blks) },
        { s1 with blk_list := lists,
                  num_blks := upd s1.num_blks k (s1.num_blks k - elt.num_blks),
                  blks_allocated := hist })

/-- Loop `while (wanted[k] > 0)` of `allocate_blocks` for the class `k`. -/
def allocate_while (env : Env) (hw : Hw) (opts : allocate_options_t) (prot pgoff : Nat)
    (len : Int) (k : Nat) : Nat → alloc_locals → mos_process_t →
    Option (alloc_flow × mos_process_t)
  | 0, _, _ => none
  | fuel + 1, l, s =>
    if 0 < l.wanted k then
      match find_available fuel opts k s with
      | none => none
      | some (some (i, elt), s1) =>
        match grab_block env prot pgoff len k l s1 i elt with
        | (alloc_flow.next l1, s2) => allocate_while env hw opts prot pgoff len k fuel l1 s2
        | (alloc_flow.quit e, s2) => some (alloc_flow.quit e, s2)
      | some (none, s1) =>
        match divide_block env hw opts fuel k s1 with
        | none => none
        | some (some (i, elt), s2) =>
          match grab_block env prot pgoff len k l s2 i elt with
          | (alloc_flow.next l1, s3) => allocate_while env hw opts prot pgoff len k fuel l1 s3
          | (alloc_flow.quit e, s3) => some (alloc_flow.quit e, s3)
        | some (none, s2) =>
          if k > 0 then
            allocate_while env hw opts prot pgoff len k fuel
              { l with wanted := fold_wanted l.wanted k } s2
          else some (alloc_flow.quit alloc_exit.block_list_empty, s2)
    else some (alloc_flow.next l, s)

/-- Loop `for (k = kind_last - 1; (int)k >= 0; k--)` of `allocate_blocks` followed by the
final test of `total`; the second argument is `k + 1` for the loop variable `k`. -/
def allocate_kinds (env : Env) (hw : Hw) (opts : allocate_options_t) (prot pgoff : Nat)
    (len : Int) (fuel : Nat) : Nat → alloc_locals → mos_process_t →
    Option (alloc_exit × mos_process_t)
  | 0, l, s =>
    if l.total ≠ 0 then some (alloc_exit.bytes_unallocated l.total, s)
    else some (alloc_exit.returned l.first_addr, s)
  | k + 1, l, s =>
    if l.wanted k ≤ 0 then allocate_kinds env hw opts prot pgoff len fuel k l s
    else if num_dTLB hw k = 0 then
      if k = 0 then some (alloc_exit.wanted_underflow, s)
      else allocate_kinds env hw opts prot pgoff len fuel k
        { l with wanted := fold_wanted l.wanted k } s
    else
      match allocate_while env hw opts prot pgoff len k fuel l s with
      | none => none
      | some (alloc_flow.next l1, s1) => allocate_kinds env hw opts prot pgoff len fuel k l1 s1
      | some (alloc_flow.quit e, s1) => some (e, s1)

/-- Function `allocate_blocks(addr, len, prot, mmap_flags, pgoff, opts)`; `lwkmem_mutex`
is held throughout and is not modelled. -/
def allocate_blocks (env : Env) (hw : Hw) (fuel : Nat) (addr : Nat) (len : Int)
    (prot mmap_flags pgoff : Nat) (opts : allocate_options_t) (s : mos_process_t) :
    Option (alloc_exit × mos_process_t) :=
  let len1 := roundup len (kind_size 0)
  let tw := blocks_wanted hw len1 (fun _ => 0) opts
  allocate_kinds env hw opts prot pgoff len1 fuel kind_last
    { wanted := tw.2, total := tw.1, addr := addr, mmap_flags := mmap_flags, first_addr := 0 } s

/-! ## Deallocation -/

/-- Return value of `unmap_pagetbl(k, addr, len)`: `-1` as soon as a page of a kind other
than 1g, 2m or 4k has to be cleared, `len` otherwise.  The page-table stores themselves
belong to the virtual-mapping collaborator. -/
def unmap_pagetbl (k : Nat) (addr len : Nat) : Int :=
  if addr < addr + len then
    if k = kind_1g ∨ k = kind_2m ∨ k = kind_4k then len else -1
  else len

/-- Function `split_block(bl, k, offset, mosp)` for the block `bl` at position `i` of
`blk_list[k]`.  On success the new block is the head of `blk_list[k]` and `bl` has moved to
position `i + 1`; `none` is the `NULL` result. -/
def split_block (env : Env) (s : mos_process_t) (k i : Nat) (bl : blk_list) (offset : Nat) :
    Option blk_list × mos_process_t :=
  let blks := offset / kind_size_u k
  if blks ≥ bl.num_blks ∨ offset &&& (kind_size_u k - 1) ≠ 0 then (none, s)
  else if env.vmalloc s.tick then
    let newb : blk_list :=
      { phys := bl.phys, offset := bl.offset + offset, num_blks := bl.num_blks - blks,
        vma_addr := bl.vma_addr + offset, free := bl.free }
    let bl1 := { bl with num_blks := blks }
    (some newb,
      { s with blk_list := upd s.blk_list k (newb :: (s.blk_list k).set i bl1),
               tick := s.tick + 1 })
  else (none, { s with tick := s.tick + 1 })

/-- The search of `deallocate_block`: the first block, by kind and then by list order, that
is not free and whose placement range contains `addr`.  The first argument counts the kinds
left, the second is the kind to look at. -/
def find_assigned (s : mos_process_t) (addr : Nat) : Nat → Nat → Option (Nat × Nat × blk_list)
  | 0, _ => none
  | n + 1, k =>
    match find_first (fun bl => !bl.free && decide (addr ≥ bl.vma_addr) &&
        decide (addr < bl.vma_addr + bl.num_blks * kind_size_u k)) (s.blk_list k) with
    | some (i, bl) => some (k, i, bl)
    | none => find_assigned s addr n (k + 1)

/-- Free the block at position `i` of `blk_list[k]`: `free = 1`, `vma_addr = 0`, and add its
units to `num_blks[k]`. -/
def mark_free (s : mos_process_t) (k i : Nat) (bl : blk_list) : mos_process_t :=
  { s with blk_list := upd s.blk_list k ((s.blk_list k).set i { bl with free := true, vma_addr := 0 }),
           num_blks := upd s.num_blks k (s.num_blks k + bl.num_blks) }

/-- Function `deallocate_block(addr, len, mosp)`: the returned `long` and the new state. -/
def deallocate_block (env : Env) (addr len : Nat) (s : mos_process_t) : Int × mos_process_t :=
  match find_assigned s addr kind_last 0 with
  | none => (0, s)
  | some (k, i, bl) =>
    let sz := bl.num_blks * kind_size_u k
    let left := decide (addr = bl.vma_addr)
    let right := decide (addr + len ≥ bl.vma_addr + sz)
    if addr &&& (kind_size_u k - 1) ≠ 0 then (-1, s)
    else if !right ∧ (addr + len) &&& (kind_size_u k - 1) ≠ 0 then (-1, s)
    else
      let offset := addr - bl.vma_addr
      if left && right then
        (unmap_pagetbl k addr sz, mark_free s k i bl)
      else if left then
        match split_block env s k i bl len with
        | (none, s1) => (-ENOMEM, s1)
        | (some _, s1) =>
          (unmap_pagetbl k addr len, mark_free s1 k (i + 1) { bl with num_blks := len / kind_size_u k })
      else if right then
        match split_block env s k i bl offset with
        | (none, s1) => (-ENOMEM, s1)
        | (some newb, s1) => (unmap_pagetbl k addr (sz - offset), mark_free s1 k 0 newb)
      else
        let offs2 := addr + len - bl.vma_addr
        match split_block env s k i bl offs2 with
        | (none, s1) => (-ENOMEM, s1)
        | (some _, s1) =>
          match split_block env s1 k (i + 1) { bl with num_blks := offs2 / kind_size_u k }
              offset with
          | (none, s2) => (-ENOMEM, s2)
          | (some newb, s2) => (unmap_pagetbl k addr len, mark_free s2 k 0 newb)

/-- Loop `while (len > 0)` of `deallocate_blocks`; `ret` is the last value returned by
`deallocate_block` (initially `0`). -/
def deallocate_loop (env : Env) : Nat → Nat → Nat → Int → mos_process_t →
    Option (Int × mos_process_t)
  | 0, _, _, _, _ => none
  | fuel + 1, addr, len, ret, s =>
    if 0 < len then
      match deallocate_block env addr len s with
      | (ret1, s1) =>
        if ret1 ≤ 0 then some (ret1, s1)
        else deallocate_loop env fuel (addr + ret1.toNat) (len - ret1.toNat) ret1 s1
    else some (ret, s)

/-- Function `deallocate_blocks(addr, len, mosp)`. -/
def deallocate_blocks (env : Env) (fuel : Nat) (addr len : Nat) (s : mos_process_t) :
    Option (Int × mos_process_t) :=
  deallocate_loop env fuel addr (roundup_u len (kind_size_u 0)) 0 s

/-! ## Partitioning -/

/-- Function `create_and_link_block(pgran, length, knd, mosp)`: whether a block was
returned (`false` is the `NULL` result), the process granule and the state afterwards. -/
def create_and_link_block (env : Env) (pgran : lwk_process_granule) (length : Nat) (knd : Nat)
    (s : mos_process_t) : Bool × lwk_process_granule × mos_process_t :=
  if env.vmalloc s.tick then
    let newb : blk_list :=
      { offset := pgran.offset, num_blks := length / kind_size_u knd, free := true,
        phys := pgran.granule, vma_addr := 0 }
    (true, { pgran with offset := pgran.offset + length },
      { s with blk_list := upd s.blk_list knd (newb :: s.blk_list knd),
               num_blks := upd s.num_blks knd (s.num_blks knd + newb.num_blks),
               tick := s.tick + 1 })
  else (false, pgran, { s with tick := s.tick + 1 })

/-- Loop `for (nxt = knd + 1; nxt < kind_last; nxt++) if (num_dTLB(nxt) > 0) break;` of
`partition_task_mem`, started at `nxt`; the first argument bounds the iterations. -/
def next_usable (hw : Hw) : Nat → Nat → Nat
  | 0, nxt => nxt
  | n + 1, nxt =>
    if nxt < kind_last then
      if num_dTLB hw nxt > 0 then nxt else next_usable hw n (nxt + 1)
    else nxt

/-- First loop of `partition_task_mem` for one process granule ("Incrementally align with
the next sized TLB"), for `knd` up to `kind_last - 2`; the first argument counts the kinds
left.  The Boolean of the result is `false` for the `return -1`. -/
def partition_align (env : Env) (hw : Hw) :
    Nat → Nat → lwk_process_granule → mos_process_t →
    Bool × lwk_process_granule × mos_process_t
  | 0, _, g, s => (true, g, s)
  | n + 1, knd, g, s =>
    if num_dTLB hw knd = 0 then partition_align env hw n (knd + 1) g s
    else
      let nxt := next_usable hw kind_last (knd + 1)
      let addr := g.granule.base + g.offset
      if nxt < kind_last ∧ addr &&& (kind_size_u nxt - 1) ≠ 0 then
        let delta := min (roundup_u addr (kind_size_u nxt) - addr) (g.granule.length - g.offset)
        if delta = 0 then partition_align env hw n (knd + 1) g s
        else
          match create_and_link_block env g delta knd s with
          | (false, g1, s1) => (false, g1, s1)
          | (true, g1, s1) => partition_align env hw n (knd + 1) g1 s1
      else partition_align env hw n (knd + 1) g s

/-- Second loop of `partition_task_mem` for one process granule,
`for (knd = kind_last - 1; knd >= 0; knd--)`.  With an unsigned `enum lwkmem_kind_t` the
test `knd >= 0` always holds and `knd--` wraps from `0` to `2^32 - 1`; the loop then ends
only through its `break`.  The Boolean of the result is `false` for the `return -1`. -/
def partition_fill (env : Env) (hw : Hw) :
    Nat → Nat → lwk_process_granule → mos_process_t →
    Option (Bool × lwk_process_granule × mos_process_t)
  | 0, _, _, _ => none
  | fuel + 1, knd, g, s =>
    if g.offset ≥ g.granule.length then some (true, g, s)
    else
      let step : Bool × lwk_process_granule × mos_process_t :=
        if num_dTLB hw knd = 0 then (true, g, s)
        else
          let delta := rounddown_u (g.granule.length - g.offset) (kind_size_u knd)
          if delta = 0 then (true, g, s) else create_and_link_block env g delta knd s
      match step with
      | (false, g1, s1) => some (false, g1, s1)
      | (true, g1, s1) =>
        if knd = 0 then
          if hw.kind_t_unsigned then partition_fill env hw fuel (2 ^ 32 - 1) g1 s1
          else some (true, g1, s1)
        else partition_fill env hw fuel (knd - 1) g1 s1

/-- Body of `list_for_each_entry(g, &mosp->lwkmem_list, list)` in `partition_task_mem`. -/
def partition_granule (env : Env) (hw : Hw) (fuel : Nat) (g : lwk_process_granule)
    (s : mos_process_t) : Option (Bool × lwk_process_granule × mos_process_t) :=
  match partition_align env hw (kind_last - 1) 0 g s with
  | (false, g1, s1) => some (false, g1, s1)
  | (true, g1, s1) => partition_fill env hw fuel (kind_last - 1) g1 s1

/-- The traversal of `mosp->lwkmem_list` by `partition_task_mem`: `done` holds the process
granules already partitioned (in list order), the list argument those still to do. The
result is the `int` returned and the new state. -/
def partition_list (env : Env) (hw : Hw) (fuel : Nat) :
    List lwk_process_granule → List lwk_process_granule → mos_process_t →
    Option (Int × mos_process_t)
  | done, [], s => some (0, { s with lwkmem_list := done })
  | done, g :: rest, s =>
    match partition_granule env hw fuel g s with
    | none => none
    | some (false, g1, s1) => some (-1, { s1 with lwkmem_list := done ++ g1 :: rest })
    | some (true, g1, s1) => partition_list env hw fuel (done ++ [g1]) rest s1

/-- Function `partition_task_mem(mosp, reserved)`. -/
def partition_task_mem (env : Env) (hw : Hw) (fuel : Nat) (s : mos_process_t) :
    Option (Int × mos_process_t) :=
  partition_list env hw fuel [] s.lwkmem_list s

/-! ## Derived quantities -/

/-- Bytes of a block of class `k`: `num_blks * kind_size[k]`. -/
def blk_bytes (k : Nat) (b : blk_list) : Int := b.num_blks * kind_size k

/-- Total bytes of the free blocks of a list of class `k`. -/
def list_free_bytes (k : Nat) (l : List blk_list) : Int :=
  (l.map (fun b => if b.free then blk_bytes k b else 0)).sum

/-- Total bytes of the blocks of a list of class `k` that are not free. -/
def list_assigned_bytes (k : Nat) (l : List blk_list) : Int :=
  (l.map (fun b => if b.free then 0 else blk_bytes k b)).sum

/-- Total units of the free blocks of a list (what `dump_block_lists` compares with
`num_blks[k]`). -/
def list_free_units (l : List blk_list) : Int :=
  (l.map (fun b => if b.free then (b.num_blks : Int) else 0)).sum

/-- Sum over the four classes of the free bytes of the lists `lists[k]`. -/
def lists_free_bytes (lists : Nat → List blk_list) : Int :=
  list_free_bytes 0 (lists 0) + list_free_bytes 1 (lists 1) +
    list_free_bytes 2 (lists 2) + list_free_bytes 3 (lists 3)

/-- Sum over the four classes of the assigned bytes of the lists `lists[k]`. -/
def lists_assigned_bytes (lists : Nat → List blk_list) : Int :=
  list_assigned_bytes 0 (lists 0) + list_assigned_bytes 1 (lists 1) +
    list_assigned_bytes 2 (lists 2) + list_assigned_bytes 3 (lists 3)

/-- Total bytes held in the free blocks of the process, all classes. -/
def free_bytes (s : mos_process_t) : Int := lists_free_bytes s.blk_list

/-- Total bytes held in the assigned blocks of the process, all classes. -/
def assigned_bytes (s : mos_process_t) : Int := lists_assigned_bytes s.blk_list

/-- Sum of `wanted[j] * kind_size[j]` over the classes `j < n`. -/
def partial_bytes (wanted : Nat → Int) : Nat → Int
  | 0 => 0
  | n + 1 => partial_bytes wanted n + wanted n * kind_size n

/-- The test of `blocks_wanted` for using class `k`: it has dTLB entries and its size does
not exceed the ceiling `max_page_size`. -/
def class_ok (hw : Hw) (max_page_size : Int) (k : Nat) : Prop :=
  ¬ (num_dTLB hw k ≤ 0 ∨ kind_size k > max_page_size)

instance (hw : Hw) (max_page_size : Int) (k : Nat) : Decidable (class_ok hw max_page_size k) := by
  unfold class_ok
  infer_instance

/-! ## Example inputs -/

/-- An x86-64 host whose `tlb_lld_*` tables are empty (`num_dTLB` falls back to its
defaults): the classes 4k, 2m and 1g are usable, 4m is not. -/
def hw_x86_64 : Hw := { x86_64_or_pae := true }

/-- The options set up by `allocate_options_factory` for a process with default settings
(`max_page_size = SZ_1G`, first-free search). -/
def opts_default : allocate_options_t := {}

/-! ## Predicates used in the statements -/

/-- The entry at position `i` of `blk_list[k]` is the free block `elt`. -/
def valid_free (s : mos_process_t) (k i : Nat) (elt : blk_list) : Prop :=
  (s.blk_list k)[i]? = some elt ∧ elt.free = true

/-- The state `s1` differs from `s` at most in the rotating cursors
`domain_order_index`. -/
def cursor_only (s s1 : mos_process_t) : Prop :=
  s1 = { s with domain_order_index := s1.domain_order_index }

/-- Accounting invariant of the class loop of `allocate_blocks`, relative to the free bytes
`F0`, the assigned bytes `A0` and the value `T0` of `total` when the loop starts: `total` is
the demand still recorded in `wanted[]`, no demand is negative, the classes `≥ n` have no
demand left, and exactly `T0 - total` bytes have moved from free to assigned. -/
def alloc_inv (F0 A0 T0 : Int) (n : Nat) (l : alloc_locals) (s : mos_process_t) : Prop :=
  l.total = wanted_bytes l.wanted ∧ (∀ j, j < 4 → 0 ≤ l.wanted j) ∧
    (∀ j, n ≤ j → j < 4 → l.wanted j = 0) ∧
    free_bytes s = F0 - (T0 - l.total) ∧ assigned_bytes s = A0 + (T0 - l.total)

/-- What the accounting invariant gives at an exit of `allocate_blocks`. -/
def alloc_post (F0 A0 T0 : Int) (e : alloc_exit) (s : mos_process_t) : Prop :=
  free_bytes s + assigned_bytes s = F0 + A0 ∧ free_bytes s ≤ F0 ∧
    (∀ t, e ≠ alloc_exit.bytes_unallocated t) ∧ e ≠ alloc_exit.wanted_underflow ∧
    (∀ p, e = alloc_exit.returned p → free_bytes s = F0 - T0 ∧ assigned_bytes s = A0 + T0)

/-- A kernel in which `vmalloc` always succeeds and the mapping collaborator maps every
request at the address it was given. -/
def env_ok : Env := {}

/-- A granule of 2 GiB + 4 MiB + 12 KiB at physical address 1 GiB, owned by process 7. -/
def gran_example : mos_lwk_mem_granule :=
  { base := 1073741824, length := 2151690240, nid := 0, owner := 7 }

/-- The block lists `partition_task_mem` builds for `gran_example` on `hw_x86_64`: two 1g
units, two 2m units and three 4k units, all free. -/
def proc_example : mos_process_t :=
  { lwkmem_list := [{ granule := gran_example, offset := 2151690240 }]
    blk_list := fun k =>
      if k = 3 then [{ phys := gran_example, offset := 0, num_blks := 2 }]
      else if k = 1 then [{ phys := gran_example, offset := 2147483648, num_blks := 2 }]
      else if k = 0 then [{ phys := gran_example, offset := 2151677952, num_blks := 3 }]
      else []
    num_blks := fun k => if k = 3 then 2 else if k = 1 then 2 else if k = 0 then 3 else 0 }

/-- A process whose only block is one free 4 KiB unit. -/
def proc_one_4k : mos_process_t :=
  { blk_list := fun k =>
      if k = 0 then [{ phys := { base := 1073741824, length := 4096, nid := 0, owner := 7 },
                       offset := 0, num_blks := 1 }]
      else []
    num_blks := fun k => if k = 0 then 1 else 0 }

/-- A process whose only block is a free run of 1024 units of 4 KiB. -/
def proc_4k_only : mos_process_t :=
  { blk_list := fun k =>
      if k = 0 then [{ phys := { base := 1073741824, length := 4194304, nid := 0, owner := 7 },
                       offset := 0, num_blks := 1024 }]
      else []
    num_blks := fun k => if k = 0 then 1024 else 0 }

/-- A process that has reserved one granule of 1 MiB at physical address 2 MiB and has no
blocks yet (the state `lwkmem_request` leaves before `partition_task_mem` runs). -/
def proc_reserved_1m : mos_process_t :=
  { lwkmem_list := [{ granule := { base := 2097152, length := 1048576, nid := 0, owner := 7 } }] }

/-- A process that has reserved one granule of 3 MiB at physical address 2 MiB and has no
blocks yet. -/
def proc_reserved_3m : mos_process_t :=
  { lwkmem_list := [{ granule := { base := 2097152, length := 3145728, nid := 0, owner := 7 } }] }

/-- A process that has reserved one granule of 8 KiB whose base, 1 GiB + 2 KiB, is not a
multiple of 4 KiB. -/
def proc_reserved_odd : mos_process_t :=
  { lwkmem_list := [{ granule := { base := 1073743872, length := 8192, nid := 0, owner := 7 } }] }

/-- Physical start address of a block: `phys->base + offset`. -/
def blk_addr (b : blk_list) : Nat := b.phys.base + b.offset

/-- The block lists of `s'` are those of `s` with blocks added at the head, and every added
block starts at a physical address that is a multiple of its class size. -/
def created_aligned (s s' : mos_process_t) : Prop :=
  ∀ k, k < 4 → ∃ created, s'.blk_list k = created ++ s.blk_list k ∧
    ∀ b, b ∈ created → blk_addr b % kind_size_u k = 0

/-- Invariant of the first loop of `partition_task_mem` on entry to the iteration for
`knd`: the granule is used up, or the watermark address is a multiple of the size of the
first usable class at or above `knd`. -/
def align_inv (hw : Hw) (knd : Nat) (g : lwk_process_granule) : Prop :=
  g.granule.length ≤ g.offset ∨
    ∃ m, knd ≤ m ∧ m ≤ 3 ∧ 0 < num_dTLB hw m ∧ (∀ j, knd ≤ j → j < m → num_dTLB hw j = 0) ∧
      (g.granule.base + g.offset) % kind_size_u m = 0

/-- Invariant of the second loop of `partition_task_mem` on entry to the iteration for
`knd`: the watermark address is a multiple of the size of class `knd`, or less than 4 KiB
of the granule is left. -/
def fill_inv (knd : Nat) (g : lwk_process_granule) : Prop :=
  (knd ≤ 3 ∧ (g.granule.base + g.offset) % kind_size_u knd = 0) ∨
    g.granule.length - g.offset < 4096

/-- The rotating cursors of the process are inside the domain lists of `opts`:
`domain_order_index[t][knd] < nid_order_len[t]` for every memory type with a non-empty
list.  `find_available_by_nid_list` leaves the cursors in this range. -/
def cursors_ok (opts : allocate_options_t) (s : mos_process_t) : Prop :=
  ∀ t knd, opts.nid_order_len t ≠ 0 → s.domain_order_index t knd < opts.nid_order_len t

/-- Fuel that is enough for one search of a free block. -/
def search_fuel (opts : allocate_options_t) : Nat :=
  opts.nid_order_len (opts.type_order 0) + opts.nid_order_len (opts.type_order 1) + 1

/-- Weight of one unit of class `k` in the termination measure of `allocate_blocks`:
`2 * kind_size[k] / 4096 - 1`. -/
def class_weight : Nat → Int
  | 0 => 1
  | 1 => 1023
  | 2 => 2047
  | 3 => 524287
  | _ => 0

/-- Termination measure of a block list: each free block counts 1 plus the weight of its
units. -/
def list_weight (k : Nat) (l : List blk_list) : Int :=
  (l.map (fun b => if b.free then 1 + (b.num_blks : Int) * class_weight k else 0)).sum

/-- Termination measure of `allocate_blocks`: it does not grow when a block is divided and
drops when a free block is taken whole. -/
def weight (s : mos_process_t) : Int :=
  list_weight 0 (s.blk_list 0) + list_weight 1 (s.blk_list 1) + list_weight 2 (s.blk_list 2) +
    list_weight 3 (s.blk_list 3)

/-- A kernel in which `vmalloc` always succeeds and the mapping collaborator never fails:
it maps at the address it is given, or at `0x300000000000` when given none. -/
def env_never_fails : Env :=
  { build_lwkvma := fun _ _ addr _ _ _ _ _ _ => if addr = 0 then 52776558133248 else addr }

/-! ## Physical coverage and placements -/

/-- The physical byte `x` lies in the block `b` of class `k`:
`phys->base + offset ≤ x < phys->base + offset + num_blks * kind_size[k]`. -/
def covers (k : Nat) (b : blk_list) (x : Nat) : Prop :=
  blk_addr b ≤ x ∧ x < blk_addr b + b.num_blks * kind_size_u k

/-- The physical byte `x` lies in a free block of the process. -/
def free_covers (s : mos_process_t) (x : Nat) : Prop :=
  ∃ k, k < 4 ∧ ∃ b, b ∈ s.blk_list k ∧ b.free = true ∧ covers k b x

/-- The physical byte `x` lies in one of the listed blocks (class, block). -/
def chain_covers (chain : List (Nat × blk_list)) (x : Nat) : Prop :=
  ∃ kb, kb ∈ chain ∧ covers kb.1 kb.2 x

/-- The listed blocks are placed one after the other in virtual memory, from address `a`
up to address `e`. -/
def chain_from : Nat → List (Nat × blk_list) → Nat → Prop
  | a, [], e => a = e
  | a, kb :: c, e => kb.2.vma_addr = a ∧ chain_from (a + kb.2.num_blks * kind_size_u kb.1) c e

/-- What an assigned block owes to the mapping collaborator: it belongs to a class below
`kind_last`, its placement is a multiple of its class size, and it is not a block of the
4 MiB class unless it holds no unit. -/
def entry_ok (kb : Nat × blk_list) : Prop :=
  kb.1 < 4 ∧ kb.2.vma_addr % kind_size_u kb.1 = 0 ∧ (0 < kb.2.num_blks → kb.1 ≠ kind_4m)

/-- Relation between the state `s` before and the state `s'` after some steps of
`allocate_blocks` that assigned the blocks `new`: the blocks assigned before are still
there, the blocks of `new` are assigned blocks of `s'`, and the bytes that were free are
those that still are free together with the bytes of `new`. -/
def step_rel (s s' : mos_process_t) (new : List (Nat × blk_list)) : Prop :=
  (∀ k b, k < 4 → b ∈ s.blk_list k → b.free = false → b ∈ s'.blk_list k) ∧
  (∀ kb, kb ∈ new → kb.2 ∈ s'.blk_list kb.1 ∧ kb.2.free = false) ∧
  (∀ x, free_covers s x ↔ (free_covers s' x ∨ chain_covers new x))

/-- The two blocks at positions `i1` of `blk_list[k1]` and `i2` of `blk_list[k2]` do not
both hold a placement range with a common address. -/
def disjoint_at (s : mos_process_t) (k1 i1 k2 i2 : Nat) : Prop :=
  ((s.blk_list k1).getD i1 {}).free = true ∨ ((s.blk_list k2).getD i2 {}).free = true ∨
  ((s.blk_list k1).getD i1 {}).num_blks = 0 ∨ ((s.blk_list k2).getD i2 {}).num_blks = 0 ∨
  ((s.blk_list k1).getD i1 {}).vma_addr +
      ((s.blk_list k1).getD i1 {}).num_blks * kind_size_u k1 ≤
    ((s.blk_list k2).getD i2 {}).vma_addr ∨
  ((s.blk_list k2).getD i2 {}).vma_addr +
      ((s.blk_list k2).getD i2 {}).num_blks * kind_size_u k2 ≤
    ((s.blk_list k1).getD i1 {}).vma_addr

/-- The placement ranges of the assigned blocks of the process are pairwise disjoint. -/
def vma_disjoint (s : mos_process_t) : Prop :=
  ∀ k1, k1 < 4 → ∀ i1, i1 < (s.blk_list k1).length →
    ∀ k2, k2 < 4 → ∀ i2, i2 < (s.blk_list k2).length →
      (k1 = k2 ∧ i1 = i2) ∨ disjoint_at s k1 i1 k2 i2

instance (s : mos_process_t) (k1 i1 k2 i2 : Nat) : Decidable (disjoint_at s k1 i1 k2 i2) := by
  unfold disjoint_at
  infer_instance

instance (s : mos_process_t) : Decidable (vma_disjoint s) := by
  unfold vma_disjoint
  infer_instance

/-- A kernel in which `vmalloc` always succeeds and the mapping collaborator behaves as
`build_lwkvma` does for a request at a fixed address: it refuses address 0, an address
that is not a multiple of the page size of the class, and pages of the 4 MiB class, and
otherwise maps at the address asked for. -/
def env_fixed : Env :=
  { build_lwkvma := fun _ knd addr len _ _ _ _ _ =>
      if addr = 0 then -38
      else if addr % kind_size_u knd ≠ 0 then -38
      else if knd = kind_4m ∧ 0 < len then -12
      else addr }


/-- What `allocate_blocks` gets from `build_lwkvma` when the value returned is an address
(positive): the address is a multiple of `lwk_page_size[knd]` (a `MAP_FIXED` hint that is
not is refused, and without `MAP_FIXED` the address comes from `unmapped_area` with
`align_mask = lwk_page_size[knd] - 1`); with `MAP_FIXED` it is the address asked for; and
the range is not a non-empty range of the 4 MiB class, for which `build_pagetbl` returns
`-ENOMEM`. -/
def build_lwkvma_contract (env : Env) : Prop :=
  ∀ t knd a n pr fl pg ph tl, 0 < env.build_lwkvma t knd a n pr fl pg ph tl →
    (env.build_lwkvma t knd a n pr fl pg ph tl).toNat % kind_size_u knd = 0 ∧
    (fl &&& MAP_FIXED ≠ 0 → env.build_lwkvma t knd a n pr fl pg ph tl = (a : Int)) ∧
    (knd = kind_4m → n ≤ 0)


/-! ## States used for the deallocation statements -/

/-- A process with one assigned block of three 1 GiB units placed at `0x300000000000`. -/
def proc_assigned_3g : mos_process_t :=
  { blk_list := fun k =>
      if k = 3 then [{ phys := { base := 1073741824, length := 3221225472, nid := 0, owner := 7 },
                       offset := 0, num_blks := 3, free := false,
                       vma_addr := 52776558133248 }]
      else []
    num_blks := fun _ => 0 }

/-- No assigned block of the process has `addr` in its placement range
`[vma_addr, vma_addr + num_blks * kind_size[k])`. -/
def nothing_assigned_at (s : mos_process_t) (addr : Nat) : Prop :=
  ∀ k, k < 4 → ∀ b, b ∈ s.blk_list k → b.free = false →
    ¬ (b.vma_addr ≤ addr ∧ addr < b.vma_addr + b.num_blks * kind_size_u k)

instance (s : mos_process_t) (addr : Nat) : Decidable (nothing_assigned_at s addr) := by
  unfold nothing_assigned_at
  infer_instance


/-- A kernel in which every `vmalloc` fails. -/
def env_vmalloc_fails : Env := { vmalloc := fun _ => false }

/-- The value of `kind_size[nxt] / kind_size[knd]` as `divide_block` computes it. -/
def divide_ratio (knd nxt : Nat) : Nat := (cdiv (kind_size nxt) (kind_size knd)).toNat

/-- Calls `divide_block(knd, opts)` `n` times in a row; `none` as soon as a call returns
`NULL` (or runs out of fuel). -/
def divide_repeat (env : Env) (hw : Hw) (opts : allocate_options_t) (fuel knd : Nat) :
    Nat → mos_process_t → Option mos_process_t
  | 0, s => some s
  | n + 1, s =>
    match divide_block env hw opts fuel knd s with
    | some (some _, s1) => divide_repeat env hw opts fuel knd n s1
    | _ => none


/-! ## Watermarks -/

/-- A process granule whose base, length and watermark are multiples of 4 KiB (the size of
the 4 KiB class, which always has dTLB entries), the watermark being inside the granule. -/
def granule_ok (g : lwk_process_granule) : Prop :=
  g.granule.base % 4096 = 0 ∧ g.granule.length % 4096 = 0 ∧ g.offset % 4096 = 0 ∧
    g.offset ≤ g.granule.length

instance (g : lwk_process_granule) : Decidable (granule_ok g) := by
  unfold granule_ok
  infer_instance

/-- What `partition_task_mem` may do to the watermark of a process granule `g`, `g'` being
the granule afterwards and `ret` the value returned: the granule is the same, and if `g` is
`granule_ok` the watermark has not shrunk, is inside the granule, and is at its end when
`ret = 0`. -/
def watermark_rel (ret : Int) (g g' : lwk_process_granule) : Prop :=
  g'.granule = g.granule ∧
    (granule_ok g → g.offset ≤ g'.offset ∧ g'.offset ≤ g.granule.length ∧
      (ret = 0 → g'.offset = g.granule.length))

/-- A process that has reserved one granule of 4 KiB + 1 byte at physical address 1 GiB and
has no blocks yet. -/
def proc_reserved_tail : mos_process_t :=
  { lwkmem_list := [{ granule := { base := 1073741824, length := 4097, nid := 0, owner := 7 } }] }


/-! ## Reachable states -/

/-- The block lists and counters of a process as `lwkmem_process_init` leaves them: every
list empty, every counter `0`.  (The granule list is filled by `lwkmem_request` before the
process starts.) -/
def initialised (s : mos_process_t) : Prop :=
  ∀ k, k < 4 → s.blk_list k = [] ∧ s.num_blks k = 0

/-- The states of a process that calls of `partition_task_mem`, `allocate_blocks` and
`deallocate_blocks`, with any arguments and any behaviour of the kernel services, lead to
from an initialised process. -/
inductive reachable (hw : Hw) : mos_process_t → Prop where
  | init (s : mos_process_t) : initialised s → reachable hw s
  | partition (env : Env) (fuel : Nat) (s : mos_process_t) (ret : Int) (s' : mos_process_t) :
      reachable hw s → partition_task_mem env hw fuel s = some (ret, s') → reachable hw s'
  | allocate (env : Env) (fuel addr : Nat) (len : Int) (prot mmap_flags pgoff : Nat)
      (opts : allocate_options_t) (s : mos_process_t) (e : alloc_exit) (s' : mos_process_t) :
      reachable hw s →
      allocate_blocks env hw fuel addr len prot mmap_flags pgoff opts s = some (e, s') →
      reachable hw s'
  | deallocate (env : Env) (fuel addr len : Nat) (s : mos_process_t) (ret : Int)
      (s' : mos_process_t) :
      reachable hw s → deallocate_blocks env fuel addr len s = some (ret, s') →
      reachable hw s'

/-- The block list of every class without dTLB entries is empty. -/
def unusable_empty (hw : Hw) (s : mos_process_t) : Prop :=
  ∀ k, k < 4 → num_dTLB hw k = 0 → s.blk_list k = []

/-! ## The granule registry

The global list `mos_lwk_memory_list` is passed to the functions that use it as the argument
`registry` and returned when they change it.  The process side holds its granules by value;
a store through a pointer to a registry granule (`p_granule->granule`, `p_blk->phys`) goes
to the registry entry that has the same `base`: the registry granules start at pairwise
different addresses.  `current->pid` is the argument `pid`. -/

/-- Macro `MIN_CHUNK_SIZE` (`SZ_2M`). -/
def MIN_CHUNK_SIZE : Nat := 2097152

/-- Kernel constant `NUMA_NO_NODE`. -/
def NUMA_NO_NODE : Int := -1

/-- The test `g->owner <= 0 && (g->nid == nid || nid == NUMA_NO_NODE)` of
`find_free_granule_for_nid`. -/
def free_for_nid (nid : Int) (g : mos_lwk_mem_granule) : Bool :=
  decide (g.owner ≤ 0) && (decide (g.nid = nid) || decide (nid = NUMA_NO_NODE))

/-- Function `find_free_granule_for_nid(nid)`: position and value of the granule returned,
`none` for `NULL`. -/
def find_free_granule_for_nid (registry : List mos_lwk_mem_granule) (nid : Int) :
    Option (Nat × mos_lwk_mem_granule) :=
  find_first (free_for_nid nid) registry

/-- Loop `while (wanted > 0)` of `lwkmem_request` for the node `nid`; the first argument
bounds the number of passes through the body.  The result is the value of `rc` when the loop
is left (`-ENOMEM` for the jumps to `unlock`), the registry and the process. -/
def lwkmem_request_while (env : Env) (pid : Int) (nid : Int) :
    Nat → Nat → List mos_lwk_mem_granule → mos_process_t →
    Option (Int × List mos_lwk_mem_granule × mos_process_t)
  | 0, wanted, registry, s => if wanted = 0 then some (0, registry, s) else none
  | fuel + 1, wanted, registry, s =>
    if wanted = 0 then some (0, registry, s)
    else
      match find_free_granule_for_nid registry nid with
      | none => some (-ENOMEM, registry, s)
      | some (j, elt) =>
        if wanted < elt.length then
          if env.vmalloc s.tick then
            let newg : mos_lwk_mem_granule :=
              { base := elt.base + elt.length - wanted, length := wanted, owner := pid,
                nid := elt.nid }
            let registry1 :=
              insert_after (registry.set j { elt with length := elt.length - wanted }) j newg
            let s1 := { s with lwkmem := s.lwkmem + wanted, tick := s.tick + 1 }
            if env.vmalloc s1.tick then
              lwkmem_request_while env pid nid fuel 0 registry1
                { s1 with lwkmem_list := { granule := newg, offset := 0 } :: s1.lwkmem_list,
                          tick := s1.tick + 1 }
            else some (-ENOMEM, registry1, { s1 with tick := s1.tick + 1 })
          else some (-ENOMEM, registry, { s with tick := s.tick + 1 })
        else
          let elt1 : mos_lwk_mem_granule := { elt with owner := pid }
          let registry1 := registry.set j elt1
          let s1 := { s with lwkmem := s.lwkmem + elt.length }
          if env.vmalloc s1.tick then
            lwkmem_request_while env pid nid fuel (wanted - elt.length) registry1
              { s1 with lwkmem_list := { granule := elt1, offset := 0 } :: s1.lwkmem_list,
                        tick := s1.tick + 1 }
          else some (-ENOMEM, registry1, { s1 with tick := s1.tick + 1 })

/-- Loop `for (i = 0; i < n; i++)` of `lwkmem_request`, at index `i` with the entries
`req[i..n-1]` still to do.  The index is passed to `find_free_granule_for_nid` as its `int`
argument; node indices are far below `2^31`, where the conversion changes nothing. -/
def lwkmem_request_for (env : Env) (pid : Int) (fuel : Nat) :
    Nat → List Nat → List mos_lwk_mem_granule → mos_process_t →
    Option (Int × List mos_lwk_mem_granule × mos_process_t)
  | _, [], registry, s => some (0, registry, s)
  | i, r :: req, registry, s =>
    if r = 0 then lwkmem_request_for env pid fuel (i + 1) req registry s
    else
      match lwkmem_request_while env pid i fuel
          (max (rounddown_u r MIN_CHUNK_SIZE) MIN_CHUNK_SIZE) registry s with
      | none => none
      | some (rc, registry1, s1) =>
        if rc = 0 then lwkmem_request_for env pid fuel (i + 1) req registry1 s1
        else some (rc, registry1, s1)

/-- Function `lwkmem_request(mos_p, req, n)`; `req` lists `req[0..n-1]`.  The result is the
`int` returned, the registry and the process. -/
def lwkmem_request (env : Env) (pid : Int) (fuel : Nat) (req : List Nat)
    (registry : List mos_lwk_mem_granule) (s : mos_process_t) :
    Option (Int × List mos_lwk_mem_granule × mos_process_t) :=
  let s0 := { s with lwkmem := 0 }
  if registry.isEmpty then some (-EINVAL, registry, s0)
  else if !s0.lwkmem_list.isEmpty then some (-EINVAL, registry, s0)
  else lwkmem_request_for env pid fuel 0 req registry s0

/-- Store `g->owner = -1` through a pointer to the registry granule `g`. -/
def granule_release (registry : List mos_lwk_mem_granule) (g : mos_lwk_mem_granule) :
    List mos_lwk_mem_granule :=
  registry.map fun e => if e.base = g.base then { e with owner := -1 } else e

/-- Body of the loop over the classes in `release_task_mem_blocks`, for class `k`. -/
def release_kind_blocks (k : Nat) (rs : List mos_lwk_mem_granule × mos_process_t) :
    List mos_lwk_mem_granule × mos_process_t :=
  ((rs.2.blk_list k).foldl (fun r b => granule_release r b.phys) rs.1,
   { rs.2 with blk_list := upd rs.2.blk_list k [], num_blks := upd rs.2.num_blks k 0 })

/-- Function `release_task_mem_blocks()`; `s` is `current->mos_process`, which is not
`NULL`. -/
def release_task_mem_blocks (registry : List mos_lwk_mem_granule) (s : mos_process_t) :
    List mos_lwk_mem_granule × mos_process_t :=
  release_kind_blocks kind_1g (release_kind_blocks kind_4m (release_kind_blocks kind_2m
    (release_kind_blocks kind_4k (registry, s))))

/-- The test of the adjacency pass of `lwkmem_release`:
`(elt->base + elt->length == next->base) && (elt->owner == -1) && (next->owner == -1)`. -/
def merge_test (elt next : mos_lwk_mem_granule) : Bool :=
  decide (elt.base + elt.length = next.base) && decide (elt.owner = -1) &&
    decide (next.owner = -1)

/-- The adjacency pass of `lwkmem_release` from the entry `elt` on, `rest` being the entries
after it.  For the last entry `list_next_entry` yields the container of the list head
itself, which is no granule: `list_head` holds the values read there as `next->base` and
`next->owner`.  When the test passes there, the last entry is unlinked like any other (the
stores to `next` fall outside the registry). -/
def merge_from (list_head : mos_lwk_mem_granule) :
    mos_lwk_mem_granule → List mos_lwk_mem_granule → List mos_lwk_mem_granule
  | elt, [] => if merge_test elt list_head then [] else [elt]
  | elt, next :: rest =>
    if merge_test elt next then
      merge_from list_head
        { next with base := elt.base, length := next.length + elt.length } rest
    else elt :: merge_from list_head next rest

/-- Loop `list_for_each_entry_safe(elt, save, &mos_lwk_memory_list, list)` of
`lwkmem_release`. -/
def merge_pass (list_head : mos_lwk_mem_granule) :
    List mos_lwk_mem_granule → List mos_lwk_mem_granule
  | [] => []
  | elt :: rest => merge_from list_head elt rest

/-- Function `lwkmem_release(mos_p)`, called for the process of the current task
(`mos_p` is `current->mos_process`).  The result is the registry and the process. -/
def lwkmem_release (list_head : mos_lwk_mem_granule) (registry : List mos_lwk_mem_granule)
    (s : mos_process_t) : List mos_lwk_mem_granule × mos_process_t :=
  let rs := release_task_mem_blocks registry s
  if rs.2.lwkmem_list.isEmpty then rs
  else
    let registry1 := rs.2.lwkmem_list.foldl (fun r p => granule_release r p.granule) rs.1
    (merge_pass list_head registry1, { rs.2 with lwkmem_list := [] })

/-- Function `_all_granules(g)`. -/
def _all_granules (_g : mos_lwk_mem_granule) : Bool := true

/-- Function `_in_use_granules(g)`. -/
def _in_use_granules (g : mos_lwk_mem_granule) : Bool := decide (g.owner > 0)

/-- Loop `list_for_each_entry(g, &mos_lwk_memory_list, list)` of `_lwkmem_get`; `n` is the
value of `*n`, `lwkm` the caller's array.  The result is `rc` and the array. -/
def lwkmem_get_loop (filter : mos_lwk_mem_granule → Bool) (n : Nat) :
    List mos_lwk_mem_granule → (Nat → Nat) → Int × (Nat → Nat)
  | [], lwkm => (0, lwkm)
  | g :: rest, lwkm =>
    if 0 ≤ g.nid ∧ g.nid < n then
      lwkmem_get_loop filter n rest
        (if filter g then upd lwkm g.nid.toNat (lwkm g.nid.toNat + g.length) else lwkm)
    else (-EINVAL, lwkm)

/-- Function `_lwkmem_get(lwkm, n, filter)`; `lwkmem_n_nodes` is the module variable of that
name.  The result is the `int` returned, the caller's array and `*n` afterwards. -/
def _lwkmem_get (lwkmem_n_nodes : Nat) (registry : List mos_lwk_mem_granule)
    (lwkm : Nat → Nat) (n : Nat) (filter : mos_lwk_mem_granule → Bool) :
    Int × (Nat → Nat) × Nat :=
  if n < lwkmem_n_nodes then (-EINVAL, lwkm, n)
  else
    let r := lwkmem_get_loop filter n registry
      (fun i => if i < lwkmem_n_nodes then 0 else lwkm i)
    if r.1 = 0 then (0, r.2, lwkmem_n_nodes) else (r.1, r.2, n)

/-- Function `lwkmem_get(lwkm, n)`. -/
def lwkmem_get (lwkmem_n_nodes : Nat) (registry : List mos_lwk_mem_granule)
    (lwkm : Nat → Nat) (n : Nat) : Int × (Nat → Nat) × Nat :=
  _lwkmem_get lwkmem_n_nodes registry lwkm n _all_granules

/-- Function `lwkmem_reserved_get(lwkm, n)`. -/
def lwkmem_reserved_get (lwkmem_n_nodes : Nat) (registry : List mos_lwk_mem_granule)
    (lwkm : Nat → Nat) (n : Nat) : Int × (Nat → Nat) × Nat :=
  _lwkmem_get lwkmem_n_nodes registry lwkm n _in_use_granules

/-- Sum of the lengths of the registry granules of node `i` that pass `filter`. -/
def node_bytes (filter : mos_lwk_mem_granule → Bool) (registry : List mos_lwk_mem_granule)
    (i : Int) : Nat :=
  ((registry.filter fun g => filter g && decide (g.nid = i)).map fun g => g.length).sum

/-- A registry of two free 4 MiB granules, on node 0 and on node 1. -/
def registry_two_nodes : List mos_lwk_mem_granule :=
  [{ base := 1073741824, length := 4194304, nid := 0, owner := -1 },
   { base := 1077936128, length := 4194304, nid := 1, owner := -1 }]

/-- A process of pid 7 that holds the 2 MiB tail of the node 0 granule of
`registry_two_nodes`. -/
def proc_holding_2m : mos_process_t :=
  { lwkmem := 2097152,
    lwkmem_list :=
      [{ granule := { base := 1075838976, length := 2097152, nid := 0, owner := 7 },
         offset := 0 }] }

/-- Total length of the granules that `find_free_granule_for_nid(nid)` accepts. -/
def free_bytes_for (nid : Int) (registry : List mos_lwk_mem_granule) : Nat :=
  ((registry.filter (free_for_nid nid)).map fun g => g.length).sum

/-- Total length of the granules of a process that lie on node `i`. -/
def proc_node_bytes (l : List lwk_process_granule) (i : Int) : Nat :=
  ((l.filter fun p => decide (p.granule.nid = i)).map fun p => p.granule.length).sum

/-- Total length of the granules of a process. -/
def proc_bytes (l : List lwk_process_granule) : Nat :=
  (l.map fun p => p.granule.length).sum

/-- The granule that `lwkmem_request` creates when it splits `elt` for `wanted` bytes. -/
def split_tail (pid : Int) (elt : mos_lwk_mem_granule) (wanted : Nat) : mos_lwk_mem_granule :=
  { base := elt.base + elt.length - wanted, length := wanted, owner := pid, nid := elt.nid }

/-- What one pass through the body of the loop of `lwkmem_request` for node `nid` does to the
registry: it splits a granule that is free for `nid`, or takes it whole. -/
inductive registry_step (pid : Int) (nid : Int) :
    List mos_lwk_mem_granule → List mos_lwk_mem_granule → Prop where
  | split (l1 : List mos_lwk_mem_granule) (elt : mos_lwk_mem_granule)
      (l2 : List mos_lwk_mem_granule) (wanted : Nat) :
      free_for_nid nid elt = true → 0 < wanted → wanted < elt.length →
      registry_step pid nid (l1 ++ elt :: l2)
        (l1 ++ { elt with length := elt.length - wanted } :: split_tail pid elt wanted :: l2)
  | whole (l1 : List mos_lwk_mem_granule) (elt : mos_lwk_mem_granule)
      (l2 : List mos_lwk_mem_granule) :
      free_for_nid nid elt = true →
      registry_step pid nid (l1 ++ elt :: l2) (l1 ++ { elt with owner := pid } :: l2)

/-- The registry `r'` comes from `r` by passes of the loop of `lwkmem_request`. -/
def registry_steps (pid : Int) (r r' : List mos_lwk_mem_granule) : Prop :=
  Relation.ReflTransGen (fun a b => ∃ nid, registry_step pid nid a b) r r'

/-- Byte `x` lies in the range of granule `g`. -/
def granule_covers (g : mos_lwk_mem_granule) (x : Nat) : Prop :=
  g.base ≤ x ∧ x < g.base + g.length

instance (g : mos_lwk_mem_granule) (x : Nat) : Decidable (granule_covers g x) := by
  unfold granule_covers
  infer_instance

/-- Number of registry granules whose range holds byte `x`. -/
def cover_count (registry : List mos_lwk_mem_granule) (x : Nat) : Nat :=
  (registry.filter fun g => decide (granule_covers g x)).length

/-- Two granules have no byte in common. -/
def granules_disjoint (a b : mos_lwk_mem_granule) : Prop :=
  a.length = 0 ∨ b.length = 0 ∨ a.base + a.length ≤ b.base ∨ b.base + b.length ≤ a.base

instance (a b : mos_lwk_mem_granule) : Decidable (granules_disjoint a b) := by
  unfold granules_disjoint
  infer_instance

/-- The granules of the registry are pairwise non-overlapping byte ranges. -/
def non_overlapping (registry : List mos_lwk_mem_granule) : Prop :=
  registry.Pairwise granules_disjoint

instance (registry : List mos_lwk_mem_granule) : Decidable (non_overlapping registry) := by
  unfold non_overlapping
  infer_instance

/-- Sum of the lengths of the registry granules. -/
def registry_bytes (registry : List mos_lwk_mem_granule) : Nat :=
  (registry.map fun g => g.length).sum

/-- Bytes that `lwkmem_request` sets out to reserve on a node for which `r` bytes are
requested: nothing for `r = 0`, else `max(rounddown(r, MIN_CHUNK_SIZE), MIN_CHUNK_SIZE)`. -/
def chunk_wanted (r : Nat) : Nat :=
  if r = 0 then 0 else max (rounddown_u r MIN_CHUNK_SIZE) MIN_CHUNK_SIZE

/-- The registries `r` and `r'` hold every byte the same number of times and have the same
total length. -/
def same_bytes (r r' : List mos_lwk_mem_granule) : Prop :=
  (∀ x, cover_count r' x = cover_count r x) ∧ registry_bytes r' = registry_bytes r
/-- The process refers to the registry granule `e`: a granule of its list or the granule of
one of its blocks is `e`. -/
def process_points_to (s : mos_process_t) (e : mos_lwk_mem_granule) : Prop :=
  (∃ p ∈ s.lwkmem_list, p.granule.base = e.base) ∨
  ∃ k, k < 4 ∧ ∃ b ∈ s.blk_list k, b.phys.base = e.base

instance (s : mos_process_t) (e : mos_lwk_mem_granule) : Decidable (process_points_to s e) := by
  unfold process_points_to
  infer_instance

/-- A registry in which pid 7 owns the 4 MiB granule of node 0, pid 9 the first 2 MiB of
node 1; the last 2 MiB of node 1 are free. -/
def registry_node0_held : List mos_lwk_mem_granule :=
  [{ base := 1073741824, length := 4194304, nid := 0, owner := 7 },
   { base := 1077936128, length := 2097152, nid := 1, owner := 9 },
   { base := 1080033280, length := 2097152, nid := 1, owner := -1 }]

/-- The process of pid 7 for `registry_node0_held`, with its granule partitioned into two
free 2 MiB blocks. -/
def proc_holding_node0 : mos_process_t :=
  { lwkmem := 4194304,
    lwkmem_list :=
      [{ granule := { base := 1073741824, length := 4194304, nid := 0, owner := 7 },
         offset := 4194304 }],
    blk_list := fun k =>
      if k = 1 then
        [{ phys := { base := 1073741824, length := 4194304, nid := 0, owner := 7 },
           offset := 0, num_blks := 2, free := true, vma_addr := 0 }]
      else [],
    num_blks := fun k => if k = 1 then 2 else 0 }

/-- A registry in which pid 7 owns the 4 MiB granule of node 0 and the granule of node 1,
which starts where that one ends, is free. -/
def registry_across_nodes : List mos_lwk_mem_granule :=
  [{ base := 1073741824, length := 4194304, nid := 0, owner := 7 },
   { base := 1077936128, length := 4194304, nid := 1, owner := -1 }]

/-- A registry in which the 4 MiB of node 0 are two free granules of 2 MiB, as a split
followed by the reset of the owner leaves them; pid 9 owns the granule of node 1. -/
def registry_split_free : List mos_lwk_mem_granule :=
  [{ base := 1073741824, length := 2097152, nid := 0, owner := -1 },
   { base := 1075838976, length := 2097152, nid := 0, owner := -1 },
   { base := 1077936128, length := 4194304, nid := 1, owner := 9 }]

/-- A registry with one free 4 MiB granule on each of the nodes 0, 1, 2 and 3. -/
def registry_four_nodes : List mos_lwk_mem_granule :=
  [{ base := 1073741824, length := 4194304, nid := 0, owner := -1 },
   { base := 2147483648, length := 4194304, nid := 1, owner := -1 },
   { base := 3221225472, length := 4194304, nid := 2, owner := -1 },
   { base := 4294967296, length := 4194304, nid := 3, owner := -1 }]

/-- The domains of the blocks returned by `n` successive calls of
`find_available_by_nid_list(knd, opts)`, and the process afterwards; `none` when a call
returns no block. -/
def nid_search_repeat (fuel : Nat) (opts : allocate_options_t) (knd : Nat) :
    Nat → mos_process_t → Option (List Int × mos_process_t)
  | 0, s => some ([], s)
  | n + 1, s =>
    match find_available_by_nid_list fuel opts knd s with
    | some (some (_, elt), s1) =>
      match nid_search_repeat fuel opts knd n s1 with
      | some (l, s2) => some (elt.phys.nid :: l, s2)
      | none => none
    | _ => none

/-- Options of the NUMA search with the three domains 0, 1, 2 on the first memory type. -/
def opts_three_domains : allocate_options_t :=
  { find_available := find_available_t.find_available_by_nid_list,
    nid_order := fun t d => if t = 0 then d else 0,
    nid_order_len := fun t => if t = 0 then 3 else 0 }

/-- A process with one free 2 MiB block on each of the domains 0, 1 and 2, its cursor for
the 2 MiB class on the second domain of the list. -/
def proc_three_domains : mos_process_t :=
  { blk_list := fun k =>
      if k = 1 then
        [{ phys := { base := 1073741824, length := 2097152, nid := 0, owner := 7 },
           num_blks := 1 },
         { phys := { base := 2147483648, length := 2097152, nid := 1, owner := 7 },
           num_blks := 1 },
         { phys := { base := 3221225472, length := 2097152, nid := 2, owner := 7 },
           num_blks := 1 }]
      else [],
    num_blks := fun k => if k = 1 then 3 else 0,
    domain_order_index := fun t k => if t = 0 ∧ k = 1 then 1 else 0 }

/-! ## Allocation options -/

/-- The values of `enum allocate_site_t` that `allocate_options_factory` tells apart. -/
inductive allocate_site_t where
  | lwkmem_mmap
  | lwkmem_brk
  | lwkmem_mremap
  deriving DecidableEq, Repr

/-- Body of the loop `for (i = 0; i < lwkmem_type_last; i++)` of `allocate_options_factory`:
the `memcpy` of `domain_info_len[index]` entries of `domain_info[index]` to
`nid_order[index]` and the store of `nid_order_len[index]`, for `index = type_order[i]`. -/
def copy_domain_info (mosp : mos_process_t) (i : Nat) (options : allocate_options_t) :
    allocate_options_t :=
  let index := options.type_order i
  { options with
    nid_order := fun t d =>
      if t = index ∧ d < mosp.domain_info_len index then mosp.domain_info index d
      else options.nid_order t d
    nid_order_len := upd options.nid_order_len index (mosp.domain_info_len index) }

/-- Function `allocate_options_factory(site, len, flags, mosp)`.  `fresh` is what `kmalloc`
returns: `none` for `NULL`, else the record with whatever its memory holds.  The members
`mosp`, `blocks_wanted` and `divide_block` are not part of `allocate_options_t` here. -/
def allocate_options_factory (fresh : Option allocate_options_t) (site : allocate_site_t)
    (len flags : Nat) (mosp : mos_process_t) : Option allocate_options_t :=
  match fresh with
  | none => none
  | some o =>
    let o1 := { o with find_available := find_available_t.find_available_blk_list,
                       max_page_size := mosp.max_page_size }
    let o2 :=
      match site with
      | allocate_site_t.lwkmem_brk =>
        if mosp.heap_page_size < o1.max_page_size then
          { o1 with max_page_size := mosp.heap_page_size }
        else o1
      | allocate_site_t.lwkmem_mmap => o1
      | allocate_site_t.lwkmem_mremap => o1
    if mosp.mcdram_minimum > 0 then
      let o3 := { o2 with find_available := find_available_t.find_available_by_nid_list }
      let o4 :=
        if len ≥ mosp.mcdram_minimum ∧ mosp.mcdram_exempt_flags &&& flags = 0 then
          { o3 with type_order := upd (upd o3.type_order 0 lwkmem_mcdram) 1 lwkmem_dram }
        else
          { o3 with type_order := upd (upd o3.type_order 0 lwkmem_dram) 1 lwkmem_mcdram }
      some (copy_domain_info mosp 1 (copy_domain_info mosp 0 o4))
    else some o2

/-- A process with a preferred-tier threshold of 1 MiB, two domains of default memory and
one of preferred memory. -/
def proc_with_threshold : mos_process_t :=
  { mcdram_minimum := 1048576, heap_page_size := 2097152,
    domain_info := fun t d => if t = 0 then (if d = 0 then 0 else 1) else 4,
    domain_info_len := fun t => if t = 0 then 2 else 1 }

/-- The granules of the list lie on node `nid` and cover, one after the other without a gap,
the bytes from `b` to `fin`. -/
def granule_chain (fin : Nat) (nid : Int) : Nat → List mos_lwk_mem_granule → Prop
  | b, [] => b = fin
  | b, p :: r => p.base = b ∧ p.nid = nid ∧ granule_chain fin nid (p.base + p.length) r

/-- The registry `cur` comes from `orig` by cutting granules into pieces: every granule
of `orig` is, in `cur`, a run of one or more granules that cover its range, in order. -/
inductive registry_refines : List mos_lwk_mem_granule → List mos_lwk_mem_granule → Prop where
  | nil : registry_refines [] []
  | cons (e : mos_lwk_mem_granule) (pieces rest cur : List mos_lwk_mem_granule) :
      pieces ≠ [] → granule_chain (e.base + e.length) e.nid e.base pieces →
      registry_refines rest cur → registry_refines (e :: rest) (pieces ++ cur)
/-- Every granule on the list of the process is owned by `pid`, and every granule of the
registry is free (owner `-1`) or on that list. -/
def owned_on_list (pid : Int) (registry : List mos_lwk_mem_granule) (s : mos_process_t) :
    Prop :=
  (∀ p ∈ s.lwkmem_list, p.granule.owner = pid) ∧
  ∀ g ∈ registry, g.owner = -1 ∨ ∃ p ∈ s.lwkmem_list, p.granule = g


/-! ## Physical ranges of the blocks -/

instance (k : Nat) (b : blk_list) (x : Nat) : Decidable (covers k b x) := by
  unfold covers
  infer_instance

/-- Physical range of a block of class `k`, written as a granule record: it starts at
`phys->base + offset` and holds `num_blks * kind_size[k]` bytes of the granule `phys`. -/
def blk_range (k : Nat) (b : blk_list) : mos_lwk_mem_granule :=
  { base := blk_addr b, length := b.num_blks * kind_size_u k, nid := b.phys.nid,
    owner := b.phys.owner }

/-- The physical ranges of all blocks of the process, free and assigned, class by class. -/
def phys_ranges (s : mos_process_t) : List mos_lwk_mem_granule :=
  (s.blk_list 0).map (blk_range 0) ++ (s.blk_list 1).map (blk_range 1) ++
    (s.blk_list 2).map (blk_range 2) ++ (s.blk_list 3).map (blk_range 3)

/-- Every block of the process lies inside the granule it was cut from:
`offset + num_blks * kind_size[k] ≤ phys->length`. -/
def blocks_inside (s : mos_process_t) : Prop :=
  ∀ k, k < 4 → ∀ b, b ∈ s.blk_list k → b.offset + b.num_blks * kind_size_u k ≤ b.phys.length

instance (s : mos_process_t) : Decidable (blocks_inside s) := by
  unfold blocks_inside
  infer_instance

/-- The granules reserved for a process are pairwise non-overlapping and the watermark of
each is inside the granule (`lwkmem_request` leaves every watermark at `0`). -/
def granules_ok (l : List lwk_process_granule) : Prop :=
  l.Pairwise (fun a b => granules_disjoint a.granule b.granule) ∧
    ∀ g, g ∈ l → g.offset ≤ g.granule.length

instance (l : List lwk_process_granule) : Decidable (granules_ok l) := by
  unfold granules_ok
  infer_instance

/-- The states that calls of `partition_task_mem`, `allocate_blocks` and
`deallocate_blocks`, with any arguments and any behaviour of the kernel services, lead to
from the state `s0`. -/
inductive reachable_from (hw : Hw) (s0 : mos_process_t) : mos_process_t → Prop where
  | start : reachable_from hw s0 s0
  | partition (env : Env) (fuel : Nat) (s : mos_process_t) (ret : Int) (s' : mos_process_t) :
      reachable_from hw s0 s → partition_task_mem env hw fuel s = some (ret, s') →
      reachable_from hw s0 s'
  | allocate (env : Env) (fuel addr : Nat) (len : Int) (prot mmap_flags pgoff : Nat)
      (opts : allocate_options_t) (s : mos_process_t) (e : alloc_exit) (s' : mos_process_t) :
      reachable_from hw s0 s →
      allocate_blocks env hw fuel addr len prot mmap_flags pgoff opts s = some (e, s') →
      reachable_from hw s0 s'
  | deallocate (env : Env) (fuel addr len : Nat) (s : mos_process_t) (ret : Int)
      (s' : mos_process_t) :
      reachable_from hw s0 s → deallocate_blocks env fuel addr len s = some (ret, s') →
      reachable_from hw s0 s'

/-- Number of blocks of a list of class `k` whose physical range holds byte `x`. -/
def list_cover (k : Nat) (l : List blk_list) (x : Nat) : Int :=
  (l.map (fun b => if covers k b x then (1 : Int) else 0)).sum

/-- Number of blocks in the lists `lists[k]`, all classes, whose physical range holds
byte `x`. -/
def lists_cover (lists : Nat → List blk_list) (x : Nat) : Int :=
  list_cover 0 (lists 0) x + list_cover 1 (lists 1) x + list_cover 2 (lists 2) x +
    list_cover 3 (lists 3) x

/-- The block `b'` of class `k'` lies in the range of the block `b` of class `k` of the
same granule. -/
def blk_within (k' : Nat) (b' : blk_list) (k : Nat) (b : blk_list) : Prop :=
  b'.phys = b.phys ∧ b.offset ≤ b'.offset ∧
    b'.offset + b'.num_blks * kind_size_u k' ≤ b.offset + b.num_blks * kind_size_u k

/-- Relation between the states before and after steps that cut blocks into blocks: the
granule list is the same, every block lies in the range of a block that was there before,
and every byte lies in as many blocks as before. -/
def phys_rel (s s' : mos_process_t) : Prop :=
  s'.lwkmem_list = s.lwkmem_list ∧
  (∀ k', k' < 4 → ∀ b', b' ∈ s'.blk_list k' →
    ∃ k, k < 4 ∧ ∃ b, b ∈ s.blk_list k ∧ blk_within k' b' k b) ∧
  ∀ x, lists_cover s'.blk_list x = lists_cover s.blk_list x

/-- Invariant of the block lists with respect to the granule list `l`: the granules are
pairwise non-overlapping with their watermarks inside, every block lies below the
watermark of its granule, and no byte lies in two blocks. -/
def phys_inv (l : List lwk_process_granule) (s : mos_process_t) : Prop :=
  granules_ok l ∧
  (∀ k, k < 4 → ∀ b, b ∈ s.blk_list k →
    ∃ g, g ∈ l ∧ b.phys = g.granule ∧ b.offset + b.num_blks * kind_size_u k ≤ g.offset) ∧
  ∀ x, lists_cover s.blk_list x ≤ 1

/-- A process that has reserved two granules of 3 MiB, at 2 MiB and at 1 GiB, and has no
blocks yet. -/
def proc_reserved_two : mos_process_t :=
  { lwkmem_list := [{ granule := { base := 2097152, length := 3145728, nid := 0, owner := 7 } },
                    { granule := { base := 1073741824, length := 3145728, nid := 1, owner := 7 } }] }

/-- Relation between a process granule and the state before (`g`, `s`) and after (`g1`,
`s1`) steps of `partition_task_mem` on that granule: the watermark has moved up inside the
granule, every block that was added lies between the two watermarks, and a byte lies in
more blocks than before only between the two watermarks, and then in one more. -/
def partition_rel (g : lwk_process_granule) (s : mos_process_t) (g1 : lwk_process_granule)
    (s1 : mos_process_t) : Prop :=
  g1.granule = g.granule ∧ g.offset ≤ g1.offset ∧ g1.offset ≤ g.granule.length ∧
  (∀ k, k < 4 → ∀ b, b ∈ s1.blk_list k → b ∈ s.blk_list k ∨
    (b.phys = g.granule ∧ g.offset ≤ b.offset ∧
      b.offset + b.num_blks * kind_size_u k ≤ g1.offset)) ∧
  ∀ x, lists_cover s1.blk_list x ≤ lists_cover s.blk_list x +
    (if g.granule.base + g.offset ≤ x ∧ x < g.granule.base + g1.offset then 1 else 0)

end MOS

/-! # Theorems -/

namespace MOS

/-! ## Arithmetic of the size table -/

theorem cdiv_eq_div {a b : Int} (ha : 0 ≤ a) (hb : 0 ≤ b) : cdiv a b = a / b := by
  unfold cdiv
  exact Int.tdiv_eq_ediv ha hb

@[simp] theorem kind_size_zero : kind_size 0 = 4096 := rfl
@[simp] theorem kind_size_one : kind_size 1 = 2097152 := rfl
@[simp] theorem kind_size_two : kind_size 2 = 4194304 := rfl
@[simp] theorem kind_size_three : kind_size 3 = 1073741824 := rfl

theorem kind_lt_four_cases {k : Nat} (h : k < 4) : k = 0 ∨ k = 1 ∨ k = 2 ∨ k = 3 := by
  omega

theorem kind_size_pos {k : Nat} (h : k < 4) : 0 < kind_size k := by
  rcases kind_lt_four_cases h with rfl | rfl | rfl | rfl <;> simp

theorem num_dTLB_zero (hw : Hw) :
    num_dTLB hw 0 = if hw.tlb_lld_4k ≠ 0 then (hw.tlb_lld_4k : Int) else 256 := rfl

theorem num_dTLB_one (hw : Hw) :
    num_dTLB hw 1 = if hw.x86_64_or_pae then
      (if hw.tlb_lld_2m ≠ 0 then (hw.tlb_lld_2m : Int) else 128) else 0 := rfl

theorem num_dTLB_two (hw : Hw) :
    num_dTLB hw 2 = if hw.x86_64_or_pae then 0 else (hw.tlb_lld_4m : Int) := rfl

theorem num_dTLB_three (hw : Hw) :
    num_dTLB hw 3 = if hw.tlb_lld_1g ≠ 0 then (hw.tlb_lld_1g : Int) else 16 := rfl

theorem num_dTLB_ge_four (hw : Hw) {k : Nat} (h : 4 ≤ k) : num_dTLB hw k = 0 := by
  match k, h with
  | k + 4, _ => rfl

theorem num_dTLB_4k_pos (hw : Hw) : 0 < num_dTLB hw 0 := by
  rw [num_dTLB_zero]
  split_ifs with h <;> omega

theorem num_dTLB_1g_pos (hw : Hw) : 0 < num_dTLB hw 3 := by
  rw [num_dTLB_three]
  split_ifs with h <;> omega

theorem num_dTLB_nonneg (hw : Hw) (k : Nat) : 0 ≤ num_dTLB hw k := by
  match k with
  | 0 => rw [num_dTLB_zero]; split_ifs <;> omega
  | 1 => rw [num_dTLB_one]; split_ifs <;> omega
  | 2 => rw [num_dTLB_two]; split_ifs <;> omega
  | 3 => rw [num_dTLB_three]; split_ifs <;> omega
  | k + 4 => rw [num_dTLB_ge_four hw (by omega)]

@[simp] theorem upd_same {α : Type} (a : Nat → α) (i : Nat) (v : α) : upd a i v i = v := by
  simp [upd]

theorem upd_other {α : Type} (a : Nat → α) {i j : Nat} (v : α) (h : j ≠ i) :
    upd a i v j = a j := by
  simp [upd, h]

/-! ## `blocks_wanted` -/

theorem wanted_bytes_eq (w : Nat → Int) : wanted_bytes w = partial_bytes w 4 := by
  simp [wanted_bytes, partial_bytes]

theorem partial_bytes_congr {w w' : Nat → Int} {n : Nat} (h : ∀ j, j < n → w j = w' j) :
    partial_bytes w n = partial_bytes w' n := by
  induction n with
  | zero => rfl
  | succ n ih =>
    simp only [partial_bytes]
    rw [ih (fun j hj => h j (by omega)), h n (by omega)]

theorem partial_bytes_zero {w : Nat → Int} {n : Nat} (h : ∀ j, j < n → w j = 0) :
    partial_bytes w n = 0 := by
  induction n with
  | zero => rfl
  | succ n ih =>
    simp only [partial_bytes]
    rw [ih (fun j hj => h j (by omega)), h n (by omega)]
    simp

theorem mod_kind_size_mod {k : Nat} (hk : k < 4) (x : Int) :
    x % kind_size k % 4096 = x % 4096 := by
  rcases kind_lt_four_cases hk with rfl | rfl | rfl | rfl <;> simp <;> omega

/-- What the loop of `blocks_wanted` computes, started at class `n - 1` with `len` bytes
left and no demand recorded yet below `n`. -/
theorem blocks_wanted_loop_spec (hw : Hw) (mps : Int) (n : Nat) (hn : n ≤ 4) :
    ∀ (len : Int) (wanted : Nat → Int) (total : Int), 0 ≤ len →
      (∀ j, j < n → wanted j = 0) →
      let r := blocks_wanted_loop hw mps n len wanted total
      (∀ j, n ≤ j → r.2 j = wanted j) ∧
      r.1 = total + partial_bytes r.2 n ∧
      0 ≤ partial_bytes r.2 n ∧ partial_bytes r.2 n ≤ len ∧
      (0 < n → kind_size 0 ≤ mps → len - partial_bytes r.2 n = len % 4096) ∧
      (∀ k, k < n → ¬ class_ok hw mps k → r.2 k = 0) ∧
      (∀ k, k < n → class_ok hw mps k →
        r.2 k = (len - (partial_bytes r.2 n - partial_bytes r.2 (k + 1))) / kind_size k ∧
        0 ≤ r.2 k ∧ r.2 k * kind_size k ≤ len ∧
        ∀ j, k < j → j < n → class_ok hw mps j → r.2 k * kind_size k < kind_size j) := by
  induction n with
  | zero =>
    intro len wanted total hlen hz
    simp [blocks_wanted_loop, partial_bytes, hlen]
  | succ k ih =>
    intro len wanted total hlen hz
    have hk : k < 4 := by omega
    have hsz := kind_size_pos hk
    simp only [blocks_wanted_loop]
    by_cases hpos : 0 < len
    · simp only [hpos, if_true]
      by_cases hskip : num_dTLB hw k ≤ 0 ∨ kind_size k > mps
      · simp only [hskip, if_true]
        have hrec := ih (by omega) len wanted total hlen (fun j hj => hz j (by omega))
        simp only at hrec
        obtain ⟨h1, h2, h3, h4, h5, h6, h7⟩ := hrec
        have hk0 : (blocks_wanted_loop hw mps k len wanted total).2 k = 0 := by
          rw [h1 k (le_refl k)]; exact hz k (by omega)
        refine ⟨fun j hj => h1 j (by omega), ?_, ?_, ?_, ?_, ?_, ?_⟩
        · simp only [partial_bytes, hk0]; rw [h2]; ring
        · simp only [partial_bytes, hk0]; omega
        · simp only [partial_bytes, hk0]; omega
        · intro _ h0
          simp only [partial_bytes, hk0]
          have hk1 : 0 < k := by
            rcases Nat.eq_zero_or_pos k with rfl | h
            · exfalso
              rcases hskip with h | h
              · have := num_dTLB_4k_pos hw; omega
              · omega
            · exact h
          have := h5 hk1 h0
          omega
        · intro j hj hnok
          rcases Nat.lt_succ_iff_lt_or_eq.mp hj with hj' | rfl
          · exact h6 j hj' hnok
          · exact hk0
        · intro j hj hok
          rcases Nat.lt_succ_iff_lt_or_eq.mp hj with hj' | rfl
          · obtain ⟨e1, e2, e2', e3⟩ := h7 j hj' hok
            refine ⟨?_, e2, e2', ?_⟩
            · rw [e1]; simp only [partial_bytes, hk0]; congr 1; ring
            · intro i hji hik hoki
              rcases Nat.lt_succ_iff_lt_or_eq.mp hik with hik' | rfl
              · exact e3 i hji hik' hoki
              · exact absurd hskip hoki
          · exact absurd hskip hok
      · simp only [hskip, if_false]
        have hw_eq : cdiv len (kind_size k) = len / kind_size k :=
          cdiv_eq_div hlen (le_of_lt hsz)
        rw [hw_eq]
        have hdm := Int.emod_add_ediv len (kind_size k)
        have hmod_nonneg := Int.emod_nonneg len (ne_of_gt hsz)
        have hmod_lt := Int.emod_lt_of_pos len hsz
        have hlen' : len - len / kind_size k * kind_size k = len % kind_size k := by
          have := Int.mul_comm (kind_size k) (len / kind_size k)
          omega
        have hlen'' := hlen'
        rw [hlen']
        have hrec := ih (by omega) (len % kind_size k) (upd wanted k (len / kind_size k))
          (total + len / kind_size k * kind_size k) hmod_nonneg
          (fun j hj => by rw [upd_other _ _ (by omega)]; exact hz j (by omega))
        simp only at hrec
        obtain ⟨h1, h2, h3, h4, h5, h6, h7⟩ := hrec
        set r := blocks_wanted_loop hw mps k (len % kind_size k)
          (upd wanted k (len / kind_size k)) (total + len / kind_size k * kind_size k) with hr
        have hkk : r.2 k = len / kind_size k := by
          rw [h1 k (le_refl k)]; simp
        have hq_nonneg : 0 ≤ len / kind_size k := Int.ediv_nonneg hlen (le_of_lt hsz)
        have hmod_le : len % kind_size k ≤ len := by
          have := mul_nonneg hq_nonneg (le_of_lt hsz)
          omega
        refine ⟨fun j hj => ?_, ?_, ?_, ?_, ?_, ?_, ?_⟩
        · rw [h1 j (by omega), upd_other _ _ (by omega)]
        · simp only [partial_bytes, hkk]; rw [h2]; ring
        · simp only [partial_bytes, hkk]
          have := mul_nonneg hq_nonneg (le_of_lt hsz)
          omega
        · simp only [partial_bytes, hkk]; omega
        · intro _ h0
          simp only [partial_bytes, hkk]
          rcases Nat.eq_zero_or_pos k with rfl | hk1
          · have : partial_bytes r.2 0 = 0 := rfl
            simp only [kind_size_zero] at *
            omega
          · have := h5 hk1 h0
            have := mod_kind_size_mod hk len
            omega
        · intro j hj hnok
          rcases Nat.lt_succ_iff_lt_or_eq.mp hj with hj' | rfl
          · exact h6 j hj' hnok
          · exact absurd hskip hnok
        · intro j hj hok
          rcases Nat.lt_succ_iff_lt_or_eq.mp hj with hj' | rfl
          · obtain ⟨e1, e2, e2', e3⟩ := h7 j hj' hok
            refine ⟨?_, e2, by omega, ?_⟩
            · rw [e1]; simp only [partial_bytes, hkk]; congr 1; omega
            · intro i hji hik hoki
              rcases Nat.lt_succ_iff_lt_or_eq.mp hik with hik' | rfl
              · exact e3 i hji hik' hoki
              · omega
          · refine ⟨?_, by rw [hkk]; exact hq_nonneg, by rw [hkk]; omega, ?_⟩
            · rw [hkk]; simp only [partial_bytes]; congr 1; ring
            · intro i hji hik _
              omega
    · simp only [hpos, if_false]
      have hlen0 : len = 0 := by omega
      have hpb : partial_bytes wanted (k + 1) = 0 := partial_bytes_zero hz
      refine ⟨fun _ _ => trivial, by rw [hpb]; ring, by rw [hpb], by rw [hpb]; omega, ?_, ?_, ?_⟩
      · intro _ _; rw [hpb, hlen0]; simp
      · intro j hj _; exact hz j hj
      · intro j hj _
        rw [hz j hj, hpb, partial_bytes_zero (fun i hi => hz i (by omega)), hlen0]
        simp
        intro i _ hi _
        exact kind_size_pos (by omega)

/-- With the 4 KiB class below the ceiling, the total of `blocks_wanted` for a multiple of
4 KiB is the length itself. -/
theorem blocks_wanted_total_len (hw : Hw) (opts : allocate_options_t) (len : Int)
    (hlen : 0 ≤ len) (hmul : len % 4096 = 0) (hceil : kind_size kind_4k ≤ opts.max_page_size) :
    (blocks_wanted hw len (fun _ => 0) opts).1 = len := by
  have h := blocks_wanted_loop_spec hw opts.max_page_size 4 (le_refl 4) len (fun _ => 0) 0 hlen
    (fun _ _ => rfl)
  simp only at h
  obtain ⟨_, h2, _, _, h5, _, _⟩ := h
  have h5' := h5 (by decide) hceil
  unfold blocks_wanted kind_last
  rw [h2]; omega

/-- C7: for `len ≥ 0` a multiple of 4 KiB and a ceiling of at least 4 KiB (the 4 KiB class
always has dTLB entries), `blocks_wanted` called with `wanted[]` all zero returns a total
equal to `len`, and this total is the sum over classes of `wanted[k] * kind_size[k]`. -/
theorem blocks_wanted_total (hw : Hw) (opts : allocate_options_t) (len : Int)
    (hlen : 0 ≤ len) (hmul : len % 4096 = 0) (hceil : kind_size kind_4k ≤ opts.max_page_size) :
    (blocks_wanted hw len (fun _ => 0) opts).1 = len ∧
    (blocks_wanted hw len (fun _ => 0) opts).1 =
      wanted_bytes (blocks_wanted hw len (fun _ => 0) opts).2 := by
  have h := blocks_wanted_loop_spec hw opts.max_page_size 4 (le_refl 4) len (fun _ => 0) 0 hlen
    (fun _ _ => rfl)
  simp only at h
  obtain ⟨_, h2, _, _, h5, _, _⟩ := h
  have h5' := h5 (by decide) hceil
  unfold blocks_wanted kind_last
  rw [wanted_bytes_eq]
  constructor
  · rw [h2]; omega
  · rw [h2]; ring

theorem blocks_wanted_total_witness :
    (0 : Int) ≤ 1080053760 ∧ (1080053760 : Int) % 4096 = 0 ∧
    kind_size kind_4k ≤ opts_default.max_page_size ∧
    ((blocks_wanted hw_x86_64 1080053760 (fun _ => 0) opts_default).1 = 1080053760 ∧
     (blocks_wanted hw_x86_64 1080053760 (fun _ => 0) opts_default).1 =
      wanted_bytes (blocks_wanted hw_x86_64 1080053760 (fun _ => 0) opts_default).2) :=
  ⟨by decide, by decide, by decide,
    blocks_wanted_total hw_x86_64 opts_default 1080053760 (by decide) (by decide) (by decide)⟩

/-- C8: `blocks_wanted` is the greedy decomposition of `len ≥ 0`.  A class that fails the
test of the loop (no dTLB entries, or larger than the ceiling) keeps `wanted = 0`; a class
that passes it gets (what is left after the larger classes) / size, which is `len / size`
for the largest such class; and its demand in bytes is strictly below the size of every
larger class that passes the test. -/
theorem blocks_wanted_greedy (hw : Hw) (opts : allocate_options_t) (len : Int)
    (hlen : 0 ≤ len) (k : Nat) (hk : k < 4) :
    (¬ class_ok hw opts.max_page_size k →
      (blocks_wanted hw len (fun _ => 0) opts).2 k = 0) ∧
    (class_ok hw opts.max_page_size k →
      (blocks_wanted hw len (fun _ => 0) opts).2 k =
        (len - (wanted_bytes (blocks_wanted hw len (fun _ => 0) opts).2 -
          partial_bytes (blocks_wanted hw len (fun _ => 0) opts).2 (k + 1))) / kind_size k ∧
      ((∀ j, k < j → j < 4 → ¬ class_ok hw opts.max_page_size j) →
        (blocks_wanted hw len (fun _ => 0) opts).2 k = len / kind_size k) ∧
      (∀ j, k < j → j < 4 → class_ok hw opts.max_page_size j →
        (blocks_wanted hw len (fun _ => 0) opts).2 k * kind_size k < kind_size j)) := by
  have h := blocks_wanted_loop_spec hw opts.max_page_size 4 (le_refl 4) len (fun _ => 0) 0 hlen
    (fun _ _ => rfl)
  simp only at h
  obtain ⟨_, _, _, _, _, h6, h7⟩ := h
  unfold blocks_wanted kind_last
  rw [wanted_bytes_eq]
  refine ⟨fun hnok => h6 k hk hnok, fun hok => ?_⟩
  obtain ⟨e1, _, _, e3⟩ := h7 k hk hok
  refine ⟨e1, fun hnone => ?_, e3⟩
  rw [e1]
  have hz : ∀ j, k < j → j < 4 →
      (blocks_wanted_loop hw opts.max_page_size 4 len (fun _ => 0) 0).2 j = 0 :=
    fun j hkj hj => h6 j hj (hnone j hkj hj)
  rcases kind_lt_four_cases hk with rfl | rfl | rfl | rfl <;>
    simp [partial_bytes, hz]

theorem blocks_wanted_greedy_witness :
    (0 : Int) ≤ 1080053760 ∧ 1 < 4 ∧
    ((¬ class_ok hw_x86_64 opts_default.max_page_size 1 →
      (blocks_wanted hw_x86_64 1080053760 (fun _ => 0) opts_default).2 1 = 0) ∧
    (class_ok hw_x86_64 opts_default.max_page_size 1 →
      (blocks_wanted hw_x86_64 1080053760 (fun _ => 0) opts_default).2 1 =
        (1080053760 - (wanted_bytes (blocks_wanted hw_x86_64 1080053760 (fun _ => 0) opts_default).2 -
          partial_bytes (blocks_wanted hw_x86_64 1080053760 (fun _ => 0) opts_default).2 (1 + 1))) /
          kind_size 1 ∧
      ((∀ j, 1 < j → j < 4 → ¬ class_ok hw_x86_64 opts_default.max_page_size j) →
        (blocks_wanted hw_x86_64 1080053760 (fun _ => 0) opts_default).2 1 =
          1080053760 / kind_size 1) ∧
      (∀ j, 1 < j → j < 4 → class_ok hw_x86_64 opts_default.max_page_size j →
        (blocks_wanted hw_x86_64 1080053760 (fun _ => 0) opts_default).2 1 * kind_size 1 <
          kind_size j))) :=
  ⟨by decide, by decide, blocks_wanted_greedy hw_x86_64 opts_default 1080053760 (by decide) 1
    (by decide)⟩

/-! ## Lists -/

theorem find_first_some {α : Type} {p : α → Bool} {l : List α} {i : Nat} {e : α}
    (h : find_first p l = some (i, e)) : l[i]? = some e ∧ p e = true := by
  induction l generalizing i with
  | nil => simp [find_first] at h
  | cons b bs ih =>
    simp only [find_first] at h
    split_ifs at h with hp
    · simp only [Option.some.injEq, Prod.mk.injEq] at h
      obtain ⟨rfl, rfl⟩ := h
      exact ⟨by simp, hp⟩
    · split at h
      · rename_i j e' heq
        simp only [Option.some.injEq, Prod.mk.injEq] at h
        obtain ⟨rfl, rfl⟩ := h
        have := ih heq
        simpa using this
      · simp at h

theorem find_first_none {α : Type} {p : α → Bool} {l : List α}
    (h : find_first p l = none) : ∀ b, b ∈ l → p b = false := by
  induction l with
  | nil => simp
  | cons b bs ih =>
    simp only [find_first] at h
    split_ifs at h with hp
    split at h
    · simp at h
    · rename_i heq
      intro x hx
      rcases List.mem_cons.mp hx with rfl | hx
      · simpa using hp
      · exact ih heq x hx

theorem sum_map_set {α : Type} (f : α → Int) (l : List α) (i : Nat) (e x : α)
    (h : l[i]? = some e) : ((l.set i x).map f).sum = (l.map f).sum - f e + f x := by
  induction l generalizing i with
  | nil => simp at h
  | cons b bs ih =>
    cases i with
    | zero =>
      simp only [List.getElem?_cons_zero, Option.some.injEq] at h
      subst h
      simp only [List.set_cons_zero, List.map_cons, List.sum_cons]
      ring
    | succ i =>
      simp only [List.getElem?_cons_succ] at h
      simp only [List.set_cons_succ, List.map_cons, List.sum_cons, ih i h]
      ring

theorem sum_map_eraseIdx {α : Type} (f : α → Int) (l : List α) (i : Nat) (e : α)
    (h : l[i]? = some e) : ((l.eraseIdx i).map f).sum = (l.map f).sum - f e := by
  induction l generalizing i with
  | nil => simp at h
  | cons b bs ih =>
    cases i with
    | zero =>
      simp only [List.getElem?_cons_zero, Option.some.injEq] at h
      subst h
      simp only [List.eraseIdx_cons_zero, List.map_cons, List.sum_cons]
      ring
    | succ i =>
      simp only [List.getElem?_cons_succ] at h
      simp only [List.eraseIdx_cons_succ, List.map_cons, List.sum_cons, ih i h]
      ring

theorem sum_map_insert_after {α : Type} (f : α → Int) (l : List α) (i : Nat) (x : α) :
    ((insert_after l i x).map f).sum = (l.map f).sum + f x := by
  unfold insert_after
  have h := List.take_append_drop (i + 1) l
  conv_rhs => rw [← h]
  simp only [List.map_append, List.sum_append, List.map_cons, List.sum_cons]
  ring

theorem getElem?_set_self' {α : Type} {l : List α} {i : Nat} {e x : α}
    (h : l[i]? = some e) : (l.set i x)[i]? = some x := by
  have hi : i < l.length := by
    by_contra hc
    rw [List.getElem?_eq_none (by omega)] at h
    simp at h
  simp [List.getElem?_set, hi]

/-! ## Searching -/

theorem cursor_only_refl (s : mos_process_t) : cursor_only s s := rfl

theorem cursor_only_set (s : mos_process_t) (d : Nat → Nat → Nat) :
    cursor_only s { s with domain_order_index := d } := rfl

theorem cursor_only_trans {s s1 s2 : mos_process_t} (h1 : cursor_only s s1)
    (h2 : cursor_only s1 s2) : cursor_only s s2 := by
  unfold cursor_only at *
  rw [h2, h1]

theorem cursor_only_blk_list {s s1 : mos_process_t} (h : cursor_only s s1) :
    s1.blk_list = s.blk_list := by
  unfold cursor_only at h; rw [h]

theorem cursor_only_num_blks {s s1 : mos_process_t} (h : cursor_only s s1) :
    s1.num_blks = s.num_blks := by
  unfold cursor_only at h; rw [h]

theorem cursor_only_tick {s s1 : mos_process_t} (h : cursor_only s s1) :
    s1.tick = s.tick := by
  unfold cursor_only at h; rw [h]

theorem find_available_blk_list_valid {s : mos_process_t} {knd i : Nat} {elt : blk_list}
    (h : find_available_blk_list s knd = some (i, elt)) : valid_free s knd i elt := by
  unfold find_available_blk_list at h
  exact find_first_some h

theorem find_available_by_nid_valid {s : mos_process_t} {knd i : Nat} {nid : Int}
    {elt : blk_list} (h : find_available_by_nid s knd nid = some (i, elt)) :
    valid_free s knd i elt := by
  unfold find_available_by_nid at h
  have := find_first_some h
  refine ⟨this.1, ?_⟩
  have h2 := this.2
  simp only [Bool.and_eq_true] at h2
  exact h2.1

theorem nid_scan_valid {s : mos_process_t} {knd : Nat} {nid : Int} (n : Nat) :
    ∀ (k : Nat) {i : Nat} {elt : blk_list}, knd ≤ k →
      nid_scan s knd nid n k = some (some (i, elt)) → valid_free s knd i elt := by
  induction n with
  | zero => intro k i elt _ h; simp [nid_scan] at h
  | succ n ih =>
    intro k i elt hk h
    simp only [nid_scan] at h
    split at h
    · rename_i e heq
      simp only [Option.some.injEq] at h
      split_ifs at h with hgt
      simp only [Option.some.injEq] at h
      have hkk : k = knd := by omega
      subst hkk
      subst h
      exact find_available_by_nid_valid heq
    · exact ih (k + 1) (by omega) h

theorem nid_do_while_spec {opts : allocate_options_t} {knd t start : Nat} (fuel : Nat) :
    ∀ {s s1 : mos_process_t} {r : Option (Option (Nat × blk_list))},
      nid_do_while opts knd t start fuel s = some (r, s1) →
      cursor_only s s1 ∧ ∀ i elt, r = some (some (i, elt)) → valid_free s1 knd i elt := by
  induction fuel with
  | zero => intro s s1 r h; simp [nid_do_while] at h
  | succ fuel ih =>
    intro s s1 r h
    simp only [nid_do_while] at h
    split at h
    · rename_i r' heq
      simp only [Option.some.injEq, Prod.mk.injEq] at h
      obtain ⟨rfl, rfl⟩ := h
      refine ⟨rfl, ?_⟩
      intro i elt hr
      simp only [Option.some.injEq] at hr
      subst hr
      exact nid_scan_valid _ _ (le_refl _) heq
    · split_ifs at h with hne
      · obtain ⟨h1, h2⟩ := ih h
        exact ⟨cursor_only_trans (cursor_only_set _ _) h1, h2⟩
      · simp only [Option.some.injEq, Prod.mk.injEq] at h
        obtain ⟨rfl, rfl⟩ := h
        exact ⟨rfl, fun i elt hr => by simp at hr⟩

theorem nid_types_spec {opts : allocate_options_t} {knd fuel : Nat} (n : Nat) :
    ∀ {i0 : Nat} {s s1 : mos_process_t} {r : Option (Nat × blk_list)},
      nid_types opts knd fuel n i0 s = some (r, s1) →
      cursor_only s s1 ∧ ∀ i elt, r = some (i, elt) → valid_free s1 knd i elt := by
  induction n with
  | zero =>
    intro i0 s s1 r h
    simp only [nid_types, Option.some.injEq, Prod.mk.injEq] at h
    obtain ⟨rfl, rfl⟩ := h
    exact ⟨rfl, fun i elt hr => by simp at hr⟩
  | succ n ih =>
    intro i0 s s1 r h
    simp only [nid_types] at h
    split_ifs at h with hlen hdis
    · exact ih h
    · split at h
      · simp at h
      · rename_i r' s' heq
        simp only [Option.some.injEq, Prod.mk.injEq] at h
        obtain ⟨rfl, rfl⟩ := h
        obtain ⟨h1, h2⟩ := nid_do_while_spec fuel heq
        exact ⟨cursor_only_trans (cursor_only_set _ _) h1, fun i elt hr => h2 i elt (by rw [hr])⟩
      · rename_i s' heq
        obtain ⟨h1, _⟩ := nid_do_while_spec fuel heq
        obtain ⟨h3, h4⟩ := ih h
        exact ⟨cursor_only_trans (cursor_only_trans (cursor_only_set _ _) h1) h3, h4⟩
    · split at h
      · simp at h
      · rename_i r' s' heq
        simp only [Option.some.injEq, Prod.mk.injEq] at h
        obtain ⟨rfl, rfl⟩ := h
        obtain ⟨h1, h2⟩ := nid_do_while_spec fuel heq
        exact ⟨h1, fun i elt hr => h2 i elt (by rw [hr])⟩
      · rename_i s' heq
        obtain ⟨h1, _⟩ := nid_do_while_spec fuel heq
        obtain ⟨h3, h4⟩ := ih h
        exact ⟨cursor_only_trans h1 h3, h4⟩

/-- Both search functions return a free entry of the list they were asked for, and change
nothing but the rotating cursors. -/
theorem find_available_spec {fuel : Nat} {opts : allocate_options_t} {knd : Nat}
    {s s1 : mos_process_t} {r : Option (Nat × blk_list)}
    (h : find_available fuel opts knd s = some (r, s1)) :
    cursor_only s s1 ∧ ∀ i elt, r = some (i, elt) → valid_free s1 knd i elt := by
  unfold find_available at h
  split at h
  · simp only [Option.some.injEq, Prod.mk.injEq] at h
    obtain ⟨rfl, rfl⟩ := h
    exact ⟨rfl, fun i elt hr => find_available_blk_list_valid hr⟩
  · exact nid_types_spec _ h

/-! ## Byte sums -/

theorem lists_free_bytes_upd (lists : Nat → List blk_list) {k : Nat} (hk : k < 4)
    (l : List blk_list) :
    lists_free_bytes (upd lists k l) =
      lists_free_bytes lists - list_free_bytes k (lists k) + list_free_bytes k l := by
  rcases kind_lt_four_cases hk with rfl | rfl | rfl | rfl <;>
    simp [lists_free_bytes, upd] <;> ring

theorem lists_assigned_bytes_upd (lists : Nat → List blk_list) {k : Nat} (hk : k < 4)
    (l : List blk_list) :
    lists_assigned_bytes (upd lists k l) =
      lists_assigned_bytes lists - list_assigned_bytes k (lists k) + list_assigned_bytes k l := by
  rcases kind_lt_four_cases hk with rfl | rfl | rfl | rfl <;>
    simp [lists_assigned_bytes, upd] <;> ring

theorem free_bytes_cursor_only {s s1 : mos_process_t} (h : cursor_only s s1) :
    free_bytes s1 = free_bytes s := by
  unfold free_bytes; rw [cursor_only_blk_list h]

theorem assigned_bytes_cursor_only {s s1 : mos_process_t} (h : cursor_only s s1) :
    assigned_bytes s1 = assigned_bytes s := by
  unfold assigned_bytes; rw [cursor_only_blk_list h]

theorem list_free_bytes_cons (k : Nat) (b : blk_list) (l : List blk_list) :
    list_free_bytes k (b :: l) = (if b.free then blk_bytes k b else 0) + list_free_bytes k l := by
  simp [list_free_bytes]

theorem list_assigned_bytes_cons (k : Nat) (b : blk_list) (l : List blk_list) :
    list_assigned_bytes k (b :: l) =
      (if b.free then 0 else blk_bytes k b) + list_assigned_bytes k l := by
  simp [list_assigned_bytes]

theorem list_free_bytes_set (k : Nat) {l : List blk_list} {i : Nat} {e : blk_list}
    (x : blk_list) (h : l[i]? = some e) :
    list_free_bytes k (l.set i x) = list_free_bytes k l -
      (if e.free then blk_bytes k e else 0) + (if x.free then blk_bytes k x else 0) := by
  unfold list_free_bytes
  exact sum_map_set _ l i e x h

theorem list_assigned_bytes_set (k : Nat) {l : List blk_list} {i : Nat} {e : blk_list}
    (x : blk_list) (h : l[i]? = some e) :
    list_assigned_bytes k (l.set i x) = list_assigned_bytes k l -
      (if e.free then 0 else blk_bytes k e) + (if x.free then 0 else blk_bytes k x) := by
  unfold list_assigned_bytes
  exact sum_map_set _ l i e x h

theorem list_free_bytes_eraseIdx (k : Nat) {l : List blk_list} {i : Nat} {e : blk_list}
    (h : l[i]? = some e) :
    list_free_bytes k (l.eraseIdx i) = list_free_bytes k l -
      (if e.free then blk_bytes k e else 0) := by
  unfold list_free_bytes
  exact sum_map_eraseIdx _ l i e h

theorem list_assigned_bytes_eraseIdx (k : Nat) {l : List blk_list} {i : Nat} {e : blk_list}
    (h : l[i]? = some e) :
    list_assigned_bytes k (l.eraseIdx i) = list_assigned_bytes k l -
      (if e.free then 0 else blk_bytes k e) := by
  unfold list_assigned_bytes
  exact sum_map_eraseIdx _ l i e h

theorem list_free_bytes_insert_after (k : Nat) (l : List blk_list) (i : Nat) (x : blk_list) :
    list_free_bytes k (insert_after l i x) =
      list_free_bytes k l + (if x.free then blk_bytes k x else 0) := by
  unfold list_free_bytes
  exact sum_map_insert_after _ l i x

theorem list_assigned_bytes_insert_after (k : Nat) (l : List blk_list) (i : Nat)
    (x : blk_list) :
    list_assigned_bytes k (insert_after l i x) =
      list_assigned_bytes k l + (if x.free then 0 else blk_bytes k x) := by
  unfold list_assigned_bytes
  exact sum_map_insert_after _ l i x

/-! ## `divide_block` -/

theorem next_larger_ge (hw : Hw) (n : Nat) : ∀ nxt, nxt ≤ next_larger hw n nxt := by
  induction n with
  | zero => intro nxt; simp [next_larger]
  | succ n ih =>
    intro nxt
    simp only [next_larger]
    split_ifs
    · exact le_trans (Nat.le_succ nxt) (ih (nxt + 1))
    · exact le_refl nxt

/-- The ratio used by `divide_block` is exact: `kind_size[nxt] / kind_size[knd]` units of
the smaller class make up one unit of the larger one. -/
theorem ratio_exact {knd nxt : Nat} (h1 : knd < nxt) (h2 : nxt < 4) :
    ((cdiv (kind_size nxt) (kind_size knd)).toNat : Int) * kind_size knd = kind_size nxt := by
  have hk : knd < 4 := by omega
  rcases kind_lt_four_cases hk with rfl | rfl | rfl | rfl <;>
    rcases kind_lt_four_cases h2 with rfl | rfl | rfl | rfl <;>
    first
      | omega
      | (simp only [kind_size_zero, kind_size_one, kind_size_two, kind_size_three]; decide)

theorem divide_consume_spec (env : Env) {knd nxt : Nat} (h1 : knd < nxt) (h2 : nxt < 4)
    {s1 s2 : mos_process_t} {i : Nat} {elt : blk_list} {r : Option (Nat × blk_list)}
    (hv : valid_free s1 nxt i elt) (h : divide_consume env knd nxt s1 i elt = (r, s2)) :
    free_bytes s2 = free_bytes s1 ∧ assigned_bytes s2 = assigned_bytes s1 ∧
      (∀ j e, r = some (j, e) → valid_free s2 knd j e) := by
  have hk : knd < 4 := by omega
  have hne : knd ≠ nxt := by omega
  have hratio := ratio_exact h1 h2
  obtain ⟨hget, hfree⟩ := hv
  unfold divide_consume at h
  split_ifs at h with hgt hvm
  · simp only [Prod.mk.injEq] at h
    obtain ⟨rfl, rfl⟩ := h
    refine ⟨?_, ?_, ?_⟩
    · simp only [free_bytes]
      rw [lists_free_bytes_upd _ hk, lists_free_bytes_upd _ h2, upd_other _ _ hne,
        list_free_bytes_cons, list_free_bytes_set nxt _ hget]
      simp only [hfree, if_true, blk_bytes]
      have : ((elt.num_blks - 1 : Nat) : Int) = (elt.num_blks : Int) - 1 := by omega
      rw [this, hratio]
      ring
    · simp only [assigned_bytes]
      rw [lists_assigned_bytes_upd _ hk, lists_assigned_bytes_upd _ h2, upd_other _ _ hne,
        list_assigned_bytes_cons, list_assigned_bytes_set nxt _ hget]
      simp only [hfree, if_true]
      ring
    · intro j e hr
      simp only [Option.some.injEq, Prod.mk.injEq] at hr
      obtain ⟨rfl, rfl⟩ := hr
      exact ⟨by simp, rfl⟩
  · simp only [Prod.mk.injEq] at h
    obtain ⟨rfl, rfl⟩ := h
    exact ⟨rfl, rfl, fun j e hr => by simp at hr⟩
  · simp only [Prod.mk.injEq] at h
    obtain ⟨rfl, rfl⟩ := h
    refine ⟨?_, ?_, ?_⟩
    · simp only [free_bytes]
      rw [lists_free_bytes_upd _ hk, lists_free_bytes_upd _ h2, upd_other _ _ hne,
        list_free_bytes_cons, list_free_bytes_eraseIdx nxt hget]
      simp only [hfree, if_true, blk_bytes]
      push_cast
      rw [mul_assoc, hratio]
      ring
    · simp only [assigned_bytes]
      rw [lists_assigned_bytes_upd _ hk, lists_assigned_bytes_upd _ h2, upd_other _ _ hne,
        list_assigned_bytes_cons, list_assigned_bytes_eraseIdx nxt hget]
      simp only [hfree, if_true]
      ring
    · intro j e hr
      simp only [Option.some.injEq, Prod.mk.injEq] at hr
      obtain ⟨rfl, rfl⟩ := hr
      exact ⟨by simp, hfree⟩

/-- Dividing moves no byte between free and assigned, and what it returns is a free entry
of the list of the kind asked for. -/
theorem divide_block_spec (env : Env) (hw : Hw) (opts : allocate_options_t) (fuel : Nat) :
    ∀ {knd : Nat} {s s1 : mos_process_t} {r : Option (Nat × blk_list)}, knd < 4 →
      divide_block env hw opts fuel knd s = some (r, s1) →
      free_bytes s1 = free_bytes s ∧ assigned_bytes s1 = assigned_bytes s ∧
        (∀ j e, r = some (j, e) → valid_free s1 knd j e) := by
  induction fuel with
  | zero => intro knd s s1 r _ h; simp [divide_block] at h
  | succ fuel ih =>
    intro knd s s1 r hk h
    simp only [divide_block] at h
    have hge := next_larger_ge hw kind_last (knd + 1)
    split_ifs at h with hlast
    · simp only [Option.some.injEq, Prod.mk.injEq] at h
      obtain ⟨rfl, rfl⟩ := h
      exact ⟨rfl, rfl, fun j e hr => by simp at hr⟩
    · have hnxt : next_larger hw kind_last (knd + 1) < 4 := by
        unfold kind_last at hlast ⊢; omega
      split at h
      · simp at h
      · rename_i i elt s' heq
        simp only [Option.some.injEq] at h
        obtain ⟨hc, hv⟩ := find_available_spec heq
        obtain ⟨e1, e2, e3⟩ := divide_consume_spec env (by omega) hnxt (hv i elt rfl) h
        exact ⟨by rw [e1, free_bytes_cursor_only hc],
          by rw [e2, assigned_bytes_cursor_only hc], e3⟩
      · rename_i s' heq
        obtain ⟨hc, _⟩ := find_available_spec heq
        split at h
        · simp at h
        · rename_i s2 heq2
          simp only [Option.some.injEq, Prod.mk.injEq] at h
          obtain ⟨rfl, rfl⟩ := h
          obtain ⟨e1, e2, _⟩ := ih hnxt heq2
          exact ⟨by rw [e1, free_bytes_cursor_only hc],
            by rw [e2, assigned_bytes_cursor_only hc], fun j e hr => by simp at hr⟩
        · rename_i i elt s2 heq2
          simp only [Option.some.injEq] at h
          obtain ⟨e1, e2, e3⟩ := ih hnxt heq2
          obtain ⟨f1, f2, f3⟩ := divide_consume_spec env (by omega) hnxt (e3 i elt rfl) h
          exact ⟨by rw [f1, e1, free_bytes_cursor_only hc],
            by rw [f2, e2, assigned_bytes_cursor_only hc], f3⟩

/-! ## `allocate_blocks`: one block -/

theorem wanted_bytes_upd (w : Nat → Int) {k : Nat} (hk : k < 4) (v : Int) :
    wanted_bytes (upd w k v) = wanted_bytes w - w k * kind_size k + v * kind_size k := by
  rcases kind_lt_four_cases hk with rfl | rfl | rfl | rfl <;>
    simp [wanted_bytes, upd] <;> ring

/-- Folding the demand of class `k` into class `k - 1` is exact. -/
theorem wanted_bytes_fold (w : Nat → Int) {k : Nat} (h0 : 0 < k) (hk : k < 4)
    (hw : 0 ≤ w k) : wanted_bytes (fold_wanted w k) = wanted_bytes w := by
  have hex : cdiv (w k * kind_size k) (kind_size (k - 1)) * kind_size (k - 1) =
      w k * kind_size k := by
    have h1 : kind_size k = ((cdiv (kind_size k) (kind_size (k - 1))).toNat : Int) *
        kind_size (k - 1) := (ratio_exact (by omega) hk).symm
    have hpos := kind_size_pos (show k - 1 < 4 by omega)
    have hkpos := kind_size_pos hk
    rw [cdiv_eq_div (mul_nonneg hw (le_of_lt hkpos)) (le_of_lt hpos)]
    apply Int.ediv_mul_cancel
    rw [h1, ← mul_assoc]
    exact Dvd.intro_left _ rfl
  unfold fold_wanted
  rw [wanted_bytes_upd _ hk, wanted_bytes_upd _ (show k - 1 < 4 by omega)]
  rw [upd_other _ _ (show k ≠ k - 1 by omega)]
  rw [add_mul, hex]
  ring

/-- What `grab_block` does to the byte totals and to the locals when the loop goes on:
it takes `u` units, `0 ≤ u ≤ wanted[k]`, from free to assigned. -/
theorem grab_block_next_spec (env : Env) {prot pgoff : Nat} {len : Int} {k : Nat}
    {l l1 : alloc_locals} {s s1 : mos_process_t} {i : Nat} {elt : blk_list}
    (hk : k < 4) (hv : valid_free s k i elt) (hw0 : 0 < l.wanted k)
    (h : grab_block env prot pgoff len k l s i elt = (alloc_flow.next l1, s1)) :
    ∃ u : Int, 0 ≤ u ∧ u ≤ l.wanted k ∧
      l1.wanted = upd l.wanted k (l.wanted k - u) ∧
      l1.total = l.total - u * kind_size k ∧
      free_bytes s1 = free_bytes s - u * kind_size k ∧
      assigned_bytes s1 = assigned_bytes s + u * kind_size k := by
  obtain ⟨hget, hfree⟩ := hv
  unfold grab_block at h
  simp only at h
  by_cases hlt : l.wanted k < (elt.num_blks : Int)
  · rw [if_pos hlt] at h
    split_ifs at h <;>
      simp only [Prod.mk.injEq, alloc_flow.next.injEq, reduceCtorEq, false_and] at h
    all_goals
      obtain ⟨rfl, rfl⟩ := h
      refine ⟨l.wanted k, le_of_lt hw0, le_refl _, ?_, ?_, ?_, ?_⟩
      · simp [note_mapped]
      · simp [note_mapped]
      · simp only [free_bytes]
        rw [lists_free_bytes_upd _ hk, list_free_bytes_insert_after,
          list_free_bytes_set k _ hget]
        simp only [hfree, if_true, blk_bytes, Bool.false_eq_true, if_false]
        have : ((elt.num_blks - (l.wanted k).toNat : Nat) : Int) =
            (elt.num_blks : Int) - l.wanted k := by omega
        rw [this]
        ring
      · simp only [assigned_bytes]
        rw [lists_assigned_bytes_upd _ hk, list_assigned_bytes_insert_after,
          list_assigned_bytes_set k _ hget]
        simp only [hfree, if_true, blk_bytes, Bool.false_eq_true, if_false]
        have : (((l.wanted k).toNat : Nat) : Int) = l.wanted k := by omega
        rw [this]
        ring
  · rw [if_neg hlt] at h
    split_ifs at h <;>
      simp only [Prod.mk.injEq, alloc_flow.next.injEq, reduceCtorEq, false_and] at h
    all_goals
      obtain ⟨rfl, rfl⟩ := h
      refine ⟨elt.num_blks, by omega, by omega, ?_, ?_, ?_, ?_⟩
      · simp [note_mapped]
      · simp [note_mapped]
      · simp only [free_bytes]
        rw [lists_free_bytes_upd _ hk, list_free_bytes_set k _ hget]
        simp only [hfree, if_true, blk_bytes, Bool.false_eq_true, if_false]
        ring
      · simp only [assigned_bytes]
        rw [lists_assigned_bytes_upd _ hk, list_assigned_bytes_set k _ hget]
        simp only [hfree, if_true, blk_bytes, Bool.false_eq_true, if_false]
        ring

/-- When `grab_block` leaves through an exit, the block lists are as before. -/
theorem grab_block_quit_spec (env : Env) {prot pgoff : Nat} {len : Int} {k : Nat}
    {l : alloc_locals} {s s1 : mos_process_t} {i : Nat} {elt : blk_list} {e : alloc_exit}
    (h : grab_block env prot pgoff len k l s i elt = (alloc_flow.quit e, s1)) :
    s1.blk_list = s.blk_list ∧ s1.num_blks = s.num_blks ∧
      (e = alloc_exit.vmalloc_failed ∨ ∃ a, a ≤ 0 ∧ e = alloc_exit.build_failed a ∧
        ∃ t kk ad ln pr fl pg ph tl, a = env.build_lwkvma t kk ad ln pr fl pg ph tl) := by
  unfold grab_block at h
  simp only at h
  split_ifs at h with h1 h2 h3 h4 h5 h6 <;>
    simp only [Prod.mk.injEq, alloc_flow.quit.injEq, reduceCtorEq, false_and] at h
  all_goals
    obtain ⟨rfl, rfl⟩ := h
    first
      | exact ⟨rfl, rfl, Or.inl rfl⟩
      | exact ⟨rfl, rfl, Or.inr ⟨_, by assumption, rfl, _, _, _, _, _, _, _, _, _, rfl⟩⟩

/-! ## `allocate_blocks`: loop invariants -/

/-- Invariant rule for the loop `while (wanted[k] > 0)`: a predicate `P` on the locals and
the state that every step of the loop keeps holds when the loop ends, and `Q` holds at
every exit. -/
theorem allocate_while_inv (env : Env) (hw : Hw) (opts : allocate_options_t)
    (prot pgoff : Nat) (len : Int) {k : Nat} (hk : k < 4)
    (P : alloc_locals → mos_process_t → Prop) (Q : alloc_exit → mos_process_t → Prop)
    (h_find : ∀ l s fuel r s1, P l s → find_available fuel opts k s = some (r, s1) → P l s1)
    (h_div : ∀ l s fuel r s1, P l s → divide_block env hw opts fuel k s = some (r, s1) →
      P l s1)
    (h_next : ∀ l s i elt l1 s1, P l s → 0 < l.wanted k → valid_free s k i elt →
      grab_block env prot pgoff len k l s i elt = (alloc_flow.next l1, s1) → P l1 s1)
    (h_quit : ∀ l s i elt e s1, P l s → 0 < l.wanted k → valid_free s k i elt →
      grab_block env prot pgoff len k l s i elt = (alloc_flow.quit e, s1) → Q e s1)
    (h_fold : ∀ l s, 0 < k → P l s → 0 < l.wanted k →
      P { l with wanted := fold_wanted l.wanted k } s)
    (h_empty : ∀ l s, k = 0 → P l s → 0 < l.wanted k → Q alloc_exit.block_list_empty s)
    (fuel : Nat) :
    ∀ (l : alloc_locals) (s : mos_process_t), P l s →
      ∀ (f : alloc_flow) (s' : mos_process_t),
        allocate_while env hw opts prot pgoff len k fuel l s = some (f, s') →
        match f with
        | alloc_flow.next l' => P l' s' ∧ l'.wanted k ≤ 0
        | alloc_flow.quit e => Q e s' := by
  induction fuel with
  | zero => intro l s _ f s' h; simp [allocate_while] at h
  | succ fuel ih =>
    intro l s hP f s' h
    simp only [allocate_while] at h
    by_cases hpos : 0 < l.wanted k
    · rw [if_pos hpos] at h
      split at h
      · simp at h
      · rename_i i elt s1 heq
        have hP1 := h_find l s fuel _ s1 hP heq
        have hv := (find_available_spec heq).2 i elt rfl
        split at h
        · rename_i l1 s2 hg
          exact ih l1 s2 (h_next l s1 i elt l1 s2 hP1 hpos hv hg) f s' h
        · rename_i e s2 hg
          simp only [Option.some.injEq, Prod.mk.injEq] at h
          obtain ⟨rfl, rfl⟩ := h
          exact h_quit l s1 i elt e s2 hP1 hpos hv hg
      · rename_i s1 heq
        have hP1 := h_find l s fuel _ s1 hP heq
        split at h
        · simp at h
        · rename_i i elt s2 heq2
          have hP2 := h_div l s1 fuel _ s2 hP1 heq2
          have hv := (divide_block_spec env hw opts fuel hk heq2).2.2 i elt rfl
          split at h
          · rename_i l1 s3 hg
            exact ih l1 s3 (h_next l s2 i elt l1 s3 hP2 hpos hv hg) f s' h
          · rename_i e s3 hg
            simp only [Option.some.injEq, Prod.mk.injEq] at h
            obtain ⟨rfl, rfl⟩ := h
            exact h_quit l s2 i elt e s3 hP2 hpos hv hg
        · rename_i s2 heq2
          have hP2 := h_div l s1 fuel _ s2 hP1 heq2
          by_cases hk0 : k > 0
          · rw [if_pos hk0] at h
            exact ih _ s2 (h_fold l s2 hk0 hP2 hpos) f s' h
          · rw [if_neg hk0] at h
            simp only [Option.some.injEq, Prod.mk.injEq] at h
            obtain ⟨rfl, rfl⟩ := h
            exact h_empty l s2 (by omega) hP2 hpos
    · rw [if_neg hpos] at h
      simp only [Option.some.injEq, Prod.mk.injEq] at h
      obtain ⟨rfl, rfl⟩ := h
      exact ⟨hP, by omega⟩

theorem fold_wanted_self (w : Nat → Int) (k : Nat) : fold_wanted w k k = 0 := by
  simp [fold_wanted]

/-- Invariant rule for the whole class loop of `allocate_blocks`.  `P n` is the invariant
when the classes `≥ n` are done; `Q` is what holds at every exit.  The exit that stands for
a store to `wanted[-1]` is never taken, because the 4 KiB class always has dTLB entries. -/
theorem allocate_kinds_inv (env : Env) (hw : Hw) (opts : allocate_options_t)
    (prot pgoff : Nat) (len : Int) (fuel : Nat)
    (P : Nat → alloc_locals → mos_process_t → Prop) (Q : alloc_exit → mos_process_t → Prop)
    (h_find : ∀ k l s fuel r s1, k < 4 → P (k + 1) l s →
      find_available fuel opts k s = some (r, s1) → P (k + 1) l s1)
    (h_div : ∀ k l s fuel r s1, k < 4 → P (k + 1) l s →
      divide_block env hw opts fuel k s = some (r, s1) → P (k + 1) l s1)
    (h_next : ∀ k l s i elt l1 s1, k < 4 → P (k + 1) l s → 0 < l.wanted k →
      valid_free s k i elt →
      grab_block env prot pgoff len k l s i elt = (alloc_flow.next l1, s1) → P (k + 1) l1 s1)
    (h_quit : ∀ k l s i elt e s1, k < 4 → P (k + 1) l s → 0 < l.wanted k →
      valid_free s k i elt →
      grab_block env prot pgoff len k l s i elt = (alloc_flow.quit e, s1) → Q e s1)
    (h_fold : ∀ k l s, 0 < k → k < 4 → P (k + 1) l s → 0 < l.wanted k →
      P (k + 1) { l with wanted := fold_wanted l.wanted k } s)
    (h_empty : ∀ l s, P 1 l s → 0 < l.wanted 0 → Q alloc_exit.block_list_empty s)
    (h_done : ∀ k l s, k < 4 → P (k + 1) l s → l.wanted k ≤ 0 → P k l s)
    (h_end_ok : ∀ l s, P 0 l s → l.total = 0 → Q (alloc_exit.returned l.first_addr) s)
    (h_end_bad : ∀ l s, P 0 l s → l.total ≠ 0 → Q (alloc_exit.bytes_unallocated l.total) s) :
    ∀ n, n ≤ 4 → ∀ (l : alloc_locals) (s : mos_process_t), P n l s →
      ∀ (e : alloc_exit) (s' : mos_process_t),
        allocate_kinds env hw opts prot pgoff len fuel n l s = some (e, s') → Q e s' := by
  intro n
  induction n with
  | zero =>
    intro _ l s hP e s' h
    simp only [allocate_kinds] at h
    by_cases ht : l.total ≠ 0
    · rw [if_pos ht] at h
      simp only [Option.some.injEq, Prod.mk.injEq] at h
      obtain ⟨rfl, rfl⟩ := h
      exact h_end_bad l s hP ht
    · rw [if_neg ht] at h
      simp only [Option.some.injEq, Prod.mk.injEq] at h
      obtain ⟨rfl, rfl⟩ := h
      exact h_end_ok l s hP (by simpa using ht)
  | succ k ih =>
    intro hn l s hP e s' h
    have hk : k < 4 := by omega
    simp only [allocate_kinds] at h
    by_cases hle : l.wanted k ≤ 0
    · rw [if_pos hle] at h
      exact ih (by omega) l s (h_done k l s hk hP hle) e s' h
    · rw [if_neg hle] at h
      have hpos : 0 < l.wanted k := by omega
      by_cases hun : num_dTLB hw k = 0
      · rw [if_pos hun] at h
        by_cases hk0 : k = 0
        · exfalso
          subst hk0
          have := num_dTLB_4k_pos hw
          omega
        · rw [if_neg hk0] at h
          have hP1 := h_fold k l s (by omega) hk hP hpos
          have hP2 := h_done k _ s hk hP1 (by simp [fold_wanted_self])
          exact ih (by omega) _ s hP2 e s' h
      · rw [if_neg hun] at h
        split at h
        · simp at h
        · rename_i l1 s1 heq
          have := allocate_while_inv env hw opts prot pgoff len hk (P (k + 1)) Q
            (fun l s fuel r s1 => h_find k l s fuel r s1 hk)
            (fun l s fuel r s1 => h_div k l s fuel r s1 hk)
            (fun l s i elt l1 s1 => h_next k l s i elt l1 s1 hk)
            (fun l s i elt e s1 => h_quit k l s i elt e s1 hk)
            (fun l s h0 => h_fold k l s h0 hk)
            (fun l s hz hP hw0 => by subst hz; exact h_empty l s hP hw0)
            fuel l s hP _ _ heq
          simp only at this
          exact ih (by omega) l1 s1 (h_done k l1 s1 hk this.1 this.2) e s' h
        · rename_i e1 s1 heq
          simp only [Option.some.injEq, Prod.mk.injEq] at h
          obtain ⟨rfl, rfl⟩ := h
          have := allocate_while_inv env hw opts prot pgoff len hk (P (k + 1)) Q
            (fun l s fuel r s1 => h_find k l s fuel r s1 hk)
            (fun l s fuel r s1 => h_div k l s fuel r s1 hk)
            (fun l s i elt l1 s1 => h_next k l s i elt l1 s1 hk)
            (fun l s i elt e s1 => h_quit k l s i elt e s1 hk)
            (fun l s h0 => h_fold k l s h0 hk)
            (fun l s hz hP hw0 => by subst hz; exact h_empty l s hP hw0)
            fuel l s hP _ _ heq
          exact this

theorem wanted_bytes_nonneg {w : Nat → Int} (h : ∀ j, j < 4 → 0 ≤ w j) : 0 ≤ wanted_bytes w := by
  unfold wanted_bytes
  have h0 := h 0 (by omega)
  have h1 := h 1 (by omega)
  have h2 := h 2 (by omega)
  have h3 := h 3 (by omega)
  simp only [kind_size_zero, kind_size_one, kind_size_two, kind_size_three]
  omega

theorem wanted_bytes_eq_zero {w : Nat → Int} (h : ∀ j, j < 4 → w j = 0) : wanted_bytes w = 0 := by
  unfold wanted_bytes
  rw [h 0 (by omega), h 1 (by omega), h 2 (by omega), h 3 (by omega)]
  simp

theorem fold_wanted_nonneg {w : Nat → Int} {k : Nat} (_ : 0 < k) (hk : k < 4)
    (h : ∀ j, j < 4 → 0 ≤ w j) : ∀ j, j < 4 → 0 ≤ fold_wanted w k j := by
  intro j hj
  unfold fold_wanted upd
  split_ifs with h1 h2
  · exact le_refl 0
  · have hq : 0 ≤ cdiv (w k * kind_size k) (kind_size (k - 1)) := by
      rw [cdiv_eq_div (mul_nonneg (h k hk) (le_of_lt (kind_size_pos hk)))
        (le_of_lt (kind_size_pos (show k - 1 < 4 by omega)))]
      exact Int.ediv_nonneg (mul_nonneg (h k hk) (le_of_lt (kind_size_pos hk)))
        (le_of_lt (kind_size_pos (show k - 1 < 4 by omega)))
    have := h (k - 1) (by omega)
    omega
  · exact h j hj

/-- The accounting invariant is kept by the class loop of `allocate_blocks`. -/
theorem allocate_kinds_accounting (env : Env) (hw : Hw) (opts : allocate_options_t)
    (prot pgoff : Nat) (len : Int) (fuel : Nat) (F0 A0 T0 : Int)
    {l : alloc_locals} {s s' : mos_process_t} {e : alloc_exit}
    (hP : alloc_inv F0 A0 T0 4 l s) (hT : T0 = l.total)
    (h : allocate_kinds env hw opts prot pgoff len fuel 4 l s = some (e, s')) :
    alloc_post F0 A0 T0 e s' := by
  have hmono : ∀ n l s, alloc_inv F0 A0 T0 n l s → l.total ≤ T0 →
      free_bytes s + assigned_bytes s = F0 + A0 ∧ free_bytes s ≤ F0 := by
    intro n l s hI hle
    obtain ⟨_, _, _, h4, h5⟩ := hI
    omega
  refine allocate_kinds_inv env hw opts prot pgoff len fuel
    (fun n l s => alloc_inv F0 A0 T0 n l s ∧ l.total ≤ T0) (alloc_post F0 A0 T0)
    ?_ ?_ ?_ ?_ ?_ ?_ ?_ ?_ ?_ 4 (le_refl 4) l s ⟨hP, by omega⟩ e s' h
  · -- find_available
    intro k l s fuel r s1 _ hI hf
    obtain ⟨⟨h1, h2, h3, h4, h5⟩, h6⟩ := hI
    have hc := (find_available_spec hf).1
    exact ⟨⟨h1, h2, h3, by rw [free_bytes_cursor_only hc]; exact h4,
      by rw [assigned_bytes_cursor_only hc]; exact h5⟩, h6⟩
  · -- divide_block
    intro k l s fuel r s1 hk hI hd
    obtain ⟨⟨h1, h2, h3, h4, h5⟩, h6⟩ := hI
    obtain ⟨e1, e2, _⟩ := divide_block_spec env hw opts fuel hk hd
    exact ⟨⟨h1, h2, h3, by rw [e1]; exact h4, by rw [e2]; exact h5⟩, h6⟩
  · -- a block is taken
    intro k l s i elt l1 s1 hk hI hw0 hv hg
    obtain ⟨⟨h1, h2, h3, h4, h5⟩, h6⟩ := hI
    obtain ⟨u, hu0, hu1, e1, e2, e3, e4⟩ := grab_block_next_spec env hk hv hw0 hg
    have hsz := kind_size_pos hk
    have hub : 0 ≤ u * kind_size k := mul_nonneg hu0 (le_of_lt hsz)
    refine ⟨⟨?_, ?_, ?_, ?_, ?_⟩, ?_⟩
    · rw [e2, e1, wanted_bytes_upd _ hk, h1]; ring
    · intro j hj
      rw [e1]
      unfold upd
      split_ifs with hjk
      · omega
      · exact h2 j hj
    · intro j hkj hj
      rw [e1, upd_other _ _ (by omega)]
      exact h3 j hkj hj
    · rw [e3, e2, h4]; ring
    · rw [e4, e2, h5]; ring
    · rw [e2]; omega
  · -- an exit while taking a block
    intro k l s i elt e s1 hk hI hw0 hv hg
    obtain ⟨⟨h1, h2, h3, h4, h5⟩, h6⟩ := hI
    obtain ⟨e1, _, e3⟩ := grab_block_quit_spec env hg
    have hf : free_bytes s1 = free_bytes s := by unfold free_bytes; rw [e1]
    have ha : assigned_bytes s1 = assigned_bytes s := by unfold assigned_bytes; rw [e1]
    refine ⟨by rw [hf, ha]; omega, by rw [hf]; omega, ?_, ?_, ?_⟩
    · intro t ht
      rcases e3 with rfl | ⟨a, _, rfl, _⟩ <;> simp at ht
    · intro ht
      rcases e3 with rfl | ⟨a, _, rfl, _⟩ <;> simp at ht
    · intro p hp
      rcases e3 with rfl | ⟨a, _, rfl, _⟩ <;> simp at hp
  · -- folding
    intro k l s h0 hk hI hw0
    obtain ⟨⟨h1, h2, h3, h4, h5⟩, h6⟩ := hI
    refine ⟨⟨?_, fold_wanted_nonneg h0 hk h2, ?_, h4, h5⟩, h6⟩
    · show l.total = wanted_bytes (fold_wanted l.wanted k)
      rw [wanted_bytes_fold _ h0 hk (h2 k hk)]; exact h1
    · intro j hkj hj
      show fold_wanted l.wanted k j = 0
      unfold fold_wanted
      rw [upd_other _ _ (by omega), upd_other _ _ (by omega)]
      exact h3 j hkj hj
  · -- no block left for the smallest class
    intro l s hI _
    obtain ⟨hI, h6⟩ := hI
    obtain ⟨e1, e2⟩ := hmono 1 l s hI h6
    exact ⟨e1, e2, fun t ht => by simp at ht, fun ht => by simp at ht,
      fun p hp => by simp at hp⟩
  · -- class `k` is done
    intro k l s hk hI hle
    obtain ⟨⟨h1, h2, h3, h4, h5⟩, h6⟩ := hI
    refine ⟨⟨h1, h2, ?_, h4, h5⟩, h6⟩
    intro j hkj hj
    rcases Nat.eq_or_lt_of_le hkj with rfl | hlt
    · have := h2 k hk; omega
    · exact h3 j hlt hj
  · -- normal return
    intro l s hI ht
    obtain ⟨hI, h6⟩ := hI
    obtain ⟨e1, e2⟩ := hmono 0 l s hI h6
    obtain ⟨_, _, _, h4, h5⟩ := hI
    refine ⟨e1, e2, fun t ht => by simp at ht, fun ht => by simp at ht, ?_⟩
    intro p _
    constructor <;> omega
  · -- `total` is zero when the loop ends
    intro l s hI ht
    exfalso
    obtain ⟨⟨h1, _, h3, _, _⟩, _⟩ := hI
    apply ht
    rw [h1]
    exact wanted_bytes_eq_zero (fun j hj => h3 j (Nat.zero_le j) hj)

theorem blocks_wanted_init (hw : Hw) (opts : allocate_options_t) (len : Int) :
    (blocks_wanted hw len (fun _ => 0) opts).1 =
      wanted_bytes (blocks_wanted hw len (fun _ => 0) opts).2 ∧
    (∀ j, j < 4 → 0 ≤ (blocks_wanted hw len (fun _ => 0) opts).2 j) := by
  by_cases hlen : 0 ≤ len
  · have h := blocks_wanted_loop_spec hw opts.max_page_size 4 (le_refl 4) len (fun _ => 0) 0
      hlen (fun _ _ => rfl)
    simp only at h
    obtain ⟨_, h2, _, _, _, h6, h7⟩ := h
    unfold blocks_wanted kind_last
    refine ⟨by rw [wanted_bytes_eq, h2]; ring, ?_⟩
    intro j hj
    by_cases hok : class_ok hw opts.max_page_size j
    · exact (h7 j hj hok).2.1
    · rw [h6 j hj hok]
  · have hneg : ¬ (0 < len) := by omega
    unfold blocks_wanted kind_last
    simp [blocks_wanted_loop, hneg, wanted_bytes]

/-- The accounting facts at every exit of `allocate_blocks`, with `T0` the total that
`blocks_wanted` returned for the rounded length. -/
theorem allocate_blocks_accounting (env : Env) (hw : Hw) (fuel : Nat) (addr : Nat) (len : Int)
    (prot mmap_flags pgoff : Nat) (opts : allocate_options_t) {s s' : mos_process_t}
    {e : alloc_exit}
    (h : allocate_blocks env hw fuel addr len prot mmap_flags pgoff opts s = some (e, s')) :
    alloc_post (free_bytes s) (assigned_bytes s)
      (blocks_wanted hw (roundup len (kind_size 0)) (fun _ => 0) opts).1 e s' := by
  unfold allocate_blocks at h
  simp only at h
  obtain ⟨h1, h2⟩ := blocks_wanted_init hw opts (roundup len (kind_size 0))
  refine allocate_kinds_accounting env hw opts prot pgoff _ fuel _ _ _ ?_ rfl h
  refine ⟨h1, h2, fun j hj hj4 => by omega, ?_, ?_⟩ <;> simp

/-! ## `allocate_blocks`: accounting claims -/

theorem roundup_4k (len : Int) (hlen : 0 ≤ len) :
    0 ≤ roundup len (kind_size 0) ∧ roundup len (kind_size 0) % 4096 = 0 ∧
      len ≤ roundup len (kind_size 0) ∧ roundup len (kind_size 0) < len + 4096 := by
  unfold roundup
  rw [kind_size_zero, cdiv_eq_div (by omega) (by omega)]
  omega

/-- C1: a successful `allocate_blocks(len)` (with `len ≥ 0` and the 4 KiB class below the
ceiling; it always has dTLB entries) moves exactly `roundup(len, 4 KiB)` bytes from free to
assigned: the bytes of the non-free blocks grow by that amount and the bytes of the free
blocks shrink by the same amount. -/
theorem allocate_blocks_moves_bytes (env : Env) (hw : Hw) (fuel : Nat) (addr : Nat) (len : Int)
    (prot mmap_flags pgoff : Nat) (opts : allocate_options_t) (s s' : mos_process_t) (p : Int)
    (hlen : 0 ≤ len) (hceil : kind_size kind_4k ≤ opts.max_page_size)
    (h : allocate_blocks env hw fuel addr len prot mmap_flags pgoff opts s =
      some (alloc_exit.returned p, s')) :
    assigned_bytes s' = assigned_bytes s + roundup len (kind_size kind_4k) ∧
    free_bytes s' = free_bytes s - roundup len (kind_size kind_4k) := by
  obtain ⟨r1, r2, _, _⟩ := roundup_4k len hlen
  have hT := blocks_wanted_total_len hw opts (roundup len (kind_size 0)) r1 r2 hceil
  obtain ⟨_, _, _, _, h5⟩ := allocate_blocks_accounting env hw fuel addr len prot mmap_flags
    pgoff opts h
  obtain ⟨e1, e2⟩ := h5 p rfl
  rw [hT] at e1 e2
  exact ⟨e2, e1⟩

set_option maxRecDepth 100000 in
theorem allocate_blocks_moves_bytes_witness :
    (0 : Int) ≤ 1073750021 ∧ kind_size kind_4k ≤ opts_default.max_page_size ∧
    ∃ s', allocate_blocks env_ok hw_x86_64 20 268435456 1073750021 0 0 0 opts_default
        proc_example = some (alloc_exit.returned 268435456, s') ∧
      (assigned_bytes s' = assigned_bytes proc_example + roundup 1073750021 (kind_size kind_4k) ∧
       free_bytes s' = free_bytes proc_example - roundup 1073750021 (kind_size kind_4k)) :=
  ⟨by decide, by decide, _, rfl,
    allocate_blocks_moves_bytes env_ok hw_x86_64 20 268435456 1073750021 0 0 0 opts_default
      proc_example _ 268435456 (by decide) (by decide) rfl⟩

/-- C6: the internal-consistency failure of `allocate_blocks` is unreachable.  Folding the
demand of a class into the next smaller one keeps the sum of `wanted[k] * kind_size[k]`
(it is exact, so any number of cascaded folds is), `total` stays equal to that sum through
the class loop (lemma `allocate_kinds_accounting`), and no call of `allocate_blocks` leaves
through the "bytes unallocated" branch. -/
theorem allocate_blocks_total_reconciles (env : Env) (hw : Hw) (fuel : Nat) (addr : Nat)
    (len : Int) (prot mmap_flags pgoff : Nat) (opts : allocate_options_t)
    (s s' : mos_process_t) (e : alloc_exit)
    (h : allocate_blocks env hw fuel addr len prot mmap_flags pgoff opts s = some (e, s')) :
    (∀ t, e ≠ alloc_exit.bytes_unallocated t) ∧
    (∀ (w : Nat → Int) (k : Nat), 0 < k → k < 4 → 0 ≤ w k →
      wanted_bytes (fold_wanted w k) = wanted_bytes w) := by
  obtain ⟨_, _, h3, _, _⟩ := allocate_blocks_accounting env hw fuel addr len prot mmap_flags
    pgoff opts h
  exact ⟨h3, fun w k h0 hk hw0 => wanted_bytes_fold w h0 hk hw0⟩

set_option maxRecDepth 100000 in
theorem allocate_blocks_total_reconciles_witness :
    ∃ s', allocate_blocks env_ok hw_x86_64 20 268435456 2101248 0 0 0 opts_default
        proc_4k_only = some (alloc_exit.returned 268435456, s') ∧
      ((∀ t, alloc_exit.returned 268435456 ≠ alloc_exit.bytes_unallocated t) ∧
       (∀ (w : Nat → Int) (k : Nat), 0 < k → k < 4 → 0 ≤ w k →
         wanted_bytes (fold_wanted w k) = wanted_bytes w)) :=
  ⟨_, rfl, allocate_blocks_total_reconciles env_ok hw_x86_64 20 268435456 2101248 0 0 0
    opts_default proc_4k_only _ _ rfl⟩

/-- C3 as stated fails: asking a process that holds one free 4 KiB unit for 8 KiB ends
with `-ENOMEM`, the request exceeds the free bytes, and the 4 KiB block list is not what it
was (the unit stays assigned). -/
theorem allocate_blocks_enomem_changes_state :
    ∃ e s', allocate_blocks env_ok hw_x86_64 20 268435456 8192 0 0 0 opts_default
        proc_one_4k = some (e, s') ∧ e.ret = -ENOMEM ∧
      free_bytes proc_one_4k < roundup 8192 (kind_size kind_4k) ∧
      s'.blk_list 0 ≠ proc_one_4k.blk_list 0 ∧ s'.num_blks 0 ≠ proc_one_4k.num_blks 0 :=
  ⟨_, _, rfl, by decide, by decide, by decide, by decide⟩

/-- C3 amended: an `allocate_blocks` call, whichever way it ends and so also when it ends
with `-ENOMEM` because the request exceeds the free bytes, keeps the total of the bytes held
in the process's blocks (free plus assigned); the free bytes do not grow and the assigned
bytes do not shrink.  Blocks taken or divided before the shortage was met are not
restored. -/
theorem allocate_blocks_conserves (env : Env) (hw : Hw) (fuel : Nat) (addr : Nat)
    (len : Int) (prot mmap_flags pgoff : Nat) (opts : allocate_options_t)
    (s s' : mos_process_t) (e : alloc_exit)
    (h : allocate_blocks env hw fuel addr len prot mmap_flags pgoff opts s = some (e, s')) :
    free_bytes s' + assigned_bytes s' = free_bytes s + assigned_bytes s ∧
      free_bytes s' ≤ free_bytes s ∧ assigned_bytes s ≤ assigned_bytes s' := by
  obtain ⟨h1, h2, _, _, _⟩ := allocate_blocks_accounting env hw fuel addr len prot mmap_flags
    pgoff opts h
  exact ⟨h1, h2, by omega⟩

set_option maxRecDepth 100000 in
theorem allocate_blocks_conserves_witness :
    ∃ s', allocate_blocks env_ok hw_x86_64 20 268435456 8192 0 0 0 opts_default
        proc_one_4k = some (alloc_exit.block_list_empty, s') ∧
      (free_bytes s' + assigned_bytes s' = free_bytes proc_one_4k + assigned_bytes proc_one_4k ∧
        free_bytes s' ≤ free_bytes proc_one_4k ∧
        assigned_bytes proc_one_4k ≤ assigned_bytes s') :=
  ⟨_, rfl,
    allocate_blocks_conserves env_ok hw_x86_64 20 268435456 8192 0 0 0 opts_default
      proc_one_4k _ _ rfl⟩

/-! ## Partitioning: what the code does on granules that end between boundaries -/

/-- C10, the code at the failing input: for a granule of 3 MiB at physical address 2 MiB
(base and length multiples of 4 KiB) on an x86-64 host, `partition_task_mem` returns 0 with
the watermark at the granule's length, having created a single block, of the 2 MiB class
with one unit: the block covers 2 MiB while it advanced the watermark by 3 MiB, and the
blocks of the granule add up to 2 MiB, not to its length. -/
theorem partition_loses_bytes :
    ∃ s', partition_task_mem env_ok hw_x86_64 10 proc_reserved_3m = some (0, s') ∧
      s'.lwkmem_list = [{ granule := { base := 2097152, length := 3145728, nid := 0, owner := 7 },
                          offset := 3145728 }] ∧
      s'.blk_list 0 = [] ∧ s'.blk_list 2 = [] ∧ s'.blk_list 3 = [] ∧
      s'.blk_list 1 = [{ phys := { base := 2097152, length := 3145728, nid := 0, owner := 7 },
                         offset := 0, num_blks := 1, free := true, vma_addr := 0 }] ∧
      free_bytes s' = 2097152 :=
  ⟨_, rfl, by decide, by decide, by decide, by decide, by decide, by decide⟩

/-- C5, the code at the failing input: a granule of 1 MiB at physical address 2 MiB is
partitioned into one free block of the 2 MiB class holding zero units; a following
`allocate_blocks(4096)` divides that block, which sets `num_blks[2m]` to `-1` while the free
blocks of `blk_list[2m]` hold `0` units. -/
theorem counter_diverges_after_divide :
    ∃ s1 e s2, partition_task_mem env_ok hw_x86_64 10 proc_reserved_1m = some (0, s1) ∧
      s1.num_blks 1 = list_free_units (s1.blk_list 1) ∧
      allocate_blocks env_ok hw_x86_64 20 268435456 4096 0 0 0 opts_default s1 = some (e, s2) ∧
      s2.num_blks 1 = -1 ∧ list_free_units (s2.blk_list 1) = 0 :=
  ⟨_, _, _, rfl, by decide, rfl, by decide, by decide⟩

/-- C9 as stated fails: for a granule whose base is 1 GiB + 2 KiB, `partition_task_mem`
creates a block of the 4 KiB class whose physical start address is not a multiple of
4 KiB. -/
theorem partition_unaligned_block :
    ∃ s' b, partition_task_mem env_ok hw_x86_64 10 proc_reserved_odd = some (0, s') ∧
      b ∈ s'.blk_list 0 ∧ blk_addr b % kind_size_u 0 ≠ 0 :=
  ⟨_, { phys := { base := 1073743872, length := 8192, nid := 0, owner := 7 }, offset := 0,
        num_blks := 2, free := true, vma_addr := 0 }, rfl, by decide, by decide⟩

/-! ## Partitioning: alignment -/

@[simp] theorem kind_size_u_zero : kind_size_u 0 = 4096 := rfl
@[simp] theorem kind_size_u_one : kind_size_u 1 = 2097152 := rfl
@[simp] theorem kind_size_u_two : kind_size_u 2 = 4194304 := rfl
@[simp] theorem kind_size_u_three : kind_size_u 3 = 1073741824 := rfl

theorem and_mask_eq_mod {k : Nat} (hk : k < 4) (x : Nat) :
    x &&& (kind_size_u k - 1) = x % kind_size_u k := by
  rcases kind_lt_four_cases hk with rfl | rfl | rfl | rfl
  · exact Nat.and_pow_two_sub_one_eq_mod x 12
  · exact Nat.and_pow_two_sub_one_eq_mod x 21
  · exact Nat.and_pow_two_sub_one_eq_mod x 22
  · exact Nat.and_pow_two_sub_one_eq_mod x 30

theorem num_dTLB_pos_lt {hw : Hw} {k : Nat} (h : num_dTLB hw k ≠ 0) : k < 4 := by
  by_contra hc
  exact h (num_dTLB_ge_four hw (by omega))

theorem next_usable_spec (hw : Hw) (n : Nat) :
    ∀ nxt, 4 ≤ nxt + n → nxt ≤ 3 →
      nxt ≤ next_usable hw n nxt ∧ next_usable hw n nxt ≤ 3 ∧
      0 < num_dTLB hw (next_usable hw n nxt) ∧
      ∀ j, nxt ≤ j → j < next_usable hw n nxt → num_dTLB hw j = 0 := by
  induction n with
  | zero => intro nxt h h3; omega
  | succ n ih =>
    intro nxt h h3
    simp only [next_usable]
    have hlt : nxt < kind_last := by unfold kind_last; omega
    rw [if_pos hlt]
    by_cases hu : num_dTLB hw nxt > 0
    · rw [if_pos hu]
      exact ⟨le_refl _, by omega, hu, fun j h1 h2 => by omega⟩
    · rw [if_neg hu]
      have hz : num_dTLB hw nxt = 0 := by
        have := num_dTLB_nonneg hw nxt; omega
      have hne : nxt ≠ 3 := by
        rintro rfl
        have := num_dTLB_1g_pos hw
        omega
      obtain ⟨h1, h2, h3', h4⟩ := ih (nxt + 1) (by omega) (by omega)
      refine ⟨by omega, h2, h3', ?_⟩
      intro j hj1 hj2
      rcases Nat.eq_or_lt_of_le hj1 with rfl | hlt'
      · exact hz
      · exact h4 j (by omega) hj2

theorem created_aligned_refl (s : mos_process_t) : created_aligned s s :=
  fun _ _ => ⟨[], rfl, fun _ hb => by simp at hb⟩

theorem created_aligned_of_eq {s s' : mos_process_t} (h : s'.blk_list = s.blk_list) :
    created_aligned s s' :=
  fun k _ => ⟨[], by rw [h]; rfl, fun _ hb => by simp at hb⟩

theorem created_aligned_trans {s s1 s2 : mos_process_t} (h1 : created_aligned s s1)
    (h2 : created_aligned s1 s2) : created_aligned s s2 := by
  intro k hk
  obtain ⟨c1, e1, a1⟩ := h1 k hk
  obtain ⟨c2, e2, a2⟩ := h2 k hk
  refine ⟨c2 ++ c1, by rw [e2, e1, List.append_assoc], ?_⟩
  intro b hb
  rcases List.mem_append.mp hb with hb | hb
  · exact a2 b hb
  · exact a1 b hb

/-- What `create_and_link_block` does: on success one block of class `knd` starting at the
watermark is put at the head of `blk_list[knd]` and the watermark advances by `length`. -/
theorem create_and_link_block_spec (env : Env) (g : lwk_process_granule) (length knd : Nat)
    (s : mos_process_t) :
    (create_and_link_block env g length knd s).2.1.granule = g.granule ∧
    ((create_and_link_block env g length knd s).1 = false →
      (create_and_link_block env g length knd s).2.1 = g ∧
      (create_and_link_block env g length knd s).2.2.blk_list = s.blk_list) ∧
    ((create_and_link_block env g length knd s).1 = true →
      (create_and_link_block env g length knd s).2.1.offset = g.offset + length ∧
      ∃ newb : blk_list, blk_addr newb = g.granule.base + g.offset ∧
        newb.num_blks = length / kind_size_u knd ∧ newb.free = true ∧
        (create_and_link_block env g length knd s).2.2.blk_list =
          upd s.blk_list knd (newb :: s.blk_list knd)) := by
  unfold create_and_link_block
  split_ifs with hv
  · exact ⟨rfl, fun h => by simp at h, fun _ => ⟨rfl,
      { offset := g.offset, num_blks := length / kind_size_u knd, free := true,
        phys := g.granule, vma_addr := 0 }, rfl, rfl, rfl, rfl⟩⟩
  · exact ⟨rfl, fun _ => ⟨rfl, rfl⟩, fun h => by simp at h⟩

theorem created_aligned_cons {s s' : mos_process_t} {knd : Nat} {newb : blk_list}
    (hk : knd < 4) (h : s'.blk_list = upd s.blk_list knd (newb :: s.blk_list knd))
    (ha : blk_addr newb % kind_size_u knd = 0) : created_aligned s s' := by
  intro k _
  by_cases hkk : k = knd
  · subst hkk
    refine ⟨[newb], by rw [h]; simp, ?_⟩
    intro b hb
    simp only [List.mem_singleton] at hb
    subst hb
    exact ha
  · exact ⟨[], by rw [h, upd_other _ _ hkk]; rfl, fun _ hb => by simp at hb⟩

theorem roundup_u_spec {k : Nat} (hk : k < 4) (x : Nat) :
    roundup_u x (kind_size_u k) % kind_size_u k = 0 ∧ x ≤ roundup_u x (kind_size_u k) ∧
      (x % kind_size_u k ≠ 0 → x < roundup_u x (kind_size_u k)) := by
  unfold roundup_u
  rcases kind_lt_four_cases hk with rfl | rfl | rfl | rfl <;>
    simp only [kind_size_u_zero, kind_size_u_one, kind_size_u_two, kind_size_u_three] <;>
    omega

theorem kind_size_u_dvd_mod {j k : Nat} (hjk : j ≤ k) (hk : k < 4) {x : Nat}
    (h : x % kind_size_u k = 0) : x % kind_size_u j = 0 := by
  have hj : j < 4 := by omega
  rcases kind_lt_four_cases hk with rfl | rfl | rfl | rfl <;>
    rcases kind_lt_four_cases hj with rfl | rfl | rfl | rfl <;>
    simp only [kind_size_u_zero, kind_size_u_one, kind_size_u_two, kind_size_u_three] at h ⊢ <;>
    omega

theorem kind_size_u_ge {k : Nat} (hk : k < 4) : 4096 ≤ kind_size_u k := by
  rcases kind_lt_four_cases hk with rfl | rfl | rfl | rfl <;> simp

theorem align_inv_succ {hw : Hw} {knd : Nat} {g : lwk_process_granule}
    (h : align_inv hw knd g) (hun : num_dTLB hw knd = 0) : align_inv hw (knd + 1) g := by
  rcases h with h | ⟨m, h1, h2, h3, h4, h5⟩
  · exact Or.inl h
  · have hne : m ≠ knd := by
      rintro rfl
      omega
    exact Or.inr ⟨m, by omega, h2, h3, fun j hj1 hj2 => h4 j (by omega) hj2, h5⟩

/-- The first loop of `partition_task_mem` creates aligned blocks only, and leaves the
granule used up or the watermark on a 1 GiB boundary. -/
theorem partition_align_spec (env : Env) (hw : Hw) (n : Nat) :
    ∀ (knd : Nat) (g : lwk_process_granule) (s : mos_process_t), knd + n = 3 →
      align_inv hw knd g →
      created_aligned s (partition_align env hw n knd g s).2.2 ∧
      (partition_align env hw n knd g s).2.1.granule = g.granule ∧
      ((partition_align env hw n knd g s).1 = true →
        align_inv hw 3 (partition_align env hw n knd g s).2.1) := by
  induction n with
  | zero =>
    intro knd g s hk hI
    have : knd = 3 := by omega
    subst this
    exact ⟨created_aligned_refl s, rfl, fun _ => hI⟩
  | succ n ih =>
    intro knd g s hk hI
    simp only [partition_align]
    by_cases hun : num_dTLB hw knd = 0
    · rw [if_pos hun]
      exact ih (knd + 1) g s (by omega) (align_inv_succ hI hun)
    · rw [if_neg hun]
      obtain ⟨n1, n2, n3, n4⟩ := next_usable_spec hw kind_last (knd + 1)
        (by unfold kind_last; omega) (by omega)
      have hnxt4 : next_usable hw kind_last (knd + 1) < 4 := by omega
      have hknd4 : knd < 4 := by omega
      -- the invariant for the next iteration when the watermark is on the next boundary
      have hnext_aligned : ∀ g' : lwk_process_granule,
          (g'.granule.base + g'.offset) % kind_size_u (next_usable hw kind_last (knd + 1)) = 0 →
          align_inv hw (knd + 1) g' :=
        fun g' ha => Or.inr ⟨_, n1, n2, n3, n4, ha⟩
      by_cases hc : next_usable hw kind_last (knd + 1) < kind_last ∧
          (g.granule.base + g.offset) &&&
            (kind_size_u (next_usable hw kind_last (knd + 1)) - 1) ≠ 0
      · rw [if_pos hc]
        have hmis : (g.granule.base + g.offset) %
            kind_size_u (next_usable hw kind_last (knd + 1)) ≠ 0 := by
          rw [← and_mask_eq_mod hnxt4]; exact hc.2
        obtain ⟨r1, r2, r3⟩ := roundup_u_spec hnxt4 (g.granule.base + g.offset)
        have r3' := r3 hmis
        by_cases hd : min (roundup_u (g.granule.base + g.offset)
            (kind_size_u (next_usable hw kind_last (knd + 1))) - (g.granule.base + g.offset))
            (g.granule.length - g.offset) = 0
        · simp only [hd, if_true]
          have hdone : g.granule.length ≤ g.offset := by
            rcases Nat.min_eq_zero_iff.mp hd with h | h <;> omega
          exact ih (knd + 1) g s (by omega) (Or.inl hdone)
        · simp only [hd, if_false]
          obtain ⟨c1, c2, c3⟩ := create_and_link_block_spec env g
            (min (roundup_u (g.granule.base + g.offset)
              (kind_size_u (next_usable hw kind_last (knd + 1))) - (g.granule.base + g.offset))
              (g.granule.length - g.offset)) knd s
          -- the watermark is aligned for class `knd`, since the granule is not used up
          have hnot_done : ¬ g.granule.length ≤ g.offset := by
            intro h
            apply hd
            rw [Nat.min_eq_zero_iff]
            right; omega
          have hal : (g.granule.base + g.offset) % kind_size_u knd = 0 := by
            rcases hI with h | ⟨m, h1, h2, h3, h4, h5⟩
            · exact absurd h hnot_done
            · have hm : m = knd := by
                by_contra hne
                have := h4 knd (le_refl _) (by omega)
                exact hun this
              rw [← hm]; exact h5
          split
          · rename_i g1 s1 heq
            have hf := c2 (by rw [heq])
            rw [heq] at hf
            exact ⟨created_aligned_of_eq hf.2, by rw [hf.1], fun h => by simp at h⟩
          · rename_i g1 s1 heq
            have ht := c3 (by rw [heq])
            rw [heq] at ht c1
            obtain ⟨ho, newb, hb1, _, _, hb2⟩ := ht
            simp only at ho hb2 c1
            have hcr : created_aligned s s1 :=
              created_aligned_cons hknd4 hb2 (by rw [hb1]; exact hal)
            have hI1 : align_inv hw (knd + 1) g1 := by
              by_cases hmin : roundup_u (g.granule.base + g.offset)
                  (kind_size_u (next_usable hw kind_last (knd + 1))) - (g.granule.base + g.offset)
                  ≤ g.granule.length - g.offset
              · apply hnext_aligned
                rw [c1, ho, Nat.min_eq_left hmin]
                have : g.granule.base + (g.offset + (roundup_u (g.granule.base + g.offset)
                    (kind_size_u (next_usable hw kind_last (knd + 1))) -
                    (g.granule.base + g.offset))) = roundup_u (g.granule.base + g.offset)
                    (kind_size_u (next_usable hw kind_last (knd + 1))) := by omega
                rw [this]; exact r1
              · left
                rw [c1, ho, Nat.min_eq_right (by omega)]
                omega
            obtain ⟨i1, i2, i3⟩ := ih (knd + 1) g1 s1 (by omega) hI1
            exact ⟨created_aligned_trans hcr i1, by rw [i2, c1], i3⟩
      · rw [if_neg hc]
        have hal : (g.granule.base + g.offset) %
            kind_size_u (next_usable hw kind_last (knd + 1)) = 0 := by
          by_contra hne
          apply hc
          refine ⟨hnxt4, ?_⟩
          rw [and_mask_eq_mod hnxt4]; exact hne
        exact ih (knd + 1) g s (by omega) (hnext_aligned g hal)

theorem rounddown_u_spec {k : Nat} (hk : k < 4) (x : Nat) :
    rounddown_u x (kind_size_u k) % kind_size_u k = 0 ∧ rounddown_u x (kind_size_u k) ≤ x ∧
      x - rounddown_u x (kind_size_u k) < kind_size_u k ∧
      (rounddown_u x (kind_size_u k) ≠ 0 → kind_size_u k ≤ x) := by
  unfold rounddown_u
  rcases kind_lt_four_cases hk with rfl | rfl | rfl | rfl <;>
    simp only [kind_size_u_zero, kind_size_u_one, kind_size_u_two, kind_size_u_three] <;>
    omega

theorem add_mod_kind_size_u {k : Nat} (hk : k < 4) {x d : Nat}
    (hx : x % kind_size_u k = 0) (hd : d % kind_size_u k = 0) :
    (x + d) % kind_size_u k = 0 := by
  rcases kind_lt_four_cases hk with rfl | rfl | rfl | rfl <;>
    simp only [kind_size_u_zero, kind_size_u_one, kind_size_u_two, kind_size_u_three] at * <;>
    omega

/-- One iteration of the second loop of `partition_task_mem` keeps its invariant for the
next value of `knd` (whatever that value is when `knd = 0`) and creates an aligned block
or none. -/
theorem partition_fill_step (env : Env) (hw : Hw) (knd : Nat) (g : lwk_process_granule)
    (s : mos_process_t) (hI : fill_inv knd g) (knd' : Nat) (hk' : 0 < knd → knd' = knd - 1) :
    let step : Bool × lwk_process_granule × mos_process_t :=
      if num_dTLB hw knd = 0 then (true, g, s)
      else
        if rounddown_u (g.granule.length - g.offset) (kind_size_u knd) = 0 then (true, g, s)
        else create_and_link_block env g
          (rounddown_u (g.granule.length - g.offset) (kind_size_u knd)) knd s
    created_aligned s step.2.2 ∧ step.2.1.granule = g.granule ∧
      (step.1 = true → fill_inv knd' step.2.1) := by
  intro step
  -- the invariant for `knd'` when nothing changes
  have hsame : (num_dTLB hw knd = 0 ∨
      rounddown_u (g.granule.length - g.offset) (kind_size_u knd) = 0) → fill_inv knd' g := by
    intro hcase
    rcases hI with ⟨h3, hal⟩ | hsmall
    · rcases Nat.eq_zero_or_pos knd with h0 | hpos
      · subst h0
        right
        rcases hcase with hu | hr
        · have := num_dTLB_4k_pos hw; omega
        · unfold rounddown_u at hr
          simp only [kind_size_u_zero] at hr
          omega
      · left
        rw [hk' hpos]
        exact ⟨by omega, kind_size_u_dvd_mod (Nat.sub_le knd 1) (by omega) hal⟩
    · exact Or.inr hsmall
  by_cases hun : num_dTLB hw knd = 0
  · have hstep : step = (true, g, s) := by simp only [step, hun, if_true]
    rw [hstep]
    exact ⟨created_aligned_refl s, rfl, fun _ => hsame (Or.inl hun)⟩
  · have hk4 : knd < 4 := num_dTLB_pos_lt hun
    by_cases hd : rounddown_u (g.granule.length - g.offset) (kind_size_u knd) = 0
    · have hstep : step = (true, g, s) := by simp only [step, hun, hd, if_true, if_false]
      rw [hstep]
      exact ⟨created_aligned_refl s, rfl, fun _ => hsame (Or.inr hd)⟩
    · have hstep : step = create_and_link_block env g
          (rounddown_u (g.granule.length - g.offset) (kind_size_u knd)) knd s := by
        simp only [step, hun, hd, if_false]
      rw [hstep]
      obtain ⟨c1, c2, c3⟩ := create_and_link_block_spec env g
        (rounddown_u (g.granule.length - g.offset) (kind_size_u knd)) knd s
      obtain ⟨r1, r2, r3, r4⟩ := rounddown_u_spec hk4 (g.granule.length - g.offset)
      have hbig := r4 hd
      have hge := kind_size_u_ge hk4
      have hal : (g.granule.base + g.offset) % kind_size_u knd = 0 := by
        rcases hI with ⟨_, hal⟩ | hsmall
        · exact hal
        · omega
      refine ⟨?_, c1, ?_⟩
      · cases hres : (create_and_link_block env g
            (rounddown_u (g.granule.length - g.offset) (kind_size_u knd)) knd s).1 with
        | false => exact created_aligned_of_eq (c2 hres).2
        | true =>
          obtain ⟨_, newb, hb1, _, _, hb2⟩ := c3 hres
          exact created_aligned_cons hk4 hb2 (by rw [hb1]; exact hal)
      · intro hres
        obtain ⟨ho, _⟩ := c3 hres
        have hal' : ((create_and_link_block env g
            (rounddown_u (g.granule.length - g.offset) (kind_size_u knd)) knd s).2.1.granule.base +
            (create_and_link_block env g
            (rounddown_u (g.granule.length - g.offset) (kind_size_u knd)) knd s).2.1.offset) %
            kind_size_u knd = 0 := by
          rw [c1, ho, ← Nat.add_assoc]
          exact add_mod_kind_size_u hk4 hal r1
        rcases Nat.eq_zero_or_pos knd with h0 | hpos
        · right
          subst h0
          rw [c1, ho]
          simp only [kind_size_u_zero] at r3 r2 ⊢
          omega
        · left
          rw [hk' hpos]
          exact ⟨by omega, kind_size_u_dvd_mod (Nat.sub_le knd 1) hk4 hal'⟩

/-- The second loop of `partition_task_mem` creates aligned blocks only. -/
theorem partition_fill_spec (env : Env) (hw : Hw) (fuel : Nat) :
    ∀ (knd : Nat) (g : lwk_process_granule) (s : mos_process_t) (ok : Bool)
      (g' : lwk_process_granule) (s' : mos_process_t), fill_inv knd g →
      partition_fill env hw fuel knd g s = some (ok, g', s') →
      created_aligned s s' ∧ g'.granule = g.granule := by
  induction fuel with
  | zero => intro knd g s ok g' s' _ h; simp [partition_fill] at h
  | succ fuel ih =>
    intro knd g s ok g' s' hI h
    simp only [partition_fill] at h
    by_cases hdone : g.offset ≥ g.granule.length
    · rw [if_pos hdone] at h
      simp only [Option.some.injEq, Prod.mk.injEq] at h
      obtain ⟨_, rfl, rfl⟩ := h
      exact ⟨created_aligned_refl s, rfl⟩
    · rw [if_neg hdone] at h
      have hstep := partition_fill_step env hw knd g s hI
        (if knd = 0 then 2 ^ 32 - 1 else knd - 1) (fun hpos => by rw [if_neg (by omega)])
      simp only at hstep
      obtain ⟨e1, e2, e3⟩ := hstep
      split at h
      · rename_i g1 s1 heq
        simp only [Option.some.injEq, Prod.mk.injEq] at h
        obtain ⟨_, rfl, rfl⟩ := h
        rw [heq] at e1 e2
        exact ⟨e1, e2⟩
      · rename_i g1 s1 heq
        rw [heq] at e1 e2 e3
        simp only at e1 e2 e3
        have hI1 := e3 trivial
        by_cases hk0 : knd = 0
        · rw [if_pos hk0] at h hI1
          by_cases hu : hw.kind_t_unsigned
          · rw [if_pos hu] at h
            obtain ⟨i1, i2⟩ := ih _ g1 s1 ok g' s' hI1 h
            exact ⟨created_aligned_trans e1 i1, by rw [i2, e2]⟩
          · rw [if_neg hu] at h
            simp only [Option.some.injEq, Prod.mk.injEq] at h
            obtain ⟨_, rfl, rfl⟩ := h
            exact ⟨e1, e2⟩
        · rw [if_neg hk0] at h hI1
          obtain ⟨i1, i2⟩ := ih _ g1 s1 ok g' s' hI1 h
          exact ⟨created_aligned_trans e1 i1, by rw [i2, e2]⟩

theorem partition_granule_spec (env : Env) (hw : Hw) (fuel : Nat) (g : lwk_process_granule)
    (s : mos_process_t) (ok : Bool) (g' : lwk_process_granule) (s' : mos_process_t)
    (hbase : (g.granule.base + g.offset) % 4096 = 0)
    (h : partition_granule env hw fuel g s = some (ok, g', s')) :
    created_aligned s s' ∧ g'.granule = g.granule := by
  unfold partition_granule at h
  have hI : align_inv hw 0 g :=
    Or.inr ⟨0, le_refl 0, by omega, num_dTLB_4k_pos hw, fun j h1 h2 => by omega, hbase⟩
  obtain ⟨a1, a2, a3⟩ := partition_align_spec env hw (kind_last - 1) 0 g s
    (by unfold kind_last; omega) hI
  split at h
  · rename_i g1 s1 heq
    simp only [Option.some.injEq, Prod.mk.injEq] at h
    obtain ⟨_, rfl, rfl⟩ := h
    rw [heq] at a1 a2
    exact ⟨a1, a2⟩
  · rename_i g1 s1 heq
    rw [heq] at a1 a2 a3
    simp only at a1 a2 a3
    have hF : fill_inv (kind_last - 1) g1 := by
      rcases a3 trivial with hd | ⟨m, h1, h2, _, _, h5⟩
      · right; omega
      · left
        have hm : m = 3 := by omega
        subst hm
        exact ⟨by unfold kind_last; omega, h5⟩
    obtain ⟨f1, f2⟩ := partition_fill_spec env hw fuel _ g1 s1 ok g' s' hF h
    exact ⟨created_aligned_trans a1 f1, by rw [f2, a2]⟩

theorem partition_list_spec (env : Env) (hw : Hw) (fuel : Nat) :
    ∀ (rest done : List lwk_process_granule) (s : mos_process_t) (rc : Int)
      (s' : mos_process_t),
      (∀ g, g ∈ rest → (g.granule.base + g.offset) % 4096 = 0) →
      partition_list env hw fuel done rest s = some (rc, s') → created_aligned s s' := by
  intro rest
  induction rest with
  | nil =>
    intro done s rc s' _ h
    simp only [partition_list, Option.some.injEq, Prod.mk.injEq] at h
    obtain ⟨_, rfl⟩ := h
    exact created_aligned_of_eq rfl
  | cons g rest ih =>
    intro done s rc s' hbase h
    simp only [partition_list] at h
    split at h
    · simp at h
    · rename_i g1 s1 heq
      simp only [Option.some.injEq, Prod.mk.injEq] at h
      obtain ⟨_, rfl⟩ := h
      obtain ⟨c1, _⟩ := partition_granule_spec env hw fuel g s false g1 s1
        (hbase g (List.mem_cons_self g rest)) heq
      exact created_aligned_trans c1 (created_aligned_of_eq rfl)
    · rename_i g1 s1 heq
      obtain ⟨c1, _⟩ := partition_granule_spec env hw fuel g s true g1 s1
        (hbase g (List.mem_cons_self g rest)) heq
      exact created_aligned_trans c1
        (ih _ s1 rc s' (fun g' hg' => hbase g' (List.mem_cons_of_mem g hg')) h)

/-- C9 amended: for process granules whose start address (granule base plus watermark, the
watermark being 0 for a newly reserved granule) is a multiple of 4 KiB, on every
configuration of usable classes, every block that `partition_task_mem` creates is put at the
head of the list of its class and starts at a physical address (granule base + block
offset) that is a multiple of its class's size. -/
theorem partition_blocks_aligned (env : Env) (hw : Hw) (fuel : Nat) (s s' : mos_process_t)
    (rc : Int)
    (hbase : ∀ g, g ∈ s.lwkmem_list → (g.granule.base + g.offset) % 4096 = 0)
    (h : partition_task_mem env hw fuel s = some (rc, s')) :
    ∀ k, k < 4 → ∃ created, s'.blk_list k = created ++ s.blk_list k ∧
      ∀ b, b ∈ created → blk_addr b % kind_size_u k = 0 :=
  partition_list_spec env hw fuel s.lwkmem_list [] s rc s' hbase h

set_option maxRecDepth 100000 in
theorem partition_blocks_aligned_witness :
    (∀ g, g ∈ proc_reserved_3m.lwkmem_list → (g.granule.base + g.offset) % 4096 = 0) ∧
    ∃ s', partition_task_mem env_ok hw_x86_64 10 proc_reserved_3m = some (0, s') ∧
      ∀ k, k < 4 → ∃ created, s'.blk_list k = created ++ proc_reserved_3m.blk_list k ∧
        ∀ b, b ∈ created → blk_addr b % kind_size_u k = 0 :=
  ⟨by decide, _, rfl,
    partition_blocks_aligned env_ok hw_x86_64 10 proc_reserved_3m _ 0 (by decide) rfl⟩

/-! ## Termination of the searches -/

theorem upd2_same {α β : Type} [DecidableEq β] (a : Nat → β → α) (i : Nat) (j : β) (v : α) :
    upd2 a i j v i j = v := by
  simp [upd2]

theorem cursors_ok_of_cursor_only_eq {opts : allocate_options_t} {s s1 : mos_process_t}
    (h : cursors_ok opts s) (he : s1.domain_order_index = s.domain_order_index) :
    cursors_ok opts s1 := by
  intro t knd hn
  rw [he]
  exact h t knd hn

theorem cursors_ok_upd2 {opts : allocate_options_t} {s : mos_process_t}
    (h : cursors_ok opts s) (t knd v : Nat) (hv : opts.nid_order_len t ≠ 0 → v < opts.nid_order_len t) :
    cursors_ok opts { s with domain_order_index := upd2 s.domain_order_index t knd v } := by
  intro t' knd' hn
  show upd2 s.domain_order_index t knd v t' knd' < _
  unfold upd2
  split_ifs with hc
  · obtain ⟨rfl, rfl⟩ := hc
    exact hv hn
  · exact h t' knd' hn

/-- The `do … while` loop of `find_available_by_nid_list` ends within `nid_order_len[t]`
iterations when it starts with the cursor inside the list. -/
theorem nid_do_while_terminates (opts : allocate_options_t) (knd t start : Nat)
    (hstart : start < opts.nid_order_len t) (r : Nat) :
    ∀ (i : Nat) (s : mos_process_t), i + r = opts.nid_order_len t → 1 ≤ r →
      s.domain_order_index t knd = (start + i) % opts.nid_order_len t → cursors_ok opts s →
      ∀ fuel, r ≤ fuel →
        ∃ res s1, nid_do_while opts knd t start fuel s = some (res, s1) ∧ cursors_ok opts s1 := by
  induction r with
  | zero => intro i s _ h1; omega
  | succ r ih =>
    intro i s hi _ hc hok fuel hfuel
    obtain ⟨fuel', rfl⟩ : ∃ f, fuel = f + 1 := ⟨fuel - 1, by omega⟩
    have hn : opts.nid_order_len t ≠ 0 := by omega
    have hnpos : 0 < opts.nid_order_len t := by omega
    simp only [nid_do_while]
    have hok1 := cursors_ok_upd2 hok t knd
      ((s.domain_order_index t knd + 1) % opts.nid_order_len t) (fun _ => Nat.mod_lt _ hnpos)
    split
    · exact ⟨_, _, rfl, hok1⟩
    · simp only [upd2_same]
      have hnext : (s.domain_order_index t knd + 1) % opts.nid_order_len t =
          (start + (i + 1)) % opts.nid_order_len t := by
        rw [hc, Nat.mod_add_mod, Nat.add_assoc]
      by_cases hne : (s.domain_order_index t knd + 1) % opts.nid_order_len t ≠ start
      · rw [if_pos hne]
        by_cases hr : r = 0
        · exfalso
          apply hne
          rw [hnext]
          have : start + (i + 1) = start + opts.nid_order_len t := by omega
          rw [this, Nat.add_mod_right, Nat.mod_eq_of_lt hstart]
        · exact ih (i + 1) _ (by omega) (by omega) (by simp only [upd2_same]; exact hnext)
            hok1 fuel' (by omega)
      · rw [if_neg hne]
        exact ⟨_, _, rfl, hok1⟩

theorem nid_types_terminates (opts : allocate_options_t) (knd fuel : Nat) (n : Nat) :
    ∀ (i0 : Nat) (s : mos_process_t), cursors_ok opts s →
      (∀ i, i0 ≤ i → i < i0 + n → opts.nid_order_len (opts.type_order i) ≤ fuel) →
      ∃ res s1, nid_types opts knd fuel n i0 s = some (res, s1) ∧ cursors_ok opts s1 := by
  induction n with
  | zero => intro i0 s hok _; exact ⟨_, _, rfl, hok⟩
  | succ n ih =>
    intro i0 s hok hfuel
    simp only [nid_types]
    by_cases hz : opts.nid_order_len (opts.type_order i0) = 0
    · rw [if_pos hz]
      exact ih (i0 + 1) s hok (fun i h1 h2 => hfuel i (by omega) (by omega))
    · rw [if_neg hz]
      have hmain : ∀ s0 : mos_process_t, cursors_ok opts s0 →
          ∃ res s1, (match nid_do_while opts knd (opts.type_order i0)
              (s0.domain_order_index (opts.type_order i0) knd) fuel s0 with
            | none => none
            | some (some r, s1) => some (r, s1)
            | some (none, s1) => nid_types opts knd fuel n (i0 + 1) s1) = some (res, s1) ∧
            cursors_ok opts s1 := by
        intro s0 hok0
        obtain ⟨res, s1, hres, hok1⟩ := nid_do_while_terminates opts knd (opts.type_order i0)
          _ (hok0 _ knd hz) (opts.nid_order_len (opts.type_order i0)) 0 s0 (by omega)
          (Nat.pos_of_ne_zero hz) (by rw [Nat.add_zero, Nat.mod_eq_of_lt (hok0 _ knd hz)]) hok0
          fuel (hfuel i0 (le_refl _) (by omega))
        rw [hres]
        cases res with
        | some r => exact ⟨_, _, rfl, hok1⟩
        | none => exact ih (i0 + 1) s1 hok1 (fun i h1 h2 => hfuel i (by omega) (by omega))
      by_cases hdis : s.lwkmem_interleave_disable = true
      · rw [if_pos hdis]
        exact hmain _ (cursors_ok_upd2 hok _ _ _ (fun h => Nat.pos_of_ne_zero h))
      · rw [if_neg hdis]
        exact hmain s hok

/-- With `search_fuel opts` fuel, a search for a free block returns, and leaves the cursors
inside the domain lists. -/
theorem find_available_terminates (opts : allocate_options_t) (knd : Nat) (s : mos_process_t)
    (hok : cursors_ok opts s) (fuel : Nat) (hfuel : search_fuel opts ≤ fuel) :
    ∃ res s1, find_available fuel opts knd s = some (res, s1) ∧ cursors_ok opts s1 := by
  unfold find_available
  split
  · exact ⟨_, _, rfl, hok⟩
  · unfold find_available_by_nid_list lwkmem_type_last
    apply nid_types_terminates opts knd fuel 2 0 s hok
    intro i h1 h2
    unfold search_fuel at hfuel
    have : i = 0 ∨ i = 1 := by omega
    rcases this with rfl | rfl <;> omega

/-! ## Termination measure -/

theorem weight_upd (s s' : mos_process_t) {k : Nat} (hk : k < 4) (l : List blk_list)
    (h : s'.blk_list = upd s.blk_list k l) :
    weight s' = weight s - list_weight k (s.blk_list k) + list_weight k l := by
  unfold weight
  rw [h]
  rcases kind_lt_four_cases hk with rfl | rfl | rfl | rfl <;>
    simp [upd] <;> ring

theorem weight_upd_upd (s s' : mos_process_t) {k j : Nat} (hk : k < 4) (hj : j < 4)
    (hne : k ≠ j) (l l' : List blk_list) (h : s'.blk_list = upd (upd s.blk_list j l') k l) :
    weight s' = weight s - list_weight j (s.blk_list j) + list_weight j l' -
      list_weight k (s.blk_list k) + list_weight k l := by
  unfold weight
  rw [h]
  rcases kind_lt_four_cases hk with rfl | rfl | rfl | rfl <;>
    rcases kind_lt_four_cases hj with rfl | rfl | rfl | rfl <;>
    first
      | exact absurd rfl hne
      | (simp [upd]; ring)

theorem weight_of_blk_list_eq {s s' : mos_process_t} (h : s'.blk_list = s.blk_list) :
    weight s' = weight s := by
  unfold weight; rw [h]

theorem class_weight_nonneg (k : Nat) : 0 ≤ class_weight k := by
  unfold class_weight
  split <;> omega

theorem list_weight_nonneg (k : Nat) (l : List blk_list) : 0 ≤ list_weight k l := by
  unfold list_weight
  apply List.sum_nonneg
  intro x hx
  simp only [List.mem_map] at hx
  obtain ⟨b, _, rfl⟩ := hx
  split_ifs
  · have := class_weight_nonneg k
    positivity
  · exact le_refl 0

theorem weight_nonneg (s : mos_process_t) : 0 ≤ weight s := by
  unfold weight
  have h0 := list_weight_nonneg 0 (s.blk_list 0)
  have h1 := list_weight_nonneg 1 (s.blk_list 1)
  have h2 := list_weight_nonneg 2 (s.blk_list 2)
  have h3 := list_weight_nonneg 3 (s.blk_list 3)
  omega

theorem list_weight_cons (k : Nat) (b : blk_list) (l : List blk_list) :
    list_weight k (b :: l) =
      (if b.free then 1 + (b.num_blks : Int) * class_weight k else 0) + list_weight k l := by
  simp [list_weight]

theorem list_weight_set (k : Nat) {l : List blk_list} {i : Nat} {e : blk_list}
    (x : blk_list) (h : l[i]? = some e) :
    list_weight k (l.set i x) = list_weight k l -
      (if e.free then 1 + (e.num_blks : Int) * class_weight k else 0) +
      (if x.free then 1 + (x.num_blks : Int) * class_weight k else 0) := by
  unfold list_weight
  exact sum_map_set _ l i e x h

theorem list_weight_eraseIdx (k : Nat) {l : List blk_list} {i : Nat} {e : blk_list}
    (h : l[i]? = some e) :
    list_weight k (l.eraseIdx i) = list_weight k l -
      (if e.free then 1 + (e.num_blks : Int) * class_weight k else 0) := by
  unfold list_weight
  exact sum_map_eraseIdx _ l i e h

theorem list_weight_insert_after (k : Nat) (l : List blk_list) (i : Nat) (x : blk_list) :
    list_weight k (insert_after l i x) = list_weight k l +
      (if x.free then 1 + (x.num_blks : Int) * class_weight k else 0) := by
  unfold list_weight
  exact sum_map_insert_after _ l i x

/-- One unit of a class weighs more than the block of the smaller class it is divided
into. -/
theorem weight_ratio {knd nxt : Nat} (h1 : knd < nxt) (h2 : nxt < 4) :
    1 + ((cdiv (kind_size nxt) (kind_size knd)).toNat : Int) * class_weight knd ≤
      class_weight nxt := by
  have hk : knd < 4 := by omega
  rcases kind_lt_four_cases hk with rfl | rfl | rfl | rfl <;>
    rcases kind_lt_four_cases h2 with rfl | rfl | rfl | rfl <;>
    first
      | omega
      | decide

theorem divide_consume_weight (env : Env) {knd nxt : Nat} (h1 : knd < nxt) (h2 : nxt < 4)
    {s1 s2 : mos_process_t} {i : Nat} {elt : blk_list} {r : Option (Nat × blk_list)}
    (hv : valid_free s1 nxt i elt) (h : divide_consume env knd nxt s1 i elt = (r, s2)) :
    weight s2 ≤ weight s1 ∧ s2.domain_order_index = s1.domain_order_index := by
  have hk : knd < 4 := by omega
  have hne : knd ≠ nxt := by omega
  have hratio := weight_ratio h1 h2
  have hW := class_weight_nonneg knd
  obtain ⟨hget, hfree⟩ := hv
  unfold divide_consume at h
  split_ifs at h with hgt hvm
  · simp only [Prod.mk.injEq] at h
    obtain ⟨_, rfl⟩ := h
    refine ⟨?_, rfl⟩
    rw [weight_upd_upd s1 _ hk h2 hne _ _ rfl, list_weight_cons, list_weight_set nxt _ hget]
    simp only [hfree, if_true]
    have : ((elt.num_blks - 1 : Nat) : Int) = (elt.num_blks : Int) - 1 := by omega
    rw [this]
    linarith
  · simp only [Prod.mk.injEq] at h
    obtain ⟨_, rfl⟩ := h
    exact ⟨le_of_eq (weight_of_blk_list_eq rfl), rfl⟩
  · simp only [Prod.mk.injEq] at h
    obtain ⟨_, rfl⟩ := h
    refine ⟨?_, rfl⟩
    rw [weight_upd_upd s1 _ hk h2 hne _ _ rfl, list_weight_cons, list_weight_eraseIdx nxt hget]
    simp only [hfree, if_true]
    have hu : elt.num_blks = 0 ∨ elt.num_blks = 1 := by omega
    rcases hu with hu | hu
    · rw [hu]; simp
    · rw [hu]; push_cast; linarith

/-- Rule for `divide_block`: a relation between states that holds across a search and
across the consumption of a free block of the next larger kind holds across the call. -/
theorem divide_block_rel (env : Env) (hw : Hw) (opts : allocate_options_t)
    (R : mos_process_t → mos_process_t → Prop)
    (hrefl : ∀ s, R s s) (htrans : ∀ s s1 s2, R s s1 → R s1 s2 → R s s2)
    (hcur : ∀ s s1, cursor_only s s1 → R s s1)
    (hcons : ∀ knd nxt s i elt r s2, knd < nxt → nxt < 4 → valid_free s nxt i elt →
      divide_consume env knd nxt s i elt = (r, s2) → R s s2)
    (fuel : Nat) :
    ∀ {knd : Nat} {s s1 : mos_process_t} {r : Option (Nat × blk_list)}, knd < 4 →
      divide_block env hw opts fuel knd s = some (r, s1) → R s s1 := by
  induction fuel with
  | zero => intro knd s s1 r _ h; simp [divide_block] at h
  | succ fuel ih =>
    intro knd s s1 r hk h
    simp only [divide_block] at h
    have hge := next_larger_ge hw kind_last (knd + 1)
    split_ifs at h with hlast
    · simp only [Option.some.injEq, Prod.mk.injEq] at h
      obtain ⟨_, rfl⟩ := h
      exact hrefl s
    · have hnxt : next_larger hw kind_last (knd + 1) < 4 := by
        unfold kind_last at hlast ⊢; omega
      split at h
      · simp at h
      · rename_i i elt s' heq
        simp only [Option.some.injEq] at h
        obtain ⟨hc, hv⟩ := find_available_spec heq
        exact htrans _ _ _ (hcur _ _ hc)
          (hcons knd _ s' i elt r s1 (by omega) hnxt (hv i elt rfl) h)
      · rename_i s' heq
        obtain ⟨hc, _⟩ := find_available_spec heq
        split at h
        · simp at h
        · rename_i s2 heq2
          simp only [Option.some.injEq, Prod.mk.injEq] at h
          obtain ⟨_, rfl⟩ := h
          exact htrans _ _ _ (hcur _ _ hc) (ih hnxt heq2)
        · rename_i i elt s2 heq2
          simp only [Option.some.injEq] at h
          have hv := (divide_block_spec env hw opts fuel hnxt heq2).2.2 i elt rfl
          exact htrans _ _ _ (hcur _ _ hc) (htrans _ _ _ (ih hnxt heq2)
            (hcons knd _ s2 i elt r s1 (by omega) hnxt hv h))

theorem divide_block_weight (env : Env) (hw : Hw) (opts : allocate_options_t) (fuel : Nat)
    {knd : Nat} {s s1 : mos_process_t} {r : Option (Nat × blk_list)} (hk : knd < 4)
    (h : divide_block env hw opts fuel knd s = some (r, s1)) : weight s1 ≤ weight s :=
  divide_block_rel env hw opts (fun s s1 => weight s1 ≤ weight s)
    (fun _ => le_refl _) (fun _ _ _ h1 h2 => le_trans h2 h1)
    (fun _ _ hc => le_of_eq (weight_of_blk_list_eq (cursor_only_blk_list hc)))
    (fun _ _ _ _ _ _ _ h1 h2 hv hd => (divide_consume_weight env h1 h2 hv hd).1)
    fuel hk h

/-! ## Termination of `divide_block` and of the allocation loops -/

theorem divide_consume_cursors {env : Env} {opts : allocate_options_t} {knd nxt : Nat}
    {s1 s2 : mos_process_t} {i : Nat} {elt : blk_list} {r : Option (Nat × blk_list)}
    (hok : cursors_ok opts s1) (h : divide_consume env knd nxt s1 i elt = (r, s2)) :
    cursors_ok opts s2 := by
  unfold divide_consume at h
  split_ifs at h <;>
  · simp only [Prod.mk.injEq] at h
    obtain ⟨_, rfl⟩ := h
    exact cursors_ok_of_cursor_only_eq hok rfl

theorem divide_block_terminates (env : Env) (hw : Hw) (opts : allocate_options_t) (d : Nat) :
    ∀ (knd : Nat) (s : mos_process_t), 4 ≤ knd + d → cursors_ok opts s →
      ∀ fuel, search_fuel opts + d + 1 ≤ fuel →
        ∃ r s1, divide_block env hw opts fuel knd s = some (r, s1) ∧ cursors_ok opts s1 := by
  induction d with
  | zero =>
    intro knd s hk hok fuel hfuel
    obtain ⟨fuel', rfl⟩ : ∃ f, fuel = f + 1 := ⟨fuel - 1, by omega⟩
    simp only [divide_block]
    have hge := next_larger_ge hw kind_last (knd + 1)
    have h4 : kind_last = 4 := rfl
    rw [if_pos (by omega)]
    exact ⟨_, _, rfl, hok⟩
  | succ d ih =>
    intro knd s hk hok fuel hfuel
    obtain ⟨fuel', rfl⟩ : ∃ f, fuel = f + 1 := ⟨fuel - 1, by omega⟩
    simp only [divide_block]
    have hge := next_larger_ge hw kind_last (knd + 1)
    by_cases hlast : next_larger hw kind_last (knd + 1) ≥ kind_last
    · rw [if_pos hlast]
      exact ⟨_, _, rfl, hok⟩
    · rw [if_neg hlast]
      obtain ⟨res, s1, hres, hok1⟩ := find_available_terminates opts
        (next_larger hw kind_last (knd + 1)) s hok fuel' (by omega)
      rw [hres]
      cases res with
      | some e =>
        obtain ⟨i, elt⟩ := e
        simp only
        exact ⟨_, _, rfl, divide_consume_cursors hok1 rfl⟩
      | none =>
        simp only
        obtain ⟨r2, s2, hres2, hok2⟩ := ih (next_larger hw kind_last (knd + 1)) s1 (by omega)
          hok1 fuel' (by omega)
        rw [hres2]
        cases r2 with
        | some e =>
          obtain ⟨i, elt⟩ := e
          simp only
          exact ⟨_, _, rfl, divide_consume_cursors hok2 rfl⟩
        | none => exact ⟨_, _, rfl, hok2⟩

/-- Taking a block does not raise the termination measure, and lowers it when demand is
left for the class. -/
theorem grab_block_weight (env : Env) {prot pgoff : Nat} {len : Int} {k : Nat}
    {l l1 : alloc_locals} {s s1 : mos_process_t} {i : Nat} {elt : blk_list}
    (hk : k < 4) (hv : valid_free s k i elt) (hw0 : 0 < l.wanted k)
    (h : grab_block env prot pgoff len k l s i elt = (alloc_flow.next l1, s1)) :
    weight s1 ≤ weight s ∧ (0 < l1.wanted k → weight s1 + 1 ≤ weight s) ∧
      s1.domain_order_index = s.domain_order_index := by
  obtain ⟨hget, hfree⟩ := hv
  have hW := class_weight_nonneg k
  unfold grab_block at h
  simp only at h
  by_cases hlt : l.wanted k < (elt.num_blks : Int)
  · rw [if_pos hlt] at h
    split_ifs at h <;>
      simp only [Prod.mk.injEq, alloc_flow.next.injEq, reduceCtorEq, false_and] at h
    all_goals
      obtain ⟨rfl, rfl⟩ := h
      refine ⟨?_, fun hpos => by simp at hpos, rfl⟩
      rw [weight_upd s _ hk _ rfl, list_weight_insert_after, list_weight_set k _ hget]
      simp only [hfree, if_true, Bool.false_eq_true, if_false]
      have : ((elt.num_blks - (l.wanted k).toNat : Nat) : Int) =
          (elt.num_blks : Int) - l.wanted k := by omega
      rw [this]
      have := mul_nonneg (le_of_lt hw0) hW
      linarith
  · rw [if_neg hlt] at h
    split_ifs at h <;>
      simp only [Prod.mk.injEq, alloc_flow.next.injEq, reduceCtorEq, false_and] at h
    all_goals
      obtain ⟨rfl, rfl⟩ := h
      have hnn : 0 ≤ (elt.num_blks : Int) * class_weight k :=
        mul_nonneg (Int.ofNat_nonneg elt.num_blks) hW
      refine ⟨?_, fun _ => ?_, rfl⟩ <;>
      · rw [weight_upd s _ hk _ rfl, list_weight_set k _ hget]
        simp only [hfree, if_true, Bool.false_eq_true, if_false]
        linarith

theorem grab_block_cursors {env : Env} {opts : allocate_options_t} {prot pgoff : Nat}
    {len : Int} {k : Nat} {l : alloc_locals} {s s1 : mos_process_t} {i : Nat} {elt : blk_list}
    {f : alloc_flow} (hok : cursors_ok opts s)
    (h : grab_block env prot pgoff len k l s i elt = (f, s1)) : cursors_ok opts s1 := by
  unfold grab_block at h
  simp only at h
  split_ifs at h <;>
  · simp only [Prod.mk.injEq] at h
    obtain ⟨_, rfl⟩ := h
    exact cursors_ok_of_cursor_only_eq hok rfl

/-- The loop `while (wanted[k] > 0)` ends: `search_fuel opts + 6 + m` fuel is enough when
the termination measure is below `m`. -/
theorem allocate_while_terminates (env : Env) (hw : Hw) (opts : allocate_options_t)
    (prot pgoff : Nat) (len : Int) {k : Nat} (hk : k < 4) (m : Nat) :
    ∀ (l : alloc_locals) (s : mos_process_t), cursors_ok opts s →
      (0 < l.wanted k → weight s + 1 ≤ m) →
      ∀ fuel, search_fuel opts + 6 + m ≤ fuel →
        ∃ f s', allocate_while env hw opts prot pgoff len k fuel l s = some (f, s') ∧
          (∀ l', f = alloc_flow.next l' → weight s' ≤ weight s ∧ cursors_ok opts s') := by
  induction m with
  | zero =>
    intro l s hok hm fuel hfuel
    obtain ⟨fuel', rfl⟩ : ∃ f, fuel = f + 1 := ⟨fuel - 1, by omega⟩
    have hnot : ¬ 0 < l.wanted k := by
      intro h
      have := hm h
      have := weight_nonneg s
      omega
    simp only [allocate_while, if_neg hnot]
    exact ⟨_, _, rfl, fun l' _ => ⟨le_refl _, hok⟩⟩
  | succ m ih =>
    intro l s hok hm fuel hfuel
    obtain ⟨fuel', rfl⟩ : ∃ f, fuel = f + 1 := ⟨fuel - 1, by omega⟩
    simp only [allocate_while]
    by_cases hpos : 0 < l.wanted k
    · rw [if_pos hpos]
      have hws : weight s ≤ m := by have := hm hpos; omega
      -- what happens once a free block is in hand
      have hgrab : ∀ (s1 : mos_process_t) (i : Nat) (elt : blk_list), cursors_ok opts s1 →
          weight s1 ≤ weight s → valid_free s1 k i elt →
          ∃ f s', (match grab_block env prot pgoff len k l s1 i elt with
            | (alloc_flow.next l1, s2) =>
              allocate_while env hw opts prot pgoff len k fuel' l1 s2
            | (alloc_flow.quit e, s2) => some (alloc_flow.quit e, s2)) = some (f, s') ∧
            (∀ l', f = alloc_flow.next l' → weight s' ≤ weight s ∧ cursors_ok opts s') := by
        intro s1 i elt hok1 hw1 hv
        generalize hg : grab_block env prot pgoff len k l s1 i elt = g
        obtain ⟨f, s2⟩ := g
        cases f with
        | next l1 =>
          simp only
          obtain ⟨g1, g2, _⟩ := grab_block_weight env hk hv hpos hg
          obtain ⟨f', s', hres, hf'⟩ := ih l1 s2 (grab_block_cursors hok1 hg)
            (fun h => by have := g2 h; omega) fuel' (by omega)
          refine ⟨f', s', hres, fun l' hl' => ?_⟩
          obtain ⟨a1, a2⟩ := hf' l' hl'
          exact ⟨by omega, a2⟩
        | quit e =>
          simp only
          exact ⟨_, _, rfl, fun l' hl' => by simp at hl'⟩
      obtain ⟨res, s1, hres, hok1⟩ := find_available_terminates opts k s hok fuel' (by omega)
      have hw1 : weight s1 = weight s :=
        weight_of_blk_list_eq (cursor_only_blk_list (find_available_spec hres).1)
      rw [hres]
      cases res with
      | some e =>
        obtain ⟨i, elt⟩ := e
        simp only
        exact hgrab s1 i elt hok1 (le_of_eq hw1) ((find_available_spec hres).2 i elt rfl)
      | none =>
        simp only
        obtain ⟨r2, s2, hres2, hok2⟩ := divide_block_terminates env hw opts 4 k s1 (by omega)
          hok1 fuel' (by omega)
        have hw2 := divide_block_weight env hw opts fuel' hk hres2
        rw [hres2]
        cases r2 with
        | some e =>
          obtain ⟨i, elt⟩ := e
          simp only
          exact hgrab s2 i elt hok2 (by omega)
            ((divide_block_spec env hw opts fuel' hk hres2).2.2 i elt rfl)
        | none =>
          simp only
          by_cases hk0 : k > 0
          · rw [if_pos hk0]
            obtain ⟨f', s', hres', hf'⟩ := ih { l with wanted := fold_wanted l.wanted k } s2 hok2
              (fun h => by simp [fold_wanted_self] at h) fuel' (by omega)
            refine ⟨f', s', hres', fun l' hl' => ?_⟩
            obtain ⟨a1, a2⟩ := hf' l' hl'
            exact ⟨by omega, a2⟩
          · rw [if_neg hk0]
            exact ⟨_, _, rfl, fun l' hl' => by simp at hl'⟩
    · rw [if_neg hpos]
      exact ⟨_, _, rfl, fun l' _ => ⟨le_refl _, hok⟩⟩

/-- The class loop of `allocate_blocks` ends. -/
theorem allocate_kinds_terminates (env : Env) (hw : Hw) (opts : allocate_options_t)
    (prot pgoff : Nat) (len : Int) (fuel : Nat) (n : Nat) :
    ∀ (l : alloc_locals) (s : mos_process_t), n ≤ 4 → cursors_ok opts s →
      search_fuel opts + 7 + (weight s).toNat ≤ fuel →
      ∃ e s', allocate_kinds env hw opts prot pgoff len fuel n l s = some (e, s') := by
  induction n with
  | zero =>
    intro l s _ _ _
    simp only [allocate_kinds]
    split_ifs <;> exact ⟨_, _, rfl⟩
  | succ k ih =>
    intro l s hn hok hfuel
    have hk : k < 4 := by omega
    simp only [allocate_kinds]
    by_cases hle : l.wanted k ≤ 0
    · rw [if_pos hle]
      exact ih l s (by omega) hok hfuel
    · rw [if_neg hle]
      by_cases hun : num_dTLB hw k = 0
      · rw [if_pos hun]
        by_cases hk0 : k = 0
        · rw [if_pos hk0]
          exact ⟨_, _, rfl⟩
        · rw [if_neg hk0]
          exact ih _ s (by omega) hok hfuel
      · rw [if_neg hun]
        have hwn := weight_nonneg s
        obtain ⟨f, s1, hres, hf⟩ := allocate_while_terminates env hw opts prot pgoff len hk
          ((weight s).toNat + 1) l s hok (fun _ => by push_cast; omega) fuel (by omega)
        rw [hres]
        cases f with
        | next l1 =>
          simp only
          obtain ⟨a1, a2⟩ := hf l1 rfl
          have hwn1 := weight_nonneg s1
          exact ih l1 s1 (by omega) a2 (by omega)
        | quit e => exact ⟨_, _, rfl⟩

/-! ## Out of memory -/

theorem list_free_bytes_nonneg {k : Nat} (hk : k < 4) (l : List blk_list) :
    0 ≤ list_free_bytes k l := by
  unfold list_free_bytes
  apply List.sum_nonneg
  intro x hx
  simp only [List.mem_map] at hx
  obtain ⟨b, _, rfl⟩ := hx
  split_ifs
  · unfold blk_bytes
    have := kind_size_pos hk
    positivity
  · exact le_refl 0

theorem free_bytes_nonneg (s : mos_process_t) : 0 ≤ free_bytes s := by
  unfold free_bytes lists_free_bytes
  have h0 := list_free_bytes_nonneg (show 0 < 4 by omega) (s.blk_list 0)
  have h1 := list_free_bytes_nonneg (show 1 < 4 by omega) (s.blk_list 1)
  have h2 := list_free_bytes_nonneg (show 2 < 4 by omega) (s.blk_list 2)
  have h3 := list_free_bytes_nonneg (show 3 < 4 by omega) (s.blk_list 3)
  omega

/-- When the mapping collaborator never fails, `allocate_blocks` never leaves through the
exit for a failed mapping. -/
theorem allocate_blocks_no_build_failure (env : Env) (hw : Hw) (fuel : Nat) (addr : Nat)
    (len : Int) (prot mmap_flags pgoff : Nat) (opts : allocate_options_t)
    {s s' : mos_process_t} {e : alloc_exit}
    (hbuild : ∀ t knd a n pr fl pg ph tl, 0 < env.build_lwkvma t knd a n pr fl pg ph tl)
    (h : allocate_blocks env hw fuel addr len prot mmap_flags pgoff opts s = some (e, s')) :
    ∀ a, e ≠ alloc_exit.build_failed a := by
  unfold allocate_blocks at h
  simp only at h
  refine allocate_kinds_inv env hw opts prot pgoff _ fuel (fun _ _ _ => True)
    (fun e _ => ∀ a, e ≠ alloc_exit.build_failed a)
    (fun _ _ _ _ _ _ _ _ _ => trivial) (fun _ _ _ _ _ _ _ _ _ => trivial)
    (fun _ _ _ _ _ _ _ _ _ _ _ _ => trivial) ?_ (fun _ _ _ _ _ _ _ => trivial)
    (fun _ _ _ _ a ha => by simp at ha) (fun _ _ _ _ _ _ => trivial)
    (fun _ _ _ _ a ha => by simp at ha) (fun _ _ _ _ a ha => by simp at ha)
    4 (le_refl 4) _ s trivial e s' h
  intro k l s i elt e s1 _ _ _ _ hg a ha
  obtain ⟨_, _, e3⟩ := grab_block_quit_spec env hg
  rcases e3 with rfl | ⟨b, hb, rfl, t, kk, ad, ln, pr, fl, pg, ph, tl, rfl⟩
  · simp at ha
  · have := hbuild t kk ad ln pr fl pg ph tl
    omega

/-- C2: if `len ≥ 0` rounded up to 4 KiB is larger than the bytes held in the free blocks
of the process, `allocate_blocks` returns `-ENOMEM`, for both search policies, when the
4 KiB class is below the ceiling (it always has dTLB entries), the mapping collaborator
never fails and the rotating cursors are inside their domain lists: with enough fuel the
call returns, and what it returns is `-ENOMEM`. -/
theorem allocate_blocks_out_of_memory (env : Env) (hw : Hw) (addr : Nat) (len : Int)
    (prot mmap_flags pgoff : Nat) (opts : allocate_options_t) (s : mos_process_t)
    (hlen : 0 ≤ len) (hceil : kind_size kind_4k ≤ opts.max_page_size)
    (hshort : free_bytes s < roundup len (kind_size kind_4k))
    (hbuild : ∀ t knd a n pr fl pg ph tl, 0 < env.build_lwkvma t knd a n pr fl pg ph tl)
    (hcur : cursors_ok opts s) :
    ∃ fuel0, ∀ fuel, fuel0 ≤ fuel →
      ∃ e s', allocate_blocks env hw fuel addr len prot mmap_flags pgoff opts s = some (e, s') ∧
        e.ret = -ENOMEM := by
  refine ⟨search_fuel opts + 7 + (weight s).toNat, fun fuel hfuel => ?_⟩
  obtain ⟨e, s', hres⟩ : ∃ e s', allocate_blocks env hw fuel addr len prot mmap_flags pgoff
      opts s = some (e, s') := by
    unfold allocate_blocks
    exact allocate_kinds_terminates env hw opts prot pgoff _ fuel kind_last _ s (le_refl 4)
      hcur hfuel
  refine ⟨e, s', hres, ?_⟩
  obtain ⟨r1, r2, _, _⟩ := roundup_4k len hlen
  have hT := blocks_wanted_total_len hw opts (roundup len (kind_size 0)) r1 r2 hceil
  obtain ⟨_, _, _, h4, h5⟩ := allocate_blocks_accounting env hw fuel addr len prot mmap_flags
    pgoff opts hres
  have hnb := allocate_blocks_no_build_failure env hw fuel addr len prot mmap_flags pgoff opts
    hbuild hres
  cases e with
  | returned p =>
    exfalso
    obtain ⟨e1, _⟩ := h5 p rfl
    rw [hT] at e1
    have := free_bytes_nonneg s'
    have hk : kind_size kind_4k = kind_size 0 := rfl
    rw [hk] at hshort
    omega
  | block_list_empty => rfl
  | build_failed a => exact absurd rfl (hnb a)
  | vmalloc_failed => rfl
  | bytes_unallocated t => rfl
  | wanted_underflow => exact absurd rfl h4

theorem allocate_blocks_out_of_memory_witness :
    (0 : Int) ≤ 8192 ∧ kind_size kind_4k ≤ opts_default.max_page_size ∧
    free_bytes proc_one_4k < roundup 8192 (kind_size kind_4k) ∧
    (∀ t knd a n pr fl pg ph tl, 0 < env_never_fails.build_lwkvma t knd a n pr fl pg ph tl) ∧
    cursors_ok opts_default proc_one_4k ∧
    ∃ fuel0, ∀ fuel, fuel0 ≤ fuel →
      ∃ e s', allocate_blocks env_never_fails hw_x86_64 fuel 0 8192 0 0 0 opts_default
          proc_one_4k = some (e, s') ∧ e.ret = -ENOMEM :=
  have hb : ∀ t knd a n pr fl pg ph tl,
      0 < env_never_fails.build_lwkvma t knd a n pr fl pg ph tl := by
    intro t knd a n pr fl pg ph tl
    simp only [env_never_fails]
    split_ifs <;> omega
  have hc : cursors_ok opts_default proc_one_4k := fun _ _ h => absurd rfl h
  ⟨by decide, by decide, by decide, hb, hc,
    allocate_blocks_out_of_memory env_never_fails hw_x86_64 0 8192 0 0 0 opts_default
      proc_one_4k (by decide) (by decide) (by decide) hb hc⟩

/-! ## Round trip: list membership -/

theorem mem_of_getElem? {α : Type} {l : List α} {i : Nat} {e : α} (h : l[i]? = some e) :
    e ∈ l := by
  rw [List.getElem?_eq_some] at h
  obtain ⟨hi, rfl⟩ := h
  exact List.getElem_mem hi

theorem lt_length_of_getElem? {α : Type} {l : List α} {i : Nat} {e : α}
    (h : l[i]? = some e) : i < l.length := by
  rw [List.getElem?_eq_some] at h
  exact h.1

theorem exists_getElem?_of_mem {α : Type} {l : List α} {b : α} (h : b ∈ l) :
    ∃ j : Nat, l[j]? = some b := by
  obtain ⟨j, hj, rfl⟩ := List.getElem_of_mem h
  exact ⟨j, by simp [hj]⟩

theorem mem_set_of_ne {α : Type} {l : List α} {i : Nat} {e b : α} (x : α)
    (h : l[i]? = some e) (hb : b ∈ l) (hne : b ≠ e) : b ∈ l.set i x := by
  obtain ⟨j, hj⟩ := exists_getElem?_of_mem hb
  have hji : i ≠ j := by
    rintro rfl
    rw [h] at hj
    exact hne (Option.some.inj hj).symm
  apply mem_of_getElem? (i := j)
  rw [List.getElem?_set_ne hji]
  exact hj

theorem mem_set_self {α : Type} {l : List α} {i : Nat} {e : α} (x : α)
    (h : l[i]? = some e) : x ∈ l.set i x :=
  mem_of_getElem? (getElem?_set_self' h)

theorem mem_of_mem_set {α : Type} {l : List α} {i : Nat} {b x : α}
    (h : b ∈ l.set i x) : b = x ∨ b ∈ l := by
  rcases List.mem_or_eq_of_mem_set h with h | h
  · exact Or.inr h
  · exact Or.inl h

theorem mem_eraseIdx_of_ne {α : Type} {l : List α} {i : Nat} {e b : α}
    (h : l[i]? = some e) (hb : b ∈ l) (hne : b ≠ e) : b ∈ l.eraseIdx i := by
  induction l generalizing i with
  | nil => simp at hb
  | cons a as ih =>
    cases i with
    | zero =>
      simp only [List.getElem?_cons_zero, Option.some.injEq] at h
      subst h
      simp only [List.eraseIdx_cons_zero]
      rcases List.mem_cons.mp hb with rfl | hb
      · exact absurd rfl hne
      · exact hb
    | succ i =>
      simp only [List.getElem?_cons_succ] at h
      simp only [List.eraseIdx_cons_succ]
      rcases List.mem_cons.mp hb with rfl | hb
      · exact List.mem_cons_self _ _
      · exact List.mem_cons_of_mem _ (ih h hb)

theorem mem_insert_after {α : Type} {l : List α} {i : Nat} {b x : α} :
    b ∈ insert_after l i x ↔ b = x ∨ b ∈ l := by
  unfold insert_after
  constructor
  · intro h
    rcases List.mem_append.mp h with h | h
    · exact Or.inr (List.mem_of_mem_take h)
    · rcases List.mem_cons.mp h with h | h
      · exact Or.inl h
      · exact Or.inr (List.mem_of_mem_drop h)
  · intro h
    rcases h with rfl | h
    · exact List.mem_append_right _ (List.mem_cons_self _ _)
    · have := List.take_append_drop (i + 1) l
      rw [← this] at h
      rcases List.mem_append.mp h with h | h
      · exact List.mem_append_left _ h
      · exact List.mem_append_right _ (List.mem_cons_of_mem _ h)

/-! ## Round trip: the relation between states -/

theorem step_rel_of_blk_list_eq {s s' : mos_process_t} (h : s'.blk_list = s.blk_list) :
    step_rel s s' [] := by
  refine ⟨fun k b _ hb _ => by rw [h]; exact hb, fun kb hkb => by simp at hkb, fun x => ?_⟩
  unfold free_covers chain_covers
  rw [h]
  simp

theorem chain_covers_append (c1 c2 : List (Nat × blk_list)) (x : Nat) :
    chain_covers (c1 ++ c2) x ↔ chain_covers c1 x ∨ chain_covers c2 x := by
  unfold chain_covers
  constructor
  · rintro ⟨kb, hkb, hc⟩
    rcases List.mem_append.mp hkb with h | h
    · exact Or.inl ⟨kb, h, hc⟩
    · exact Or.inr ⟨kb, h, hc⟩
  · rintro (⟨kb, hkb, hc⟩ | ⟨kb, hkb, hc⟩)
    · exact ⟨kb, List.mem_append_left _ hkb, hc⟩
    · exact ⟨kb, List.mem_append_right _ hkb, hc⟩

theorem step_rel_trans {s s1 s2 : mos_process_t} {n1 n2 : List (Nat × blk_list)}
    (hn1 : ∀ kb, kb ∈ n1 → kb.1 < 4)
    (h1 : step_rel s s1 n1) (h2 : step_rel s1 s2 n2) : step_rel s s2 (n1 ++ n2) := by
  obtain ⟨a1, b1, c1⟩ := h1
  obtain ⟨a2, b2, c2⟩ := h2
  refine ⟨fun k b hk hb hf => a2 k b hk (a1 k b hk hb hf) hf, ?_, ?_⟩
  · intro kb hkb
    rcases List.mem_append.mp hkb with h | h
    · obtain ⟨m, f⟩ := b1 kb h
      exact ⟨a2 kb.1 kb.2 (hn1 kb h) m f, f⟩
    · exact b2 kb h
  · intro x
    rw [c1 x, c2 x, chain_covers_append]
    tauto

theorem step_rel_nil_trans {s s1 s2 : mos_process_t} {n2 : List (Nat × blk_list)}
    (h1 : step_rel s s1 []) (h2 : step_rel s1 s2 n2) : step_rel s s2 n2 := by
  have := step_rel_trans (fun kb hkb => by simp at hkb) h1 h2
  simpa using this

theorem kind_size_u_cast {k : Nat} (hk : k < 4) : (kind_size_u k : Int) = kind_size k := by
  rcases kind_lt_four_cases hk with rfl | rfl | rfl | rfl <;> rfl

theorem ratio_exact_u {knd nxt : Nat} (h1 : knd < nxt) (h2 : nxt < 4) :
    (cdiv (kind_size nxt) (kind_size knd)).toNat * kind_size_u knd = kind_size_u nxt := by
  have hk : knd < 4 := by omega
  rcases kind_lt_four_cases hk with rfl | rfl | rfl | rfl <;>
    rcases kind_lt_four_cases h2 with rfl | rfl | rfl | rfl <;>
    first
      | omega
      | decide

/-- A free block `elt` of class `kE` is replaced by the free blocks `added` and the
assigned blocks `new`, which together cover the same bytes: the states are related by
`step_rel` with the blocks `new`. -/
theorem step_rel_replace {s s' : mos_process_t} {kE : Nat} {elt : blk_list}
    (added new : List (Nat × blk_list))
    (hEm : elt ∈ s.blk_list kE) (hEf : elt.free = true) (hE : kE < 4)
    (h_keep : ∀ k b, b ∈ s.blk_list k → ¬ (k = kE ∧ b = elt) → b ∈ s'.blk_list k)
    (h_inv : ∀ k b, b ∈ s'.blk_list k → b ∈ s.blk_list k ∨ (k, b) ∈ added ∨ (k, b) ∈ new)
    (h_added : ∀ kb, kb ∈ added → kb.1 < 4 ∧ kb.2 ∈ s'.blk_list kb.1 ∧ kb.2.free = true)
    (h_new : ∀ kb, kb ∈ new → kb.2 ∈ s'.blk_list kb.1 ∧ kb.2.free = false)
    (h_cov : ∀ x, covers kE elt x ↔ (chain_covers added x ∨ chain_covers new x)) :
    step_rel s s' new := by
  refine ⟨?_, h_new, fun x => ?_⟩
  · intro k b _ hb hf
    apply h_keep k b hb
    rintro ⟨_, rfl⟩
    rw [hEf] at hf
    exact absurd hf (by simp)
  · constructor
    · rintro ⟨k, hk4, b, hb, hf, hc⟩
      by_cases hbe : k = kE ∧ b = elt
      · obtain ⟨rfl, rfl⟩ := hbe
        rcases (h_cov x).mp hc with ⟨kb, hkb, hc'⟩ | hn
        · obtain ⟨a1, a2, a3⟩ := h_added kb hkb
          exact Or.inl ⟨kb.1, a1, kb.2, a2, a3, hc'⟩
        · exact Or.inr hn
      · exact Or.inl ⟨k, hk4, b, h_keep k b hb hbe, hf, hc⟩
    · rintro (⟨k, hk4, b, hb, hf, hc⟩ | hn)
      · rcases h_inv k b hb with h | h | h
        · exact ⟨k, hk4, b, h, hf, hc⟩
        · exact ⟨kE, hE, elt, hEm, hEf, (h_cov x).mpr (Or.inl ⟨(k, b), h, hc⟩)⟩
        · have := (h_new (k, b) h).2
          simp only at this
          rw [this] at hf
          exact absurd hf (by simp)
      · exact ⟨kE, hE, elt, hEm, hEf, (h_cov x).mpr (Or.inr hn)⟩

theorem chain_covers_nil (x : Nat) : chain_covers [] x ↔ False := by
  simp [chain_covers]

theorem chain_covers_singleton (k : Nat) (b : blk_list) (x : Nat) :
    chain_covers [(k, b)] x ↔ covers k b x := by
  simp [chain_covers]

theorem chain_covers_pair (k1 k2 : Nat) (b1 b2 : blk_list) (x : Nat) :
    chain_covers [(k1, b1), (k2, b2)] x ↔ covers k1 b1 x ∨ covers k2 b2 x := by
  simp [chain_covers]

/-- Dividing changes neither the assigned blocks nor the bytes covered by free blocks. -/
theorem divide_consume_step_rel (env : Env) {knd nxt : Nat} (h1 : knd < nxt) (h2 : nxt < 4)
    {s1 s2 : mos_process_t} {i : Nat} {elt : blk_list} {r : Option (Nat × blk_list)}
    (hv : valid_free s1 nxt i elt) (h : divide_consume env knd nxt s1 i elt = (r, s2)) :
    step_rel s1 s2 [] := by
  have hk : knd < 4 := by omega
  have hne : knd ≠ nxt := by omega
  have hne' : nxt ≠ knd := by omega
  have hratio := ratio_exact_u h1 h2
  obtain ⟨hget, hfree⟩ := hv
  have hmem := mem_of_getElem? hget
  unfold divide_consume at h
  split_ifs at h with hgt hvm
  · -- one unit is cut off the block
    simp only [Prod.mk.injEq] at h
    obtain ⟨_, rfl⟩ := h
    refine step_rel_replace
      [(knd, { phys := elt.phys, offset := elt.offset,
               num_blks := (cdiv (kind_size nxt) (kind_size knd)).toNat, free := true,
               vma_addr := 0 }),
       (nxt, { elt with num_blks := elt.num_blks - 1, offset := elt.offset + kind_size_u nxt })]
      [] hmem hfree h2 ?_ ?_ ?_ (fun kb hkb => by simp at hkb) ?_
    · intro k b hb hbe
      show b ∈ upd (upd s1.blk_list nxt _) knd _ k
      unfold upd
      split_ifs with e1 e2
      · subst e1; exact List.mem_cons_of_mem _ hb
      · subst e2
        exact mem_set_of_ne _ hget hb (fun hbe' => hbe ⟨rfl, hbe'⟩)
      · exact hb
    · intro k b hb
      have hb' : b ∈ upd (upd s1.blk_list nxt _) knd _ k := hb
      unfold upd at hb'
      split_ifs at hb' with e1 e2
      · subst e1
        rcases List.mem_cons.mp hb' with rfl | hb'
        · exact Or.inr (Or.inl (List.mem_cons_self _ _))
        · exact Or.inl hb'
      · subst e2
        rcases mem_of_mem_set hb' with rfl | hb'
        · exact Or.inr (Or.inl (List.mem_cons_of_mem _ (List.mem_cons_self _ _)))
        · exact Or.inl hb'
      · exact Or.inl hb'
    · intro kb hkb
      simp only [List.mem_cons, List.mem_singleton, List.not_mem_nil, or_false] at hkb
      rcases hkb with rfl | rfl
      · refine ⟨hk, ?_, rfl⟩
        show _ ∈ upd (upd s1.blk_list nxt _) knd _ knd
        rw [upd_same]; exact List.mem_cons_self _ _
      · refine ⟨h2, ?_, hfree⟩
        show _ ∈ upd (upd s1.blk_list nxt _) knd _ nxt
        rw [upd_other _ _ hne', upd_same]
        exact mem_set_self _ hget
    · intro x
      rw [chain_covers_pair, chain_covers_nil, or_false]
      unfold covers blk_addr
      simp only
      rw [hratio]
      have : (elt.num_blks - 1) * kind_size_u nxt + kind_size_u nxt =
          elt.num_blks * kind_size_u nxt := by
        have : elt.num_blks = (elt.num_blks - 1) + 1 := by omega
        conv_rhs => rw [this, Nat.add_mul, Nat.one_mul]
      omega
  · simp only [Prod.mk.injEq] at h
    obtain ⟨_, rfl⟩ := h
    exact step_rel_of_blk_list_eq rfl
  · -- the whole block is relabelled
    simp only [Prod.mk.injEq] at h
    obtain ⟨_, rfl⟩ := h
    refine step_rel_replace
      [(knd, { elt with num_blks := elt.num_blks *
          (cdiv (kind_size nxt) (kind_size knd)).toNat })]
      [] hmem hfree h2 ?_ ?_ ?_ (fun kb hkb => by simp at hkb) ?_
    · intro k b hb hbe
      show b ∈ upd (upd s1.blk_list nxt _) knd _ k
      unfold upd
      split_ifs with e1 e2
      · subst e1; exact List.mem_cons_of_mem _ hb
      · subst e2
        exact mem_eraseIdx_of_ne hget hb (fun hbe' => hbe ⟨rfl, hbe'⟩)
      · exact hb
    · intro k b hb
      have hb' : b ∈ upd (upd s1.blk_list nxt _) knd _ k := hb
      unfold upd at hb'
      split_ifs at hb' with e1 e2
      · subst e1
        rcases List.mem_cons.mp hb' with rfl | hb'
        · exact Or.inr (Or.inl (List.mem_cons_self _ _))
        · exact Or.inl hb'
      · subst e2
        exact Or.inl (List.mem_of_mem_eraseIdx hb')
      · exact Or.inl hb'
    · intro kb hkb
      simp only [List.mem_singleton] at hkb
      subst hkb
      refine ⟨hk, ?_, hfree⟩
      show _ ∈ upd (upd s1.blk_list nxt _) knd _ knd
      rw [upd_same]; exact List.mem_cons_self _ _
    · intro x
      rw [chain_covers_singleton, chain_covers_nil, or_false]
      unfold covers blk_addr
      simp only
      rw [Nat.mul_assoc, hratio]

theorem divide_block_step_rel (env : Env) (hw : Hw) (opts : allocate_options_t) (fuel : Nat)
    {knd : Nat} {s s1 : mos_process_t} {r : Option (Nat × blk_list)} (hk : knd < 4)
    (h : divide_block env hw opts fuel knd s = some (r, s1)) : step_rel s s1 [] :=
  divide_block_rel env hw opts (fun s s1 => step_rel s s1 [])
    (fun _ => step_rel_of_blk_list_eq rfl) (fun _ _ _ h1 h2 => step_rel_nil_trans h1 h2)
    (fun _ _ hc => step_rel_of_blk_list_eq (cursor_only_blk_list hc))
    (fun _ _ _ _ _ _ _ h1 h2 hv hd => divide_consume_step_rel env h1 h2 hv hd)
    fuel hk h

theorem or_map_fixed (f : Nat) : (f ||| MAP_FIXED) &&& MAP_FIXED ≠ 0 := by
  have : (f ||| MAP_FIXED) &&& MAP_FIXED = MAP_FIXED := by
    apply Nat.eq_of_testBit_eq
    intro i
    simp only [Nat.testBit_and, Nat.testBit_or]
    cases Nat.testBit f i <;> simp
  rw [this]
  decide

theorem toNat_mul_kind_size {k : Nat} (hk : k < 4) {w : Int} (hw : 0 ≤ w) :
    (w * kind_size k).toNat = w.toNat * kind_size_u k := by
  rcases kind_lt_four_cases hk with rfl | rfl | rfl | rfl <;>
    simp only [kind_size_zero, kind_size_one, kind_size_two, kind_size_three,
      kind_size_u_zero, kind_size_u_one, kind_size_u_two, kind_size_u_three] <;>
    omega

/-- One successful grab assigns one block `nb`, placed where the collaborator said. -/
theorem grab_block_chain (env : Env) (hc : build_lwkvma_contract env) {prot pgoff : Nat}
    {len : Int} {k : Nat} {l l1 : alloc_locals} {s s1 : mos_process_t} {i : Nat}
    {elt : blk_list} (hk : k < 4) (hv : valid_free s k i elt) (hw0 : 0 < l.wanted k)
    (h : grab_block env prot pgoff len k l s i elt = (alloc_flow.next l1, s1)) :
    ∃ nb : blk_list, step_rel s s1 [(k, nb)] ∧ entry_ok (k, nb) ∧ 0 < nb.vma_addr ∧
      (l.mmap_flags &&& MAP_FIXED ≠ 0 → nb.vma_addr = l.addr) ∧
      l1.addr = nb.vma_addr + nb.num_blks * kind_size_u k ∧
      l1.total = l.total - ((nb.num_blks * kind_size_u k : Nat) : Int) ∧
      l1.first_addr = (if l.first_addr = 0 then (nb.vma_addr : Int) else l.first_addr) ∧
      l1.mmap_flags = (if l.first_addr = 0 then l.mmap_flags ||| MAP_FIXED else l.mmap_flags) := by
  obtain ⟨hget, hfree⟩ := hv
  have hmem := mem_of_getElem? hget
  have hsz := kind_size_u_cast hk
  unfold grab_block at h
  simp only at h
  by_cases hlt : l.wanted k < (elt.num_blks : Int)
  · rw [if_pos hlt] at h
    split_ifs at h with hbl hvm <;>
      simp only [Prod.mk.injEq, alloc_flow.next.injEq, reduceCtorEq, false_and] at h
    all_goals
    obtain ⟨rfl, rfl⟩ := h
    have hpos : 0 < env.build_lwkvma s.tick k l.addr (l.wanted k * kind_size k) prot
        l.mmap_flags pgoff (elt.phys.base + elt.offset) len := by omega
    obtain ⟨c1, c2, c3⟩ := hc _ _ _ _ _ _ _ _ _ hpos
    have hmul := toNat_mul_kind_size hk (le_of_lt hw0)
    refine ⟨{ phys := elt.phys, offset := elt.offset, num_blks := (l.wanted k).toNat,
              free := false, vma_addr := (env.build_lwkvma s.tick k l.addr
                (l.wanted k * kind_size k) prot l.mmap_flags pgoff
                (elt.phys.base + elt.offset) len).toNat }, ?_, ?_, ?_, ?_, ?_, ?_, ?_, ?_⟩
    · refine step_rel_replace
        [(k, { elt with offset := elt.offset + (l.wanted k * kind_size k).toNat,
                        num_blks := elt.num_blks - (l.wanted k).toNat })]
        _ hmem hfree hk ?_ ?_ ?_ ?_ ?_
      · intro k' b hb hbe
        show b ∈ upd s.blk_list k _ k'
        unfold upd
        split_ifs with e1
        · subst e1
          exact mem_insert_after.mpr
            (Or.inr (mem_set_of_ne _ hget hb (fun hbe' => hbe ⟨rfl, hbe'⟩)))
        · exact hb
      · intro k' b hb
        have hb' : b ∈ upd s.blk_list k _ k' := hb
        unfold upd at hb'
        split_ifs at hb' with e1
        · subst e1
          rcases mem_insert_after.mp hb' with rfl | hb'
          · exact Or.inr (Or.inr (List.mem_cons_self _ _))
          · rcases mem_of_mem_set hb' with rfl | hb'
            · exact Or.inr (Or.inl (List.mem_cons_self _ _))
            · exact Or.inl hb'
        · exact Or.inl hb'
      · intro kb hkb
        simp only [List.mem_singleton] at hkb
        subst hkb
        refine ⟨hk, ?_, hfree⟩
        show _ ∈ upd s.blk_list k _ k
        rw [upd_same]
        exact mem_insert_after.mpr (Or.inr (mem_set_self _ hget))
      · intro kb hkb
        simp only [List.mem_singleton] at hkb
        subst hkb
        refine ⟨?_, rfl⟩
        show _ ∈ upd s.blk_list k _ k
        rw [upd_same]
        exact mem_insert_after.mpr (Or.inl rfl)
      · intro x
        rw [chain_covers_singleton, chain_covers_singleton]
        unfold covers blk_addr
        simp only
        rw [hmul]
        have hle : (l.wanted k).toNat ≤ elt.num_blks := by omega
        have : elt.num_blks * kind_size_u k =
            (l.wanted k).toNat * kind_size_u k +
              (elt.num_blks - (l.wanted k).toNat) * kind_size_u k := by
          rw [← Nat.add_mul]; congr 1; omega
        omega
    · refine ⟨hk, c1, fun _ h4 => ?_⟩
      have := c3 h4
      have hks := kind_size_pos hk
      have : 0 < l.wanted k * kind_size k := mul_pos hw0 hks
      omega
    · show 0 < Int.toNat _
      omega
    · intro hf
      show Int.toNat _ = l.addr
      rw [c2 hf]; simp
    · show Int.toNat _ = Int.toNat _ + (l.wanted k).toNat * kind_size_u k
      rw [← hmul]
      have : 0 ≤ l.wanted k * kind_size k := by
        have hks := kind_size_pos hk
        exact le_of_lt (mul_pos hw0 hks)
      omega
    · show l.total - l.wanted k * kind_size k = _
      rw [← hmul]
      have : 0 ≤ l.wanted k * kind_size k := by
        have hks := kind_size_pos hk
        exact le_of_lt (mul_pos hw0 hks)
      omega
    · show (if l.first_addr = 0 then _ else l.first_addr) = _
      split_ifs
      · show _ = ((Int.toNat _ : Nat) : Int)
        omega
      · rfl
    · rfl
  · rw [if_neg hlt] at h
    split_ifs at h with hbl <;>
      simp only [Prod.mk.injEq, alloc_flow.next.injEq, reduceCtorEq, false_and] at h
    all_goals
    obtain ⟨rfl, rfl⟩ := h
    have hpos : 0 < env.build_lwkvma s.tick k l.addr (elt.num_blks * kind_size k) prot
        l.mmap_flags pgoff (elt.phys.base + elt.offset) len := by omega
    obtain ⟨c1, c2, c3⟩ := hc _ _ _ _ _ _ _ _ _ hpos
    have hmul := toNat_mul_kind_size hk (Int.natCast_nonneg elt.num_blks)
    simp only [Int.toNat_ofNat] at hmul
    refine ⟨{ elt with vma_addr := (env.build_lwkvma s.tick k l.addr
                (elt.num_blks * kind_size k) prot l.mmap_flags pgoff
                (elt.phys.base + elt.offset) len).toNat, free := false },
              ?_, ?_, ?_, ?_, ?_, ?_, ?_, ?_⟩
    · refine step_rel_replace [] _ hmem hfree hk ?_ ?_ ?_ ?_ ?_
      · intro k' b hb hbe
        show b ∈ upd s.blk_list k _ k'
        unfold upd
        split_ifs with e1
        · subst e1
          exact mem_set_of_ne _ hget hb (fun hbe' => hbe ⟨rfl, hbe'⟩)
        · exact hb
      · intro k' b hb
        have hb' : b ∈ upd s.blk_list k _ k' := hb
        unfold upd at hb'
        split_ifs at hb' with e1
        · subst e1
          rcases mem_of_mem_set hb' with rfl | hb'
          · exact Or.inr (Or.inr (List.mem_cons_self _ _))
          · exact Or.inl hb'
        · exact Or.inl hb'
      · intro kb hkb
        simp at hkb
      · intro kb hkb
        simp only [List.mem_singleton] at hkb
        subst hkb
        refine ⟨?_, rfl⟩
        show _ ∈ upd s.blk_list k _ k
        rw [upd_same]
        exact mem_set_self _ hget
      · intro x
        rw [chain_covers_singleton, chain_covers_nil, false_or]
        unfold covers blk_addr
        simp only
    · refine ⟨hk, c1, fun hn h4 => ?_⟩
      have := c3 h4
      have hks := kind_size_pos hk
      have hn' : (0 : Int) < elt.num_blks := by exact_mod_cast hn
      have : 0 < (elt.num_blks : Int) * kind_size k := mul_pos hn' hks
      omega
    · show 0 < Int.toNat _
      omega
    · intro hf
      show Int.toNat _ = l.addr
      rw [c2 hf]; simp
    · show Int.toNat _ = Int.toNat _ + elt.num_blks * kind_size_u k
      rw [← hmul]
      have : 0 ≤ (elt.num_blks : Int) * kind_size k := by
        have hks := kind_size_pos hk
        positivity
      omega
    · show l.total - elt.num_blks * kind_size k = _
      rw [← hmul]
      have : 0 ≤ (elt.num_blks : Int) * kind_size k := by
        have hks := kind_size_pos hk
        positivity
      omega
    · show (if l.first_addr = 0 then _ else l.first_addr) = _
      split_ifs
      · show _ = ((Int.toNat _ : Nat) : Int)
        omega
      · rfl
    · rfl
theorem chain_from_snoc {a e : Nat} {c : List (Nat × blk_list)} {kb : Nat × blk_list}
    (h : chain_from a c e) (hv : kb.2.vma_addr = e) :
    chain_from a (c ++ [kb]) (e + kb.2.num_blks * kind_size_u kb.1) := by
  induction c generalizing a with
  | nil =>
    simp only [chain_from] at h
    subst h
    simp [chain_from, hv]
  | cons x c ih =>
    obtain ⟨h1, h2⟩ := h
    exact ⟨h1, ih h2⟩

theorem chain_from_le {a e : Nat} {c : List (Nat × blk_list)} (h : chain_from a c e) :
    a ≤ e := by
  induction c generalizing a with
  | nil => simp only [chain_from] at h; omega
  | cons x c ih =>
    obtain ⟨_, h2⟩ := h
    have := ih h2
    omega

theorem chain_from_ge {a e : Nat} {c : List (Nat × blk_list)} (h : chain_from a c e) :
    ∀ kb, kb ∈ c → a ≤ kb.2.vma_addr := by
  induction c generalizing a with
  | nil => intro kb hkb; simp at hkb
  | cons x c ih =>
    obtain ⟨h1, h2⟩ := h
    intro kb hkb
    rcases List.mem_cons.mp hkb with rfl | hkb
    · omega
    · have := ih h2 kb hkb
      omega

/-- The blocks assigned by a successful `allocate_blocks`: they are placed one after the
other from the address returned, over as many bytes as `blocks_wanted` asked for, and the
bytes that were free are those still free together with theirs. -/
theorem allocate_blocks_chain (env : Env) (hc : build_lwkvma_contract env) (hw : Hw)
    (fuel : Nat) (addr : Nat) (len : Int) (prot mmap_flags pgoff : Nat)
    (opts : allocate_options_t) {s s1 : mos_process_t} {p : Int}
    (h : allocate_blocks env hw fuel addr len prot mmap_flags pgoff opts s =
      some (alloc_exit.returned p, s1)) :
    ∃ chain, step_rel s s1 chain ∧ (∀ kb, kb ∈ chain → entry_ok kb) ∧ 0 ≤ p ∧
      ∃ e : Nat, chain_from p.toNat chain e ∧
        (e : Int) = p.toNat +
          (blocks_wanted hw (roundup len (kind_size 0)) (fun _ => 0) opts).1 := by
  unfold allocate_blocks at h
  simp only at h
  generalize hT : (blocks_wanted hw (roundup len (kind_size 0)) (fun _ => 0) opts).1 = T0
    at h ⊢
  generalize (blocks_wanted hw (roundup len (kind_size 0)) (fun _ => 0) opts).2 = w0 at h
  have key := allocate_kinds_inv env hw opts prot pgoff (roundup len (kind_size 0)) fuel
    (fun _ l s' => ∃ chain, step_rel s s' chain ∧ (∀ kb, kb ∈ chain → entry_ok kb) ∧
      ((l.first_addr = 0 ∧ chain = [] ∧ l.total = T0) ∨
       (0 < l.first_addr ∧ l.mmap_flags &&& MAP_FIXED ≠ 0 ∧
        chain_from l.first_addr.toNat chain l.addr ∧
        (l.addr : Int) = l.first_addr + (T0 - l.total))))
    (fun e s' => ∀ p, e = alloc_exit.returned p →
      ∃ chain, step_rel s s' chain ∧ (∀ kb, kb ∈ chain → entry_ok kb) ∧ 0 ≤ p ∧
        ∃ e' : Nat, chain_from p.toNat chain e' ∧ (e' : Int) = p.toNat + T0)
    ?_ ?_ ?_ ?_ ?_ ?_ ?_ ?_ ?_ 4 (le_refl 4) _ s ?_ _ _ h
  · exact key p rfl
  · -- the search changes cursors only
    rintro k l s' fuel' r s2 _ ⟨chain, hs, hok, hrest⟩ hf
    have hcur := (find_available_spec hf).1
    have h2 : step_rel s' s2 [] := step_rel_of_blk_list_eq (cursor_only_blk_list hcur)
    have := step_rel_trans (fun kb hkb => (hok kb hkb).1) hs h2
    rw [List.append_nil] at this
    exact ⟨chain, this, hok, hrest⟩
  · rintro k l s' fuel' r s2 hk ⟨chain, hs, hok, hrest⟩ hf
    have h2 : step_rel s' s2 [] := divide_block_step_rel env hw opts fuel' hk hf
    have := step_rel_trans (fun kb hkb => (hok kb hkb).1) hs h2
    rw [List.append_nil] at this
    exact ⟨chain, this, hok, hrest⟩
  · -- a block is grabbed
    rintro k l s' i elt l1 s2 hk ⟨chain, hs, hok, hrest⟩ hw0 hv hg
    obtain ⟨nb, g1, g2, g3, g4, g5, g6, g7, g8⟩ := grab_block_chain env hc hk hv hw0 hg
    refine ⟨chain ++ [(k, nb)], step_rel_trans (fun kb hkb => (hok kb hkb).1) hs g1, ?_,
      Or.inr ?_⟩
    · intro kb hkb
      rcases List.mem_append.mp hkb with hkb | hkb
      · exact hok kb hkb
      · simp only [List.mem_singleton] at hkb
        subst hkb
        exact g2
    · rcases hrest with ⟨f0, rfl, ht⟩ | ⟨fpos, hfix, hch, haddr⟩
      · rw [if_pos f0] at g7 g8
        refine ⟨by rw [g7]; exact_mod_cast g3, by rw [g8]; exact or_map_fixed _, ?_, ?_⟩
        · rw [g7, g5]
          simp [chain_from]
        · rw [g7, g6, g5, ht]
          push_cast
          ring
      · have hne : l.first_addr ≠ 0 := by omega
        rw [if_neg hne] at g7 g8
        refine ⟨by rw [g7]; exact fpos, by rw [g8]; exact hfix, ?_, ?_⟩
        · rw [g7, g5, g4 hfix]
          exact chain_from_snoc hch (g4 hfix)
        · rw [g7, g6, g5, g4 hfix]
          push_cast
          rw [haddr]
          ring
  · -- the call leaves with an error
    rintro k l s' i elt e s2 _ _ _ _ hg p' hp
    obtain ⟨_, _, he⟩ := grab_block_quit_spec env hg
    rcases he with rfl | ⟨a, _, rfl, _⟩ <;> cases hp
  · rintro k l s' _ _ hP _
    exact hP
  · rintro l s' _ _ p' hp
    cases hp
  · rintro k l s' _ hP _
    exact hP
  · rintro l s' ⟨chain, hs, hok, hrest⟩ ht p' hp
    cases hp
    refine ⟨chain, hs, hok, ?_⟩
    rcases hrest with ⟨f0, rfl, ht0⟩ | ⟨fpos, hfix, hch, haddr⟩
    · rw [f0]
      refine ⟨le_refl _, 0, by simp [chain_from], ?_⟩
      rw [← ht0, ht]
      simp
    · refine ⟨le_of_lt fpos, l.addr, hch, ?_⟩
      rw [haddr, ht]
      omega
  · rintro l s' _ _ p' hp
    cases hp
  · exact ⟨[], step_rel_of_blk_list_eq rfl, fun kb hkb => by simp at hkb,
      Or.inl ⟨rfl, rfl, rfl⟩⟩

/-! ## Round trip: deallocation -/

theorem find_assigned_some {s : mos_process_t} {addr : Nat} (n : Nat) :
    ∀ {k0 k i : Nat} {b : blk_list}, find_assigned s addr n k0 = some (k, i, b) →
      k0 ≤ k ∧ k < k0 + n ∧ (s.blk_list k)[i]? = some b ∧ b.free = false ∧
        b.vma_addr ≤ addr ∧ addr < b.vma_addr + b.num_blks * kind_size_u k := by
  induction n with
  | zero => intro k0 k i b h; simp [find_assigned] at h
  | succ n ih =>
    intro k0 k i b h
    simp only [find_assigned] at h
    split at h
    · rename_i j bl hf
      simp only [Option.some.injEq, Prod.mk.injEq] at h
      obtain ⟨rfl, rfl, rfl⟩ := h
      obtain ⟨hget, hp⟩ := find_first_some hf
      simp only [Bool.and_eq_true, Bool.not_eq_true', decide_eq_true_eq] at hp
      exact ⟨le_refl _, by omega, hget, hp.1.1, hp.1.2, hp.2⟩
    · obtain ⟨h1, h2, h3⟩ := ih h
      exact ⟨by omega, by omega, h3⟩

theorem find_assigned_none {s : mos_process_t} {addr : Nat} (n : Nat) :
    ∀ {k0 : Nat}, find_assigned s addr n k0 = none →
      ∀ k, k0 ≤ k → k < k0 + n → ∀ b, b ∈ s.blk_list k → b.free = false →
        b.vma_addr ≤ addr → ¬ addr < b.vma_addr + b.num_blks * kind_size_u k := by
  induction n with
  | zero => intro k0 _ k h1 h2; omega
  | succ n ih =>
    intro k0 h k h1 h2 b hb hf hle hlt
    simp only [find_assigned] at h
    split at h
    · simp at h
    · rename_i hnone
      by_cases hk : k = k0
      · subst hk
        have := find_first_none hnone b hb
        simp [hf, hle, hlt] at this
      · exact ih h k (by omega) (by omega) b hb hf hle hlt

theorem getD_of_getElem? {l : List blk_list} {i : Nat} {b : blk_list} (h : l[i]? = some b)
    (d : blk_list) : l.getD i d = b := by
  rw [List.getD_eq_getElem?_getD, h]
  rfl

/-- With disjoint placements, the block that `deallocate_block` finds at the placement of
an assigned, non-empty block is that block, and it is freed whole. -/
theorem deallocate_block_whole (env : Env) {s : mos_process_t} {k i : Nat} {b : blk_list}
    {len : Nat} (hd : vma_disjoint s) (hk : k < 4) (hget : (s.blk_list k)[i]? = some b)
    (hnf : b.free = false) (hpos : 0 < b.num_blks) (halign : b.vma_addr % kind_size_u k = 0)
    (hk4 : k ≠ kind_4m) (hlen : b.num_blks * kind_size_u k ≤ len) :
    deallocate_block env b.vma_addr len s =
      (((b.num_blks * kind_size_u k : Nat) : Int), mark_free s k i b) := by
  have hsz : 0 < b.num_blks * kind_size_u k :=
    Nat.mul_pos hpos (by have := kind_size_u_ge hk; omega)
  have hfind : find_assigned s b.vma_addr kind_last 0 = some (k, i, b) := by
    cases hfa : find_assigned s b.vma_addr kind_last 0 with
    | none =>
      exact absurd (by omega) (find_assigned_none _ hfa k (Nat.zero_le _)
        (by unfold kind_last; omega) b (mem_of_getElem? hget) hnf (le_refl _))
    | some r =>
      obtain ⟨k', i', b'⟩ := r
      obtain ⟨_, h2, h3, h4, h5, h6⟩ := find_assigned_some _ hfa
      have hk' : k' < 4 := by unfold kind_last at h2; omega
      rcases hd k' hk' i' (lt_length_of_getElem? h3) k hk i (lt_length_of_getElem? hget)
        with ⟨rfl, rfl⟩ | hdis
      · rw [hget] at h3
        cases h3
        rfl
      · unfold disjoint_at at hdis
        rw [getD_of_getElem? h3, getD_of_getElem? hget] at hdis
        rw [h4, hnf] at hdis
        have hb'pos : 0 < b'.num_blks := by
          rcases Nat.eq_zero_or_pos b'.num_blks with h0 | h0
          · rw [h0] at h6; omega
          · exact h0
        rcases hdis with h | h | h | h | h | h
        · simp at h
        · simp at h
        · omega
        · omega
        · omega
        · omega
  unfold deallocate_block
  rw [hfind]
  simp only
  rw [and_mask_eq_mod hk]
  have hr : b.vma_addr + len ≥ b.vma_addr + b.num_blks * kind_size_u k := by omega
  simp only [halign, ne_eq, not_true_eq_false, if_false, hr, decide_True, Bool.not_true,
    Bool.false_eq_true, false_and, Bool.and_self, if_true]
  congr 1
  unfold unmap_pagetbl
  rw [if_pos (by omega)]
  have hkk : k = kind_1g ∨ k = kind_2m ∨ k = kind_4k := by
    unfold kind_4m at hk4
    unfold kind_1g kind_2m kind_4k
    omega
  rw [if_pos hkk]

theorem mark_free_covers {s : mos_process_t} {k i : Nat} {b : blk_list} (hk : k < 4)
    (hget : (s.blk_list k)[i]? = some b) (hnf : b.free = false) (x : Nat) :
    free_covers (mark_free s k i b) x ↔ free_covers s x ∨ covers k b x := by
  unfold free_covers
  constructor
  · rintro ⟨k', hk', b', hb', hf', hc'⟩
    have hb2 : b' ∈ upd s.blk_list k ((s.blk_list k).set i
        { b with free := true, vma_addr := 0 }) k' := hb'
    unfold upd at hb2
    split_ifs at hb2 with e1
    · subst e1
      rcases mem_of_mem_set hb2 with rfl | hb2
      · exact Or.inr hc'
      · exact Or.inl ⟨k', hk', b', hb2, hf', hc'⟩
    · exact Or.inl ⟨k', hk', b', hb2, hf', hc'⟩
  · rintro (⟨k', hk', b', hb', hf', hc'⟩ | hc)
    · refine ⟨k', hk', b', ?_, hf', hc'⟩
      show b' ∈ upd s.blk_list k _ k'
      unfold upd
      split_ifs with e1
      · subst e1
        refine mem_set_of_ne _ hget hb' ?_
        rintro rfl
        rw [hnf] at hf'
        simp at hf'
      · exact hb'
    · refine ⟨k, hk, { b with free := true, vma_addr := 0 }, ?_, rfl, hc⟩
      show _ ∈ upd s.blk_list k _ k
      rw [upd_same]
      exact mem_set_self _ hget

theorem mark_free_mem {s : mos_process_t} {k i : Nat} {b : blk_list}
    (hget : (s.blk_list k)[i]? = some b) {k' : Nat} {b' : blk_list}
    (hb' : b' ∈ s.blk_list k') (hne : ¬ (k' = k ∧ b' = b)) :
    b' ∈ (mark_free s k i b).blk_list k' := by
  show b' ∈ upd s.blk_list k _ k'
  unfold upd
  split_ifs with e1
  · subst e1
    exact mem_set_of_ne _ hget hb' (fun e => hne ⟨rfl, e⟩)
  · exact hb'

theorem mark_free_getD {s : mos_process_t} {k i : Nat} {b : blk_list}
    (hget : (s.blk_list k)[i]? = some b) (k' i' : Nat) :
    (k' = k ∧ i' = i ∧ (((mark_free s k i b).blk_list k').getD i' {}).free = true) ∨
      ((mark_free s k i b).blk_list k').getD i' {} = (s.blk_list k').getD i' {} := by
  by_cases e1 : k' = k
  · subst e1
    by_cases e2 : i' = i
    · subst e2
      left
      refine ⟨rfl, rfl, ?_⟩
      have : ((mark_free s k' i' b).blk_list k')[i']? =
          some { b with free := true, vma_addr := 0 } := by
        show (upd s.blk_list k' _ k')[i']? = _
        rw [upd_same]
        exact getElem?_set_self' hget
      rw [getD_of_getElem? this]
    · right
      show (upd s.blk_list k' _ k').getD i' {} = _
      rw [upd_same, List.getD_eq_getElem?_getD, List.getD_eq_getElem?_getD,
        List.getElem?_set_ne (Ne.symm e2)]
  · right
    show (upd s.blk_list k _ k').getD i' {} = _
    rw [upd_other _ _ e1]

theorem mark_free_length {s : mos_process_t} {k i : Nat} {b : blk_list} (k' : Nat) :
    ((mark_free s k i b).blk_list k').length = (s.blk_list k').length := by
  show (upd s.blk_list k _ k').length = _
  unfold upd
  split_ifs with e1
  · subst e1; simp
  · rfl

theorem mark_free_disjoint {s : mos_process_t} {k i : Nat} {b : blk_list}
    (hget : (s.blk_list k)[i]? = some b) (hd : vma_disjoint s) :
    vma_disjoint (mark_free s k i b) := by
  intro k1 hk1 i1 hi1 k2 hk2 i2 hi2
  rw [mark_free_length] at hi1 hi2
  rcases hd k1 hk1 i1 hi1 k2 hk2 i2 hi2 with h | h
  · exact Or.inl h
  · right
    unfold disjoint_at at h ⊢
    rcases mark_free_getD hget k1 i1 with ⟨_, _, hf1⟩ | e1
    · exact Or.inl hf1
    · rcases mark_free_getD hget k2 i2 with ⟨_, _, hf2⟩ | e2
      · exact Or.inr (Or.inl hf2)
      · rw [e1, e2]
        exact h
theorem chain_covers_cons (kb : Nat × blk_list) (c : List (Nat × blk_list)) (x : Nat) :
    chain_covers (kb :: c) x ↔ covers kb.1 kb.2 x ∨ chain_covers c x := by
  unfold chain_covers
  simp

/-- The loop of `deallocate_blocks`, run over the placement of a chain of assigned blocks,
frees each of them whole and ends. -/
theorem deallocate_loop_chain (env : Env) :
    ∀ (chain : List (Nat × blk_list)) (s : mos_process_t) (a e : Nat) (ret0 : Int),
      vma_disjoint s →
      (∀ kb, kb ∈ chain → entry_ok kb ∧ kb.2 ∈ s.blk_list kb.1 ∧ kb.2.free = false) →
      chain_from a chain e →
      ∀ fuel, chain.length < fuel →
        ∃ ret s2, deallocate_loop env fuel a (e - a) ret0 s = some (ret, s2) ∧
          (∀ x, free_covers s2 x ↔ free_covers s x ∨ chain_covers chain x) ∧
          (ret = ret0 ∨ 0 < ret) ∧ (a < e → 0 < ret) := by
  intro chain
  induction chain with
  | nil =>
    intro s a e ret0 _ _ hch fuel hfuel
    simp only [chain_from] at hch
    subst hch
    obtain ⟨f, rfl⟩ : ∃ f, fuel = f + 1 := ⟨fuel - 1, by simp at hfuel; omega⟩
    refine ⟨ret0, s, ?_, fun x => ?_, Or.inl rfl, fun h => absurd h (lt_irrefl _)⟩
    · simp [deallocate_loop]
    · rw [chain_covers_nil, or_false]
  | cons kb rest ih =>
    intro s a e ret0 hd hmem hch fuel hfuel
    obtain ⟨hva, hch2⟩ := hch
    obtain ⟨⟨hk, halign, hk4⟩, hin, hnf⟩ := hmem kb (List.mem_cons_self _ _)
    have hle := chain_from_le hch2
    have hrest : ∀ kb', kb' ∈ rest →
        entry_ok kb' ∧ kb'.2 ∈ s.blk_list kb'.1 ∧ kb'.2.free = false :=
      fun kb' h' => hmem kb' (List.mem_cons_of_mem _ h')
    rcases Nat.eq_zero_or_pos kb.2.num_blks with h0 | hpos
    · -- a block without units has no placement range
      rw [h0, Nat.zero_mul, Nat.add_zero] at hch2
      obtain ⟨ret, s2, r1, r2, r3, r4⟩ := ih s a e ret0 hd hrest hch2 fuel
        (by simp only [List.length_cons] at hfuel; omega)
      refine ⟨ret, s2, r1, fun x => ?_, r3, r4⟩
      rw [r2 x, chain_covers_cons]
      have : ¬ covers kb.1 kb.2 x := by
        unfold covers
        rw [h0]
        omega
      tauto
    · obtain ⟨i, hget⟩ := exists_getElem?_of_mem hin
      obtain ⟨f, rfl⟩ : ∃ f, fuel = f + 1 := ⟨fuel - 1, by omega⟩
      have hsz : 0 < kb.2.num_blks * kind_size_u kb.1 :=
        Nat.mul_pos hpos (by have := kind_size_u_ge hk; omega)
      have hfit : kb.2.num_blks * kind_size_u kb.1 ≤ e - a := by omega
      have hblk := deallocate_block_whole env hd hk hget hnf hpos halign (hk4 hpos) hfit
      rw [hva] at hblk
      have hrest2 : ∀ kb', kb' ∈ rest → entry_ok kb' ∧
          kb'.2 ∈ (mark_free s kb.1 i kb.2).blk_list kb'.1 ∧ kb'.2.free = false := by
        intro kb' h'
        obtain ⟨q1, q2, q3⟩ := hrest kb' h'
        refine ⟨q1, mark_free_mem hget q2 ?_, q3⟩
        rintro ⟨_, e2⟩
        have := chain_from_ge hch2 kb' h'
        rw [e2, hva] at this
        omega
      have hfuel' : rest.length < f := by
        simp only [List.length_cons] at hfuel; omega
      obtain ⟨ret, s2, r1, r2, r3, r4⟩ := ih (mark_free s kb.1 i kb.2)
        (a + kb.2.num_blks * kind_size_u kb.1) e
        ((kb.2.num_blks * kind_size_u kb.1 : Nat) : Int) (mark_free_disjoint hget hd) hrest2
        hch2 f hfuel'
      have hret : 0 < ret := by
        rcases r3 with r3 | r3
        · rw [r3]; exact_mod_cast hsz
        · exact r3
      refine ⟨ret, s2, ?_, fun x => ?_, Or.inr hret, fun _ => hret⟩
      · simp only [deallocate_loop]
        rw [if_pos (by omega), hblk]
        simp only
        rw [if_neg (by push_cast; omega)]
        simp only [Int.toNat_ofNat]
        rw [← r1]
        congr 1
        omega
      · rw [r2 x, mark_free_covers hk hget hnf, chain_covers_cons]
        tauto

theorem roundup_u_toNat (len : Int) (hlen : 0 ≤ len) :
    roundup_u len.toNat (kind_size_u 0) = (roundup len (kind_size 0)).toNat := by
  unfold roundup_u roundup
  rw [kind_size_zero, kind_size_u_zero, cdiv_eq_div (by omega) (by omega)]
  omega

/-- C4: round trip.  Let `allocate_blocks(len)` return the placement `p` (with `len ≥ 0` and
the 4 KiB class below the ceiling), the collaborator `build_lwkvma` keeping its contract
(fixed addresses are honoured, placements are multiples of the page size of the class, no
non-empty range of the 4 MiB class is mapped), and let the placements of the assigned blocks
be pairwise disjoint afterwards.  Then `deallocate_blocks(p, len)` returns, for every number
of iterations above a bound, with a result that is not an error (positive when `len > 0`),
and afterwards a physical byte lies in a free block exactly when it did before the
allocation. -/
theorem allocate_deallocate_round_trip (env : Env) (hw : Hw) (fuel : Nat) (addr : Nat)
    (len : Int) (prot mmap_flags pgoff : Nat) (opts : allocate_options_t)
    (s s1 : mos_process_t) (p : Int)
    (hlen : 0 ≤ len) (hceil : kind_size kind_4k ≤ opts.max_page_size)
    (hc : build_lwkvma_contract env)
    (halloc : allocate_blocks env hw fuel addr len prot mmap_flags pgoff opts s =
      some (alloc_exit.returned p, s1))
    (hdisj : vma_disjoint s1) :
    ∃ fuel0, ∀ fuel', fuel0 ≤ fuel' →
      ∃ ret s2, deallocate_blocks env fuel' p.toNat len.toNat s1 = some (ret, s2) ∧
        0 ≤ ret ∧ (0 < len → 0 < ret) ∧ ∀ x, free_covers s2 x ↔ free_covers s x := by
  obtain ⟨r1, r2, r3, _⟩ := roundup_4k len hlen
  have hT := blocks_wanted_total_len hw opts (roundup len (kind_size 0)) r1 r2 hceil
  obtain ⟨chain, hs, hok, hp, e, hch, he⟩ := allocate_blocks_chain env hc hw fuel addr len prot
    mmap_flags pgoff opts halloc
  rw [hT] at he
  obtain ⟨_, hnew, hcov⟩ := hs
  refine ⟨chain.length + 1, fun fuel' hf => ?_⟩
  obtain ⟨ret, s2, d1, d2, d3, d4⟩ := deallocate_loop_chain env chain s1 p.toNat e 0 hdisj
    (fun kb hkb => ⟨hok kb hkb, hnew kb hkb⟩) hch fuel' (by omega)
  refine ⟨ret, s2, ?_, ?_, ?_, fun x => ?_⟩
  · unfold deallocate_blocks
    rw [roundup_u_toNat len hlen, ← d1]
    congr 1
    omega
  · rcases d3 with d3 | d3 <;> omega
  · intro hl
    exact d4 (by omega)
  · rw [d2 x, hcov x]
theorem env_fixed_contract : build_lwkvma_contract env_fixed := by
  intro t knd a n pr fl pg ph tl hpos
  simp only [env_fixed] at hpos ⊢
  split_ifs at hpos ⊢ with h1 h2 h3
  · omega
  · omega
  · omega
  · refine ⟨?_, fun _ => rfl, fun h4 => ?_⟩
    · simp only [Int.toNat_ofNat]
      omega
    · by_contra hn
      exact h3 ⟨h4, by omega⟩

set_option maxRecDepth 100000 in
theorem allocate_deallocate_round_trip_witness :
    (0 : Int) ≤ 1073745921 ∧ kind_size kind_4k ≤ opts_default.max_page_size ∧
    build_lwkvma_contract env_fixed ∧
    ∃ s1, allocate_blocks env_fixed hw_x86_64 20 52776558133248 1073745921 0 16 0 opts_default
        proc_example = some (alloc_exit.returned 52776558133248, s1) ∧
      vma_disjoint s1 ∧
      ∃ fuel0, ∀ fuel', fuel0 ≤ fuel' →
        ∃ ret s2, deallocate_blocks env_fixed fuel' (52776558133248 : Int).toNat
            (1073745921 : Int).toNat s1 = some (ret, s2) ∧
          0 ≤ ret ∧ ((0 : Int) < 1073745921 → 0 < ret) ∧
          ∀ x, free_covers s2 x ↔ free_covers proc_example x :=
  ⟨by decide, by decide, env_fixed_contract, _, rfl, by decide,
    allocate_deallocate_round_trip env_fixed hw_x86_64 20 52776558133248 1073745921 0 16 0
      opts_default proc_example _ 52776558133248 (by decide) (by decide) env_fixed_contract
      rfl (by decide)⟩

/-! ## Zero length -/

/-- C20: zero length is a no-op.  For every state, every kernel environment and every
argument, `allocate_blocks` with `len = 0` returns `0` and `deallocate_blocks` with
`len = 0` returns `0`, and the state afterwards is the state before: no block, list or
counter changes, and the count `tick` of calls to `vmalloc` and `build_lwkvma` does not
move. -/
theorem zero_length_is_noop (env : Env) (hw : Hw) (fuel : Nat) (addr : Nat)
    (prot mmap_flags pgoff : Nat) (opts : allocate_options_t) (s : mos_process_t) :
    allocate_blocks env hw fuel addr 0 prot mmap_flags pgoff opts s =
      some (alloc_exit.returned 0, s) ∧
    (alloc_exit.returned 0).ret = 0 ∧
    deallocate_blocks env (fuel + 1) addr 0 s = some (0, s) := by
  refine ⟨?_, rfl, ?_⟩
  · have hr : roundup 0 (kind_size 0) = 0 := by decide
    unfold allocate_blocks
    simp only [hr]
    have hb : blocks_wanted hw 0 (fun _ => 0) opts = (0, fun _ => 0) := by
      simp [blocks_wanted, kind_last, blocks_wanted_loop]
    rw [hb]
    simp [allocate_kinds, kind_last]
  · have hr : roundup_u 0 (kind_size_u 0) = 0 := by decide
    unfold deallocate_blocks
    rw [hr]
    simp [deallocate_loop]
/-! ## Deallocation: nothing to free -/

theorem find_assigned_eq_none {s : mos_process_t} {addr : Nat}
    (h : nothing_assigned_at s addr) : find_assigned s addr kind_last 0 = none := by
  cases hfa : find_assigned s addr kind_last 0 with
  | none => rfl
  | some r =>
    obtain ⟨k, i, b⟩ := r
    obtain ⟨_, h2, h3, h4, h5, h6⟩ := find_assigned_some _ hfa
    exact absurd ⟨h5, h6⟩ (h k (by unfold kind_last at h2; omega) b (mem_of_getElem? h3) h4)

/-- C19, as stated, fails: with no assigned block at all, `deallocate_blocks(addr, 4096)`
returns `0`, which is also what the no-op call `deallocate_blocks(addr, 0)` returns. -/
theorem deallocate_nothing_returns_zero :
    nothing_assigned_at proc_example 52776558133248 ∧
    deallocate_blocks env_ok 10 52776558133248 4096 proc_example = some (0, proc_example) ∧
    deallocate_blocks env_ok 10 52776558133248 0 proc_example = some (0, proc_example) :=
  ⟨by decide, rfl, rfl⟩

/-- C19, amended: `deallocate_blocks(addr, len)` with `len > 0` and no assigned block whose
placement range contains `addr` returns `0`, the value a no-op call returns, and leaves the
state (block lists, counters) as it was. -/
theorem deallocate_blocks_nothing_to_free (env : Env) (fuel addr len : Nat)
    (s : mos_process_t) (hlen : 0 < len) (hno : nothing_assigned_at s addr) :
    deallocate_blocks env (fuel + 1) addr len s = some (0, s) ∧
    deallocate_blocks env (fuel + 1) addr 0 s = some (0, s) := by
  have hr := (roundup_u_spec (k := 0) (by omega) len).2.1
  have hz : roundup_u 0 (kind_size_u 0) = 0 := by decide
  unfold deallocate_blocks
  rw [hz]
  constructor
  · simp only [deallocate_loop]
    rw [if_pos (by omega)]
    unfold deallocate_block
    rw [find_assigned_eq_none hno]
    simp
  · simp [deallocate_loop]

theorem deallocate_blocks_nothing_to_free_witness :
    0 < 4096 ∧ nothing_assigned_at proc_example 52776558133248 ∧
    (deallocate_blocks env_ok (9 + 1) 52776558133248 4096 proc_example =
      some (0, proc_example) ∧
     deallocate_blocks env_ok (9 + 1) 52776558133248 0 proc_example =
      some (0, proc_example)) :=
  ⟨by decide, by decide,
    deallocate_blocks_nothing_to_free env_ok 9 52776558133248 4096 proc_example (by decide)
      (by decide)⟩

/-! ## Deallocation: the block that the search finds -/

/-- With pairwise disjoint placements, the search of `deallocate_block` for an address
inside the placement range of an assigned block finds that block. -/
theorem find_assigned_of_disjoint {s : mos_process_t} {k i addr : Nat} {b : blk_list}
    (hd : vma_disjoint s) (hk : k < 4) (hget : (s.blk_list k)[i]? = some b)
    (hnf : b.free = false)
    (hin : b.vma_addr ≤ addr ∧ addr < b.vma_addr + b.num_blks * kind_size_u k) :
    find_assigned s addr kind_last 0 = some (k, i, b) := by
  cases hfa : find_assigned s addr kind_last 0 with
  | none =>
    exact absurd hin.2 (find_assigned_none _ hfa k (Nat.zero_le _)
      (by unfold kind_last; omega) b (mem_of_getElem? hget) hnf hin.1)
  | some r =>
    obtain ⟨k', i', b'⟩ := r
    obtain ⟨_, h2, h3, h4, h5, h6⟩ := find_assigned_some _ hfa
    have hk' : k' < 4 := by unfold kind_last at h2; omega
    rcases hd k' hk' i' (lt_length_of_getElem? h3) k hk i (lt_length_of_getElem? hget)
      with ⟨rfl, rfl⟩ | hdis
    · rw [hget] at h3
      cases h3
      rfl
    · unfold disjoint_at at hdis
      rw [getD_of_getElem? h3, getD_of_getElem? hget] at hdis
      rw [h4, hnf] at hdis
      have hb'pos : 0 < b'.num_blks := by
        rcases Nat.eq_zero_or_pos b'.num_blks with h0 | h0
        · rw [h0] at h6; omega
        · exact h0
      have hbpos : 0 < b.num_blks := by
        rcases Nat.eq_zero_or_pos b.num_blks with h0 | h0
        · rw [h0] at hin; omega
        · exact h0
      rcases hdis with h | h | h | h | h | h
      · simp at h
      · simp at h
      · omega
      · omega
      · omega
      · omega

/-! ## Deallocation: misaligned requests -/

/-- C18, as stated, fails: freeing 4 KiB at 4 KiB past the start of an assigned block of
the 1 GiB class is rejected and changes nothing, but the value returned is `-1`, not
`-EINVAL`. -/
theorem deallocate_misaligned_returns_minus_one :
    deallocate_blocks env_ok 10 (52776558133248 + 4096) 4096 proc_assigned_3g =
      some (-1, proc_assigned_3g) ∧ (-1 : Int) ≠ -EINVAL :=
  ⟨rfl, by decide⟩

/-- C18, amended: let `addr` lie inside the placement range of an assigned block of class
`k` (placements pairwise disjoint, `len > 0`).  If `addr` is not a multiple of
`kind_size[k]`, or the range to free ends inside that block at an address that is not a
multiple of `kind_size[k]`, then `deallocate_blocks` returns the error value `-1` and the
state (block lists, counters) is unchanged. -/
theorem deallocate_blocks_misaligned (env : Env) (fuel addr len : Nat) (s : mos_process_t)
    (k i : Nat) (b : blk_list) (hlen : 0 < len) (hd : vma_disjoint s) (hk : k < 4)
    (hget : (s.blk_list k)[i]? = some b) (hnf : b.free = false)
    (hin : b.vma_addr ≤ addr ∧ addr < b.vma_addr + b.num_blks * kind_size_u k)
    (hmis : addr % kind_size_u k ≠ 0 ∨
      (addr + roundup_u len (kind_size_u 0) < b.vma_addr + b.num_blks * kind_size_u k ∧
        (addr + roundup_u len (kind_size_u 0)) % kind_size_u k ≠ 0)) :
    deallocate_blocks env (fuel + 1) addr len s = some (-1, s) := by
  have hr := (roundup_u_spec (k := 0) (by omega) len).2.1
  have hfind := find_assigned_of_disjoint hd hk hget hnf hin
  unfold deallocate_blocks
  simp only [deallocate_loop]
  rw [if_pos (by omega)]
  have hblk : deallocate_block env addr (roundup_u len (kind_size_u 0)) s = (-1, s) := by
    unfold deallocate_block
    rw [hfind]
    simp only
    rw [and_mask_eq_mod hk, and_mask_eq_mod hk]
    by_cases ha : addr % kind_size_u k = 0
    · rcases hmis with h | ⟨h1, h2⟩
      · exact absurd ha h
      · rw [if_neg (by simp [ha])]
        rw [if_pos]
        refine ⟨?_, h2⟩
        simp only [Bool.not_eq_true', decide_eq_false_iff_not, ge_iff_le, not_le]
        exact h1
    · rw [if_pos ha]
  rw [hblk]
  simp

set_option maxRecDepth 100000 in
theorem deallocate_blocks_misaligned_witness :
    0 < 4096 ∧ vma_disjoint proc_assigned_3g ∧ 3 < 4 ∧
    (proc_assigned_3g.blk_list 3)[0]? =
      some { phys := { base := 1073741824, length := 3221225472, nid := 0, owner := 7 },
             offset := 0, num_blks := 3, free := false, vma_addr := 52776558133248 } ∧
    deallocate_blocks env_ok (9 + 1) (52776558133248 + 4096) 4096 proc_assigned_3g =
      some (-1, proc_assigned_3g) :=
  ⟨by decide, by decide, by decide, rfl,
    deallocate_blocks_misaligned env_ok 9 (52776558133248 + 4096) 4096 proc_assigned_3g 3 0
      { phys := { base := 1073741824, length := 3221225472, nid := 0, owner := 7 },
        offset := 0, num_blks := 3, free := false, vma_addr := 52776558133248 }
      (by decide) (by decide) (by decide) rfl rfl (by decide) (Or.inl (by decide))⟩

/-! ## Deallocation: a whole block -/

/-- C15: whole-block deallocation.  Let `b` be an assigned block of class `k` at position
`i` of `blk_list[k]`, holding at least one unit, placed at a multiple of `kind_size[k]`
(as `build_lwkvma` places it), not of the 4 MiB class (which `build_lwkvma` never maps),
the placements of the assigned blocks being pairwise disjoint.  If `addr` is the placement
of `b` and `addr + len` reaches or passes the end of `b`, then `deallocate_block` returns
the size of `b` in bytes; `b` is marked free with placement `0`, its granule, offset and
unit count unchanged; `num_blks[k]` grows by its unit count; nothing else changes: no
other list or counter, no list length, and no block record is allocated. -/
theorem deallocate_block_whole_block (env : Env) (s : mos_process_t) (k i : Nat)
    (b : blk_list) (len : Nat) (hd : vma_disjoint s) (hk : k < 4)
    (hget : (s.blk_list k)[i]? = some b) (hnf : b.free = false) (hpos : 0 < b.num_blks)
    (halign : b.vma_addr % kind_size_u k = 0) (hk4 : k ≠ kind_4m)
    (hlen : b.vma_addr + len ≥ b.vma_addr + b.num_blks * kind_size_u k) :
    ∃ s', deallocate_block env b.vma_addr len s =
        (((b.num_blks * kind_size_u k : Nat) : Int), s') ∧
      s'.blk_list k = (s.blk_list k).set i
        { phys := b.phys, offset := b.offset, num_blks := b.num_blks, free := true,
          vma_addr := 0 } ∧
      (∀ j, j ≠ k → s'.blk_list j = s.blk_list j) ∧
      s'.num_blks k = s.num_blks k + b.num_blks ∧
      (∀ j, j ≠ k → s'.num_blks j = s.num_blks j) ∧
      (∀ j, (s'.blk_list j).length = (s.blk_list j).length) ∧
      s'.tick = s.tick := by
  have hfit : b.num_blks * kind_size_u k ≤ len := by omega
  refine ⟨mark_free s k i b, deallocate_block_whole env hd hk hget hnf hpos halign hk4 hfit,
    ?_, ?_, ?_, ?_, ?_, rfl⟩
  · show upd s.blk_list k _ k = _
    rw [upd_same]
  · intro j hj
    show upd s.blk_list k _ j = _
    rw [upd_other _ _ hj]
  · show upd s.num_blks k _ k = _
    rw [upd_same]
  · intro j hj
    show upd s.num_blks k _ j = _
    rw [upd_other _ _ hj]
  · intro j
    exact mark_free_length j

set_option maxRecDepth 100000 in
theorem deallocate_block_whole_block_witness :
    vma_disjoint proc_assigned_3g ∧
    (proc_assigned_3g.blk_list 3)[0]? =
      some { phys := { base := 1073741824, length := 3221225472, nid := 0, owner := 7 },
             offset := 0, num_blks := 3, free := false, vma_addr := 52776558133248 } ∧
    ∃ s', deallocate_block env_ok 52776558133248 3221225472 proc_assigned_3g =
        (((3 * kind_size_u 3 : Nat) : Int), s') ∧
      s'.blk_list 3 = (proc_assigned_3g.blk_list 3).set 0
        { phys := { base := 1073741824, length := 3221225472, nid := 0, owner := 7 },
          offset := 0, num_blks := 3, free := true, vma_addr := 0 } ∧
      (∀ j, j ≠ 3 → s'.blk_list j = proc_assigned_3g.blk_list j) ∧
      s'.num_blks 3 = proc_assigned_3g.num_blks 3 + (3 : Nat) ∧
      (∀ j, j ≠ 3 → s'.num_blks j = proc_assigned_3g.num_blks j) ∧
      (∀ j, (s'.blk_list j).length = (proc_assigned_3g.blk_list j).length) ∧
      s'.tick = proc_assigned_3g.tick :=
  ⟨by decide, rfl,
    deallocate_block_whole_block env_ok proc_assigned_3g 3 0
      { phys := { base := 1073741824, length := 3221225472, nid := 0, owner := 7 },
        offset := 0, num_blks := 3, free := false, vma_addr := 52776558133248 }
      3221225472 (by decide) (by decide) rfl rfl (by decide) (by decide) (by decide)
      (by decide)⟩

/-! ## `divide_block`: what one call does -/

/-- C13, as stated, fails: when `vmalloc` fails, `divide_block(4k)` returns `NULL` although
its search found a free block of the 2 MiB class (two units), and no list is changed. -/
theorem divide_block_null_when_vmalloc_fails :
    next_larger hw_x86_64 kind_last (kind_4k + 1) = kind_2m ∧
    find_available 4 opts_default kind_2m proc_example =
      some (some (0, { phys := gran_example, offset := 2147483648, num_blks := 2 }),
        proc_example) ∧
    ∃ s', divide_block env_vmalloc_fails hw_x86_64 opts_default 5 kind_4k proc_example =
        some (none, s') ∧
      s'.blk_list = proc_example.blk_list ∧ s'.num_blks = proc_example.num_blks :=
  ⟨by decide, rfl, _, rfl, rfl, rfl⟩

/-- C13, amended: let the search of `divide_block(knd)` find the free block `B` (at least
one unit) at position `i` of the list of the next larger usable class `nxt`, and let
`vmalloc` succeed when `B` has more than one unit.  Then `divide_block` returns a free
block of class `knd`, the new head of `blk_list[knd]`, with `kind_size[nxt] /
kind_size[knd]` units, in the granule and at the offset of `B`.  If `B` had more than one
unit it stays at its place in `blk_list[nxt]` with one unit fewer and its offset advanced
by `kind_size[nxt]`; if it had one unit it leaves `blk_list[nxt]` and is itself the block
returned.  No other list changes, `num_blks[nxt]` drops by 1, `num_blks[knd]` rises by the
ratio, and the free bytes of the process are unchanged. -/
theorem divide_block_found (env : Env) (hw : Hw) (opts : allocate_options_t) (fuel knd : Nat)
    (s s1 : mos_process_t) (i : Nat) (B : blk_list)
    (hnxt : next_larger hw kind_last (knd + 1) < kind_last)
    (hfind : find_available fuel opts (next_larger hw kind_last (knd + 1)) s =
      some (some (i, B), s1))
    (hunits : 1 ≤ B.num_blks)
    (hvm : 1 < B.num_blks → env.vmalloc s1.tick = true) :
    ∃ newb s2, divide_block env hw opts (fuel + 1) knd s = some (some (0, newb), s2) ∧
      newb.free = true ∧
      newb.num_blks = divide_ratio knd (next_larger hw kind_last (knd + 1)) ∧
      newb.phys = B.phys ∧ newb.offset = B.offset ∧
      s2.blk_list knd = newb :: s.blk_list knd ∧
      (1 < B.num_blks → s2.blk_list (next_larger hw kind_last (knd + 1)) =
        (s.blk_list (next_larger hw kind_last (knd + 1))).set i
          { B with num_blks := B.num_blks - 1,
                   offset := B.offset +
                     kind_size_u (next_larger hw kind_last (knd + 1)) }) ∧
      (B.num_blks = 1 → newb = { B with num_blks := newb.num_blks } ∧
        s2.blk_list (next_larger hw kind_last (knd + 1)) =
          (s.blk_list (next_larger hw kind_last (knd + 1))).eraseIdx i) ∧
      (∀ j, j ≠ knd → j ≠ next_larger hw kind_last (knd + 1) →
        s2.blk_list j = s.blk_list j) ∧
      s2.num_blks (next_larger hw kind_last (knd + 1)) =
        s.num_blks (next_larger hw kind_last (knd + 1)) - 1 ∧
      s2.num_blks knd =
        s.num_blks knd + divide_ratio knd (next_larger hw kind_last (knd + 1)) ∧
      free_bytes s2 = free_bytes s := by
  have hge := next_larger_ge hw kind_last (knd + 1)
  generalize hnx : next_larger hw kind_last (knd + 1) = nxt at *
  have hn4 : nxt < 4 := by unfold kind_last at hnxt; exact hnxt
  have hlt : knd < nxt := by omega
  have hne : knd ≠ nxt := by omega
  have hne' : nxt ≠ knd := by omega
  obtain ⟨hcur, hval⟩ := find_available_spec hfind
  have hv := hval i B rfl
  have hbl := cursor_only_blk_list hcur
  have hnb := cursor_only_num_blks hcur
  have hfb : free_bytes s1 = free_bytes s := free_bytes_cursor_only hcur
  have hdiv : divide_block env hw opts (fuel + 1) knd s =
      some (divide_consume env knd nxt s1 i B) := by
    simp only [divide_block]
    rw [hnx, if_neg (by omega), hfind]
  have hspec := divide_consume_spec env hlt hn4 hv Prod.mk.eta.symm
  rw [hdiv]
  unfold divide_consume
  by_cases hgt : B.num_blks > 1
  · rw [if_pos hgt, if_pos (hvm hgt)]
    refine ⟨_, _, rfl, rfl, rfl, rfl, rfl, ?_, fun _ => ?_, fun h1 => by omega, ?_, ?_, ?_, ?_⟩
    · show upd (upd s1.blk_list nxt _) knd _ knd = _
      rw [upd_same, hbl]
    · show upd (upd s1.blk_list nxt _) knd _ nxt = _
      rw [upd_other _ _ hne', upd_same, hbl]
    · intro j hj1 hj2
      show upd (upd s1.blk_list nxt _) knd _ j = _
      rw [upd_other _ _ hj1, upd_other _ _ hj2, hbl]
    · show upd (upd s1.num_blks knd _) nxt _ nxt = _
      rw [upd_same, upd_other _ _ hne', hnb]
    · show upd (upd s1.num_blks knd _) nxt _ knd = _
      rw [upd_other _ _ hne, upd_same, hnb]
      rfl
    · have := hspec.1
      unfold divide_consume at this
      rw [if_pos hgt, if_pos (hvm hgt)] at this
      rw [← hfb]
      exact this
  · rw [if_neg hgt]
    have h1 : B.num_blks = 1 := by omega
    refine ⟨_, _, rfl, hv.2, ?_, rfl, rfl, ?_, fun h => absurd h hgt, fun _ => ⟨?_, ?_⟩,
      ?_, ?_, ?_, ?_⟩
    · show B.num_blks * divide_ratio knd nxt = _
      rw [h1, Nat.one_mul]
    · show upd (upd s1.blk_list nxt _) knd _ knd = _
      rw [upd_same, hbl]
    · rfl
    · show upd (upd s1.blk_list nxt _) knd _ nxt = _
      rw [upd_other _ _ hne', upd_same, hbl]
    · intro j hj1 hj2
      show upd (upd s1.blk_list nxt _) knd _ j = _
      rw [upd_other _ _ hj1, upd_other _ _ hj2, hbl]
    · show upd (upd s1.num_blks knd _) nxt _ nxt = _
      rw [upd_same, upd_other _ _ hne', hnb]
    · show upd (upd s1.num_blks knd _) nxt _ knd = _
      rw [upd_other _ _ hne, upd_same, hnb]
      show s.num_blks knd + ((B.num_blks * divide_ratio knd nxt : Nat) : Int) = _
      rw [h1, Nat.one_mul]
    · have := hspec.1
      unfold divide_consume at this
      rw [if_neg hgt] at this
      rw [← hfb]
      exact this
set_option maxRecDepth 100000 in
theorem divide_block_found_witness :
    next_larger hw_x86_64 kind_last (kind_4k + 1) < kind_last ∧
    find_available 4 opts_default (next_larger hw_x86_64 kind_last (kind_4k + 1))
      proc_example =
      some (some (0, { phys := gran_example, offset := 2147483648, num_blks := 2 }),
        proc_example) ∧
    ∃ newb s2, divide_block env_ok hw_x86_64 opts_default (4 + 1) kind_4k proc_example =
        some (some (0, newb), s2) ∧
      newb.free = true ∧ newb.num_blks = 512 ∧ newb.phys = gran_example ∧
      newb.offset = 2147483648 ∧
      s2.blk_list kind_4k = newb :: proc_example.blk_list kind_4k ∧
      s2.blk_list kind_2m =
        [{ phys := gran_example, offset := 2147483648 + 2097152, num_blks := 1 }] ∧
      s2.num_blks kind_2m = proc_example.num_blks kind_2m - 1 ∧
      s2.num_blks kind_4k = proc_example.num_blks kind_4k + 512 ∧
      free_bytes s2 = free_bytes proc_example :=
  ⟨by decide, rfl,
    (divide_block_found env_ok hw_x86_64 opts_default 4 kind_4k proc_example proc_example 0
      { phys := gran_example, offset := 2147483648, num_blks := 2 } (by decide) rfl
      (by decide) (fun _ => rfl)).imp fun _ h => h.imp fun _ h =>
        ⟨h.1, h.2.1, h.2.2.1, h.2.2.2.1, h.2.2.2.2.1, h.2.2.2.2.2.1,
          h.2.2.2.2.2.2.1 (by decide), h.2.2.2.2.2.2.2.2.2.1, h.2.2.2.2.2.2.2.2.2.2.1,
          h.2.2.2.2.2.2.2.2.2.2.2⟩⟩
/-! ## `divide_block`: dividing a block unit by unit -/

theorem find_first_set {α : Type} {p : α → Bool} {l : List α} {i : Nat} {e : α} (x : α)
    (h : find_first p l = some (i, e)) (hx : p x = true) :
    find_first p (l.set i x) = some (i, x) := by
  induction l generalizing i with
  | nil => simp [find_first] at h
  | cons b bs ih =>
    simp only [find_first] at h
    split_ifs at h with hp
    · simp only [Option.some.injEq, Prod.mk.injEq] at h
      obtain ⟨rfl, rfl⟩ := h
      simp [find_first, hx]
    · split at h
      · rename_i j e' hj
        simp only [Option.some.injEq, Prod.mk.injEq] at h
        obtain ⟨rfl, rfl⟩ := h
        simp only [List.set_cons_succ, find_first]
        rw [if_neg hp, ih hj]
      · simp at h

theorem eraseIdx_set_self {α : Type} (l : List α) (i : Nat) (x : α) :
    (l.set i x).eraseIdx i = l.eraseIdx i := by
  induction l generalizing i with
  | nil => simp
  | cons b bs ih =>
    cases i with
    | zero => simp
    | succ i => simp [ih]

theorem list_free_units_cons (b : blk_list) (l : List blk_list) :
    list_free_units (b :: l) = (if b.free then (b.num_blks : Int) else 0) + list_free_units l := by
  simp [list_free_units]

theorem divide_ratio_pos {knd nxt : Nat} (h1 : knd < nxt) (h2 : nxt < 4) :
    0 < divide_ratio knd nxt := by
  have := ratio_exact_u h1 h2
  have hp : 0 < kind_size_u nxt := by have := kind_size_u_ge h2; omega
  rcases Nat.eq_zero_or_pos (divide_ratio knd nxt) with h0 | h0
  · unfold divide_ratio at h0
    rw [h0] at this
    omega
  · exact h0

/-- C14, as stated, fails: one call of `divide_block(2m)` on a block of the 1 GiB class
that holds `k = 2` units yields a block of 512 units of the 2 MiB class, not `2 × 512`; the
1 GiB block keeps one unit. -/
theorem divide_block_takes_one_unit :
    find_available_blk_list proc_example kind_1g =
      some (0, { phys := gran_example, offset := 0, num_blks := 2 }) ∧
    ∃ newb s', divide_block env_ok hw_x86_64 opts_default 5 kind_2m proc_example =
        some (some (0, newb), s') ∧
      newb.num_blks = 512 ∧ divide_ratio kind_2m kind_1g = 512 ∧
      newb.num_blks ≠ 2 * divide_ratio kind_2m kind_1g ∧
      s'.blk_list kind_2m = newb :: proc_example.blk_list kind_2m ∧
      s'.blk_list kind_1g = [{ phys := gran_example, offset := 1073741824, num_blks := 1 }] :=
  ⟨rfl, _, _, rfl, rfl, by decide, by decide, rfl, rfl⟩

/-- C14, amended: `divide_block` takes one unit per call.  With the first-free search and
`vmalloc` succeeding, let the first free block of the next larger usable class `nxt` hold
`k ≥ 1` units.  Then `k` calls of `divide_block(knd)` in a row all return a block; after
them that block of class `nxt` has left its list, the free units of `blk_list[knd]` have
grown by exactly `k × (kind_size[nxt] / kind_size[knd])`, as has `num_blks[knd]`, while
`num_blks[nxt]` has dropped by `k`; no other list has changed. -/
theorem divide_repeat_yields_units (env : Env) (hw : Hw) (opts : allocate_options_t)
    (fuel knd : Nat)
    (hfirst : opts.find_available = find_available_t.find_available_blk_list)
    (hvm : ∀ t, env.vmalloc t = true)
    (hnxt : next_larger hw kind_last (knd + 1) < kind_last) (k : Nat) (hk : 1 ≤ k) :
    ∀ (s : mos_process_t) (i : Nat) (B : blk_list),
      find_available_blk_list s (next_larger hw kind_last (knd + 1)) = some (i, B) →
      B.num_blks = k →
      ∃ s', divide_repeat env hw opts (fuel + 1) knd k s = some s' ∧
        list_free_units (s'.blk_list knd) = list_free_units (s.blk_list knd) +
          k * divide_ratio knd (next_larger hw kind_last (knd + 1)) ∧
        s'.blk_list (next_larger hw kind_last (knd + 1)) =
          (s.blk_list (next_larger hw kind_last (knd + 1))).eraseIdx i ∧
        (∀ j, j ≠ knd → j ≠ next_larger hw kind_last (knd + 1) →
          s'.blk_list j = s.blk_list j) ∧
        s'.num_blks knd = s.num_blks knd +
          k * divide_ratio knd (next_larger hw kind_last (knd + 1)) ∧
        s'.num_blks (next_larger hw kind_last (knd + 1)) =
          s.num_blks (next_larger hw kind_last (knd + 1)) - k := by
  have hge := next_larger_ge hw kind_last (knd + 1)
  have hdivide : ∀ (s : mos_process_t) (i : Nat) (B : blk_list),
      find_available_blk_list s (next_larger hw kind_last (knd + 1)) = some (i, B) →
      divide_block env hw opts (fuel + 1) knd s =
        some (divide_consume env knd (next_larger hw kind_last (knd + 1)) s i B) := by
    intro s i B hf
    simp only [divide_block]
    rw [if_neg (by omega)]
    unfold find_available
    rw [hfirst]
    simp only [hf]
  generalize next_larger hw kind_last (knd + 1) = nxt at *
  have hne : knd ≠ nxt := by omega
  have hne' : nxt ≠ knd := by omega
  obtain ⟨n, rfl⟩ : ∃ n, k = n + 1 := ⟨k - 1, by omega⟩
  clear hk
  induction n with
  | zero =>
    intro s i B hf hB
    have hfree : B.free = true := (find_available_blk_list_valid hf).2
    simp only [divide_repeat, hdivide s i B hf]
    unfold divide_consume
    rw [if_neg (by omega)]
    refine ⟨_, rfl, ?_, ?_, ?_, ?_, ?_⟩
    · show list_free_units (upd (upd s.blk_list nxt _) knd _ knd) = _
      rw [upd_same, list_free_units_cons]
      simp only [hfree, if_true, hB]
      show ((1 * divide_ratio knd nxt : Nat) : Int) + _ = _
      push_cast
      ring
    · show upd (upd s.blk_list nxt _) knd _ nxt = _
      rw [upd_other _ _ hne', upd_same]
    · intro j hj1 hj2
      show upd (upd s.blk_list nxt _) knd _ j = _
      rw [upd_other _ _ hj1, upd_other _ _ hj2]
    · show upd (upd s.num_blks knd _) nxt _ knd = _
      rw [upd_other _ _ hne, upd_same]
      show s.num_blks knd + ((B.num_blks * divide_ratio knd nxt : Nat) : Int) = _
      rw [hB]
      push_cast
      ring
    · show upd (upd s.num_blks knd _) nxt _ nxt = _
      rw [upd_same, upd_other _ _ hne']
      push_cast
      ring
  | succ n ih =>
    intro s i B hf hB
    have hfree : B.free = true := (find_available_blk_list_valid hf).2
    simp only [divide_repeat, hdivide s i B hf]
    unfold divide_consume
    rw [if_pos (by omega), if_pos (hvm _)]
    simp only
    have hf2 : find_available_blk_list
        { s with
          blk_list := upd (upd s.blk_list nxt ((s.blk_list nxt).set i
            { B with num_blks := B.num_blks - 1, offset := B.offset + kind_size_u nxt })) knd
            ({ phys := B.phys, offset := B.offset, num_blks := divide_ratio knd nxt,
               free := true, vma_addr := 0 } :: s.blk_list knd)
          num_blks := upd (upd s.num_blks knd (s.num_blks knd + divide_ratio knd nxt)) nxt
            (upd s.num_blks knd (s.num_blks knd + divide_ratio knd nxt) nxt - 1)
          tick := s.tick + 1 } nxt =
        some (i, { B with num_blks := B.num_blks - 1,
                          offset := B.offset + kind_size_u nxt }) := by
      unfold find_available_blk_list
      show find_first _ (upd (upd s.blk_list nxt _) knd _ nxt) = _
      rw [upd_other _ _ hne', upd_same]
      exact find_first_set _ hf hfree
    obtain ⟨s', r1, r2, r3, r4, r5, r6⟩ := ih _ i _ hf2 (by show B.num_blks - 1 = n + 1; omega)
    refine ⟨s', r1, ?_, ?_, ?_, ?_, ?_⟩
    · rw [r2]
      show list_free_units (upd (upd s.blk_list nxt _) knd _ knd) + _ = _
      rw [upd_same, list_free_units_cons]
      simp only [if_true]
      push_cast
      ring
    · rw [r3]
      show (upd (upd s.blk_list nxt _) knd _ nxt).eraseIdx i = _
      rw [upd_other _ _ hne', upd_same, eraseIdx_set_self]
    · intro j hj1 hj2
      rw [r4 j hj1 hj2]
      show upd (upd s.blk_list nxt _) knd _ j = _
      rw [upd_other _ _ hj1, upd_other _ _ hj2]
    · rw [r5]
      show upd (upd s.num_blks knd _) nxt _ knd + _ = _
      rw [upd_other _ _ hne, upd_same]
      push_cast
      ring
    · rw [r6]
      show upd (upd s.num_blks knd _) nxt _ nxt - _ = _
      rw [upd_same, upd_other _ _ hne']
      push_cast
      ring
set_option maxRecDepth 100000 in
theorem divide_repeat_yields_units_witness :
    opts_default.find_available = find_available_t.find_available_blk_list ∧
    (∀ t, env_ok.vmalloc t = true) ∧
    next_larger hw_x86_64 kind_last (kind_2m + 1) < kind_last ∧ 1 ≤ 2 ∧
    find_available_blk_list proc_example (next_larger hw_x86_64 kind_last (kind_2m + 1)) =
      some (0, { phys := gran_example, offset := 0, num_blks := 2 }) ∧
    ∃ s', divide_repeat env_ok hw_x86_64 opts_default (4 + 1) kind_2m 2 proc_example =
        some s' ∧
      list_free_units (s'.blk_list kind_2m) =
        list_free_units (proc_example.blk_list kind_2m) +
          (2 : Nat) * divide_ratio kind_2m (next_larger hw_x86_64 kind_last (kind_2m + 1)) ∧
      s'.blk_list (next_larger hw_x86_64 kind_last (kind_2m + 1)) =
        (proc_example.blk_list (next_larger hw_x86_64 kind_last (kind_2m + 1))).eraseIdx 0 ∧
      (∀ j, j ≠ kind_2m → j ≠ next_larger hw_x86_64 kind_last (kind_2m + 1) →
        s'.blk_list j = proc_example.blk_list j) ∧
      s'.num_blks kind_2m = proc_example.num_blks kind_2m +
        (2 : Nat) * divide_ratio kind_2m (next_larger hw_x86_64 kind_last (kind_2m + 1)) ∧
      s'.num_blks (next_larger hw_x86_64 kind_last (kind_2m + 1)) =
        proc_example.num_blks (next_larger hw_x86_64 kind_last (kind_2m + 1)) - (2 : Nat) :=
  ⟨rfl, fun _ => rfl, by decide, by decide, rfl,
    divide_repeat_yields_units env_ok hw_x86_64 opts_default 4 kind_2m rfl (fun _ => rfl)
      (by decide) 2 (by decide) proc_example 0
      { phys := gran_example, offset := 0, num_blks := 2 } rfl rfl⟩

/-! ## Deallocation: part of a block -/

theorem split_block_ok (env : Env) (s : mos_process_t) {k : Nat} (i : Nat) (bl : blk_list)
    (offset : Nat) (hk : k < 4) (hvm : env.vmalloc s.tick = true)
    (hlt : offset < bl.num_blks * kind_size_u k) (hal : offset % kind_size_u k = 0) :
    split_block env s k i bl offset =
      (some { phys := bl.phys, offset := bl.offset + offset,
              num_blks := bl.num_blks - offset / kind_size_u k,
              vma_addr := bl.vma_addr + offset, free := bl.free },
       { s with
         blk_list := upd s.blk_list k
           ({ phys := bl.phys, offset := bl.offset + offset,
              num_blks := bl.num_blks - offset / kind_size_u k,
              vma_addr := bl.vma_addr + offset, free := bl.free } ::
            (s.blk_list k).set i { bl with num_blks := offset / kind_size_u k })
         tick := s.tick + 1 }) := by
  have hdiv : offset / kind_size_u k < bl.num_blks :=
    Nat.div_lt_of_lt_mul (by rw [Nat.mul_comm]; exact hlt)
  unfold split_block
  simp only
  rw [and_mask_eq_mod hk, if_neg (by rw [hal]; simp; exact hdiv), if_pos hvm]

theorem split_block_no_memory (env : Env) (s : mos_process_t) {k : Nat} (i : Nat)
    (bl : blk_list) (offset : Nat) (hk : k < 4) (hvm : env.vmalloc s.tick = false)
    (hlt : offset < bl.num_blks * kind_size_u k) (hal : offset % kind_size_u k = 0) :
    split_block env s k i bl offset = (none, { s with tick := s.tick + 1 }) := by
  have hdiv : offset / kind_size_u k < bl.num_blks :=
    Nat.div_lt_of_lt_mul (by rw [Nat.mul_comm]; exact hlt)
  unfold split_block
  simp only
  rw [and_mask_eq_mod hk, if_neg (by rw [hal]; simp; exact hdiv), if_neg (by rw [hvm]; simp)]

theorem unmap_pagetbl_ok {k : Nat} (hk : k < 4) (hk4 : k ≠ kind_4m) (addr len : Nat) :
    unmap_pagetbl k addr len = (len : Int) := by
  unfold unmap_pagetbl
  have hkk : k = kind_1g ∨ k = kind_2m ∨ k = kind_4k := by
    unfold kind_4m at hk4
    unfold kind_1g kind_2m kind_4k
    omega
  split_ifs <;> rfl

theorem mod_add_mod_kind {k : Nat} (hk : k < 4) {a b : Nat} (ha : a % kind_size_u k = 0)
    (hb : b % kind_size_u k = 0) : (a + b) % kind_size_u k = 0 :=
  add_mod_kind_size_u hk ha hb

theorem set_set_same {α : Type} (l : List α) (i : Nat) (x y : α) :
    (l.set i x).set i y = l.set i y := by
  induction l generalizing i with
  | nil => simp
  | cons b bs ih =>
    cases i with
    | zero => simp
    | succ i => simp [ih]
/-- C16, as stated, fails: when `vmalloc` fails, `deallocate_block` for the first GiB of an
assigned block of three 1 GiB units returns `-ENOMEM` and splits nothing. -/
theorem deallocate_prefix_no_memory :
    ∃ s', deallocate_block env_vmalloc_fails 52776558133248 1073741824 proc_assigned_3g =
        (-ENOMEM, s') ∧
      s'.blk_list = proc_assigned_3g.blk_list ∧ s'.num_blks = proc_assigned_3g.num_blks :=
  ⟨_, rfl, rfl, rfl⟩

/-- C16, amended: prefix and suffix deallocation.  Let `b` be an assigned block of class
`k` (not the 4 MiB class) at position `i` of `blk_list[k]`, placed at a multiple of
`kind_size[k]`, the placements of assigned blocks being pairwise disjoint, and let the
`vmalloc` of the new block record succeed.

Prefix: for `0 < len < size of b`, `len` a multiple of `kind_size[k]`,
`deallocate_block(placement of b, len)` returns `len`; `b` keeps its offset, holds
`len / kind_size[k]` units and is free with placement `0`; a new assigned block at the head
of the list holds the other units, its placement and its offset both advanced by `len`.

Suffix: for `addr` a multiple of `kind_size[k]` strictly inside `b` and `addr + len` at or
past the end of `b`, `deallocate_block(addr, len)` returns the bytes from `addr` to the end
of `b`; `b` keeps placement and offset, stays assigned and holds the units before `addr`; a
new free block with placement `0` at the head of the list holds the other units, at the
offset of `b` advanced by `addr - placement`.

In both cases the unit counts of the two blocks add up to that of `b`, `num_blks[k]` grows
by the units freed, and no other list or counter changes. -/
theorem deallocate_block_prefix_suffix (env : Env) (s : mos_process_t) (k i : Nat)
    (b : blk_list) (hd : vma_disjoint s) (hk : k < 4) (hk4 : k ≠ kind_4m)
    (hget : (s.blk_list k)[i]? = some b) (hnf : b.free = false)
    (halign : b.vma_addr % kind_size_u k = 0) (hvm : env.vmalloc s.tick = true) :
    (∀ len, 0 < len → len < b.num_blks * kind_size_u k → len % kind_size_u k = 0 →
      ∃ s', deallocate_block env b.vma_addr len s = ((len : Int), s') ∧
        s'.blk_list k =
          { phys := b.phys, offset := b.offset + len,
            num_blks := b.num_blks - len / kind_size_u k,
            vma_addr := b.vma_addr + len, free := false } ::
          (s.blk_list k).set i
            { phys := b.phys, offset := b.offset, num_blks := len / kind_size_u k,
              vma_addr := 0, free := true } ∧
        len / kind_size_u k + (b.num_blks - len / kind_size_u k) = b.num_blks ∧
        len / kind_size_u k * kind_size_u k = len ∧
        s'.num_blks k = s.num_blks k + (len / kind_size_u k : Nat) ∧
        (∀ j, j ≠ k → s'.blk_list j = s.blk_list j ∧ s'.num_blks j = s.num_blks j)) ∧
    (∀ addr len, b.vma_addr < addr → addr < b.vma_addr + b.num_blks * kind_size_u k →
      addr % kind_size_u k = 0 → addr + len ≥ b.vma_addr + b.num_blks * kind_size_u k →
      ∃ s', deallocate_block env addr len s =
          (((b.vma_addr + b.num_blks * kind_size_u k - addr : Nat) : Int), s') ∧
        s'.blk_list k =
          { phys := b.phys, offset := b.offset + (addr - b.vma_addr),
            num_blks := b.num_blks - (addr - b.vma_addr) / kind_size_u k,
            vma_addr := 0, free := true } ::
          (s.blk_list k).set i
            { phys := b.phys, offset := b.offset,
              num_blks := (addr - b.vma_addr) / kind_size_u k,
              vma_addr := b.vma_addr, free := false } ∧
        (addr - b.vma_addr) / kind_size_u k +
          (b.num_blks - (addr - b.vma_addr) / kind_size_u k) = b.num_blks ∧
        (b.num_blks - (addr - b.vma_addr) / kind_size_u k) * kind_size_u k =
          b.vma_addr + b.num_blks * kind_size_u k - addr ∧
        s'.num_blks k = s.num_blks k +
          (b.num_blks - (addr - b.vma_addr) / kind_size_u k : Nat) ∧
        (∀ j, j ≠ k → s'.blk_list j = s.blk_list j ∧ s'.num_blks j = s.num_blks j)) := by
  have hsize : 4096 ≤ kind_size_u k := kind_size_u_ge hk
  constructor
  · -- a prefix of the block
    intro len hlen hlt hmul
    have hdiv : len / kind_size_u k < b.num_blks :=
      Nat.div_lt_of_lt_mul (by rw [Nat.mul_comm]; exact hlt)
    have hexact : len / kind_size_u k * kind_size_u k = len :=
      Nat.div_mul_cancel (Nat.dvd_of_mod_eq_zero hmul)
    have hfind := find_assigned_of_disjoint hd hk hget hnf
      (show b.vma_addr ≤ b.vma_addr ∧ b.vma_addr < b.vma_addr + b.num_blks * kind_size_u k
        from ⟨le_refl _, by omega⟩)
    have hend : (b.vma_addr + len) % kind_size_u k = 0 := add_mod_kind_size_u hk halign hmul
    have hnr : ¬ (b.vma_addr + len ≥ b.vma_addr + b.num_blks * kind_size_u k) := by omega
    have hsp := split_block_ok env s i b len hk hvm hlt hmul
    refine ⟨mark_free (split_block env s k i b len).2 k (i + 1)
      { b with num_blks := len / kind_size_u k }, ?_, ?_, ?_, ?_, ?_, ?_⟩
    · unfold deallocate_block
      rw [hfind]
      simp only
      rw [and_mask_eq_mod hk, and_mask_eq_mod hk, if_neg (by simp [halign]),
        if_neg (by simp [hend])]
      simp only [hnr, decide_True, decide_False, Bool.and_false, Bool.false_eq_true, if_false,
        if_true]
      rw [hsp]
      simp only
      rw [unmap_pagetbl_ok hk hk4]
    · rw [hsp]
      simp [mark_free, upd, set_set_same, hnf]
    · omega
    · exact hexact
    · rw [hsp]
      simp [mark_free, upd]
    · intro j hj
      rw [hsp]
      simp [mark_free, upd, hj]
  · -- a suffix of the block
    intro addr len hgt hlt hmul hpast
    have hoff : (addr - b.vma_addr) % kind_size_u k = 0 := by
      rcases kind_lt_four_cases hk with rfl | rfl | rfl | rfl <;>
        simp only [kind_size_u_zero, kind_size_u_one, kind_size_u_two, kind_size_u_three]
          at halign hmul ⊢ <;> omega
    have hofflt : addr - b.vma_addr < b.num_blks * kind_size_u k := by omega
    have hdiv : (addr - b.vma_addr) / kind_size_u k < b.num_blks :=
      Nat.div_lt_of_lt_mul (by rw [Nat.mul_comm]; exact hofflt)
    have hexact : (addr - b.vma_addr) / kind_size_u k * kind_size_u k = addr - b.vma_addr :=
      Nat.div_mul_cancel (Nat.dvd_of_mod_eq_zero hoff)
    have hfind := find_assigned_of_disjoint hd hk hget hnf
      (show b.vma_addr ≤ addr ∧ addr < b.vma_addr + b.num_blks * kind_size_u k
        from ⟨by omega, hlt⟩)
    have hnl : ¬ (addr = b.vma_addr) := by omega
    have hsp := split_block_ok env s i b (addr - b.vma_addr) hk hvm hofflt hoff
    refine ⟨mark_free (split_block env s k i b (addr - b.vma_addr)).2 k 0
      { phys := b.phys, offset := b.offset + (addr - b.vma_addr),
        num_blks := b.num_blks - (addr - b.vma_addr) / kind_size_u k,
        vma_addr := b.vma_addr + (addr - b.vma_addr), free := b.free }, ?_, ?_, ?_, ?_, ?_, ?_⟩
    · unfold deallocate_block
      rw [hfind]
      simp only
      rw [and_mask_eq_mod hk, if_neg (by simp [hmul])]
      simp only [hpast, hnl, decide_True, decide_False, Bool.not_true, Bool.false_eq_true,
        false_and, Bool.false_and, if_false, if_true]
      rw [hsp]
      simp only
      rw [unmap_pagetbl_ok hk hk4]
      have hbytes : b.num_blks * kind_size_u k - (addr - b.vma_addr) =
          b.vma_addr + b.num_blks * kind_size_u k - addr := by omega
      rw [hbytes]
    · rw [hsp]
      simp [mark_free, upd, hnf]
    · omega
    · rw [Nat.sub_mul, hexact]
      omega
    · rw [hsp]
      simp [mark_free, upd]
    · intro j hj
      rw [hsp]
      simp [mark_free, upd, hj]
set_option maxRecDepth 100000 in
theorem deallocate_block_prefix_suffix_witness :
    vma_disjoint proc_assigned_3g ∧ 3 < 4 ∧ 3 ≠ kind_4m ∧
    (proc_assigned_3g.blk_list 3)[0]? =
      some { phys := { base := 1073741824, length := 3221225472, nid := 0, owner := 7 },
             offset := 0, num_blks := 3, free := false, vma_addr := 52776558133248 } ∧
    env_ok.vmalloc proc_assigned_3g.tick = true ∧
    (∃ s', deallocate_block env_ok 52776558133248 1073741824 proc_assigned_3g =
        (1073741824, s') ∧
      s'.blk_list 3 =
        [{ phys := { base := 1073741824, length := 3221225472, nid := 0, owner := 7 },
           offset := 1073741824, num_blks := 2, vma_addr := 52777631875072, free := false },
         { phys := { base := 1073741824, length := 3221225472, nid := 0, owner := 7 },
           offset := 0, num_blks := 1, vma_addr := 0, free := true }] ∧
      s'.num_blks 3 = proc_assigned_3g.num_blks 3 + 1) ∧
    (∃ s', deallocate_block env_ok 52778705616896 1073741824 proc_assigned_3g =
        (1073741824, s') ∧
      s'.blk_list 3 =
        [{ phys := { base := 1073741824, length := 3221225472, nid := 0, owner := 7 },
           offset := 2147483648, num_blks := 1, vma_addr := 0, free := true },
         { phys := { base := 1073741824, length := 3221225472, nid := 0, owner := 7 },
           offset := 0, num_blks := 2, vma_addr := 52776558133248, free := false }] ∧
      s'.num_blks 3 = proc_assigned_3g.num_blks 3 + 1) :=
  ⟨by decide, by decide, by decide, rfl, rfl,
    ((deallocate_block_prefix_suffix env_ok proc_assigned_3g 3 0
      { phys := { base := 1073741824, length := 3221225472, nid := 0, owner := 7 },
        offset := 0, num_blks := 3, free := false, vma_addr := 52776558133248 }
      (by decide) (by decide) (by decide) rfl rfl (by decide) rfl).1 1073741824 (by decide)
      (by decide) (by decide)).imp fun _ h => ⟨h.1, h.2.1, h.2.2.2.2.1⟩,
    ((deallocate_block_prefix_suffix env_ok proc_assigned_3g 3 0
      { phys := { base := 1073741824, length := 3221225472, nid := 0, owner := 7 },
        offset := 0, num_blks := 3, free := false, vma_addr := 52776558133248 }
      (by decide) (by decide) (by decide) rfl rfl (by decide) rfl).2 52778705616896
      1073741824 (by decide) (by decide) (by decide) (by decide)).imp
      fun _ h => ⟨h.1, h.2.1, h.2.2.2.2.1⟩⟩
/-- C17, as stated, fails: when `vmalloc` fails, `deallocate_block` for the middle GiB of
an assigned block of three 1 GiB units returns `-ENOMEM`, frees nothing and leaves one
block. -/
theorem deallocate_middle_no_memory :
    ∃ s', deallocate_block env_vmalloc_fails (52776558133248 + 1073741824) 1073741824
        proc_assigned_3g = (-ENOMEM, s') ∧
      s'.blk_list = proc_assigned_3g.blk_list ∧ s'.num_blks = proc_assigned_3g.num_blks :=
  ⟨_, rfl, rfl, rfl⟩

/-- C17, amended: middle deallocation.  Let `b` be an assigned block of class `k` (not the
4 MiB class) at position `i` of `blk_list[k]`, placed at a multiple of `kind_size[k]`, the
placements of assigned blocks being pairwise disjoint, and let the two `vmalloc` calls for
the new block records succeed.  If `[addr, addr + len)`, `len > 0`, lies strictly inside
the placement range of `b`, with `addr` and `len` multiples of `kind_size[k]`, then
`deallocate_block(addr, len)` returns `len` and leaves three blocks in place of `b`: `b`
itself, still assigned at its placement and offset, holding the units before `addr`; a new
assigned tail whose placement and offset are those of `b` advanced by the same
`addr + len - placement`; and, at the head of the list, a new free block with placement `0`
and exactly `len / kind_size[k]` units at the offset of `b` advanced by
`addr - placement`.  The units of the three add up to those of `b`, `num_blks[k]` grows by
`len / kind_size[k]`, and no other list or counter changes. -/
theorem deallocate_block_middle (env : Env) (s : mos_process_t) (k i : Nat) (b : blk_list)
    (addr len : Nat) (hd : vma_disjoint s) (hk : k < 4) (hk4 : k ≠ kind_4m)
    (hget : (s.blk_list k)[i]? = some b) (hnf : b.free = false)
    (halign : b.vma_addr % kind_size_u k = 0)
    (hvm1 : env.vmalloc s.tick = true) (hvm2 : env.vmalloc (s.tick + 1) = true)
    (hgt : b.vma_addr < addr) (hin : addr + len < b.vma_addr + b.num_blks * kind_size_u k)
    (ha : addr % kind_size_u k = 0) (hl : len % kind_size_u k = 0) (hlen : 0 < len) :
    ∃ s', deallocate_block env addr len s = ((len : Int), s') ∧
      s'.blk_list k =
        { phys := b.phys, offset := b.offset + (addr - b.vma_addr),
          num_blks := len / kind_size_u k, vma_addr := 0, free := true } ::
        { phys := b.phys, offset := b.offset + (addr + len - b.vma_addr),
          num_blks := b.num_blks - (addr + len - b.vma_addr) / kind_size_u k,
          vma_addr := b.vma_addr + (addr + len - b.vma_addr), free := false } ::
        (s.blk_list k).set i
          { phys := b.phys, offset := b.offset,
            num_blks := (addr - b.vma_addr) / kind_size_u k,
            vma_addr := b.vma_addr, free := false } ∧
      (addr - b.vma_addr) / kind_size_u k + len / kind_size_u k +
        (b.num_blks - (addr + len - b.vma_addr) / kind_size_u k) = b.num_blks ∧
      len / kind_size_u k * kind_size_u k = len ∧
      s'.num_blks k = s.num_blks k + (len / kind_size_u k : Nat) ∧
      (∀ j, j ≠ k → s'.blk_list j = s.blk_list j ∧ s'.num_blks j = s.num_blks j) := by
  have hsize : 4096 ≤ kind_size_u k := kind_size_u_ge hk
  have hoff : (addr - b.vma_addr) % kind_size_u k = 0 := by
    rcases kind_lt_four_cases hk with rfl | rfl | rfl | rfl <;>
      simp only [kind_size_u_zero, kind_size_u_one, kind_size_u_two, kind_size_u_three]
        at halign ha ⊢ <;> omega
  have hoffs2 : (addr + len - b.vma_addr) % kind_size_u k = 0 := by
    have : addr + len - b.vma_addr = (addr - b.vma_addr) + len := by omega
    rw [this]
    exact add_mod_kind_size_u hk hoff hl
  have hend : (addr + len) % kind_size_u k = 0 := add_mod_kind_size_u hk ha hl
  have hlt2 : addr + len - b.vma_addr < b.num_blks * kind_size_u k := by omega
  have hex2 : (addr + len - b.vma_addr) / kind_size_u k * kind_size_u k =
      addr + len - b.vma_addr := Nat.div_mul_cancel (Nat.dvd_of_mod_eq_zero hoffs2)
  have hex1 : (addr - b.vma_addr) / kind_size_u k * kind_size_u k = addr - b.vma_addr :=
    Nat.div_mul_cancel (Nat.dvd_of_mod_eq_zero hoff)
  have hexl : len / kind_size_u k * kind_size_u k = len :=
    Nat.div_mul_cancel (Nat.dvd_of_mod_eq_zero hl)
  have hsum : (addr + len - b.vma_addr) / kind_size_u k =
      (addr - b.vma_addr) / kind_size_u k + len / kind_size_u k := by
    have hp : 0 < kind_size_u k := by omega
    apply Nat.eq_of_mul_eq_mul_right hp
    rw [Nat.add_mul, hex1, hex2, hexl]
    omega
  have hdiv2 : (addr + len - b.vma_addr) / kind_size_u k < b.num_blks :=
    Nat.div_lt_of_lt_mul (by rw [Nat.mul_comm]; exact hlt2)
  have hlt1 : addr - b.vma_addr <
      (addr + len - b.vma_addr) / kind_size_u k * kind_size_u k := by
    rw [hex2]; omega
  have hfind := find_assigned_of_disjoint hd hk hget hnf
    (show b.vma_addr ≤ addr ∧ addr < b.vma_addr + b.num_blks * kind_size_u k
      from ⟨by omega, by omega⟩)
  have hnl : ¬ (addr = b.vma_addr) := by omega
  have hnr : ¬ (addr + len ≥ b.vma_addr + b.num_blks * kind_size_u k) := by omega
  have hsp1 := split_block_ok env s i b (addr + len - b.vma_addr) hk hvm1 hlt2 hoffs2
  have hsp2 := split_block_ok env (split_block env s k i b (addr + len - b.vma_addr)).2
    (i + 1) { b with num_blks := (addr + len - b.vma_addr) / kind_size_u k }
    (addr - b.vma_addr) hk (by rw [hsp1]; exact hvm2) hlt1 hoff
  refine ⟨mark_free (split_block env (split_block env s k i b (addr + len - b.vma_addr)).2 k
      (i + 1) { b with num_blks := (addr + len - b.vma_addr) / kind_size_u k }
      (addr - b.vma_addr)).2 k 0
      { phys := b.phys, offset := b.offset + (addr - b.vma_addr),
        num_blks := (addr + len - b.vma_addr) / kind_size_u k -
          (addr - b.vma_addr) / kind_size_u k,
        vma_addr := b.vma_addr + (addr - b.vma_addr), free := b.free }, ?_, ?_, ?_, hexl, ?_, ?_⟩
  · unfold deallocate_block
    rw [hfind]
    simp only
    rw [and_mask_eq_mod hk, and_mask_eq_mod hk, if_neg (by simp [ha]),
      if_neg (by simp [hend])]
    simp only [hnr, hnl, decide_True, decide_False, Bool.and_false, Bool.false_eq_true,
      if_false, if_true]
    have hsp2' := hsp2
    rw [hsp1] at hsp2'
    simp only at hsp2'
    rw [hsp1]
    simp only
    rw [hsp2']
    simp only
    rw [unmap_pagetbl_ok hk hk4]
  · rw [hsp2, hsp1]
    have : (addr + len - b.vma_addr) / kind_size_u k - (addr - b.vma_addr) / kind_size_u k =
        len / kind_size_u k := by rw [hsum]; exact Nat.add_sub_cancel_left _ _
    simp [mark_free, upd, set_set_same, hnf, this]
  · rw [hsum]; omega
  · rw [hsp2, hsp1]
    have : (addr + len - b.vma_addr) / kind_size_u k - (addr - b.vma_addr) / kind_size_u k =
        len / kind_size_u k := by rw [hsum]; exact Nat.add_sub_cancel_left _ _
    simp [mark_free, upd, this]
  · intro j hj
    rw [hsp2, hsp1]
    simp [mark_free, upd, hj]
set_option maxRecDepth 100000 in
theorem deallocate_block_middle_witness :
    vma_disjoint proc_assigned_3g ∧ 3 < 4 ∧ 3 ≠ kind_4m ∧
    (proc_assigned_3g.blk_list 3)[0]? =
      some { phys := { base := 1073741824, length := 3221225472, nid := 0, owner := 7 },
             offset := 0, num_blks := 3, free := false, vma_addr := 52776558133248 } ∧
    env_ok.vmalloc proc_assigned_3g.tick = true ∧
    env_ok.vmalloc (proc_assigned_3g.tick + 1) = true ∧
    ∃ s', deallocate_block env_ok 52777631875072 1073741824 proc_assigned_3g =
        (1073741824, s') ∧
      s'.blk_list 3 =
        [{ phys := { base := 1073741824, length := 3221225472, nid := 0, owner := 7 },
           offset := 1073741824, num_blks := 1, vma_addr := 0, free := true },
         { phys := { base := 1073741824, length := 3221225472, nid := 0, owner := 7 },
           offset := 2147483648, num_blks := 1, vma_addr := 52778705616896, free := false },
         { phys := { base := 1073741824, length := 3221225472, nid := 0, owner := 7 },
           offset := 0, num_blks := 1, vma_addr := 52776558133248, free := false }] ∧
      s'.num_blks 3 = proc_assigned_3g.num_blks 3 + 1 :=
  ⟨by decide, by decide, by decide, rfl, rfl, rfl,
    (deallocate_block_middle env_ok proc_assigned_3g 3 0
      { phys := { base := 1073741824, length := 3221225472, nid := 0, owner := 7 },
        offset := 0, num_blks := 3, free := false, vma_addr := 52776558133248 }
      52777631875072 1073741824 (by decide) (by decide) (by decide) rfl rfl (by decide) rfl
      rfl (by decide) (by decide) (by decide) (by decide) (by decide)).imp
      fun _ h => ⟨h.1, h.2.1, h.2.2.2.2.1⟩⟩

/-! ## Partitioning: the watermark -/

theorem create_and_link_block_offset (env : Env) (g : lwk_process_granule) (length knd : Nat)
    (s : mos_process_t) :
    (create_and_link_block env g length knd s).2.1.granule = g.granule ∧
    g.offset ≤ (create_and_link_block env g length knd s).2.1.offset ∧
    ((create_and_link_block env g length knd s).1 = true →
      (create_and_link_block env g length knd s).2.1.offset = g.offset + length) ∧
    ((create_and_link_block env g length knd s).1 = false →
      (create_and_link_block env g length knd s).2.1 = g) ∧
    (env.vmalloc s.tick = true → (create_and_link_block env g length knd s).1 = true) := by
  unfold create_and_link_block
  split_ifs with hv
  · exact ⟨rfl, Nat.le_add_right _ _, fun _ => rfl, fun h => by simp at h, fun _ => rfl⟩
  · exact ⟨rfl, le_refl _, fun h => by simp at h, fun _ => rfl, fun h => absurd h hv⟩

theorem granule_ok_advance {g g1 : lwk_process_granule} {d : Nat} (hg : granule_ok g)
    (hgr : g1.granule = g.granule) (hoff : g1.offset = g.offset + d) (hd : d % 4096 = 0)
    (hle : d ≤ g.granule.length - g.offset) : granule_ok g1 ∧ g.offset ≤ g1.offset := by
  obtain ⟨h1, h2, h3, h4⟩ := hg
  unfold granule_ok
  rw [hgr, hoff]
  refine ⟨⟨h1, h2, ?_, ?_⟩, ?_⟩ <;> omega

/-- The first loop of `partition_task_mem` keeps the granule, and keeps a granule that is
`granule_ok` so, with a watermark that has not shrunk. -/
theorem partition_align_watermark (env : Env) (hw : Hw) (n : Nat) :
    ∀ (knd : Nat) (g : lwk_process_granule) (s : mos_process_t),
      (partition_align env hw n knd g s).2.1.granule = g.granule ∧
      (granule_ok g → granule_ok (partition_align env hw n knd g s).2.1 ∧
        g.offset ≤ (partition_align env hw n knd g s).2.1.offset) := by
  induction n with
  | zero => intro knd g s; exact ⟨rfl, fun h => ⟨h, le_refl _⟩⟩
  | succ n ih =>
    intro knd g s
    simp only [partition_align]
    by_cases hun : num_dTLB hw knd = 0
    · rw [if_pos hun]; exact ih (knd + 1) g s
    · rw [if_neg hun]
      split_ifs with hcond hdelta
      · exact ih (knd + 1) g s
      · have hc := create_and_link_block_offset env g
          (min (roundup_u (g.granule.base + g.offset)
            (kind_size_u (next_usable hw kind_last (knd + 1))) - (g.granule.base + g.offset))
            (g.granule.length - g.offset)) knd s
        obtain ⟨c1, c2, c3, c4, _⟩ := hc
        split
        · rename_i g1 s1 heq
          rw [heq] at c1 c4
          exact ⟨c1, fun hg => by rw [c4 rfl]; exact ⟨hg, le_refl _⟩⟩
        · rename_i g1 s1 heq
          rw [heq] at c1 c2 c3
          simp only at c1 c2 c3
          obtain ⟨i1, i2⟩ := ih (knd + 1) g1 s1
          refine ⟨by rw [i1, c1], fun hg => ?_⟩
          have hn4 : next_usable hw kind_last (knd + 1) < 4 := by
            have := hcond.1; unfold kind_last at this; exact this
          obtain ⟨r1, r2, _⟩ := roundup_u_spec hn4 (g.granule.base + g.offset)
          have r1' := kind_size_u_dvd_mod (Nat.zero_le _) hn4 r1
          rw [kind_size_u_zero] at r1'
          have hd : (min (roundup_u (g.granule.base + g.offset)
              (kind_size_u (next_usable hw kind_last (knd + 1))) -
              (g.granule.base + g.offset)) (g.granule.length - g.offset)) % 4096 = 0 := by
            obtain ⟨h1, h2, h3, h4⟩ := hg
            rcases Nat.le_total (roundup_u (g.granule.base + g.offset)
              (kind_size_u (next_usable hw kind_last (knd + 1))) -
              (g.granule.base + g.offset)) (g.granule.length - g.offset) with hm | hm
            · rw [Nat.min_eq_left hm]; omega
            · rw [Nat.min_eq_right hm]; omega
          obtain ⟨a1, a2⟩ := granule_ok_advance hg c1 (c3 trivial) hd (Nat.min_le_right _ _)
          obtain ⟨b1, b2⟩ := i2 a1
          exact ⟨b1, le_trans a2 b2⟩
      · exact ih (knd + 1) g s
/-- One iteration of the second loop of `partition_task_mem` and the watermark. -/
theorem partition_fill_step_watermark (env : Env) (hw : Hw) (knd : Nat)
    (g : lwk_process_granule) (s : mos_process_t) :
    let step : Bool × lwk_process_granule × mos_process_t :=
      if num_dTLB hw knd = 0 then (true, g, s)
      else
        if rounddown_u (g.granule.length - g.offset) (kind_size_u knd) = 0 then (true, g, s)
        else create_and_link_block env g
          (rounddown_u (g.granule.length - g.offset) (kind_size_u knd)) knd s
    step.2.1.granule = g.granule ∧
    (step.1 = false → step.2.1 = g) ∧
    (granule_ok g → granule_ok step.2.1 ∧ g.offset ≤ step.2.1.offset ∧
      (knd = 0 → step.1 = true → step.2.1.offset = g.granule.length)) ∧
    ((∀ t, env.vmalloc t = true) → step.1 = true) ∧
    (g.offset ≤ g.granule.length → (g.granule.length - g.offset) % 4096 ≠ 0 →
      step.2.1.offset ≤ g.granule.length ∧
      (g.granule.length - step.2.1.offset) % 4096 ≠ 0) := by
  intro step
  have hsame : step = (true, g, s) → step.2.1.granule = g.granule ∧
      (step.1 = false → step.2.1 = g) ∧
      (granule_ok g → granule_ok step.2.1 ∧ g.offset ≤ step.2.1.offset ∧
        (knd = 0 → step.1 = true →
          rounddown_u (g.granule.length - g.offset) (kind_size_u knd) = 0 →
          step.2.1.offset = g.granule.length)) ∧
      ((∀ t, env.vmalloc t = true) → step.1 = true) ∧
      (g.offset ≤ g.granule.length → (g.granule.length - g.offset) % 4096 ≠ 0 →
        step.2.1.offset ≤ g.granule.length ∧
        (g.granule.length - step.2.1.offset) % 4096 ≠ 0) := by
    intro h
    rw [h]
    refine ⟨rfl, fun h => by simp at h, fun hg => ⟨hg, le_refl _, fun h0 _ hr => ?_⟩,
      fun _ => rfl, fun h1 h2 => ⟨h1, h2⟩⟩
    subst h0
    obtain ⟨_, h2, h3, h4⟩ := hg
    simp only [rounddown_u, kind_size_u_zero] at hr
    show g.offset = g.granule.length
    omega
  by_cases hun : num_dTLB hw knd = 0
  · have hst : step = (true, g, s) := by simp only [step]; rw [if_pos hun]
    obtain ⟨a1, a2, a3, a4, a5⟩ := hsame hst
    refine ⟨a1, a2, fun hg => ?_, a4, a5⟩
    obtain ⟨b1, b2, _⟩ := a3 hg
    refine ⟨b1, b2, fun h0 _ => ?_⟩
    subst h0
    exact absurd hun (ne_of_gt (num_dTLB_4k_pos hw))
  · by_cases hd0 : rounddown_u (g.granule.length - g.offset) (kind_size_u knd) = 0
    · have hst : step = (true, g, s) := by simp only [step]; rw [if_neg hun, if_pos hd0]
      obtain ⟨a1, a2, a3, a4, a5⟩ := hsame hst
      refine ⟨a1, a2, fun hg => ?_, a4, a5⟩
      obtain ⟨b1, b2, b3⟩ := a3 hg
      exact ⟨b1, b2, fun h0 h1 => b3 h0 h1 hd0⟩
    · have hst : step = create_and_link_block env g
          (rounddown_u (g.granule.length - g.offset) (kind_size_u knd)) knd s := by
        simp only [step]; rw [if_neg hun, if_neg hd0]
      have hk4 : knd < 4 := num_dTLB_pos_lt hun
      obtain ⟨r1, r2, r3, _⟩ := rounddown_u_spec hk4 (g.granule.length - g.offset)
      have r1' := kind_size_u_dvd_mod (Nat.zero_le _) hk4 r1
      rw [kind_size_u_zero] at r1'
      obtain ⟨c1, c2, c3, c4, c5⟩ := create_and_link_block_offset env g
        (rounddown_u (g.granule.length - g.offset) (kind_size_u knd)) knd s
      rw [hst]
      refine ⟨c1, fun h => by rw [c4 h], fun hg => ?_, fun hv => c5 (hv _), fun h1 h2 => ?_⟩
      · by_cases hok : (create_and_link_block env g
            (rounddown_u (g.granule.length - g.offset) (kind_size_u knd)) knd s).1 = true
        · obtain ⟨a1, a2⟩ := granule_ok_advance hg c1 (c3 hok) r1' r2
          refine ⟨a1, a2, fun h0 _ => ?_⟩
          rw [c3 hok]
          subst h0
          obtain ⟨_, h2, h3, h4⟩ := hg
          simp only [rounddown_u, kind_size_u_zero]
          omega
        · have hf : (create_and_link_block env g
              (rounddown_u (g.granule.length - g.offset) (kind_size_u knd)) knd s).1 = false := by
            simpa using hok
          rw [c4 hf]
          exact ⟨hg, le_refl _, fun _ h => absurd h hok⟩
      · by_cases hok : (create_and_link_block env g
            (rounddown_u (g.granule.length - g.offset) (kind_size_u knd)) knd s).1 = true
        · rw [c3 hok]
          constructor <;> omega
        · have hf : (create_and_link_block env g
              (rounddown_u (g.granule.length - g.offset) (kind_size_u knd)) knd s).1 = false := by
            simpa using hok
          rw [c4 hf]
          exact ⟨h1, h2⟩
/-- The second loop of `partition_task_mem`, when it returns: the granule is the same, and
for a granule that is `granule_ok` the watermark has not shrunk, is inside the granule, and
is at its end unless a `vmalloc` failed. -/
theorem partition_fill_watermark (env : Env) (hw : Hw) (fuel : Nat) :
    ∀ (knd : Nat) (g : lwk_process_granule) (s : mos_process_t) (ok : Bool)
      (g' : lwk_process_granule) (s' : mos_process_t),
      partition_fill env hw fuel knd g s = some (ok, g', s') →
      g'.granule = g.granule ∧
      (granule_ok g → granule_ok g' ∧ g.offset ≤ g'.offset ∧
        (ok = true → g'.offset = g.granule.length)) := by
  induction fuel with
  | zero => intro knd g s ok g' s' h; simp [partition_fill] at h
  | succ fuel ih =>
    intro knd g s ok g' s' h
    simp only [partition_fill] at h
    by_cases hdone : g.offset ≥ g.granule.length
    · rw [if_pos hdone] at h
      simp only [Option.some.injEq, Prod.mk.injEq] at h
      obtain ⟨_, rfl, rfl⟩ := h
      exact ⟨rfl, fun hg => ⟨hg, le_refl _, fun _ => le_antisymm hg.2.2.2 hdone⟩⟩
    · rw [if_neg hdone] at h
      have hstep := partition_fill_step_watermark env hw knd g s
      simp only at hstep
      obtain ⟨e1, e2, e3, _, _⟩ := hstep
      split at h
      · rename_i g1 s1 heq
        simp only [Option.some.injEq, Prod.mk.injEq] at h
        obtain ⟨rfl, rfl, rfl⟩ := h
        rw [heq] at e1 e2
        have := e2 rfl
        simp only at this
        rw [this]
        exact ⟨rfl, fun hg => ⟨hg, le_refl _, fun h => by simp at h⟩⟩
      · rename_i g1 s1 heq
        rw [heq] at e1 e3
        simp only at e1 e3
        by_cases hk0 : knd = 0
        · rw [if_pos hk0] at h
          by_cases hu : hw.kind_t_unsigned
          · rw [if_pos hu] at h
            obtain ⟨i1, i2⟩ := ih _ g1 s1 ok g' s' h
            refine ⟨by rw [i1, e1], fun hg => ?_⟩
            obtain ⟨a1, a2, _⟩ := e3 hg
            obtain ⟨b1, b2, b3⟩ := i2 a1
            exact ⟨b1, le_trans a2 b2, fun hok => by rw [b3 hok, e1]⟩
          · rw [if_neg hu] at h
            simp only [Option.some.injEq, Prod.mk.injEq] at h
            obtain ⟨_, rfl, rfl⟩ := h
            refine ⟨e1, fun hg => ?_⟩
            obtain ⟨a1, a2, a3⟩ := e3 hg
            exact ⟨a1, a2, fun _ => a3 hk0 trivial⟩
        · rw [if_neg hk0] at h
          obtain ⟨i1, i2⟩ := ih _ g1 s1 ok g' s' h
          refine ⟨by rw [i1, e1], fun hg => ?_⟩
          obtain ⟨a1, a2, _⟩ := e3 hg
          obtain ⟨b1, b2, b3⟩ := i2 a1
          exact ⟨b1, le_trans a2 b2, fun hok => by rw [b3 hok, e1]⟩

/-- The second loop of `partition_task_mem` returns when the loop variable is signed, or
when the granule is `granule_ok`: `knd + 2` iterations are enough. -/
theorem partition_fill_terminates (env : Env) (hw : Hw) (knd : Nat) :
    ∀ (g : lwk_process_granule) (s : mos_process_t) (fuel : Nat),
      hw.kind_t_unsigned = false ∨ granule_ok g → knd + 2 ≤ fuel →
      ∃ r, partition_fill env hw fuel knd g s = some r := by
  induction knd with
  | zero =>
    intro g s fuel hok hfuel
    obtain ⟨f, rfl⟩ : ∃ f, fuel = f + 1 := ⟨fuel - 1, by omega⟩
    simp only [partition_fill]
    by_cases hdone : g.offset ≥ g.granule.length
    · rw [if_pos hdone]; exact ⟨_, rfl⟩
    · rw [if_neg hdone]
      have hstep := partition_fill_step_watermark env hw 0 g s
      simp only at hstep
      obtain ⟨e1, _, e3, _, _⟩ := hstep
      split
      · exact ⟨_, rfl⟩
      · rename_i g1 s1 heq
        rw [heq] at e1 e3
        simp only at e1 e3
        by_cases hu : hw.kind_t_unsigned
        · rw [if_pos hu]
          have hg : granule_ok g := by
            rcases hok with h | h
            · rw [h] at hu; simp at hu
            · exact h
          obtain ⟨_, _, a3⟩ := e3 hg
          have hfull := a3 trivial trivial
          obtain ⟨f', rfl⟩ : ∃ f', f = f' + 1 := ⟨f - 1, by omega⟩
          have hex : g1.offset ≥ g1.granule.length := by rw [hfull, e1]
          simp only [partition_fill]
          rw [if_pos hex]
          exact ⟨_, rfl⟩
        · rw [if_neg hu]; exact ⟨_, rfl⟩
  | succ knd ih =>
    intro g s fuel hok hfuel
    obtain ⟨f, rfl⟩ : ∃ f, fuel = f + 1 := ⟨fuel - 1, by omega⟩
    simp only [partition_fill]
    by_cases hdone : g.offset ≥ g.granule.length
    · rw [if_pos hdone]; exact ⟨_, rfl⟩
    · rw [if_neg hdone]
      have hstep := partition_fill_step_watermark env hw (knd + 1) g s
      simp only at hstep
      obtain ⟨e1, _, e3, _, _⟩ := hstep
      split
      · exact ⟨_, rfl⟩
      · rename_i g1 s1 heq
        rw [heq] at e1 e3
        simp only at e1 e3
        rw [if_neg (by omega)]
        refine ih g1 s1 f ?_ (by omega)
        rcases hok with h | h
        · exact Or.inl h
        · exact Or.inr (e3 h).1

/-- With an unsigned loop variable, the second loop of `partition_task_mem` never returns
for a granule whose remaining length is not a multiple of 4 KiB, as long as `vmalloc`
succeeds. -/
theorem partition_fill_never_returns (env : Env) (hw : Hw)
    (hu : hw.kind_t_unsigned = true) (hv : ∀ t, env.vmalloc t = true) (fuel : Nat) :
    ∀ (knd : Nat) (g : lwk_process_granule) (s : mos_process_t),
      g.offset ≤ g.granule.length → (g.granule.length - g.offset) % 4096 ≠ 0 →
      partition_fill env hw fuel knd g s = none := by
  induction fuel with
  | zero => intro knd g s _ _; rfl
  | succ fuel ih =>
    intro knd g s hle hrem
    simp only [partition_fill]
    rw [if_neg (by omega)]
    have hstep := partition_fill_step_watermark env hw knd g s
    simp only at hstep
    obtain ⟨e1, _, _, e4, e5⟩ := hstep
    have hok := e4 hv
    obtain ⟨a1, a2⟩ := e5 hle hrem
    split
    · rename_i g1 s1 heq
      rw [heq] at hok
      simp at hok
    · rename_i g1 s1 heq
      rw [heq] at a1 a2 e1
      simp only at a1 a2 e1
      rw [← e1] at a1 a2
      by_cases hk0 : knd = 0
      · rw [if_pos hk0, if_pos hu]
        exact ih _ g1 s1 a1 a2
      · rw [if_neg hk0]
        exact ih _ g1 s1 a1 a2
theorem partition_granule_watermark (env : Env) (hw : Hw) (fuel : Nat)
    (g : lwk_process_granule) (s : mos_process_t) (ok : Bool) (g' : lwk_process_granule)
    (s' : mos_process_t) (h : partition_granule env hw fuel g s = some (ok, g', s')) :
    g'.granule = g.granule ∧
    (granule_ok g → g.offset ≤ g'.offset ∧ g'.offset ≤ g.granule.length ∧
      (ok = true → g'.offset = g.granule.length)) := by
  unfold partition_granule at h
  obtain ⟨a1, a2⟩ := partition_align_watermark env hw (kind_last - 1) 0 g s
  split at h
  · rename_i g1 s1 heq
    simp only [Option.some.injEq, Prod.mk.injEq] at h
    obtain ⟨rfl, rfl, rfl⟩ := h
    rw [heq] at a1 a2
    refine ⟨a1, fun hg => ?_⟩
    obtain ⟨b1, b2⟩ := a2 hg
    exact ⟨b2, by rw [← a1]; exact b1.2.2.2, fun h => by simp at h⟩
  · rename_i g1 s1 heq
    rw [heq] at a1 a2
    simp only at a1 a2
    obtain ⟨f1, f2⟩ := partition_fill_watermark env hw fuel _ g1 s1 ok g' s' h
    refine ⟨by rw [f1, a1], fun hg => ?_⟩
    obtain ⟨b1, b2⟩ := a2 hg
    obtain ⟨c1, c2, c3⟩ := f2 b1
    exact ⟨le_trans b2 c2, by rw [← a1, ← f1]; exact c1.2.2.2, fun hok => by rw [c3 hok, a1]⟩

theorem partition_granule_terminates (env : Env) (hw : Hw) (fuel : Nat)
    (g : lwk_process_granule) (s : mos_process_t)
    (hok : hw.kind_t_unsigned = false ∨ granule_ok g) (hfuel : 5 ≤ fuel) :
    ∃ r, partition_granule env hw fuel g s = some r := by
  unfold partition_granule
  obtain ⟨_, a2⟩ := partition_align_watermark env hw (kind_last - 1) 0 g s
  split
  · exact ⟨_, rfl⟩
  · rename_i g1 s1 heq
    rw [heq] at a2
    simp only at a2
    refine partition_fill_terminates env hw (kind_last - 1) g1 s1 fuel ?_
      (by unfold kind_last; omega)
    rcases hok with h | h
    · exact Or.inl h
    · exact Or.inr (a2 h).1

theorem forall₂_watermark_rel_refl (ret : Int) (hret : ret ≠ 0) (l : List lwk_process_granule) :
    List.Forall₂ (watermark_rel ret) l l := by
  induction l with
  | nil => exact List.Forall₂.nil
  | cons g l ih =>
    exact List.Forall₂.cons ⟨rfl, fun hg => ⟨le_refl _, hg.2.2.2, fun h => absurd h hret⟩⟩ ih

theorem partition_list_watermark (env : Env) (hw : Hw) (fuel : Nat) :
    ∀ (rest done : List lwk_process_granule) (s : mos_process_t) (ret : Int)
      (s' : mos_process_t), partition_list env hw fuel done rest s = some (ret, s') →
      ∃ rest', s'.lwkmem_list = done ++ rest' ∧ List.Forall₂ (watermark_rel ret) rest rest' := by
  intro rest
  induction rest with
  | nil =>
    intro done s ret s' h
    simp only [partition_list, Option.some.injEq, Prod.mk.injEq] at h
    obtain ⟨_, rfl⟩ := h
    exact ⟨[], by simp, List.Forall₂.nil⟩
  | cons g rest ih =>
    intro done s ret s' h
    simp only [partition_list] at h
    split at h
    · simp at h
    · rename_i g1 s1 heq
      simp only [Option.some.injEq, Prod.mk.injEq] at h
      obtain ⟨rfl, rfl⟩ := h
      obtain ⟨a1, a2⟩ := partition_granule_watermark env hw fuel g s false g1 s1 heq
      refine ⟨g1 :: rest, rfl, List.Forall₂.cons ⟨a1, fun hg => ?_⟩
        (forall₂_watermark_rel_refl _ (by decide) rest)⟩
      obtain ⟨b1, b2, _⟩ := a2 hg
      exact ⟨b1, b2, fun h => by simp at h⟩
    · rename_i g1 s1 heq
      obtain ⟨a1, a2⟩ := partition_granule_watermark env hw fuel g s true g1 s1 heq
      obtain ⟨rest', r1, r2⟩ := ih (done ++ [g1]) s1 ret s' h
      refine ⟨g1 :: rest', by rw [r1]; simp, List.Forall₂.cons ⟨a1, fun hg => ?_⟩ r2⟩
      obtain ⟨b1, b2, b3⟩ := a2 hg
      exact ⟨b1, b2, fun _ => b3 rfl⟩

theorem partition_list_terminates (env : Env) (hw : Hw) (fuel : Nat) (hfuel : 5 ≤ fuel) :
    ∀ (rest done : List lwk_process_granule) (s : mos_process_t),
      (hw.kind_t_unsigned = false ∨ ∀ g, g ∈ rest → granule_ok g) →
      ∃ r, partition_list env hw fuel done rest s = some r := by
  intro rest
  induction rest with
  | nil => intro done s _; exact ⟨_, rfl⟩
  | cons g rest ih =>
    intro done s hok
    simp only [partition_list]
    have hg : hw.kind_t_unsigned = false ∨ granule_ok g := by
      rcases hok with h | h
      · exact Or.inl h
      · exact Or.inr (h g (List.mem_cons_self _ _))
    obtain ⟨⟨ok, g1, s1⟩, hr⟩ := partition_granule_terminates env hw fuel g s hg hfuel
    rw [hr]
    cases ok with
    | false => exact ⟨_, rfl⟩
    | true =>
      simp only
      refine ih (done ++ [g1]) s1 ?_
      rcases hok with h | h
      · exact Or.inl h
      · exact Or.inr (fun g' hg' => h g' (List.mem_cons_of_mem _ hg'))

/-- C11, as stated, fails.  (1) When `vmalloc` fails, `partition_task_mem` returns (`-1`)
with the watermark of a granule whose base and length are multiples of 4 KiB still at `0`,
not at the granule's length.  (2) With the unsigned loop variable of the second loop, no
number of iterations makes `partition_task_mem` return for a granule of 4 KiB + 1 byte. -/
theorem partition_watermark_short_or_no_return :
    (granule_ok { granule := { base := 2097152, length := 3145728, nid := 0, owner := 7 } } ∧
     ∃ s', partition_task_mem env_vmalloc_fails hw_x86_64 10 proc_reserved_3m =
        some (-1, s') ∧
      s'.lwkmem_list =
        [{ granule := { base := 2097152, length := 3145728, nid := 0, owner := 7 },
           offset := 0 }]) ∧
    hw_x86_64.kind_t_unsigned = true ∧
    ∀ fuel, partition_task_mem env_ok hw_x86_64 fuel proc_reserved_tail = none := by
  refine ⟨⟨by decide, _, rfl, rfl⟩, rfl, fun fuel => ?_⟩
  have hfill := partition_fill_never_returns env_ok hw_x86_64 rfl (fun _ => rfl) fuel
    (kind_last - 1)
    { granule := { base := 1073741824, length := 4097, nid := 0, owner := 7 }, offset := 0 }
    proc_reserved_tail (by decide) (by decide)
  have halign : partition_align env_ok hw_x86_64 (kind_last - 1) 0
      { granule := { base := 1073741824, length := 4097, nid := 0, owner := 7 }, offset := 0 }
      proc_reserved_tail =
      (true, { granule := { base := 1073741824, length := 4097, nid := 0, owner := 7 },
               offset := 0 }, proc_reserved_tail) := rfl
  show partition_list env_ok hw_x86_64 fuel [] proc_reserved_tail.lwkmem_list
    proc_reserved_tail = none
  show partition_list env_ok hw_x86_64 fuel []
    [{ granule := { base := 1073741824, length := 4097, nid := 0, owner := 7 }, offset := 0 }]
    proc_reserved_tail = none
  simp only [partition_list, partition_granule, halign, hfill]

/-- C11, amended: `partition_task_mem` returns (a bound of 5 iterations of the second loop
per granule is enough) when every process granule has base, length and watermark multiples
of 4 KiB with the watermark inside the granule, or when the loop variable of the second
loop is signed.  When it returns, every such granule is the same granule as before, its
watermark has not shrunk and does not exceed the granule's length, and it equals the
granule's length when the value returned is `0`.  The watermark is moved by
`create_and_link_block` only, which never lowers it. -/
theorem partition_task_mem_watermark (env : Env) (hw : Hw) (s : mos_process_t)
    (hok : hw.kind_t_unsigned = false ∨ ∀ g, g ∈ s.lwkmem_list → granule_ok g) :
    (∀ g length knd st, g.offset ≤ (create_and_link_block env g length knd st).2.1.offset) ∧
    ∀ fuel, 5 ≤ fuel → ∃ ret s', partition_task_mem env hw fuel s = some (ret, s') ∧
      List.Forall₂ (watermark_rel ret) s.lwkmem_list s'.lwkmem_list := by
  refine ⟨fun g length knd st => (create_and_link_block_offset env g length knd st).2.1,
    fun fuel hfuel => ?_⟩
  obtain ⟨⟨ret, s'⟩, hr⟩ := partition_list_terminates env hw fuel hfuel s.lwkmem_list [] s hok
  obtain ⟨rest', r1, r2⟩ := partition_list_watermark env hw fuel s.lwkmem_list [] s ret s' hr
  refine ⟨ret, s', hr, ?_⟩
  rw [r1]
  exact r2

set_option maxRecDepth 100000 in
theorem partition_task_mem_watermark_witness :
    (hw_x86_64.kind_t_unsigned = false ∨
      ∀ g, g ∈ proc_reserved_3m.lwkmem_list → granule_ok g) ∧
    (∀ g length knd st,
      g.offset ≤ (create_and_link_block env_ok g length knd st).2.1.offset) ∧
    ∀ fuel, 5 ≤ fuel → ∃ ret s',
      partition_task_mem env_ok hw_x86_64 fuel proc_reserved_3m = some (ret, s') ∧
      List.Forall₂ (watermark_rel ret) proc_reserved_3m.lwkmem_list s'.lwkmem_list :=
  ⟨Or.inr (by decide),
    partition_task_mem_watermark env_ok hw_x86_64 proc_reserved_3m (Or.inr (by decide))⟩

/-! ## Invariants of partitioning -/

/-- Invariant rule for `partition_task_mem`: a property of the state that every
`create_and_link_block` for a class with dTLB entries keeps, and that does not depend on
the granule list, holds after `partition_task_mem` if it held before. -/
theorem partition_task_mem_inv (env : Env) (hw : Hw) (P : mos_process_t → Prop)
    (hstep : ∀ g length knd s, num_dTLB hw knd ≠ 0 → P s →
      P (create_and_link_block env g length knd s).2.2)
    (hlist : ∀ s l, P s → P { s with lwkmem_list := l }) (fuel : Nat)
    (s : mos_process_t) (ret : Int) (s' : mos_process_t) (hP : P s)
    (h : partition_task_mem env hw fuel s = some (ret, s')) : P s' := by
  have halign : ∀ n knd g s, P s → P (partition_align env hw n knd g s).2.2 := by
    intro n
    induction n with
    | zero => intro knd g s hs; exact hs
    | succ n ih =>
      intro knd g s hs
      simp only [partition_align]
      by_cases hun : num_dTLB hw knd = 0
      · rw [if_pos hun]; exact ih _ g s hs
      · rw [if_neg hun]
        split_ifs
        · exact ih _ g s hs
        · have hc := hstep g (min (roundup_u (g.granule.base + g.offset)
            (kind_size_u (next_usable hw kind_last (knd + 1))) - (g.granule.base + g.offset))
            (g.granule.length - g.offset)) knd s hun hs
          split
          · rename_i g1 s1 heq
            rw [heq] at hc
            exact hc
          · rename_i g1 s1 heq
            rw [heq] at hc
            exact ih _ g1 s1 hc
        · exact ih _ g s hs
  have hfill : ∀ fuel knd g s ok g' s', P s →
      partition_fill env hw fuel knd g s = some (ok, g', s') → P s' := by
    intro fuel
    induction fuel with
    | zero => intro knd g s ok g' s' _ h; simp [partition_fill] at h
    | succ fuel ih =>
      intro knd g s ok g' s' hs h
      simp only [partition_fill] at h
      by_cases hdone : g.offset ≥ g.granule.length
      · rw [if_pos hdone] at h
        simp only [Option.some.injEq, Prod.mk.injEq] at h
        obtain ⟨_, _, rfl⟩ := h
        exact hs
      · rw [if_neg hdone] at h
        have hst : P (if num_dTLB hw knd = 0 then (true, g, s)
            else if rounddown_u (g.granule.length - g.offset) (kind_size_u knd) = 0
              then (true, g, s)
              else create_and_link_block env g
                (rounddown_u (g.granule.length - g.offset) (kind_size_u knd)) knd s).2.2 := by
          split_ifs with h1 h2
          · exact hs
          · exact hs
          · exact hstep _ _ _ _ h1 hs
        split at h
        · rename_i g1 s1 heq
          simp only [Option.some.injEq, Prod.mk.injEq] at h
          obtain ⟨_, _, rfl⟩ := h
          rw [heq] at hst
          exact hst
        · rename_i g1 s1 heq
          rw [heq] at hst
          simp only at hst
          split_ifs at h
          · exact ih _ g1 s1 ok g' s' hst h
          · simp only [Option.some.injEq, Prod.mk.injEq] at h
            obtain ⟨_, _, rfl⟩ := h
            exact hst
          · exact ih _ g1 s1 ok g' s' hst h
  have hgran : ∀ g s ok g' s', P s →
      partition_granule env hw fuel g s = some (ok, g', s') → P s' := by
    intro g s ok g' s' hs h
    unfold partition_granule at h
    have ha := halign (kind_last - 1) 0 g s hs
    split at h
    · rename_i g1 s1 heq
      simp only [Option.some.injEq, Prod.mk.injEq] at h
      obtain ⟨_, _, rfl⟩ := h
      rw [heq] at ha
      exact ha
    · rename_i g1 s1 heq
      rw [heq] at ha
      exact hfill fuel _ g1 s1 ok g' s' ha h
  have hl : ∀ rest done s, P s → partition_list env hw fuel done rest s = some (ret, s') →
      P s' := by
    intro rest
    induction rest with
    | nil =>
      intro done s hs h
      simp only [partition_list, Option.some.injEq, Prod.mk.injEq] at h
      obtain ⟨_, rfl⟩ := h
      exact hlist s done hs
    | cons g rest ih =>
      intro done s hs h
      simp only [partition_list] at h
      split at h
      · simp at h
      · rename_i g1 s1 heq
        simp only [Option.some.injEq, Prod.mk.injEq] at h
        obtain ⟨_, rfl⟩ := h
        exact hlist s1 _ (hgran g s false g1 s1 hs heq)
      · rename_i g1 s1 heq
        exact ih _ s1 (hgran g s true g1 s1 hs heq) h
  exact hl s.lwkmem_list [] s hP h

theorem unusable_empty_create (env : Env) (hw : Hw) (g : lwk_process_granule)
    (length knd : Nat) (s : mos_process_t) (hu : num_dTLB hw knd ≠ 0)
    (h : unusable_empty hw s) :
    unusable_empty hw (create_and_link_block env g length knd s).2.2 := by
  intro k hk hk0
  have hne : k ≠ knd := by rintro rfl; exact hu hk0
  unfold create_and_link_block
  split_ifs
  · show upd s.blk_list knd _ k = []
    rw [upd_other _ _ hne]
    exact h k hk hk0
  · exact h k hk hk0
/-! ## Unusable classes: allocation and deallocation -/

theorem next_larger_usable (hw : Hw) (n : Nat) :
    ∀ nxt, 4 ≤ nxt + n → next_larger hw n nxt < kind_last →
      num_dTLB hw (next_larger hw n nxt) ≠ 0 := by
  induction n with
  | zero =>
    intro nxt h hlt
    simp only [next_larger] at hlt
    unfold kind_last at hlt
    omega
  | succ n ih =>
    intro nxt h hlt
    simp only [next_larger] at hlt ⊢
    split_ifs at hlt ⊢ with hc
    · exact ih (nxt + 1) (by omega) hlt
    · intro h0
      exact hc ⟨h0, hlt⟩

theorem unusable_empty_of_blk_list_eq {hw : Hw} {s s1 : mos_process_t}
    (h : s1.blk_list = s.blk_list) (hu : unusable_empty hw s) : unusable_empty hw s1 := by
  intro k hk hk0
  rw [h]
  exact hu k hk hk0

theorem unusable_empty_divide_consume (env : Env) (hw : Hw) (knd nxt : Nat)
    (s : mos_process_t) (i : Nat) (elt : blk_list) (hknd : num_dTLB hw knd ≠ 0)
    (hu : unusable_empty hw s) :
    unusable_empty hw (divide_consume env knd nxt s i elt).2 := by
  intro k hk hk0
  have hne : k ≠ knd := by rintro rfl; exact hknd hk0
  have hk' := hu k hk hk0
  unfold divide_consume
  split_ifs
  · show upd (upd s.blk_list nxt _) knd _ k = []
    rw [upd_other _ _ hne]
    unfold upd
    split_ifs with e
    · subst e; rw [hk']; simp
    · exact hk'
  · exact hk'
  · show upd (upd s.blk_list nxt _) knd _ k = []
    rw [upd_other _ _ hne]
    unfold upd
    split_ifs with e
    · subst e; rw [hk']; simp
    · exact hk'

theorem unusable_empty_divide_block (env : Env) (hw : Hw) (opts : allocate_options_t)
    (fuel : Nat) :
    ∀ (knd : Nat) (s s1 : mos_process_t) (r : Option (Nat × blk_list)),
      num_dTLB hw knd ≠ 0 → unusable_empty hw s →
      divide_block env hw opts fuel knd s = some (r, s1) → unusable_empty hw s1 := by
  induction fuel with
  | zero => intro knd s s1 r _ _ h; simp [divide_block] at h
  | succ fuel ih =>
    intro knd s s1 r hknd hu h
    simp only [divide_block] at h
    split_ifs at h with hlast
    · simp only [Option.some.injEq, Prod.mk.injEq] at h
      obtain ⟨_, rfl⟩ := h
      exact hu
    · have hnu : num_dTLB hw (next_larger hw kind_last (knd + 1)) ≠ 0 :=
        next_larger_usable hw kind_last (knd + 1) (by unfold kind_last; omega) (by omega)
      split at h
      · simp at h
      · rename_i i elt s' heq
        simp only [Option.some.injEq] at h
        have hc := (find_available_spec heq).1
        have hu' := unusable_empty_of_blk_list_eq (cursor_only_blk_list hc) hu
        have := unusable_empty_divide_consume env hw knd
          (next_larger hw kind_last (knd + 1)) s' i elt hknd hu'
        rw [h] at this
        exact this
      · rename_i s' heq
        have hc := (find_available_spec heq).1
        have hu' := unusable_empty_of_blk_list_eq (cursor_only_blk_list hc) hu
        split at h
        · simp at h
        · rename_i s2 heq2
          simp only [Option.some.injEq, Prod.mk.injEq] at h
          obtain ⟨_, rfl⟩ := h
          exact ih _ s' s2 none hnu hu' heq2
        · rename_i i elt s2 heq2
          simp only [Option.some.injEq] at h
          have hu2 := ih _ s' s2 (some (i, elt)) hnu hu' heq2
          have := unusable_empty_divide_consume env hw knd
            (next_larger hw kind_last (knd + 1)) s2 i elt hknd hu2
          rw [h] at this
          exact this

theorem unusable_empty_grab_block (env : Env) (hw : Hw) (prot pgoff : Nat) (len : Int)
    (k : Nat) (l : alloc_locals) (s : mos_process_t) (i : Nat) (elt : blk_list)
    (hk : num_dTLB hw k ≠ 0) (hu : unusable_empty hw s) :
    unusable_empty hw (grab_block env prot pgoff len k l s i elt).2 := by
  intro j hj hj0
  have hne : j ≠ k := by rintro rfl; exact hk hj0
  have hj' := hu j hj hj0
  unfold grab_block
  simp only
  split_ifs <;> first
    | exact hj'
    | (show upd s.blk_list k _ j = []
       rw [upd_other _ _ hne]
       exact hj')

theorem unusable_empty_allocate_kinds (env : Env) (hw : Hw) (opts : allocate_options_t)
    (prot pgoff : Nat) (len : Int) (fuel : Nat) :
    ∀ (n : Nat), n ≤ 4 → ∀ (l : alloc_locals) (s : mos_process_t) (e : alloc_exit)
      (s' : mos_process_t), unusable_empty hw s →
      allocate_kinds env hw opts prot pgoff len fuel n l s = some (e, s') →
      unusable_empty hw s' := by
  intro n
  induction n with
  | zero =>
    intro _ l s e s' hu h
    simp only [allocate_kinds] at h
    split_ifs at h <;>
      (simp only [Option.some.injEq, Prod.mk.injEq] at h
       obtain ⟨_, rfl⟩ := h
       exact hu)
  | succ k ih =>
    intro hk l s e s' hu h
    simp only [allocate_kinds] at h
    split_ifs at h with h1 h2 h3
    · exact ih (by omega) l s e s' hu h
    · simp only [Option.some.injEq, Prod.mk.injEq] at h
      obtain ⟨_, rfl⟩ := h
      exact hu
    · exact ih (by omega) _ s e s' hu h
    · have hwh := allocate_while_inv env hw opts prot pgoff len (k := k) (by omega)
        (fun _ s => unusable_empty hw s) (fun _ s => unusable_empty hw s)
        (fun l s fuel r s1 hP hf =>
          unusable_empty_of_blk_list_eq (cursor_only_blk_list (find_available_spec hf).1) hP)
        (fun l s fuel r s1 hP hd => unusable_empty_divide_block env hw opts fuel k s s1 r h2 hP hd)
        (fun l s i elt l1 s1 hP _ _ hg => by
          have := unusable_empty_grab_block env hw prot pgoff len k l s i elt h2 hP
          rw [hg] at this
          exact this)
        (fun l s i elt e s1 hP _ _ hg => by
          have := unusable_empty_grab_block env hw prot pgoff len k l s i elt h2 hP
          rw [hg] at this
          exact this)
        (fun l s _ hP _ => hP) (fun l s _ hP _ => hP) fuel l s hu
      split at h
      · simp at h
      · rename_i l1 s1 heq
        have := hwh _ _ heq
        simp only at this
        exact ih (by omega) l1 s1 e s' this.1 h
      · rename_i e1 s1 heq
        have := hwh _ _ heq
        simp only at this
        simp only [Option.some.injEq, Prod.mk.injEq] at h
        obtain ⟨_, rfl⟩ := h
        exact this
theorem mark_free_blk_list_other (s : mos_process_t) (k i : Nat) (b : blk_list) {j : Nat}
    (hj : j ≠ k) : (mark_free s k i b).blk_list j = s.blk_list j := by
  show upd s.blk_list k _ j = _
  rw [upd_other _ _ hj]

theorem split_block_blk_list_other (env : Env) (s : mos_process_t) (k i : Nat) (b : blk_list)
    (offset : Nat) {j : Nat} (hj : j ≠ k) :
    (split_block env s k i b offset).2.blk_list j = s.blk_list j := by
  unfold split_block
  simp only
  split_ifs
  · rfl
  · show upd s.blk_list k _ j = _
    rw [upd_other _ _ hj]
  · rfl

/-- `deallocate_block` changes at most the list in which it finds the block. -/
theorem deallocate_block_empty_list (env : Env) (addr len : Nat) (s : mos_process_t)
    (j : Nat) (hj : s.blk_list j = []) :
    (deallocate_block env addr len s).2.blk_list j = [] := by
  unfold deallocate_block
  cases hfa : find_assigned s addr kind_last 0 with
  | none => exact hj
  | some r =>
    obtain ⟨k, i, bl⟩ := r
    obtain ⟨_, _, h3, _⟩ := find_assigned_some _ hfa
    have hne : j ≠ k := by
      rintro rfl
      rw [hj] at h3
      simp at h3
    simp only
    split_ifs
    · exact hj
    · exact hj
    · rw [mark_free_blk_list_other _ _ _ _ hne]; exact hj
    · have h1 := split_block_blk_list_other env s k i bl len hne
      split
      · rename_i s1 heq
        rw [heq] at h1
        simp only at h1
        rw [h1]; exact hj
      · rename_i nb s1 heq
        rw [heq] at h1
        simp only at h1
        rw [mark_free_blk_list_other _ _ _ _ hne, h1]; exact hj
    · have h1 := split_block_blk_list_other env s k i bl (addr - bl.vma_addr) hne
      split
      · rename_i s1 heq
        rw [heq] at h1
        simp only at h1
        rw [h1]; exact hj
      · rename_i nb s1 heq
        rw [heq] at h1
        simp only at h1
        rw [mark_free_blk_list_other _ _ _ _ hne, h1]; exact hj
    · have h1 := split_block_blk_list_other env s k i bl (addr + len - bl.vma_addr) hne
      split
      · rename_i s1 heq
        rw [heq] at h1
        simp only at h1
        rw [h1]; exact hj
      · rename_i nb s1 heq
        rw [heq] at h1
        simp only at h1
        have h2 := split_block_blk_list_other env s1 k (i + 1)
          { bl with num_blks := (addr + len - bl.vma_addr) / kind_size_u k }
          (addr - bl.vma_addr) hne
        split
        · rename_i s2 heq2
          rw [heq2] at h2
          simp only at h2
          rw [h2, h1]; exact hj
        · rename_i nb2 s2 heq2
          rw [heq2] at h2
          simp only at h2
          rw [mark_free_blk_list_other _ _ _ _ hne, h2, h1]; exact hj

theorem unusable_empty_deallocate_loop (env : Env) (hw : Hw) (fuel : Nat) :
    ∀ (addr len : Nat) (ret0 : Int) (s : mos_process_t) (ret : Int) (s' : mos_process_t),
      unusable_empty hw s → deallocate_loop env fuel addr len ret0 s = some (ret, s') →
      unusable_empty hw s' := by
  induction fuel with
  | zero => intro addr len ret0 s ret s' _ h; simp [deallocate_loop] at h
  | succ fuel ih =>
    intro addr len ret0 s ret s' hu h
    simp only [deallocate_loop] at h
    split_ifs at h with hlen hret
    · simp only [Option.some.injEq, Prod.mk.injEq] at h
      obtain ⟨_, rfl⟩ := h
      intro k hk hk0
      exact deallocate_block_empty_list env addr len s k (hu k hk hk0)
    · refine ih _ _ _ _ ret s' ?_ h
      intro k hk hk0
      exact deallocate_block_empty_list env addr len s k (hu k hk hk0)
    · simp only [Option.some.injEq, Prod.mk.injEq] at h
      obtain ⟨_, rfl⟩ := h
      exact hu

theorem blocks_wanted_loop_unusable (hw : Hw) (mps : Int) {k : Nat}
    (hk : num_dTLB hw k = 0) (n : Nat) :
    ∀ (len : Int) (w : Nat → Int) (total : Int),
      (blocks_wanted_loop hw mps n len w total).2 k = w k := by
  induction n with
  | zero => intro len w total; rfl
  | succ n ih =>
    intro len w total
    simp only [blocks_wanted_loop]
    split_ifs with h1 h2
    · exact ih len w total
    · rw [ih]
      have hne : k ≠ n := by
        rintro rfl
        exact h2 (Or.inl (le_of_eq hk))
      rw [upd_other _ _ hne]
    · rfl

/-- C12: unusable size classes are skipped.  In every state reachable from an initialised
process by `partition_task_mem`, `allocate_blocks` and `deallocate_blocks` the block list
of a class without dTLB entries (`num_dTLB = 0`) is empty; and `blocks_wanted` leaves the
demand of such a class as it finds it, which is `0` in `allocate_blocks`. -/
theorem unusable_classes_skipped (hw : Hw) (s : mos_process_t) (h : reachable hw s) :
    (∀ k, k < 4 → num_dTLB hw k = 0 → s.blk_list k = []) ∧
    (∀ (len : Int) (wanted : Nat → Int) (opts : allocate_options_t) (k : Nat),
      num_dTLB hw k = 0 → (blocks_wanted hw len wanted opts).2 k = wanted k) ∧
    (∀ (len : Int) (opts : allocate_options_t) (k : Nat),
      num_dTLB hw k = 0 → (blocks_wanted hw len (fun _ => 0) opts).2 k = 0) := by
  refine ⟨?_, fun len w opts k hk => blocks_wanted_loop_unusable hw _ hk _ len w 0,
    fun len opts k hk => blocks_wanted_loop_unusable hw _ hk _ len _ 0⟩
  show unusable_empty hw s
  induction h with
  | init s hi => intro k hk _; exact (hi k hk).1
  | partition env fuel s ret s' _ hp ih =>
    exact partition_task_mem_inv env hw (unusable_empty hw)
      (fun g length knd s hu hP => unusable_empty_create env hw g length knd s hu hP)
      (fun s l hP => hP) fuel s ret s' ih hp
  | allocate env fuel addr len prot mmap_flags pgoff opts s e s' _ ha ih =>
    unfold allocate_blocks at ha
    exact unusable_empty_allocate_kinds env hw opts prot pgoff _ fuel kind_last (le_refl 4)
      _ s e s' ih ha
  | deallocate env fuel addr len s ret s' _ hd ih =>
    unfold deallocate_blocks at hd
    exact unusable_empty_deallocate_loop env hw fuel _ _ _ s ret s' ih hd

set_option maxRecDepth 100000 in
theorem unusable_classes_skipped_witness :
    ∃ s', partition_task_mem env_ok hw_x86_64 10 proc_reserved_3m = some (0, s') ∧
      reachable hw_x86_64 s' ∧ num_dTLB hw_x86_64 kind_4m = 0 ∧
      ((∀ k, k < 4 → num_dTLB hw_x86_64 k = 0 → s'.blk_list k = []) ∧
       (∀ (len : Int) (wanted : Nat → Int) (opts : allocate_options_t) (k : Nat),
         num_dTLB hw_x86_64 k = 0 → (blocks_wanted hw_x86_64 len wanted opts).2 k = wanted k) ∧
       (∀ (len : Int) (opts : allocate_options_t) (k : Nat),
         num_dTLB hw_x86_64 k = 0 →
           (blocks_wanted hw_x86_64 len (fun _ => 0) opts).2 k = 0)) :=
  ⟨_, rfl,
    reachable.partition env_ok 10 proc_reserved_3m 0 _
      (reachable.init _ (fun _ _ => ⟨rfl, rfl⟩)) rfl,
    by decide,
    unusable_classes_skipped hw_x86_64 _
      (reachable.partition env_ok 10 proc_reserved_3m 0 _
        (reachable.init _ (fun _ _ => ⟨rfl, rfl⟩)) rfl)⟩

/-! ## The granule registry: reservation -/

/-- C21: reservation is one-shot. `lwkmem_request` on a process whose granule list is not
empty returns `-EINVAL`; the registry and the granule list of the process are as before (of
the process only the total `lwkmem` is written, with 0). -/
theorem lwkmem_request_one_shot (env : Env) (pid : Int) (fuel : Nat) (req : List Nat)
    (registry : List mos_lwk_mem_granule) (s : mos_process_t) (h : s.lwkmem_list ≠ []) :
    lwkmem_request env pid fuel req registry s =
      some (-EINVAL, registry, { s with lwkmem := 0 }) ∧
    ({ s with lwkmem := 0 } : mos_process_t).lwkmem_list = s.lwkmem_list := by
  refine ⟨?_, rfl⟩
  unfold lwkmem_request
  cases hl : s.lwkmem_list with
  | nil => exact absurd hl h
  | cons a l =>
    by_cases hr : registry.isEmpty = true
    · simp [hr]
    · simp [hr, hl]

set_option maxRecDepth 100000 in
/-- Witness for C21: a second request by the process of `proc_holding_2m`. -/
theorem lwkmem_request_one_shot_witness :
    proc_holding_2m.lwkmem_list ≠ [] ∧
    lwkmem_request env_ok 7 8 [2097152] registry_two_nodes proc_holding_2m =
      some (-EINVAL, registry_two_nodes, { proc_holding_2m with lwkmem := 0 }) ∧
    ({ proc_holding_2m with lwkmem := 0 } : mos_process_t).lwkmem_list =
      proc_holding_2m.lwkmem_list :=
  ⟨by decide, lwkmem_request_one_shot env_ok 7 8 [2097152] registry_two_nodes proc_holding_2m
    (by decide)⟩

/-! ## The granule registry: statistics -/

theorem node_bytes_cons (filter : mos_lwk_mem_granule → Bool) (g : mos_lwk_mem_granule)
    (rest : List mos_lwk_mem_granule) (i : Int) :
    node_bytes filter (g :: rest) i =
      (if filter g = true ∧ g.nid = i then g.length else 0) + node_bytes filter rest i := by
  unfold node_bytes
  by_cases h : filter g = true ∧ g.nid = i
  · rw [if_pos h, List.filter_cons_of_pos (by simp [h.1, h.2])]
    simp
  · rw [if_neg h, List.filter_cons_of_neg (by simpa using h)]
    simp

/-- What the loop of `_lwkmem_get` leaves in the array when it ends with `rc = 0`. -/
theorem lwkmem_get_loop_ok (filter : mos_lwk_mem_granule → Bool) (n : Nat) :
    ∀ (registry : List mos_lwk_mem_granule) (lwkm l1 : Nat → Nat),
      lwkmem_get_loop filter n registry lwkm = (0, l1) →
      ∀ i : Nat, l1 i = lwkm i + node_bytes filter registry i := by
  intro registry
  induction registry with
  | nil =>
    intro lwkm l1 h i
    simp only [lwkmem_get_loop, Prod.mk.injEq, true_and] at h
    subst h
    simp [node_bytes]
  | cons g rest ih =>
    intro lwkm l1 h i
    simp only [lwkmem_get_loop] at h
    split_ifs at h with hc hf
    · rw [ih _ _ h i, node_bytes_cons]
      by_cases hi : g.nid = (i : Int)
      · have : g.nid.toNat = i := by omega
        rw [if_pos ⟨hf, hi⟩, this, upd_same]
        omega
      · have : i ≠ g.nid.toNat := by omega
        rw [if_neg (fun c => hi c.2), upd_other _ _ this]
        omega
    · rw [ih _ _ h i, node_bytes_cons, if_neg (fun c => hf c.1)]
      omega
    · simp [EINVAL] at h

/-- The loop of `_lwkmem_get` ends with `rc = 0` when every granule has a node id in
`0..n-1`, and with `-EINVAL` otherwise. -/
theorem lwkmem_get_loop_rc (filter : mos_lwk_mem_granule → Bool) (n : Nat) :
    ∀ (registry : List mos_lwk_mem_granule) (lwkm : Nat → Nat),
      ((lwkmem_get_loop filter n registry lwkm).1 = 0 ∨
        (lwkmem_get_loop filter n registry lwkm).1 = -EINVAL) ∧
      ((lwkmem_get_loop filter n registry lwkm).1 = -EINVAL ↔
        ∃ g ∈ registry, g.nid < 0 ∨ (n : Int) ≤ g.nid) := by
  intro registry
  induction registry with
  | nil =>
    intro lwkm
    simp [lwkmem_get_loop, EINVAL]
  | cons g rest ih =>
    intro lwkm
    simp only [lwkmem_get_loop]
    by_cases hc : 0 ≤ g.nid ∧ g.nid < n
    · rw [if_pos hc]
      refine ⟨(ih _).1, (ih _).2.trans ?_⟩
      constructor
      · rintro ⟨e, he, h⟩
        exact ⟨e, List.mem_cons_of_mem _ he, h⟩
      · rintro ⟨e, he, h⟩
        rcases List.mem_cons.1 he with rfl | he
        · omega
        · exact ⟨e, he, h⟩
    · rw [if_neg hc]
      refine ⟨Or.inr rfl, fun _ => ⟨g, List.mem_cons_self _ _, by omega⟩, fun _ => rfl⟩

/-- C29: result of the statistics queries. When `lwkmem_get` and `lwkmem_reserved_get`
return 0, then for every node index `i` below the number of known nodes the first has
stored in `lwkm[i]` the sum of the lengths of all registry granules with nid `i`, the second
the sum of the lengths of those among them whose owner is positive, and the reserved value
is at most the total value. -/
theorem lwkmem_get_sums (lwkmem_n_nodes : Nat) (registry : List mos_lwk_mem_granule)
    (lwkm lwkm' total reserved : Nat → Nat) (n n' m m' : Nat)
    (h1 : lwkmem_get lwkmem_n_nodes registry lwkm n = (0, total, m))
    (h2 : lwkmem_reserved_get lwkmem_n_nodes registry lwkm' n' = (0, reserved, m')) :
    ∀ i, i < lwkmem_n_nodes →
      total i = ((registry.filter fun g => decide (g.nid = (i : Int))).map fun g => g.length).sum ∧
      reserved i =
        ((registry.filter fun g => decide (g.owner > 0) && decide (g.nid = (i : Int))).map
          fun g => g.length).sum ∧
      reserved i ≤ total i := by
  intro i hi
  have key : ∀ (filter : mos_lwk_mem_granule → Bool) (l l1 : Nat → Nat) (k k1 : Nat),
      _lwkmem_get lwkmem_n_nodes registry l k filter = (0, l1, k1) →
      l1 i = node_bytes filter registry i := by
    intro filter l l1 k k1 h
    unfold _lwkmem_get at h
    by_cases hn : k < lwkmem_n_nodes
    · rw [if_pos hn] at h
      simp [EINVAL] at h
    · rw [if_neg hn] at h
      by_cases hz : (lwkmem_get_loop filter k registry
          (fun i => if i < lwkmem_n_nodes then 0 else l i)).1 = 0
      · simp only [if_pos hz, Prod.mk.injEq, true_and] at h
        have hl := lwkmem_get_loop_ok filter k registry _ _ (Prod.ext hz rfl) i
        rw [if_pos hi, Nat.zero_add] at hl
        rw [← h.1]
        exact hl
      · simp only [if_neg hz, Prod.mk.injEq] at h
        exact absurd h.1 hz
  have e1 := key _ _ _ _ _ h1
  have e2 := key _ _ _ _ _ h2
  have t1 : node_bytes _all_granules registry i =
      ((registry.filter fun g => decide (g.nid = (i : Int))).map fun g => g.length).sum := by
    simp [node_bytes, _all_granules]
  have t2 : node_bytes _in_use_granules registry i =
      ((registry.filter fun g => decide (g.owner > 0) && decide (g.nid = (i : Int))).map
          fun g => g.length).sum := by
    simp [node_bytes, _in_use_granules]
  refine ⟨e1.trans t1, e2.trans t2, ?_⟩
  rw [e1, e2]
  clear e1 e2 t1 t2 key h1 h2
  induction registry with
  | nil => simp [node_bytes]
  | cons g rest ih =>
    rw [node_bytes_cons, node_bytes_cons]
    have : (if _in_use_granules g = true ∧ g.nid = i then g.length else 0) ≤
        (if _all_granules g = true ∧ g.nid = i then g.length else 0) := by
      by_cases c : g.nid = (i : Int)
      · simp only [_all_granules, c, and_true, if_true]
        split_ifs <;> omega
      · simp [c]
    omega

set_option maxRecDepth 100000 in
/-- Witness for C29: the queries on `registry_two_nodes` with capacity 2. -/
theorem lwkmem_get_sums_witness :
    ∃ total reserved : Nat → Nat,
      lwkmem_get 2 registry_two_nodes (fun _ => 9) 2 = (0, total, 2) ∧
      lwkmem_reserved_get 2 registry_two_nodes (fun _ => 9) 2 = (0, reserved, 2) ∧
      ∀ i, i < 2 →
        total i =
          ((registry_two_nodes.filter fun g => decide (g.nid = (i : Int))).map fun g => g.length).sum ∧
        reserved i =
          ((registry_two_nodes.filter fun g =>
            decide (g.owner > 0) && decide (g.nid = (i : Int))).map fun g => g.length).sum ∧
        reserved i ≤ total i :=
  ⟨_, _, rfl, rfl, lwkmem_get_sums 2 registry_two_nodes (fun _ => 9) (fun _ => 9) _ _ 2 2 2 2
    rfl rfl⟩

/-- C30: errors of the statistics query. `_lwkmem_get` returns `-EINVAL` exactly when the
capacity `*n` is below the number of known nodes or some registry granule has a nid that is
negative or not below `*n`; when the capacity is too small the array and `*n` are as they
were; when the call does not return `-EINVAL` it returns 0 and `*n` is the number of known
nodes. -/
theorem lwkmem_get_errors (lwkmem_n_nodes : Nat) (registry : List mos_lwk_mem_granule)
    (lwkm : Nat → Nat) (n : Nat) (filter : mos_lwk_mem_granule → Bool) :
    ((_lwkmem_get lwkmem_n_nodes registry lwkm n filter).1 = -EINVAL ↔
      (n < lwkmem_n_nodes ∨ ∃ g ∈ registry, g.nid < 0 ∨ (n : Int) ≤ g.nid)) ∧
    (n < lwkmem_n_nodes →
      _lwkmem_get lwkmem_n_nodes registry lwkm n filter = (-EINVAL, lwkm, n)) ∧
    ((_lwkmem_get lwkmem_n_nodes registry lwkm n filter).1 ≠ -EINVAL →
      (_lwkmem_get lwkmem_n_nodes registry lwkm n filter).1 = 0 ∧
      (_lwkmem_get lwkmem_n_nodes registry lwkm n filter).2.2 = lwkmem_n_nodes) := by
  have hrc := lwkmem_get_loop_rc filter n registry
    (fun i => if i < lwkmem_n_nodes then 0 else lwkm i)
  unfold _lwkmem_get
  by_cases hn : n < lwkmem_n_nodes
  · simp [hn]
  · simp only [if_neg hn]
    rcases hrc.1 with h0 | h1
    · rw [if_pos h0]
      have hne : ¬ ((0 : Int) = -EINVAL) := by simp [EINVAL]
      have hno : ¬ ∃ g ∈ registry, g.nid < 0 ∨ (n : Int) ≤ g.nid := by
        intro c
        have := hrc.2.2 c
        rw [h0] at this
        exact hne this
      simp [hn, hno, EINVAL]
    · have hz : ¬ (lwkmem_get_loop filter n registry
          (fun i => if i < lwkmem_n_nodes then 0 else lwkm i)).1 = 0 := by
        rw [h1]; simp [EINVAL]
      rw [if_neg hz]
      simp only [h1, true_iff, ne_eq, not_true_eq_false, false_imp_iff, and_true]
      exact ⟨Or.inr (hrc.2.1 h1), fun c => absurd c hn⟩

/-! ## The granule registry: the loop of `lwkmem_request` -/

theorem find_first_split {α : Type} {p : α → Bool} {l : List α} {i : Nat} {e : α}
    (h : find_first p l = some (i, e)) :
    ∃ l1 l2, l = l1 ++ e :: l2 ∧ l1.length = i ∧ p e = true ∧ ∀ x ∈ l1, p x = false := by
  induction l generalizing i with
  | nil => simp [find_first] at h
  | cons b bs ih =>
    simp only [find_first] at h
    split_ifs at h with hp
    · simp only [Option.some.injEq, Prod.mk.injEq] at h
      obtain ⟨rfl, rfl⟩ := h
      exact ⟨[], bs, rfl, rfl, hp, by simp⟩
    · split at h
      · rename_i j e' hj
        simp only [Option.some.injEq, Prod.mk.injEq] at h
        obtain ⟨rfl, rfl⟩ := h
        obtain ⟨l1, l2, h1, h2, h3, h4⟩ := ih hj
        refine ⟨b :: l1, l2, by rw [h1]; rfl, by simp [h2], h3, ?_⟩
        intro x hx
        rcases List.mem_cons.1 hx with rfl | hx
        · simpa using hp
        · exact h4 x hx
      · simp at h

theorem set_append_length {α : Type} (l1 l2 : List α) (e x : α) :
    (l1 ++ e :: l2).set l1.length x = l1 ++ x :: l2 := by
  induction l1 with
  | nil => rfl
  | cons a l ih => simp [ih]

theorem insert_after_append_length {α : Type} (l1 l2 : List α) (e x : α) :
    insert_after (l1 ++ e :: l2) l1.length x = l1 ++ e :: x :: l2 := by
  unfold insert_after
  induction l1 with
  | nil => simp
  | cons a l ih => simpa using ih

theorem registry_steps_refl (pid : Int) (r : List mos_lwk_mem_granule) :
    registry_steps pid r r := Relation.ReflTransGen.refl

theorem registry_steps_head {pid nid : Int} {a b c : List mos_lwk_mem_granule}
    (h : registry_step pid nid a b) (h2 : registry_steps pid b c) : registry_steps pid a c :=
  Relation.ReflTransGen.head ⟨nid, h⟩ h2

theorem registry_steps_trans {pid : Int} {a b c : List mos_lwk_mem_granule}
    (h : registry_steps pid a b) (h2 : registry_steps pid b c) : registry_steps pid a c :=
  Relation.ReflTransGen.trans h h2

/-- One pass through the body of the loop of `lwkmem_request`, case by case. -/
theorem lwkmem_request_while_succ (env : Env) (pid nid : Int) (fuel wanted : Nat)
    (registry : List mos_lwk_mem_granule) (s : mos_process_t) (hw : 0 < wanted) :
    (find_free_granule_for_nid registry nid = none ∧
      (∀ g ∈ registry, free_for_nid nid g = false) ∧
      lwkmem_request_while env pid nid (fuel + 1) wanted registry s =
        some (-ENOMEM, registry, s)) ∨
    ∃ l1 elt l2, registry = l1 ++ elt :: l2 ∧ free_for_nid nid elt = true ∧
      (∀ x ∈ l1, free_for_nid nid x = false) ∧
      find_free_granule_for_nid registry nid = some (l1.length, elt) ∧
      ((wanted < elt.length ∧ env.vmalloc s.tick = false ∧
          lwkmem_request_while env pid nid (fuel + 1) wanted registry s =
            some (-ENOMEM, registry, { s with tick := s.tick + 1 })) ∨
       (wanted < elt.length ∧ env.vmalloc s.tick = true ∧ env.vmalloc (s.tick + 1) = false ∧
          lwkmem_request_while env pid nid (fuel + 1) wanted registry s =
            some (-ENOMEM,
              l1 ++ { elt with length := elt.length - wanted } ::
                split_tail pid elt wanted :: l2,
              { s with lwkmem := s.lwkmem + wanted, tick := s.tick + 1 + 1 })) ∨
       (wanted < elt.length ∧ env.vmalloc s.tick = true ∧ env.vmalloc (s.tick + 1) = true ∧
          lwkmem_request_while env pid nid (fuel + 1) wanted registry s =
            some (0,
              l1 ++ { elt with length := elt.length - wanted } ::
                split_tail pid elt wanted :: l2,
              { s with lwkmem := s.lwkmem + wanted,
                       lwkmem_list :=
                         { granule := split_tail pid elt wanted, offset := 0 } :: s.lwkmem_list,
                       tick := s.tick + 1 + 1 })) ∨
       (elt.length ≤ wanted ∧ env.vmalloc s.tick = false ∧
          lwkmem_request_while env pid nid (fuel + 1) wanted registry s =
            some (-ENOMEM, l1 ++ { elt with owner := pid } :: l2,
              { s with lwkmem := s.lwkmem + elt.length, tick := s.tick + 1 })) ∨
       (elt.length ≤ wanted ∧ env.vmalloc s.tick = true ∧
          lwkmem_request_while env pid nid (fuel + 1) wanted registry s =
            lwkmem_request_while env pid nid fuel (wanted - elt.length)
              (l1 ++ { elt with owner := pid } :: l2)
              { s with lwkmem := s.lwkmem + elt.length,
                       lwkmem_list :=
                         { granule := { elt with owner := pid }, offset := 0 } :: s.lwkmem_list,
                       tick := s.tick + 1 })) := by
  have hw0 : wanted ≠ 0 := by omega
  cases hf : find_free_granule_for_nid registry nid with
  | none =>
    left
    refine ⟨rfl, find_first_none hf, ?_⟩
    simp only [lwkmem_request_while, if_neg hw0, hf]
  | some je =>
    obtain ⟨j, elt⟩ := je
    right
    obtain ⟨l1, l2, h1, h2, h3, h4⟩ := find_first_split hf
    subst h2
    refine ⟨l1, elt, l2, h1, h3, h4, rfl, ?_⟩
    subst h1
    by_cases hlt : wanted < elt.length
    · by_cases hv : env.vmalloc s.tick = true
      · by_cases hv2 : env.vmalloc (s.tick + 1) = true
        · right; right; left
          refine ⟨hlt, hv, hv2, ?_⟩
          simp only [lwkmem_request_while, if_neg hw0, hf, if_pos hlt, hv, hv2, if_true,
            set_append_length, insert_after_append_length]
          cases fuel <;> simp [lwkmem_request_while, split_tail]
        · right; left
          simp only [Bool.not_eq_true] at hv2
          refine ⟨hlt, hv, hv2, ?_⟩
          simp [lwkmem_request_while, if_neg hw0, hf, if_pos hlt, hv, hv2,
            set_append_length, insert_after_append_length, split_tail]
      · left
        simp only [Bool.not_eq_true] at hv
        refine ⟨hlt, hv, ?_⟩
        simp [lwkmem_request_while, if_neg hw0, hf, if_pos hlt, hv]
    · by_cases hv : env.vmalloc s.tick = true
      · right; right; right; right
        refine ⟨by omega, hv, ?_⟩
        simp [lwkmem_request_while, if_neg hw0, hf, if_neg hlt, hv, set_append_length]
      · right; right; right; left
        simp only [Bool.not_eq_true] at hv
        refine ⟨by omega, hv, ?_⟩
        simp [lwkmem_request_while, if_neg hw0, hf, if_neg hlt, hv, set_append_length]

theorem free_for_nid_iff (nid : Int) (g : mos_lwk_mem_granule) :
    free_for_nid nid g = true ↔ g.owner ≤ 0 ∧ (g.nid = nid ∨ nid = NUMA_NO_NODE) := by
  simp [free_for_nid]

/-- A pass of the loop of `lwkmem_request` leaves the granules with a positive owner as
they are. -/
theorem registry_step_keeps_owned {pid nid : Int} {a b : List mos_lwk_mem_granule}
    (h : registry_step pid nid a b) (g : mos_lwk_mem_granule) (hg : g ∈ a)
    (ho : 0 < g.owner) : g ∈ b := by
  cases h with
  | split l1 elt l2 wanted hf h0 hlt =>
    have hne : g ≠ elt := by
      rintro rfl
      have := ((free_for_nid_iff _ _).1 hf).1
      omega
    simp only [List.mem_append, List.mem_cons] at hg ⊢
    rcases hg with hg | hg | hg
    · exact Or.inl hg
    · exact absurd hg hne
    · exact Or.inr (Or.inr (Or.inr hg))
  | whole l1 elt l2 hf =>
    have hne : g ≠ elt := by
      rintro rfl
      have := ((free_for_nid_iff _ _).1 hf).1
      omega
    simp only [List.mem_append, List.mem_cons] at hg ⊢
    rcases hg with hg | hg | hg
    · exact Or.inl hg
    · exact absurd hg hne
    · exact Or.inr (Or.inr hg)

theorem registry_steps_keeps_owned {pid : Int} {a b : List mos_lwk_mem_granule}
    (h : registry_steps pid a b) (g : mos_lwk_mem_granule) (hg : g ∈ a)
    (ho : 0 < g.owner) : g ∈ b := by
  induction h with
  | refl => exact hg
  | tail _ hstep ih =>
    obtain ⟨nid, hstep⟩ := hstep
    exact registry_step_keeps_owned hstep g ih ho

theorem proc_bytes_append (l1 l2 : List lwk_process_granule) :
    proc_bytes (l1 ++ l2) = proc_bytes l1 + proc_bytes l2 := by
  simp [proc_bytes]

/-- What the loop of `lwkmem_request` for one node has done when it is left: the registry
has changed by passes of the loop, the granules put on the list of the process lie on the
node, are owned by `pid` and have watermark 0; when `rc` is 0 their lengths add up to
`wanted`, as does the growth of `lwkmem`. -/
theorem lwkmem_request_while_spec (env : Env) (pid nid : Int) (hn : nid ≠ NUMA_NO_NODE) :
    ∀ (fuel wanted : Nat) (registry : List mos_lwk_mem_granule) (s : mos_process_t)
      (rc : Int) (registry' : List mos_lwk_mem_granule) (s' : mos_process_t),
      lwkmem_request_while env pid nid fuel wanted registry s = some (rc, registry', s') →
      (rc = 0 ∨ rc = -ENOMEM) ∧
      Relation.ReflTransGen (registry_step pid nid) registry registry' ∧
      ∃ added, s'.lwkmem_list = added ++ s.lwkmem_list ∧
        (∀ p ∈ added, p.granule.nid = nid ∧ p.granule.owner = pid ∧ p.offset = 0) ∧
        (0 < pid → ∀ p ∈ added, p.granule ∈ registry') ∧
        (rc = 0 → proc_bytes added = wanted ∧ s'.lwkmem = s.lwkmem + wanted) := by
  intro fuel
  induction fuel with
  | zero =>
    intro wanted registry s rc registry' s' h
    simp only [lwkmem_request_while] at h
    split_ifs at h with hw
    simp only [Option.some.injEq, Prod.mk.injEq] at h
    obtain ⟨rfl, rfl, rfl⟩ := h
    exact ⟨Or.inl rfl, Relation.ReflTransGen.refl, [], rfl, by simp, by simp, fun _ => by simp [proc_bytes, hw]⟩
  | succ fuel ih =>
    intro wanted registry s rc registry' s' h
    by_cases hw : wanted = 0
    · simp only [lwkmem_request_while, if_pos hw, Option.some.injEq, Prod.mk.injEq] at h
      obtain ⟨rfl, rfl, rfl⟩ := h
      exact ⟨Or.inl rfl, Relation.ReflTransGen.refl, [], rfl, by simp, by simp,
        fun _ => by simp [proc_bytes, hw]⟩
    · have hpos : 0 < wanted := by omega
      have hne : (-ENOMEM : Int) ≠ 0 := by simp [ENOMEM]
      rcases lwkmem_request_while_succ env pid nid fuel wanted registry s hpos with
        ⟨_, _, he⟩ | ⟨l1, elt, l2, hreg, hfree, _, _, hc⟩
      · rw [he] at h
        simp only [Option.some.injEq, Prod.mk.injEq] at h
        obtain ⟨rfl, rfl, rfl⟩ := h
        exact ⟨Or.inr rfl, Relation.ReflTransGen.refl, [], rfl, by simp, by simp,
          fun c => absurd c hne⟩
      · subst hreg
        have hnid : elt.nid = nid := by
          rcases ((free_for_nid_iff _ _).1 hfree).2 with c | c
          · exact c
          · exact absurd c hn
        rcases hc with ⟨_, _, he⟩ | ⟨hlt, _, _, he⟩ | ⟨hlt, _, _, he⟩ | ⟨_, _, he⟩ |
          ⟨hle, _, he⟩
        · rw [he] at h
          simp only [Option.some.injEq, Prod.mk.injEq] at h
          obtain ⟨rfl, rfl, rfl⟩ := h
          exact ⟨Or.inr rfl, Relation.ReflTransGen.refl, [], rfl, by simp, by simp,
            fun c => absurd c hne⟩
        · rw [he] at h
          simp only [Option.some.injEq, Prod.mk.injEq] at h
          obtain ⟨rfl, rfl, rfl⟩ := h
          exact ⟨Or.inr rfl,
            Relation.ReflTransGen.single (registry_step.split l1 elt l2 wanted hfree hpos hlt),
            [], rfl, by simp, by simp, fun c => absurd c hne⟩
        · rw [he] at h
          simp only [Option.some.injEq, Prod.mk.injEq] at h
          obtain ⟨rfl, rfl, rfl⟩ := h
          refine ⟨Or.inl rfl,
            Relation.ReflTransGen.single (registry_step.split l1 elt l2 wanted hfree hpos hlt),
            [{ granule := split_tail pid elt wanted, offset := 0 }], rfl, ?_, ?_, fun _ => ?_⟩
          · intro p hp
            simp only [List.mem_singleton] at hp
            subst hp
            exact ⟨hnid, rfl, rfl⟩
          · intro _ p hp
            simp only [List.mem_singleton] at hp
            subst hp
            simp
          · simp [proc_bytes, split_tail]
        · rw [he] at h
          simp only [Option.some.injEq, Prod.mk.injEq] at h
          obtain ⟨rfl, rfl, rfl⟩ := h
          exact ⟨Or.inr rfl,
            Relation.ReflTransGen.single (registry_step.whole l1 elt l2 hfree),
            [], rfl, by simp, by simp, fun c => absurd c hne⟩
        · rw [he] at h
          obtain ⟨hrc, hsteps, added, hadd, hall, hmem, hsum⟩ := ih _ _ _ _ _ _ h
          refine ⟨hrc,
            Relation.ReflTransGen.head (registry_step.whole l1 elt l2 hfree) hsteps,
            added ++ [{ granule := { elt with owner := pid }, offset := 0 }],
            by rw [hadd]; simp, ?_, ?_, fun c => ?_⟩
          · intro p hp
            rcases List.mem_append.1 hp with hp | hp
            · exact hall p hp
            · simp only [List.mem_singleton] at hp
              subst hp
              exact ⟨hnid, rfl, rfl⟩
          · intro hpid p hp
            rcases List.mem_append.1 hp with hp | hp
            · exact hmem hpid p hp
            · simp only [List.mem_singleton] at hp
              subst hp
              exact registry_steps_keeps_owned
                (Relation.ReflTransGen.mono (fun a b hab => ⟨nid, hab⟩) hsteps) _
                (by simp) hpid
          · obtain ⟨h1, h2⟩ := hsum c
            rw [proc_bytes_append, h1, h2]
            simp only [proc_bytes, List.map_cons, List.map_nil, List.sum_cons, List.sum_nil]
            constructor
            · omega
            · push_cast [Nat.cast_sub hle]
              ring
theorem proc_node_bytes_append (l1 l2 : List lwk_process_granule) (k : Int) :
    proc_node_bytes (l1 ++ l2) k = proc_node_bytes l1 k + proc_node_bytes l2 k := by
  simp [proc_node_bytes]

theorem proc_node_bytes_of_nid {l : List lwk_process_granule} {n : Int}
    (h : ∀ p ∈ l, p.granule.nid = n) (k : Int) :
    proc_node_bytes l k = if k = n then proc_bytes l else 0 := by
  induction l with
  | nil => simp [proc_node_bytes, proc_bytes]
  | cons a l ih =>
    have ha : a.granule.nid = n := h a (List.mem_cons_self _ _)
    have ih := ih fun p hp => h p (List.mem_cons_of_mem _ hp)
    unfold proc_node_bytes proc_bytes at *
    by_cases hk : k = n
    · subst hk
      rw [if_pos rfl] at ih ⊢
      rw [List.filter_cons_of_pos (by simp [ha])]
      simp only [List.map_cons, List.sum_cons, ih]
    · rw [if_neg hk] at ih ⊢
      rw [List.filter_cons_of_neg (by simp [ha]; exact fun c => hk c.symm)]
      exact ih

/-- What the loop of `lwkmem_request` over the nodes has done when it is left. -/
theorem lwkmem_request_for_spec (env : Env) (pid : Int) (fuel : Nat) :
    ∀ (req : List Nat) (i : Nat) (registry : List mos_lwk_mem_granule) (s : mos_process_t)
      (rc : Int) (registry' : List mos_lwk_mem_granule) (s' : mos_process_t),
      lwkmem_request_for env pid fuel i req registry s = some (rc, registry', s') →
      (rc = 0 ∨ rc = -ENOMEM) ∧
      registry_steps pid registry registry' ∧
      ∃ added, s'.lwkmem_list = added ++ s.lwkmem_list ∧
        (∀ p ∈ added, p.granule.owner = pid ∧ p.offset = 0) ∧
        (0 < pid → ∀ p ∈ added, p.granule ∈ registry') ∧
        (rc = 0 → s'.lwkmem = s.lwkmem + proc_bytes added ∧
          ∀ k : Nat, proc_node_bytes added k =
            if i ≤ k then chunk_wanted (req.getD (k - i) 0) else 0) := by
  intro req
  induction req with
  | nil =>
    intro i registry s rc registry' s' h
    simp only [lwkmem_request_for, Option.some.injEq, Prod.mk.injEq] at h
    obtain ⟨rfl, rfl, rfl⟩ := h
    refine ⟨Or.inl rfl, registry_steps_refl _ _, [], rfl, by simp, by simp, fun _ => ?_⟩
    simp [proc_bytes, proc_node_bytes, chunk_wanted]
  | cons r req ih =>
    intro i registry s rc registry' s' h
    simp only [lwkmem_request_for] at h
    have hget : ∀ k : Nat, i + 1 ≤ k →
        (r :: req).getD (k - i) 0 = req.getD (k - (i + 1)) 0 := by
      intro k hk
      have : k - i = (k - (i + 1)) + 1 := by omega
      rw [this, List.getD_cons_succ]
    by_cases hr : r = 0
    · rw [if_pos hr] at h
      obtain ⟨hrc, hsteps, added, hadd, hall, hmem, hsum⟩ := ih _ _ _ _ _ _ h
      refine ⟨hrc, hsteps, added, hadd, hall, hmem, fun c => ⟨(hsum c).1, fun k => ?_⟩⟩
      rw [(hsum c).2 k]
      by_cases hk : i + 1 ≤ k
      · rw [if_pos hk, if_pos (by omega), hget k hk]
      · rw [if_neg hk]
        by_cases hk2 : i ≤ k
        · have : k - i = 0 := by omega
          rw [if_pos hk2, this]
          simp [chunk_wanted, hr]
        · rw [if_neg hk2]
    · rw [if_neg hr] at h
      have hn : ((i : Nat) : Int) ≠ NUMA_NO_NODE := by
        simp only [NUMA_NO_NODE]; omega
      cases hwh : lwkmem_request_while env pid i fuel
          (max (rounddown_u r MIN_CHUNK_SIZE) MIN_CHUNK_SIZE) registry s with
      | none => rw [hwh] at h; simp at h
      | some res =>
        obtain ⟨rc1, registry1, s1⟩ := res
        rw [hwh] at h
        simp only at h
        obtain ⟨hrc1, hsteps1, added1, hadd1, hall1, hmem1, hsum1⟩ :=
          lwkmem_request_while_spec env pid i hn _ _ _ _ _ _ _ hwh
        have hsteps1' : registry_steps pid registry registry1 :=
          Relation.ReflTransGen.mono (fun a b hab => ⟨_, hab⟩) hsteps1
        by_cases hz : rc1 = 0
        · rw [if_pos hz] at h
          obtain ⟨hrc, hsteps, added, hadd, hall, hmem, hsum⟩ := ih _ _ _ _ _ _ h
          refine ⟨hrc, registry_steps_trans hsteps1' hsteps, added ++ added1,
            by rw [hadd, hadd1, List.append_assoc], ?_, ?_, fun c => ?_⟩
          · intro p hp
            rcases List.mem_append.1 hp with hp | hp
            · exact hall p hp
            · exact ⟨(hall1 p hp).2.1, (hall1 p hp).2.2⟩
          · intro hpid p hp
            rcases List.mem_append.1 hp with hp | hp
            · exact hmem hpid p hp
            · exact registry_steps_keeps_owned hsteps _ (hmem1 hpid p hp)
                (by rw [(hall1 p hp).2.1]; exact hpid)
          · obtain ⟨h1, h2⟩ := hsum c
            obtain ⟨h3, h4⟩ := hsum1 hz
            refine ⟨?_, fun k => ?_⟩
            · rw [h1, h4, proc_bytes_append, h3]
              push_cast
              ring
            · rw [proc_node_bytes_append, h2 k,
                proc_node_bytes_of_nid (fun p hp => (hall1 p hp).1), h3]
              by_cases hk : i + 1 ≤ k
              · have hki : ¬ ((k : Int) = (i : Int)) := by omega
                have hik : i ≤ k := by omega
                rw [if_pos hk, if_neg hki, if_pos hik, hget k hk, Nat.add_zero]
              · rw [if_neg hk]
                by_cases hk2 : i ≤ k
                · have hki : k = i := by omega
                  subst hki
                  simp [chunk_wanted, hr]
                · have hki : ¬ ((k : Int) = (i : Int)) := by omega
                  rw [if_neg hk2, if_neg hki]
        · rw [if_neg hz] at h
          simp only [Option.some.injEq, Prod.mk.injEq] at h
          obtain ⟨rfl, rfl, rfl⟩ := h
          exact ⟨hrc1, hsteps1', added1, hadd1,
            fun p hp => ⟨(hall1 p hp).2.1, (hall1 p hp).2.2⟩, hmem1, fun c => absurd c hz⟩

/-- What `lwkmem_request` has done when it returns 0 or `-ENOMEM`: the registry has changed
by passes of the loop, and the process holds the granules put on its list. -/
theorem lwkmem_request_spec {env : Env} {pid : Int} {fuel : Nat} {req : List Nat}
    {registry registry' : List mos_lwk_mem_granule} {s s' : mos_process_t} {rc : Int}
    (h : lwkmem_request env pid fuel req registry s = some (rc, registry', s')) :
    registry_steps pid registry registry' ∧
    (rc = 0 ∨ rc = -ENOMEM ∨ rc = -EINVAL) ∧
    (rc ≠ -EINVAL → s.lwkmem_list = [] ∧ registry ≠ [] ∧
      (∀ p ∈ s'.lwkmem_list, p.granule.owner = pid ∧ p.offset = 0) ∧
      (0 < pid → ∀ p ∈ s'.lwkmem_list, p.granule ∈ registry') ∧
      (rc = 0 → s'.lwkmem = proc_bytes s'.lwkmem_list ∧
        ∀ k : Nat, proc_node_bytes s'.lwkmem_list k = chunk_wanted (req.getD k 0))) := by
  unfold lwkmem_request at h
  by_cases hr : registry.isEmpty = true
  · simp only [hr, if_true, Option.some.injEq, Prod.mk.injEq] at h
    obtain ⟨rfl, rfl, rfl⟩ := h
    exact ⟨registry_steps_refl _ _, Or.inr (Or.inr rfl), fun c => absurd rfl c⟩
  · by_cases hl : s.lwkmem_list.isEmpty = true
    · simp only [hr, hl, Bool.not_true, if_false] at h
      obtain ⟨hrc, hsteps, added, hadd, hall, hmem, hsum⟩ :=
        lwkmem_request_for_spec env pid fuel _ _ _ _ _ _ _ h
      have hl' : s.lwkmem_list = [] := List.isEmpty_iff.1 hl
      simp only [hl', List.append_nil] at hadd
      refine ⟨hsteps, by tauto, fun _ => ⟨hl', ?_, ?_, ?_, fun c => ?_⟩⟩
      · intro c; rw [c] at hr; simp at hr
      · rw [hadd]; exact hall
      · rw [hadd]; exact hmem
      · rw [hadd]
        refine ⟨by rw [(hsum c).1]; simp, fun k => ?_⟩
        rw [(hsum c).2 k]
        simp
    · simp only [hr, hl, Bool.not_false, if_true, if_false, Option.some.injEq,
        Prod.mk.injEq] at h
      obtain ⟨rfl, rfl, rfl⟩ := h
      exact ⟨registry_steps_refl _ _, Or.inr (Or.inr rfl), fun c => absurd rfl c⟩
set_option maxRecDepth 100000 in
/-- C22, as stated, fails: a request of 3 MiB on node 0 succeeds and reserves 2 MiB there,
fewer bytes than requested, where rounding up would give 4 MiB. -/
theorem lwkmem_request_rounds_down :
    ∃ registry' s',
      lwkmem_request env_ok 7 8 [3145728] registry_two_nodes {} = some (0, registry', s') ∧
      proc_node_bytes s'.lwkmem_list 0 = 2097152 ∧
      roundup_u 3145728 MIN_CHUNK_SIZE = 4194304 :=
  ⟨_, _, rfl, by decide, by decide⟩

/-- C22, amended: on a successful `lwkmem_request`, for each node `i` with a nonzero
request `r = req[i]` the total length of the granules put on the list of the process for
node `i` is `max(rounddown(r, 2 MiB), 2 MiB)`. -/
theorem lwkmem_request_reserves_chunks (env : Env) (pid : Int) (fuel : Nat) (req : List Nat)
    (registry registry' : List mos_lwk_mem_granule) (s s' : mos_process_t)
    (h : lwkmem_request env pid fuel req registry s = some (0, registry', s')) :
    ∀ (i r : Nat), req[i]? = some r → r ≠ 0 →
      proc_node_bytes s'.lwkmem_list i = max (rounddown_u r MIN_CHUNK_SIZE) MIN_CHUNK_SIZE := by
  intro i r hi hr
  have hne : (0 : Int) ≠ -EINVAL := by simp [EINVAL]
  have hs := ((lwkmem_request_spec h).2.2 hne).2.2.2.2 rfl
  rw [hs.2 i, List.getD_eq_getElem?_getD, hi]
  simp [chunk_wanted, hr]

set_option maxRecDepth 100000 in
/-- Witness for C22 (amended): the request of 3 MiB on node 0 of `registry_two_nodes`. -/
theorem lwkmem_request_reserves_chunks_witness :
    ∃ registry' s',
      lwkmem_request env_ok 7 8 [3145728] registry_two_nodes {} = some (0, registry', s') ∧
      proc_node_bytes s'.lwkmem_list ((0 : Nat) : Int) =
        max (rounddown_u 3145728 MIN_CHUNK_SIZE) MIN_CHUNK_SIZE :=
  ⟨_, _, rfl,
    lwkmem_request_reserves_chunks env_ok 7 8 [3145728] registry_two_nodes _ {} _ rfl
      0 3145728 rfl (by decide)⟩

theorem free_bytes_for_append (nid : Int) (l1 l2 : List mos_lwk_mem_granule) :
    free_bytes_for nid (l1 ++ l2) = free_bytes_for nid l1 + free_bytes_for nid l2 := by
  simp [free_bytes_for]

theorem free_bytes_for_cons (nid : Int) (g : mos_lwk_mem_granule)
    (l : List mos_lwk_mem_granule) :
    free_bytes_for nid (g :: l) =
      (if free_for_nid nid g = true then g.length else 0) + free_bytes_for nid l := by
  unfold free_bytes_for
  by_cases h : free_for_nid nid g = true
  · rw [if_pos h, List.filter_cons_of_pos h]; simp
  · rw [if_neg h, List.filter_cons_of_neg h]; simp

theorem free_bytes_for_none {nid : Int} {l : List mos_lwk_mem_granule}
    (h : ∀ g ∈ l, free_for_nid nid g = false) : free_bytes_for nid l = 0 := by
  unfold free_bytes_for
  rw [List.filter_eq_nil_iff.2 (fun g hg => by simp [h g hg])]
  rfl

theorem filter_free_none {nid : Int} {l : List mos_lwk_mem_granule}
    (h : ∀ g ∈ l, free_for_nid nid g = false) : l.filter (free_for_nid nid) = [] :=
  List.filter_eq_nil_iff.2 (fun g hg => by simp [h g hg])

/-- A pass of the loop of `lwkmem_request` for node `nid` leaves the granules that are free
for another node as they are. -/
theorem registry_step_frame {pid nid : Int} {a b : List mos_lwk_mem_granule}
    (h : registry_step pid nid a b) (hn : nid ≠ NUMA_NO_NODE) (k : Int) (hk : k ≠ nid)
    (hk1 : k ≠ NUMA_NO_NODE) :
    b.filter (free_for_nid k) = a.filter (free_for_nid k) := by
  have key : ∀ elt : mos_lwk_mem_granule, free_for_nid nid elt = true →
      ∀ e : mos_lwk_mem_granule, e.nid = elt.nid → free_for_nid k e = false := by
    intro elt hf e he
    have h1 := ((free_for_nid_iff _ _).1 hf).2
    have h2 : elt.nid = nid := by tauto
    by_contra c
    simp only [Bool.not_eq_false] at c
    have h3 := ((free_for_nid_iff _ _).1 c).2
    rcases h3 with h3 | h3
    · exact hk (by rw [← h3, he, h2])
    · exact hk1 h3
  cases h with
  | split l1 elt l2 wanted hf h0 hlt =>
    simp only [List.filter_append]
    have k1 := key elt hf { elt with length := elt.length - wanted } rfl
    have k2 := key elt hf (split_tail pid elt wanted) rfl
    have k3 := key elt hf elt rfl
    rw [List.filter_cons_of_neg (by rw [k1]; simp),
      List.filter_cons_of_neg (by rw [k2]; simp),
      List.filter_cons_of_neg (by rw [k3]; simp)]
  | whole l1 elt l2 hf =>
    simp only [List.filter_append]
    have k1 := key elt hf { elt with owner := pid } rfl
    have k3 := key elt hf elt rfl
    rw [List.filter_cons_of_neg (by rw [k1]; simp),
      List.filter_cons_of_neg (by rw [k3]; simp)]

theorem registry_steps_frame {pid nid : Int} {a b : List mos_lwk_mem_granule}
    (h : Relation.ReflTransGen (registry_step pid nid) a b) (hn : nid ≠ NUMA_NO_NODE)
    (k : Int) (hk : k ≠ nid) (hk1 : k ≠ NUMA_NO_NODE) :
    b.filter (free_for_nid k) = a.filter (free_for_nid k) := by
  induction h with
  | refl => rfl
  | tail _ hstep ih => rw [registry_step_frame hstep hn k hk hk1, ih]

/-- With a positive pid and an allocator that does not fail, the loop of `lwkmem_request`
for one node is left after at most one pass per free granule of the node and one more, with
`rc = 0` exactly when the free granules of the node hold the bytes wanted. -/
theorem lwkmem_request_while_total (env : Env) (pid nid : Int)
    (hv : ∀ t, env.vmalloc t = true) (hpid : 0 < pid) :
    ∀ (fuel wanted : Nat) (registry : List mos_lwk_mem_granule) (s : mos_process_t),
      (registry.filter (free_for_nid nid)).length < fuel →
      ∃ rc registry' s',
        lwkmem_request_while env pid nid fuel wanted registry s = some (rc, registry', s') ∧
        (rc = 0 ↔ wanted ≤ free_bytes_for nid registry) := by
  intro fuel
  induction fuel with
  | zero => intro wanted registry s h; omega
  | succ fuel ih =>
    intro wanted registry s hfuel
    by_cases hw : wanted = 0
    · refine ⟨0, registry, s, by simp [lwkmem_request_while, hw], by simp [hw]⟩
    · have hpos : 0 < wanted := by omega
      have hne : (-ENOMEM : Int) ≠ 0 := by simp [ENOMEM]
      rcases lwkmem_request_while_succ env pid nid fuel wanted registry s hpos with
        ⟨_, hnone, he⟩ | ⟨l1, elt, l2, hreg, hfree, hl1, _, hc⟩
      · refine ⟨_, _, _, he, ?_⟩
        rw [free_bytes_for_none hnone]
        constructor
        · intro c; exact absurd c hne
        · intro c; omega
      · subst hreg
        have hF : free_bytes_for nid (l1 ++ elt :: l2) =
            elt.length + free_bytes_for nid l2 := by
          rw [free_bytes_for_append, free_bytes_for_none hl1, free_bytes_for_cons,
            if_pos hfree, Nat.zero_add]
        rcases hc with ⟨_, hf, _⟩ | ⟨_, _, hf, _⟩ | ⟨hlt, _, _, he⟩ | ⟨_, hf, _⟩ |
          ⟨hle, _, he⟩
        · rw [hv] at hf; simp at hf
        · rw [hv] at hf; simp at hf
        · refine ⟨_, _, _, he, ?_⟩
          rw [hF]
          constructor
          · intro _; omega
          · intro _; rfl
        · rw [hv] at hf; simp at hf
        · have hnf : free_for_nid nid { elt with owner := pid } = false := by
            simp only [free_for_nid, Bool.and_eq_false_imp, decide_eq_true_eq]
            intro c
            omega
          have hcount : ((l1 ++ { elt with owner := pid } :: l2).filter
              (free_for_nid nid)).length < fuel := by
            have h1 : ((l1 ++ elt :: l2).filter (free_for_nid nid)).length =
                (l2.filter (free_for_nid nid)).length + 1 := by
              rw [List.filter_append, filter_free_none hl1, List.nil_append,
                List.filter_cons_of_pos hfree, List.length_cons]
            rw [List.filter_append, filter_free_none hl1, List.nil_append,
              List.filter_cons_of_neg (by simp [hnf])]
            omega
          obtain ⟨rc, registry', s', hres, hiff⟩ :=
            ih (wanted - elt.length) (l1 ++ { elt with owner := pid } :: l2)
              { s with lwkmem := s.lwkmem + elt.length,
                       lwkmem_list :=
                         { granule := { elt with owner := pid }, offset := 0 } :: s.lwkmem_list,
                       tick := s.tick + 1 } hcount
          refine ⟨rc, registry', s', he.trans hres, hiff.trans ?_⟩
          rw [hF, free_bytes_for_append, free_bytes_for_none hl1, free_bytes_for_cons, hnf]
          simp only [Bool.false_eq_true, if_false]
          omega
/-- With a positive pid and an allocator that does not fail, the loop of `lwkmem_request`
over the nodes is left with `rc = 0` exactly when every node holds, in free granules, the
bytes wanted from it. -/
theorem lwkmem_request_for_total (env : Env) (pid : Int) (fuel : Nat)
    (hv : ∀ t, env.vmalloc t = true) (hpid : 0 < pid) :
    ∀ (req : List Nat) (i : Nat) (registry : List mos_lwk_mem_granule) (s : mos_process_t),
      (∀ k : Nat, i ≤ k → (registry.filter (free_for_nid k)).length < fuel) →
      ∃ rc registry' s',
        lwkmem_request_for env pid fuel i req registry s = some (rc, registry', s') ∧
        (rc = 0 ↔
          ∀ k : Nat, i ≤ k → chunk_wanted (req.getD (k - i) 0) ≤ free_bytes_for k registry) := by
  intro req
  induction req with
  | nil =>
    intro i registry s _
    exact ⟨0, registry, s, rfl, by simp [chunk_wanted]⟩
  | cons r req ih =>
    intro i registry s hfuel
    have hget : ∀ k : Nat, i + 1 ≤ k →
        (r :: req).getD (k - i) 0 = req.getD (k - (i + 1)) 0 := by
      intro k hk
      have : k - i = (k - (i + 1)) + 1 := by omega
      rw [this, List.getD_cons_succ]
    have hget0 : (r :: req).getD (i - i) 0 = r := by simp
    by_cases hr : r = 0
    · obtain ⟨rc, registry', s', hres, hiff⟩ :=
        ih (i + 1) registry s (fun k hk => hfuel k (by omega))
      refine ⟨rc, registry', s', by simp only [lwkmem_request_for, if_pos hr]; exact hres,
        hiff.trans ⟨fun h k hk => ?_, fun h k hk => ?_⟩⟩
      · by_cases hk2 : i + 1 ≤ k
        · rw [hget k hk2]; exact h k hk2
        · have : k = i := by omega
          subst this
          rw [hget0, hr]
          simp [chunk_wanted]
      · rw [← hget k hk]; exact h k (by omega)
    · have hn : ((i : Nat) : Int) ≠ NUMA_NO_NODE := by
        simp only [NUMA_NO_NODE]; omega
      obtain ⟨rc1, registry1, s1, hres1, hiff1⟩ :=
        lwkmem_request_while_total env pid i hv hpid fuel
          (max (rounddown_u r MIN_CHUNK_SIZE) MIN_CHUNK_SIZE) registry s (hfuel i (le_refl _))
      have hsteps := (lwkmem_request_while_spec env pid i hn _ _ _ _ _ _ _ hres1).2.1
      have hframe : ∀ k : Nat, i + 1 ≤ k →
          registry1.filter (free_for_nid k) = registry.filter (free_for_nid k) := by
        intro k hk
        refine registry_steps_frame hsteps hn k ?_ ?_
        · omega
        · simp only [NUMA_NO_NODE]; omega
      have hcw : chunk_wanted r = max (rounddown_u r MIN_CHUNK_SIZE) MIN_CHUNK_SIZE := by
        simp [chunk_wanted, hr]
      by_cases hz : rc1 = 0
      · obtain ⟨rc, registry', s', hres, hiff⟩ :=
          ih (i + 1) registry1 s1 (fun k hk => by rw [hframe k hk]; exact hfuel k (by omega))
        refine ⟨rc, registry', s',
          by simp only [lwkmem_request_for, if_neg hr, hres1, if_pos hz]; exact hres,
          hiff.trans ⟨fun h k hk => ?_, fun h k hk => ?_⟩⟩
        · by_cases hk2 : i + 1 ≤ k
          · have := h k hk2
            rw [hget k hk2]
            unfold free_bytes_for at this ⊢
            rw [hframe k hk2] at this
            exact this
          · have : k = i := by omega
            subst this
            rw [hget0, hcw]
            exact hiff1.1 hz
        · have := h k (by omega)
          rw [hget k hk] at this
          unfold free_bytes_for at this ⊢
          rw [hframe k hk]
          exact this
      · refine ⟨rc1, registry1, s1,
          by simp only [lwkmem_request_for, if_neg hr, hres1, if_neg hz],
          ⟨fun c => absurd c hz, fun h => ?_⟩⟩
        have := h i (le_refl _)
        rw [hget0, hcw] at this
        exact hiff1.2 this

/-- C23, as stated, fails: with 4 MiB free on node 0 a request of 2 MiB there returns
`-ENOMEM` when `vmalloc` fails, and the registry is as before. -/
theorem lwkmem_request_enomem_with_free_bytes :
    ∃ s', lwkmem_request env_vmalloc_fails 7 8 [2097152] registry_two_nodes {} =
        some (-ENOMEM, registry_two_nodes, s') ∧
      max (rounddown_u 2097152 MIN_CHUNK_SIZE) MIN_CHUNK_SIZE ≤
        free_bytes_for 0 registry_two_nodes :=
  ⟨_, rfl, by decide⟩

/-- C23, amended: for a non-empty registry, a process with no granules and a positive pid,
and with `vmalloc` succeeding, `lwkmem_request` returns (an iteration bound above the
length of the registry is enough), and it returns `-ENOMEM` exactly when for some node `i`
with `req[i] != 0` the total length of the granules free for `i` is smaller than
`max(rounddown(req[i], 2 MiB), 2 MiB)`; otherwise it returns 0, every granule on the list
of the process is a granule of the registry owned by `pid`, with watermark 0, and `lwkmem`
is the sum of their lengths. -/
theorem lwkmem_request_enomem_iff (env : Env) (pid : Int) (fuel : Nat) (req : List Nat)
    (registry : List mos_lwk_mem_granule) (s : mos_process_t)
    (hreg : registry ≠ []) (hs : s.lwkmem_list = []) (hpid : 0 < pid)
    (hv : ∀ t, env.vmalloc t = true) (hfuel : registry.length < fuel) :
    ∃ rc registry' s',
      lwkmem_request env pid fuel req registry s = some (rc, registry', s') ∧
      (rc = -ENOMEM ↔
        ∃ (i r : Nat), req[i]? = some r ∧ r ≠ 0 ∧
          ((registry.filter fun g => decide (g.owner ≤ 0) && decide (g.nid = (i : Int))).map
              fun g => g.length).sum <
            max (rounddown_u r MIN_CHUNK_SIZE) MIN_CHUNK_SIZE) ∧
      (rc ≠ -ENOMEM →
        rc = 0 ∧
        (∀ p ∈ s'.lwkmem_list,
          p.granule.owner = pid ∧ p.offset = 0 ∧ p.granule ∈ registry') ∧
        s'.lwkmem = ((s'.lwkmem_list.map fun p => p.granule.length).sum : Nat)) := by
  have hcount : ∀ k : Nat, 0 ≤ k → (registry.filter (free_for_nid k)).length < fuel :=
    fun k _ => lt_of_le_of_lt (List.length_filter_le _ _) hfuel
  obtain ⟨rc, registry', s', hres, hiff⟩ :=
    lwkmem_request_for_total env pid fuel hv hpid req 0 registry { s with lwkmem := 0 } hcount
  have hreq : lwkmem_request env pid fuel req registry s = some (rc, registry', s') := by
    unfold lwkmem_request
    have h1 : registry.isEmpty = false := by
      cases registry with
      | nil => exact absurd rfl hreg
      | cons a l => rfl
    have h2 : (!({ s with lwkmem := 0 } : mos_process_t).lwkmem_list.isEmpty) = false := by
      show (!s.lwkmem_list.isEmpty) = false
      rw [hs]; rfl
    simp only [h1, h2, Bool.false_eq_true, if_false]
    exact hres
  have hspec := lwkmem_request_spec hreq
  have hENOMEM : (-ENOMEM : Int) ≠ 0 := by simp [ENOMEM]
  have hEINVAL : rc ≠ -EINVAL := by
    have := (lwkmem_request_for_spec env pid fuel _ _ _ _ _ _ _ hres).1
    rcases this with c | c <;> rw [c] <;> simp [EINVAL, ENOMEM]
  have hfb : ∀ k : Nat, free_bytes_for k registry =
      ((registry.filter fun g => decide (g.owner ≤ 0) && decide (g.nid = (k : Int))).map
        fun g => g.length).sum := by
    intro k
    unfold free_bytes_for
    congr 2
    apply List.filter_congr
    intro g _
    have : ¬ ((k : Int) = NUMA_NO_NODE) := by simp only [NUMA_NO_NODE]; omega
    simp [free_for_nid, this]
  have hrc : rc = 0 ∨ rc = -ENOMEM := by
    rcases hspec.2.1 with c | c | c
    · exact Or.inl c
    · exact Or.inr c
    · exact absurd c hEINVAL
  have hiff2 : rc = -ENOMEM ↔ ¬ (rc = 0) := by
    rcases hrc with c | c <;> rw [c] <;> simp [ENOMEM]
  refine ⟨rc, registry', s', hreq, ?_, fun hne => ?_⟩
  · rw [hiff2, hiff]
    constructor
    · intro h
      by_contra hc
      apply h
      intro k _
      by_contra hk
      have hr0 : req.getD k 0 ≠ 0 := by
        intro c
        simp only [Nat.sub_zero, c, chunk_wanted, if_true] at hk
        omega
      cases hgk : req[k]? with
      | none =>
        apply hr0
        rw [List.getD_eq_getElem?_getD, hgk]; rfl
      | some r =>
        have hgd : req.getD k 0 = r := by rw [List.getD_eq_getElem?_getD, hgk]; rfl
        rw [hgd] at hr0
        apply hc
        refine ⟨k, r, hgk, hr0, ?_⟩
        simp only [Nat.sub_zero, hgd, chunk_wanted, if_neg hr0] at hk
        rw [← hfb]
        omega
    · rintro ⟨i, r, hi, hr, hlt⟩ h
      have := h i (Nat.zero_le _)
      have hgd : req.getD i 0 = r := by rw [List.getD_eq_getElem?_getD, hi]; rfl
      simp only [Nat.sub_zero, hgd, chunk_wanted, if_neg hr] at this
      rw [← hfb] at hlt
      omega
  · have h0 : rc = 0 := by
      rcases hrc with c | c
      · exact c
      · exact absurd c hne
    obtain ⟨_, _, hall, hmem, hsum⟩ := hspec.2.2 hEINVAL
    refine ⟨h0, fun p hp => ⟨(hall p hp).1, (hall p hp).2, hmem hpid p hp⟩, ?_⟩
    exact (hsum h0).1

set_option maxRecDepth 100000 in
/-- Witness for C23 (amended): 6 MiB wanted on node 0 of `registry_two_nodes`, which has
4 MiB free there. -/
theorem lwkmem_request_enomem_iff_witness :
    registry_two_nodes ≠ [] ∧ (7 : Int) > 0 ∧ registry_two_nodes.length < 8 ∧
    ∃ rc registry' s',
      lwkmem_request env_ok 7 8 [6291456] registry_two_nodes {} = some (rc, registry', s') ∧
      (rc = -ENOMEM ↔
        ∃ (i r : Nat), [6291456][i]? = some r ∧ r ≠ 0 ∧
          ((registry_two_nodes.filter fun g =>
              decide (g.owner ≤ 0) && decide (g.nid = (i : Int))).map
              fun g => g.length).sum <
            max (rounddown_u r MIN_CHUNK_SIZE) MIN_CHUNK_SIZE) ∧
      (rc ≠ -ENOMEM →
        rc = 0 ∧
        (∀ p ∈ s'.lwkmem_list,
          p.granule.owner = 7 ∧ p.offset = 0 ∧ p.granule ∈ registry') ∧
        s'.lwkmem = ((s'.lwkmem_list.map fun p => p.granule.length).sum : Nat)) :=
  ⟨by decide, by decide, by decide,
    lwkmem_request_enomem_iff env_ok 7 8 [6291456] registry_two_nodes {} (by decide) rfl
      (by decide) (fun _ => rfl) (by decide)⟩

/-- C24, as stated, fails: 2 MiB are wanted, the free granule found has 4 MiB, `vmalloc`
fails: no granule is created, the registry is as before and the loop is left with
`-ENOMEM`. -/
theorem lwkmem_request_no_split_without_memory :
    ∃ elt s', find_free_granule_for_nid registry_two_nodes 0 = some (0, elt) ∧
      2097152 < elt.length ∧
      lwkmem_request_while env_vmalloc_fails 7 0 1 2097152 registry_two_nodes {} =
        some (-ENOMEM, registry_two_nodes, s') :=
  ⟨_, _, rfl, by decide, rfl⟩

/-- C24, amended: when the amount still wanted is smaller than the free granule `elt` found
and the `vmalloc` of the new granule record succeeds, the pass through the loop body of
`lwkmem_request` puts immediately after `elt` a new granule with
base = old base + old length - wanted, length = wanted, the nid of `elt` and owner `pid`;
`elt` keeps its base, nid and owner and its length shrinks by `wanted`; the other entries
of the registry stay; the two ranges are adjacent, disjoint, and cover the range `elt`
had. -/
theorem lwkmem_request_split_tail (env : Env) (pid nid : Int) (fuel wanted : Nat)
    (registry : List mos_lwk_mem_granule) (s : mos_process_t) (j : Nat)
    (elt : mos_lwk_mem_granule)
    (hf : find_free_granule_for_nid registry nid = some (j, elt))
    (hw : 0 < wanted) (hlt : wanted < elt.length) (hv : env.vmalloc s.tick = true) :
    ∃ rc s' l1 l2 rem newg,
      registry = l1 ++ elt :: l2 ∧ l1.length = j ∧
      rem = { elt with length := elt.length - wanted } ∧
      newg = { base := elt.base + elt.length - wanted, length := wanted, nid := elt.nid,
               owner := pid } ∧
      lwkmem_request_while env pid nid (fuel + 1) wanted registry s =
        some (rc, l1 ++ rem :: newg :: l2, s') ∧
      rem.base + rem.length = newg.base ∧
      (∀ x, ¬ (granule_covers rem x ∧ granule_covers newg x)) ∧
      (∀ x, granule_covers elt x ↔ (granule_covers rem x ∨ granule_covers newg x)) := by
  rcases lwkmem_request_while_succ env pid nid fuel wanted registry s hw with
    ⟨hnone, _, _⟩ | ⟨l1, e, l2, hreg, _, _, hfind, hc⟩
  · rw [hnone] at hf; simp at hf
  · rw [hfind] at hf
    simp only [Option.some.injEq, Prod.mk.injEq] at hf
    obtain ⟨hj, rfl⟩ := hf
    have hrange : ({ e with length := e.length - wanted } : mos_lwk_mem_granule).base +
        ({ e with length := e.length - wanted } : mos_lwk_mem_granule).length =
        (split_tail pid e wanted).base ∧
        (∀ x, ¬ (granule_covers { e with length := e.length - wanted } x ∧
          granule_covers (split_tail pid e wanted) x)) ∧
        (∀ x, granule_covers e x ↔ (granule_covers { e with length := e.length - wanted } x ∨
          granule_covers (split_tail pid e wanted) x)) := by
      simp only [granule_covers, split_tail]
      refine ⟨by omega, fun x => by omega, fun x => by omega⟩
    rcases hc with ⟨_, hv', _⟩ | ⟨_, _, _, he⟩ | ⟨_, _, _, he⟩ | ⟨hle, _, _⟩ | ⟨hle, _, _⟩
    · rw [hv] at hv'; simp at hv'
    · exact ⟨_, _, l1, l2, _, _, hreg, hj, rfl, rfl, he, hrange⟩
    · exact ⟨_, _, l1, l2, _, _, hreg, hj, rfl, rfl, he, hrange⟩
    · omega
    · omega

set_option maxRecDepth 100000 in
/-- Witness for C24 (amended): 2 MiB wanted from the 4 MiB granule of node 0. -/
theorem lwkmem_request_split_tail_witness :
    find_free_granule_for_nid registry_two_nodes 0 =
      some (0, { base := 1073741824, length := 4194304, nid := 0, owner := -1 }) ∧
    ∃ rc s' l1 l2 rem newg,
      registry_two_nodes =
        l1 ++ { base := 1073741824, length := 4194304, nid := 0, owner := -1 } :: l2 ∧
      l1.length = 0 ∧
      rem = { base := 1073741824, length := 4194304 - 2097152, nid := 0, owner := -1 } ∧
      newg = { base := 1073741824 + 4194304 - 2097152, length := 2097152, nid := 0,
               owner := 7 } ∧
      lwkmem_request_while env_ok 7 0 (0 + 1) 2097152 registry_two_nodes {} =
        some (rc, l1 ++ rem :: newg :: l2, s') ∧
      rem.base + rem.length = newg.base ∧
      (∀ x, ¬ (granule_covers rem x ∧ granule_covers newg x)) ∧
      (∀ x, granule_covers
          { base := 1073741824, length := 4194304, nid := 0, owner := -1 } x ↔
        (granule_covers rem x ∨ granule_covers newg x)) :=
  ⟨rfl, lwkmem_request_split_tail env_ok 7 0 0 2097152 registry_two_nodes {} 0
    { base := 1073741824, length := 4194304, nid := 0, owner := -1 } rfl (by decide)
    (by decide) rfl⟩
/-! ## The granule registry: ranges -/

theorem cover_count_cons (g : mos_lwk_mem_granule) (l : List mos_lwk_mem_granule) (x : Nat) :
    cover_count (g :: l) x = (if granule_covers g x then 1 else 0) + cover_count l x := by
  unfold cover_count
  by_cases h : granule_covers g x
  · rw [if_pos h, List.filter_cons_of_pos (by simpa using h), List.length_cons]; omega
  · rw [if_neg h, List.filter_cons_of_neg (by simpa using h)]; omega

theorem cover_count_append (l1 l2 : List mos_lwk_mem_granule) (x : Nat) :
    cover_count (l1 ++ l2) x = cover_count l1 x + cover_count l2 x := by
  simp [cover_count]

theorem cover_count_nil (x : Nat) : cover_count [] x = 0 := rfl

theorem registry_bytes_cons (g : mos_lwk_mem_granule) (l : List mos_lwk_mem_granule) :
    registry_bytes (g :: l) = g.length + registry_bytes l := by
  simp [registry_bytes]

theorem registry_bytes_append (l1 l2 : List mos_lwk_mem_granule) :
    registry_bytes (l1 ++ l2) = registry_bytes l1 + registry_bytes l2 := by
  simp [registry_bytes]

theorem same_bytes_refl (r : List mos_lwk_mem_granule) : same_bytes r r :=
  ⟨fun _ => rfl, rfl⟩

theorem same_bytes_trans {a b c : List mos_lwk_mem_granule} (h1 : same_bytes a b)
    (h2 : same_bytes b c) : same_bytes a c :=
  ⟨fun x => (h2.1 x).trans (h1.1 x), h2.2.trans h1.2⟩

/-- A byte lies in a granule of the registry exactly when its count is positive. -/
theorem cover_count_pos (r : List mos_lwk_mem_granule) (x : Nat) :
    0 < cover_count r x ↔ ∃ g ∈ r, granule_covers g x := by
  unfold cover_count
  rw [List.length_pos_iff_exists_mem]
  constructor
  · rintro ⟨g, hg⟩
    rw [List.mem_filter] at hg
    exact ⟨g, hg.1, by simpa using hg.2⟩
  · rintro ⟨g, hg, hc⟩
    exact ⟨g, List.mem_filter.2 ⟨hg, by simpa using hc⟩⟩

theorem granules_disjoint_iff (a b : mos_lwk_mem_granule) :
    granules_disjoint a b ↔ ∀ x, ¬ (granule_covers a x ∧ granule_covers b x) := by
  unfold granules_disjoint granule_covers
  constructor
  · intro h x
    omega
  · intro h
    by_contra c
    have h1 := h a.base
    have h2 := h b.base
    omega

/-- The granules of a registry are pairwise non-overlapping exactly when no byte lies in
two of them. -/
theorem non_overlapping_iff (r : List mos_lwk_mem_granule) :
    non_overlapping r ↔ ∀ x, cover_count r x ≤ 1 := by
  unfold non_overlapping
  induction r with
  | nil => simp [cover_count]
  | cons g l ih =>
    rw [List.pairwise_cons, ih]
    constructor
    · rintro ⟨h1, h2⟩ x
      rw [cover_count_cons]
      by_cases hc : granule_covers g x
      · rw [if_pos hc]
        have : ¬ 0 < cover_count l x := by
          rw [cover_count_pos]
          rintro ⟨b, hb, hbx⟩
          exact (granules_disjoint_iff g b).1 (h1 b hb) x ⟨hc, hbx⟩
        omega
      · rw [if_neg hc]
        have := h2 x
        omega
    · intro h
      refine ⟨fun b hb => (granules_disjoint_iff g b).2 fun x hx => ?_, fun x => ?_⟩
      · have := h x
        rw [cover_count_cons, if_pos hx.1] at this
        have hp : 0 < cover_count l x := (cover_count_pos l x).2 ⟨b, hb, hx.2⟩
        omega
      · have := h x
        rw [cover_count_cons] at this
        omega

/-- Registries that hold every byte equally often are non-overlapping together and cover
the same bytes. -/
theorem same_bytes_facts {r r' : List mos_lwk_mem_granule} (h : same_bytes r r') :
    (non_overlapping r → non_overlapping r') ∧
    (∀ x, (∃ g ∈ r', granule_covers g x) ↔ (∃ g ∈ r, granule_covers g x)) ∧
    registry_bytes r' = registry_bytes r := by
  refine ⟨fun hno => ?_, fun x => ?_, h.2⟩
  · rw [non_overlapping_iff] at hno ⊢
    intro x
    rw [h.1 x]
    exact hno x
  · rw [← cover_count_pos, ← cover_count_pos, h.1 x]

/-- A pass of the loop of `lwkmem_request` keeps the bytes of the registry. -/
theorem registry_step_same_bytes {pid nid : Int} {a b : List mos_lwk_mem_granule}
    (h : registry_step pid nid a b) : same_bytes a b := by
  cases h with
  | split l1 elt l2 wanted hf h0 hlt =>
    constructor
    · intro x
      simp only [cover_count_append, cover_count_cons, granule_covers, split_tail]
      split_ifs <;> omega
    · simp only [registry_bytes_append, registry_bytes_cons, split_tail]
      omega
  | whole l1 elt l2 hf =>
    constructor
    · intro x
      simp only [cover_count_append, cover_count_cons, granule_covers]
    · simp only [registry_bytes_append, registry_bytes_cons]

theorem registry_steps_same_bytes {pid : Int} {a b : List mos_lwk_mem_granule}
    (h : registry_steps pid a b) : same_bytes a b := by
  induction h with
  | refl => exact same_bytes_refl _
  | tail _ hstep ih =>
    obtain ⟨nid, hstep⟩ := hstep
    exact same_bytes_trans ih (registry_step_same_bytes hstep)

theorem same_bytes_map (f : mos_lwk_mem_granule → mos_lwk_mem_granule)
    (hf : ∀ g, (f g).base = g.base ∧ (f g).length = g.length)
    (r : List mos_lwk_mem_granule) : same_bytes r (r.map f) := by
  induction r with
  | nil => exact same_bytes_refl _
  | cons g l ih =>
    constructor
    · intro x
      rw [List.map_cons, cover_count_cons, cover_count_cons, ih.1 x]
      simp only [granule_covers, (hf g).1, (hf g).2]
    · rw [List.map_cons, registry_bytes_cons, registry_bytes_cons, ih.2, (hf g).2]

theorem granule_release_same_bytes (r : List mos_lwk_mem_granule) (g : mos_lwk_mem_granule) :
    same_bytes r (granule_release r g) := by
  unfold granule_release
  apply same_bytes_map
  intro e
  split_ifs <;> exact ⟨rfl, rfl⟩

theorem foldl_release_same_bytes {α : Type} (f : α → mos_lwk_mem_granule) (l : List α) :
    ∀ r : List mos_lwk_mem_granule,
      same_bytes r (l.foldl (fun r b => granule_release r (f b)) r) := by
  induction l with
  | nil => intro r; exact same_bytes_refl _
  | cons a l ih =>
    intro r
    rw [List.foldl_cons]
    exact same_bytes_trans (granule_release_same_bytes r (f a)) (ih _)

theorem release_kind_blocks_same_bytes (k : Nat)
    (rs : List mos_lwk_mem_granule × mos_process_t) :
    same_bytes rs.1 (release_kind_blocks k rs).1 :=
  foldl_release_same_bytes (fun b : blk_list => b.phys) _ _

theorem release_task_mem_blocks_same_bytes (r : List mos_lwk_mem_granule)
    (s : mos_process_t) : same_bytes r (release_task_mem_blocks r s).1 := by
  unfold release_task_mem_blocks
  exact same_bytes_trans
    (same_bytes_trans
      (same_bytes_trans (release_kind_blocks_same_bytes kind_4k (r, s))
        (release_kind_blocks_same_bytes kind_2m _))
      (release_kind_blocks_same_bytes kind_4m _))
    (release_kind_blocks_same_bytes kind_1g _)

/-- The adjacency pass keeps the bytes of the registry, when the test fails at the list
head. -/
theorem merge_from_same_bytes (list_head : mos_lwk_mem_granule)
    (hh : list_head.owner ≠ -1) :
    ∀ (rest : List mos_lwk_mem_granule) (elt : mos_lwk_mem_granule),
      same_bytes (elt :: rest) (merge_from list_head elt rest) := by
  intro rest
  induction rest with
  | nil =>
    intro elt
    have : merge_test elt list_head = false := by simp [merge_test, hh]
    simp only [merge_from, this]
    exact same_bytes_refl _
  | cons next rest ih =>
    intro elt
    simp only [merge_from]
    by_cases ht : merge_test elt next = true
    · rw [if_pos ht]
      refine same_bytes_trans ?_ (ih _)
      have hadj : elt.base + elt.length = next.base := by
        simp only [merge_test, Bool.and_eq_true, decide_eq_true_eq] at ht
        exact ht.1.1
      constructor
      · intro x
        simp only [cover_count_cons, granule_covers]
        split_ifs <;> omega
      · simp only [registry_bytes_cons]
        omega
    · rw [if_neg ht]
      have := ih next
      constructor
      · intro x
        rw [cover_count_cons, this.1 x, cover_count_cons elt]
      · rw [registry_bytes_cons, this.2, registry_bytes_cons elt]

theorem merge_pass_same_bytes (list_head : mos_lwk_mem_granule) (hh : list_head.owner ≠ -1)
    (r : List mos_lwk_mem_granule) : same_bytes r (merge_pass list_head r) := by
  cases r with
  | nil => exact same_bytes_refl _
  | cons elt rest => exact merge_from_same_bytes list_head hh rest elt

theorem lwkmem_release_same_bytes (list_head : mos_lwk_mem_granule)
    (hh : list_head.owner ≠ -1) (r : List mos_lwk_mem_granule) (s : mos_process_t) :
    same_bytes r (lwkmem_release list_head r s).1 := by
  unfold lwkmem_release
  simp only
  split_ifs
  · exact release_task_mem_blocks_same_bytes r s
  · exact same_bytes_trans (release_task_mem_blocks_same_bytes r s)
      (same_bytes_trans (foldl_release_same_bytes (fun p : lwk_process_granule => p.granule) _ _)
        (merge_pass_same_bytes list_head hh _))

/-- C25: registry invariant. If the granules of the registry are pairwise non-overlapping
byte ranges, they are so after `lwkmem_request`, whatever it returns, and after
`lwkmem_release`; the bytes covered by the registry and the sum of the lengths are the same
before and after. For `lwkmem_release` the test of the adjacency pass is taken to fail at
the list head. -/
theorem registry_ranges_invariant (env : Env) (pid : Int) (fuel : Nat) (req : List Nat)
    (registry registry' : List mos_lwk_mem_granule) (s s' t : mos_process_t) (rc : Int)
    (list_head : mos_lwk_mem_granule)
    (hno : non_overlapping registry)
    (hreq : lwkmem_request env pid fuel req registry s = some (rc, registry', s'))
    (hh : list_head.owner ≠ -1) :
    (non_overlapping registry' ∧
      (∀ x, (∃ g ∈ registry', granule_covers g x) ↔ (∃ g ∈ registry, granule_covers g x)) ∧
      registry_bytes registry' = registry_bytes registry) ∧
    (non_overlapping (lwkmem_release list_head registry t).1 ∧
      (∀ x, (∃ g ∈ (lwkmem_release list_head registry t).1, granule_covers g x) ↔
        (∃ g ∈ registry, granule_covers g x)) ∧
      registry_bytes (lwkmem_release list_head registry t).1 = registry_bytes registry) := by
  have h1 := same_bytes_facts (registry_steps_same_bytes (lwkmem_request_spec hreq).1)
  have h2 := same_bytes_facts (lwkmem_release_same_bytes list_head hh registry t)
  exact ⟨⟨h1.1 hno, h1.2⟩, ⟨h2.1 hno, h2.2⟩⟩
set_option maxRecDepth 100000 in
/-- Witness for C25: a request of pid 9 for 2 MiB on node 1, and the release of the process
of pid 7, from `registry_node0_held`. -/
theorem registry_ranges_invariant_witness :
    non_overlapping registry_node0_held ∧
    ∃ registry' s',
      lwkmem_request env_ok 9 8 [0, 2097152] registry_node0_held {} =
        some (0, registry', s') ∧
      (non_overlapping registry' ∧
        (∀ x, (∃ g ∈ registry', granule_covers g x) ↔
          (∃ g ∈ registry_node0_held, granule_covers g x)) ∧
        registry_bytes registry' = registry_bytes registry_node0_held) ∧
      (non_overlapping (lwkmem_release { owner := 0 } registry_node0_held
          proc_holding_node0).1 ∧
        (∀ x, (∃ g ∈ (lwkmem_release { owner := 0 } registry_node0_held
            proc_holding_node0).1, granule_covers g x) ↔
          (∃ g ∈ registry_node0_held, granule_covers g x)) ∧
        registry_bytes (lwkmem_release { owner := 0 } registry_node0_held
          proc_holding_node0).1 = registry_bytes registry_node0_held) :=
  ⟨by decide, _, _, rfl,
    registry_ranges_invariant env_ok 9 8 [0, 2097152] registry_node0_held _ {} _
      proc_holding_node0 0 { owner := 0 } (by decide) rfl (by decide)⟩

/-! ## The granule registry: release -/

theorem granule_release_mem {r : List mos_lwk_mem_granule} {g x : mos_lwk_mem_granule}
    (hg : g ∈ r) (hx : x.base ≠ g.base) : g ∈ granule_release r x := by
  unfold granule_release
  rw [List.mem_map]
  exact ⟨g, hg, by rw [if_neg (fun c => hx c.symm)]⟩

theorem foldl_release_mem {α : Type} (f : α → mos_lwk_mem_granule) (g : mos_lwk_mem_granule)
    (l : List α) (hl : ∀ b ∈ l, (f b).base ≠ g.base) :
    ∀ r : List mos_lwk_mem_granule, g ∈ r →
      g ∈ l.foldl (fun r b => granule_release r (f b)) r := by
  induction l with
  | nil => intro r hg; exact hg
  | cons a l ih =>
    intro r hg
    rw [List.foldl_cons]
    exact ih (fun b hb => hl b (List.mem_cons_of_mem _ hb)) _
      (granule_release_mem hg (hl a (List.mem_cons_self _ _)))

theorem release_kind_blocks_state (k : Nat) (rs : List mos_lwk_mem_granule × mos_process_t) :
    (release_kind_blocks k rs).2.lwkmem_list = rs.2.lwkmem_list ∧
    (∀ j, (release_kind_blocks k rs).2.blk_list j = if j = k then [] else rs.2.blk_list j) ∧
    (∀ j, (release_kind_blocks k rs).2.num_blks j = if j = k then 0 else rs.2.num_blks j) := by
  refine ⟨rfl, fun j => ?_, fun j => ?_⟩ <;> simp [release_kind_blocks, upd]

/-- What `release_task_mem_blocks` leaves of the process: every block list empty and every
counter 0, the granule list as it was. -/
theorem release_task_mem_blocks_state (r : List mos_lwk_mem_granule) (s : mos_process_t) :
    (release_task_mem_blocks r s).2.lwkmem_list = s.lwkmem_list ∧
    (∀ j, (release_task_mem_blocks r s).2.blk_list j = if j < 4 then [] else s.blk_list j) ∧
    (∀ j, (release_task_mem_blocks r s).2.num_blks j = if j < 4 then 0 else s.num_blks j) := by
  unfold release_task_mem_blocks
  refine ⟨?_, fun j => ?_, fun j => ?_⟩
  · simp only [(release_kind_blocks_state _ _).1]
  · simp only [(release_kind_blocks_state _ _).2.1, kind_1g, kind_4m, kind_2m, kind_4k]
    split_ifs <;> first | rfl | omega
  · simp only [(release_kind_blocks_state _ _).2.2, kind_1g, kind_4m, kind_2m, kind_4k]
    split_ifs <;> first | rfl | omega

theorem release_kind_blocks_mem (k : Nat) (rs : List mos_lwk_mem_granule × mos_process_t)
    (g : mos_lwk_mem_granule) (hg : g ∈ rs.1)
    (hb : ∀ b ∈ rs.2.blk_list k, b.phys.base ≠ g.base) : g ∈ (release_kind_blocks k rs).1 :=
  foldl_release_mem (fun b : blk_list => b.phys) g _ hb _ hg

theorem release_task_mem_blocks_mem (r : List mos_lwk_mem_granule) (s : mos_process_t)
    (g : mos_lwk_mem_granule) (hg : g ∈ r)
    (hb : ∀ k, k < 4 → ∀ b ∈ s.blk_list k, b.phys.base ≠ g.base) :
    g ∈ (release_task_mem_blocks r s).1 := by
  unfold release_task_mem_blocks
  have h0 := release_kind_blocks_mem kind_4k (r, s) g hg (hb 0 (by omega))
  have h1 := release_kind_blocks_mem kind_2m _ g h0 (by
    rw [(release_kind_blocks_state _ _).2.1]
    simp only [kind_2m, kind_4k]
    exact hb 1 (by omega))
  have h2 := release_kind_blocks_mem kind_4m _ g h1 (by
    rw [(release_kind_blocks_state _ _).2.1, (release_kind_blocks_state _ _).2.1]
    simp only [kind_4m, kind_2m, kind_4k]
    exact hb 2 (by omega))
  exact release_kind_blocks_mem kind_1g _ g h2 (by
    rw [(release_kind_blocks_state _ _).2.1, (release_kind_blocks_state _ _).2.1,
      (release_kind_blocks_state _ _).2.1]
    simp only [kind_1g, kind_4m, kind_2m, kind_4k]
    exact hb 3 (by omega))

theorem merge_test_iff (a b : mos_lwk_mem_granule) :
    merge_test a b = true ↔ a.base + a.length = b.base ∧ a.owner = -1 ∧ b.owner = -1 := by
  simp [merge_test, and_assoc]

/-- The adjacency pass keeps every granule whose owner is not `-1`. -/
theorem merge_from_keeps (list_head : mos_lwk_mem_granule) :
    ∀ (rest : List mos_lwk_mem_granule) (elt e : mos_lwk_mem_granule),
      e ∈ elt :: rest → e.owner ≠ -1 → e ∈ merge_from list_head elt rest := by
  intro rest
  induction rest with
  | nil =>
    intro elt e he ho
    simp only [List.mem_singleton] at he
    subst he
    have : merge_test e list_head = false := by
      rw [Bool.eq_false_iff, Ne, merge_test_iff]
      tauto
    simp [merge_from, this]
  | cons next rest ih =>
    intro elt e he ho
    simp only [merge_from]
    by_cases ht : merge_test elt next = true
    · rw [if_pos ht]
      rw [merge_test_iff] at ht
      apply ih _ e _ ho
      simp only [List.mem_cons] at he ⊢
      rcases he with rfl | rfl | he
      · exact absurd ht.2.1 ho
      · exact absurd ht.2.2 ho
      · exact Or.inr he
    · rw [if_neg ht]
      rcases List.mem_cons.1 he with rfl | he
      · exact List.mem_cons_self _ _
      · exact List.mem_cons_of_mem _ (ih next e he ho)

theorem merge_pass_keeps (list_head : mos_lwk_mem_granule) (r : List mos_lwk_mem_granule)
    (e : mos_lwk_mem_granule) (he : e ∈ r) (ho : e.owner ≠ -1) :
    e ∈ merge_pass list_head r := by
  cases r with
  | nil => exact he
  | cons elt rest => exact merge_from_keeps list_head rest elt e he ho

/-- C26: `lwkmem_release` never merges or alters a still-owned granule. When the granules
the process refers to are owned by `pid`, every granule of the registry with another owner
(not free, not `pid`) is in the registry after the release, with its base, length, nid and
owner; and the adjacency pass keeps every granule whose owner is not `-1` when the pass
starts. -/
theorem lwkmem_release_keeps_owned (list_head : mos_lwk_mem_granule)
    (registry : List mos_lwk_mem_granule) (s : mos_process_t) (pid : Int)
    (g : mos_lwk_mem_granule)
    (hown : ∀ e ∈ registry, process_points_to s e → e.owner = pid)
    (hg : g ∈ registry) (ho : g.owner ≠ -1) (hne : g.owner ≠ pid) :
    g ∈ (lwkmem_release list_head registry s).1 ∧
    ∀ (r : List mos_lwk_mem_granule) (e : mos_lwk_mem_granule),
      e ∈ r → e.owner ≠ -1 → e ∈ merge_pass list_head r := by
  refine ⟨?_, merge_pass_keeps list_head⟩
  have hnp : ¬ process_points_to s g := fun c => hne (hown g hg c)
  have hb : ∀ k, k < 4 → ∀ b ∈ s.blk_list k, b.phys.base ≠ g.base :=
    fun k hk b hb c => hnp (Or.inr ⟨k, hk, b, hb, c⟩)
  have hp : ∀ p ∈ s.lwkmem_list, p.granule.base ≠ g.base :=
    fun p hp c => hnp (Or.inl ⟨p, hp, c⟩)
  have h1 := release_task_mem_blocks_mem registry s g hg hb
  unfold lwkmem_release
  simp only
  split_ifs
  · exact h1
  · apply merge_pass_keeps _ _ _ _ ho
    apply foldl_release_mem (fun p : lwk_process_granule => p.granule) g _ _ _ h1
    rw [(release_task_mem_blocks_state registry s).1]
    exact hp

set_option maxRecDepth 100000 in
/-- Witness for C26: the granule of pid 9 when the process of pid 7 is released. -/
theorem lwkmem_release_keeps_owned_witness :
    (∀ e ∈ registry_node0_held, process_points_to proc_holding_node0 e → e.owner = 7) ∧
    ({ base := 1077936128, length := 2097152, nid := 1, owner := 9 } : mos_lwk_mem_granule) ∈
      registry_node0_held ∧
    ({ base := 1077936128, length := 2097152, nid := 1, owner := 9 } : mos_lwk_mem_granule) ∈
      (lwkmem_release { owner := 0 } registry_node0_held proc_holding_node0).1 :=
  ⟨by decide, by decide,
    (lwkmem_release_keeps_owned { owner := 0 } registry_node0_held proc_holding_node0 7
      { base := 1077936128, length := 2097152, nid := 1, owner := 9 } (by decide) (by decide)
      (by decide) (by decide)).1⟩

set_option maxRecDepth 100000 in
/-- C27: the adjacency pass of `lwkmem_release` merges across nodes, against the claim. The
process of pid 7 releases the granule of node 0, the granule of node 1 that starts where it
ends is free, and the pass merges the two into one granule of node 1; its first byte
belonged to no granule of node 1.  A request for 2 MiB of node 0 made afterwards returns
`-ENOMEM`, although the 4 MiB of node 0 are free. -/
theorem lwkmem_release_merges_across_nodes :
    (lwkmem_release { owner := 0 } registry_across_nodes proc_holding_node0).1 =
      [{ base := 1073741824, length := 8388608, nid := 1, owner := -1 }] ∧
    (¬ ∃ g ∈ registry_across_nodes, granule_covers g 1073741824 ∧ g.nid = 1) ∧
    ∃ r s', lwkmem_request env_ok 9 8 [2097152]
      (lwkmem_release { owner := 0 } registry_across_nodes proc_holding_node0).1 {} =
        some (-ENOMEM, r, s') :=
  ⟨by decide, by decide, _, _, rfl⟩

theorem merge_test_congr {a b b' : mos_lwk_mem_granule} (hb : b'.base = b.base)
    (ho : b'.owner = b.owner) : merge_test a b' = merge_test a b := by
  simp [merge_test, hb, ho]

theorem merge_test_merged {elt next r : mos_lwk_mem_granule}
    (ht : merge_test elt next = true) :
    merge_test { next with base := elt.base, length := next.length + elt.length } r =
      merge_test next r := by
  rw [merge_test_iff] at ht
  simp only [merge_test]
  have : elt.base + (next.length + elt.length) = next.base + next.length := by omega
  rw [this]

/-- The adjacency pass within nodes: when consecutive entries that pass the test have the
same node id, every byte of a granule after the pass was in a granule of that node id. -/
theorem merge_from_within_node (list_head : mos_lwk_mem_granule) :
    ∀ (rest : List mos_lwk_mem_granule) (elt : mos_lwk_mem_granule),
      List.Chain' (fun a b => merge_test a b = true → a.nid = b.nid) (elt :: rest) →
      ∀ g' ∈ merge_from list_head elt rest, ∀ x, granule_covers g' x →
        ∃ g ∈ elt :: rest, granule_covers g x ∧ g.nid = g'.nid := by
  intro rest
  induction rest with
  | nil =>
    intro elt _ g' hg' x hx
    simp only [merge_from] at hg'
    split_ifs at hg'
    · simp at hg'
    · simp only [List.mem_singleton] at hg'
      subst hg'
      exact ⟨g', List.mem_cons_self _ _, hx, rfl⟩
  | cons next rest ih =>
    intro elt hch g' hg' x hx
    rw [List.chain'_cons] at hch
    simp only [merge_from] at hg'
    by_cases ht : merge_test elt next = true
    · rw [if_pos ht] at hg'
      have hnid := hch.1 ht
      have hch' : List.Chain' (fun a b => merge_test a b = true → a.nid = b.nid)
          ({ next with base := elt.base, length := next.length + elt.length } :: rest) := by
        cases rest with
        | nil => exact List.chain'_singleton _
        | cons r rest' =>
          rw [List.chain'_cons] at hch ⊢
          refine ⟨fun h => ?_, hch.2.2⟩
          rw [merge_test_merged ht] at h
          exact hch.2.1 h
      obtain ⟨g, hg, hgx, hgn⟩ := ih _ hch' g' hg' x hx
      rcases List.mem_cons.1 hg with rfl | hg
      · rw [merge_test_iff] at ht
        simp only [granule_covers] at hgx
        by_cases hc : granule_covers elt x
        · exact ⟨elt, List.mem_cons_self _ _, hc, by rw [hnid, ← hgn]⟩
        · refine ⟨next, List.mem_cons_of_mem _ (List.mem_cons_self _ _), ?_, hgn⟩
          simp only [granule_covers] at hc ⊢
          omega
      · exact ⟨g, List.mem_cons_of_mem _ (List.mem_cons_of_mem _ hg), hgx, hgn⟩
    · rw [if_neg ht] at hg'
      rcases List.mem_cons.1 hg' with rfl | hg'
      · exact ⟨g', List.mem_cons_self _ _, hx, rfl⟩
      · obtain ⟨g, hg, hgx, hgn⟩ := ih next hch.2 g' hg' x hx
        exact ⟨g, List.mem_cons_of_mem _ hg, hgx, hgn⟩

/-- The adjacency pass on a registry in which every two consecutive entries that pass the
test have the same node id: every granule after the pass covers bytes that belonged to
granules of its own node id before the pass.  The pass itself compares no node ids. -/
theorem merge_pass_within_node (list_head : mos_lwk_mem_granule)
    (registry : List mos_lwk_mem_granule)
    (h : List.Chain' (fun a b => merge_test a b = true → a.nid = b.nid) registry) :
    ∀ g' ∈ merge_pass list_head registry, ∀ x, granule_covers g' x →
      ∃ g ∈ registry, granule_covers g x ∧ g.nid = g'.nid := by
  cases registry with
  | nil => intro g' hg'; simp [merge_pass] at hg'
  | cons elt rest => exact merge_from_within_node list_head rest elt h

set_option maxRecDepth 100000 in
/-- The pass on `registry_split_free`, whose adjacent free granules are of one node. -/
theorem merge_pass_within_node_witness :
    List.Chain' (fun a b => merge_test a b = true → a.nid = b.nid) registry_split_free ∧
    ∀ g' ∈ merge_pass { owner := 0 } registry_split_free, ∀ x, granule_covers g' x →
      ∃ g ∈ registry_split_free, granule_covers g x ∧ g.nid = g'.nid :=
  ⟨by simp [registry_split_free, merge_test],
    merge_pass_within_node { owner := 0 } registry_split_free
      (by simp [registry_split_free, merge_test])⟩

/-- After the adjacency pass from `elt` on, no two consecutive entries pass the test, and
the first entry left has the base and the owner of `elt`. -/
theorem merge_from_fixed (list_head : mos_lwk_mem_granule) :
    ∀ (rest : List mos_lwk_mem_granule) (elt : mos_lwk_mem_granule),
      List.Chain' (fun a b => merge_test a b = false) (merge_from list_head elt rest) ∧
      ∀ f ∈ (merge_from list_head elt rest).head?, f.base = elt.base ∧ f.owner = elt.owner := by
  intro rest
  induction rest with
  | nil =>
    intro elt
    simp only [merge_from]
    split_ifs <;> simp
  | cons next rest ih =>
    intro elt
    simp only [merge_from]
    by_cases ht : merge_test elt next = true
    · rw [if_pos ht]
      obtain ⟨h1, h2⟩ := ih { next with base := elt.base, length := next.length + elt.length }
      refine ⟨h1, fun f hf => ?_⟩
      rw [merge_test_iff] at ht
      obtain ⟨h3, h4⟩ := h2 f hf
      exact ⟨h3, by rw [h4]; show next.owner = elt.owner; rw [ht.2.1, ht.2.2]⟩
    · rw [if_neg ht]
      obtain ⟨h1, h2⟩ := ih next
      refine ⟨?_, by simp⟩
      rw [List.chain'_cons']
      refine ⟨fun f hf => ?_, h1⟩
      obtain ⟨h3, h4⟩ := h2 f hf
      rw [merge_test_congr h3 h4]
      simpa using ht

/-- The adjacency pass changes nothing in a registry where no two consecutive entries pass
the test, when the test fails at the list head. -/
theorem merge_from_of_fixed (list_head : mos_lwk_mem_granule) (hh : list_head.owner ≠ -1) :
    ∀ (rest : List mos_lwk_mem_granule) (elt : mos_lwk_mem_granule),
      List.Chain' (fun a b => merge_test a b = false) (elt :: rest) →
      merge_from list_head elt rest = elt :: rest := by
  intro rest
  induction rest with
  | nil =>
    intro elt _
    have : merge_test elt list_head = false := by simp [merge_test, hh]
    simp [merge_from, this]
  | cons next rest ih =>
    intro elt hch
    rw [List.chain'_cons] at hch
    simp only [merge_from, hch.1, Bool.false_eq_true, if_false, ih next hch.2]

theorem release_task_mem_blocks_no_blocks (r : List mos_lwk_mem_granule) (s : mos_process_t)
    (h : ∀ k, k < 4 → s.blk_list k = []) : (release_task_mem_blocks r s).1 = r := by
  have key : ∀ (k : Nat) (rs : List mos_lwk_mem_granule × mos_process_t),
      rs.2.blk_list k = [] → (release_kind_blocks k rs).1 = rs.1 := by
    intro k rs hk
    simp [release_kind_blocks, hk]
  unfold release_task_mem_blocks
  rw [key, key, key, key]
  · exact h 0 (by omega)
  · rw [(release_kind_blocks_state _ _).2.1]
    simp only [kind_2m, kind_4k]
    exact h 1 (by omega)
  · rw [(release_kind_blocks_state _ _).2.1, (release_kind_blocks_state _ _).2.1]
    simp only [kind_4m, kind_2m, kind_4k]
    exact h 2 (by omega)
  · rw [(release_kind_blocks_state _ _).2.1, (release_kind_blocks_state _ _).2.1,
      (release_kind_blocks_state _ _).2.1]
    simp only [kind_1g, kind_4m, kind_2m, kind_4k]
    exact h 3 (by omega)

/-- What `lwkmem_release` leaves of the process: no blocks, every counter 0, and no
granules. -/
theorem lwkmem_release_state (list_head : mos_lwk_mem_granule)
    (r : List mos_lwk_mem_granule) (s : mos_process_t) :
    (lwkmem_release list_head r s).2.lwkmem_list = [] ∧
    ∀ k, k < 4 → (lwkmem_release list_head r s).2.blk_list k = [] ∧
      (lwkmem_release list_head r s).2.num_blks k = 0 := by
  have hst := release_task_mem_blocks_state r s
  unfold lwkmem_release
  simp only
  split_ifs with he
  · refine ⟨List.isEmpty_iff.1 he, fun k hk => ?_⟩
    rw [hst.2.1 k, hst.2.2 k, if_pos hk, if_pos hk]
    exact ⟨rfl, rfl⟩
  · refine ⟨rfl, fun k hk => ?_⟩
    show (release_task_mem_blocks r s).2.blk_list k = [] ∧
      (release_task_mem_blocks r s).2.num_blks k = 0
    rw [hst.2.1 k, hst.2.2 k, if_pos hk, if_pos hk]
    exact ⟨rfl, rfl⟩

/-- C28: release is idempotent. After the adjacency pass no two consecutive registry entries
are both free with the first ending exactly at the base of the second; running the pass
again leaves the registry as it is; and so does a second `lwkmem_release` for the same
process. For the pass the test is taken to fail at the list head. -/
theorem lwkmem_release_idempotent (list_head : mos_lwk_mem_granule)
    (registry : List mos_lwk_mem_granule) (s : mos_process_t)
    (hh : list_head.owner ≠ -1) :
    List.Chain' (fun a b => ¬ (a.base + a.length = b.base ∧ a.owner = -1 ∧ b.owner = -1))
      (merge_pass list_head registry) ∧
    merge_pass list_head (merge_pass list_head registry) = merge_pass list_head registry ∧
    (lwkmem_release list_head (lwkmem_release list_head registry s).1
      (lwkmem_release list_head registry s).2).1 = (lwkmem_release list_head registry s).1 := by
  have hfix : List.Chain' (fun a b => merge_test a b = false)
      (merge_pass list_head registry) := by
    cases registry with
    | nil => exact List.chain'_nil
    | cons elt rest => exact (merge_from_fixed list_head rest elt).1
  refine ⟨?_, ?_, ?_⟩
  · refine List.Chain'.imp (fun a b h => ?_) hfix
    rw [← merge_test_iff, h]
    simp
  · generalize merge_pass list_head registry = r at hfix
    cases r with
    | nil => rfl
    | cons elt rest => exact merge_from_of_fixed list_head hh rest elt hfix
  · have hst := lwkmem_release_state list_head registry s
    generalize lwkmem_release list_head registry s = rs at hst
    have hst2 := release_task_mem_blocks_state rs.1 rs.2
    have hnb := release_task_mem_blocks_no_blocks rs.1 rs.2 (fun k hk => (hst.2 k hk).1)
    unfold lwkmem_release
    simp only
    rw [if_pos (by rw [hst2.1, hst.1]; rfl)]
    exact hnb

set_option maxRecDepth 100000 in
/-- Witness for C28: the release of the process of pid 7 from `registry_across_nodes`. -/
theorem lwkmem_release_idempotent_witness :
    ({ owner := 0 } : mos_lwk_mem_granule).owner ≠ -1 ∧
    List.Chain' (fun a b => ¬ (a.base + a.length = b.base ∧ a.owner = -1 ∧ b.owner = -1))
      (merge_pass { owner := 0 } registry_across_nodes) ∧
    merge_pass { owner := 0 } (merge_pass { owner := 0 } registry_across_nodes) =
      merge_pass { owner := 0 } registry_across_nodes ∧
    (lwkmem_release { owner := 0 }
      (lwkmem_release { owner := 0 } registry_across_nodes proc_holding_node0).1
      (lwkmem_release { owner := 0 } registry_across_nodes proc_holding_node0).2).1 =
      (lwkmem_release { owner := 0 } registry_across_nodes proc_holding_node0).1 :=
  ⟨by decide,
    lwkmem_release_idempotent { owner := 0 } registry_across_nodes proc_holding_node0
      (by decide)⟩


set_option maxRecDepth 100000 in
/-- When the values read at the list head pass the test of the adjacency pass (owner `-1`,
base where the last granule ends), the pass unlinks the last granule of the registry. -/
theorem merge_pass_at_list_head :
    merge_pass { base := 1082130432, owner := -1 }
      [{ base := 1073741824, length := 4194304, nid := 0, owner := 9 },
       { base := 1080033280, length := 2097152, nid := 1, owner := -1 }] =
      [{ base := 1073741824, length := 4194304, nid := 0, owner := 9 }] := by
  decide


/-- With a positive pid the loop of `lwkmem_request` for one node is left, whatever the
allocator does, after at most one pass per free granule of the node and one more. -/
theorem lwkmem_request_while_returns (env : Env) (pid nid : Int) (hpid : 0 < pid) :
    ∀ (fuel wanted : Nat) (registry : List mos_lwk_mem_granule) (s : mos_process_t),
      (registry.filter (free_for_nid nid)).length < fuel →
      ∃ r, lwkmem_request_while env pid nid fuel wanted registry s = some r := by
  intro fuel
  induction fuel with
  | zero => intro wanted registry s h; omega
  | succ fuel ih =>
    intro wanted registry s hfuel
    by_cases hw : wanted = 0
    · exact ⟨(0, registry, s), by simp [lwkmem_request_while, hw]⟩
    · have hpos : 0 < wanted := by omega
      rcases lwkmem_request_while_succ env pid nid fuel wanted registry s hpos with
        ⟨_, _, he⟩ | ⟨l1, elt, l2, hreg, hfree, hl1, _, hc⟩
      · exact ⟨_, he⟩
      · subst hreg
        rcases hc with ⟨_, _, he⟩ | ⟨_, _, _, he⟩ | ⟨_, _, _, he⟩ | ⟨_, _, he⟩ | ⟨_, _, he⟩
        · exact ⟨_, he⟩
        · exact ⟨_, he⟩
        · exact ⟨_, he⟩
        · exact ⟨_, he⟩
        · have hnf : free_for_nid nid { elt with owner := pid } = false := by
            simp only [free_for_nid, Bool.and_eq_false_imp, decide_eq_true_eq]
            intro c
            omega
          have hcount : ((l1 ++ { elt with owner := pid } :: l2).filter
              (free_for_nid nid)).length < fuel := by
            have h1 : ((l1 ++ elt :: l2).filter (free_for_nid nid)).length =
                (l2.filter (free_for_nid nid)).length + 1 := by
              rw [List.filter_append, filter_free_none hl1, List.nil_append,
                List.filter_cons_of_pos hfree, List.length_cons]
            rw [List.filter_append, filter_free_none hl1, List.nil_append,
              List.filter_cons_of_neg (by simp [hnf])]
            omega
          obtain ⟨r, hr⟩ := ih (wanted - elt.length) _ _ hcount
          exact ⟨r, he.trans hr⟩

theorem lwkmem_request_for_returns (env : Env) (pid : Int) (fuel : Nat) (hpid : 0 < pid) :
    ∀ (req : List Nat) (i : Nat) (registry : List mos_lwk_mem_granule) (s : mos_process_t),
      (∀ k : Nat, i ≤ k → (registry.filter (free_for_nid k)).length < fuel) →
      ∃ r, lwkmem_request_for env pid fuel i req registry s = some r := by
  intro req
  induction req with
  | nil => intro i registry s _; exact ⟨_, rfl⟩
  | cons r req ih =>
    intro i registry s hfuel
    by_cases hr : r = 0
    · obtain ⟨x, hx⟩ := ih (i + 1) registry s (fun k hk => hfuel k (by omega))
      exact ⟨x, by simp only [lwkmem_request_for, if_pos hr]; exact hx⟩
    · have hn : ((i : Nat) : Int) ≠ NUMA_NO_NODE := by
        simp only [NUMA_NO_NODE]; omega
      obtain ⟨⟨rc1, registry1, s1⟩, hres1⟩ :=
        lwkmem_request_while_returns env pid i hpid fuel
          (max (rounddown_u r MIN_CHUNK_SIZE) MIN_CHUNK_SIZE) registry s (hfuel i (le_refl _))
      have hsteps := (lwkmem_request_while_spec env pid i hn _ _ _ _ _ _ _ hres1).2.1
      by_cases hz : rc1 = 0
      · obtain ⟨x, hx⟩ := ih (i + 1) registry1 s1 (fun k hk => by
          rw [registry_steps_frame hsteps hn k (by omega) (by simp only [NUMA_NO_NODE]; omega)]
          exact hfuel k (by omega))
        exact ⟨x, by simp only [lwkmem_request_for, if_neg hr, hres1, if_pos hz]; exact hx⟩
      · exact ⟨(rc1, registry1, s1),
          by simp only [lwkmem_request_for, if_neg hr, hres1, if_neg hz]⟩

/-- With a positive pid `lwkmem_request` returns, whatever the allocator does; an iteration
bound above the length of the registry is enough. -/
theorem lwkmem_request_returns (env : Env) (pid : Int) (fuel : Nat) (req : List Nat)
    (registry : List mos_lwk_mem_granule) (s : mos_process_t) (hpid : 0 < pid)
    (hfuel : registry.length < fuel) :
    ∃ r, lwkmem_request env pid fuel req registry s = some r := by
  unfold lwkmem_request
  simp only
  split_ifs
  · exact ⟨_, rfl⟩
  · exact ⟨_, rfl⟩
  · exact lwkmem_request_for_returns env pid fuel hpid req 0 registry _
      (fun k _ => lt_of_le_of_lt (List.length_filter_le _ _) hfuel)

/-! ## The granule registry: unknown nodes -/

/-- A pass of the loop of `lwkmem_request` brings no new node id into the registry. -/
theorem registry_step_nids {pid nid : Int} {a b : List mos_lwk_mem_granule}
    (h : registry_step pid nid a b) (g : mos_lwk_mem_granule) (hg : g ∈ b) :
    ∃ g0 ∈ a, g0.nid = g.nid := by
  cases h with
  | split l1 elt l2 wanted hf h0 hlt =>
    simp only [List.mem_append, List.mem_cons] at hg
    rcases hg with hg | rfl | rfl | hg
    · exact ⟨g, by simp [hg], rfl⟩
    · exact ⟨elt, by simp, rfl⟩
    · exact ⟨elt, by simp, rfl⟩
    · exact ⟨g, by simp [hg], rfl⟩
  | whole l1 elt l2 hf =>
    simp only [List.mem_append, List.mem_cons] at hg
    rcases hg with hg | rfl | hg
    · exact ⟨g, by simp [hg], rfl⟩
    · exact ⟨elt, by simp, rfl⟩
    · exact ⟨g, by simp [hg], rfl⟩

theorem registry_steps_nids {pid : Int} {a b : List mos_lwk_mem_granule}
    (h : registry_steps pid a b) (g : mos_lwk_mem_granule) (hg : g ∈ b) :
    ∃ g0 ∈ a, g0.nid = g.nid := by
  induction h generalizing g with
  | refl => exact ⟨g, hg, rfl⟩
  | tail _ hstep ih =>
    obtain ⟨nid, hstep⟩ := hstep
    obtain ⟨g1, hg1, hn1⟩ := registry_step_nids hstep g hg
    obtain ⟨g0, hg0, hn0⟩ := ih g1 hg1
    exact ⟨g0, hg0, hn0.trans hn1⟩

theorem proc_node_bytes_pos {l : List lwk_process_granule} {k : Int}
    (h : 0 < proc_node_bytes l k) : ∃ p ∈ l, p.granule.nid = k := by
  unfold proc_node_bytes at h
  cases hf : l.filter (fun p => decide (p.granule.nid = k)) with
  | nil => rw [hf] at h; simp at h
  | cons p t =>
    have hp : p ∈ l.filter (fun p => decide (p.granule.nid = k)) := by rw [hf]; simp
    rw [List.mem_filter] at hp
    exact ⟨p, hp.1, by simpa using hp.2⟩

theorem chunk_wanted_pos {r : Nat} (h : r ≠ 0) : 0 < chunk_wanted r := by
  unfold chunk_wanted MIN_CHUNK_SIZE
  rw [if_neg h]
  omega

set_option maxRecDepth 100000 in
/-- C31, as stated, fails: on a registry whose granules lie on the nodes 0 to 3, a request
of 2 MiB for node id 5 returns `-ENOMEM`, not `-EINVAL`. -/
theorem lwkmem_request_unknown_node_enomem :
    (∀ g ∈ registry_four_nodes, 0 ≤ g.nid ∧ g.nid < 4) ∧
    ∃ s', lwkmem_request env_ok 7 8 [0, 0, 0, 0, 0, 2097152] registry_four_nodes {} =
      some (-ENOMEM, registry_four_nodes, s') ∧ -ENOMEM ≠ -EINVAL :=
  ⟨by decide, _, rfl, by decide⟩

/-- C31, amended: a request that names a node id outside the known nodes is rejected with
`-ENOMEM`. On a non-empty registry whose granules lie on nodes below `lwkmem_n_nodes`,
`lwkmem_request` by a process with a positive pid and no granules, with a nonzero request
for a node index `i` that is not below `lwkmem_n_nodes`, returns `-ENOMEM`. -/
theorem lwkmem_request_unknown_node (env : Env) (pid : Int) (fuel : Nat) (req : List Nat)
    (registry : List mos_lwk_mem_granule) (s : mos_process_t) (lwkmem_n_nodes i r : Nat)
    (hreg : registry ≠ []) (hs : s.lwkmem_list = []) (hpid : 0 < pid)
    (hfuel : registry.length < fuel)
    (hnodes : ∀ g ∈ registry, g.nid < lwkmem_n_nodes)
    (hi : lwkmem_n_nodes ≤ i) (hr : req[i]? = some r) (hr0 : r ≠ 0) :
    ∃ registry' s',
      lwkmem_request env pid fuel req registry s = some (-ENOMEM, registry', s') := by
  obtain ⟨⟨rc, registry', s'⟩, hres⟩ :=
    lwkmem_request_returns env pid fuel req registry s hpid hfuel
  have hspec := lwkmem_request_spec hres
  have hne : rc ≠ -EINVAL := by
    intro c
    subst c
    unfold lwkmem_request at hres
    have h1 : registry.isEmpty = false := by
      cases registry with
      | nil => exact absurd rfl hreg
      | cons a l => rfl
    have h2 : (!({ s with lwkmem := 0 } : mos_process_t).lwkmem_list.isEmpty) = false := by
      show (!s.lwkmem_list.isEmpty) = false
      rw [hs]; rfl
    simp only [h1, h2, Bool.false_eq_true, if_false] at hres
    have := (lwkmem_request_for_spec env pid fuel _ _ _ _ _ _ _ hres).1
    simp [EINVAL, ENOMEM] at this
  have h0 : rc ≠ 0 := by
    intro c
    obtain ⟨_, _, _, hmem, hsum⟩ := hspec.2.2 hne
    have hb := (hsum c).2 i
    rw [List.getD_eq_getElem?_getD, hr] at hb
    have hpos : 0 < proc_node_bytes s'.lwkmem_list i := by
      rw [hb]; exact chunk_wanted_pos hr0
    obtain ⟨p, hp, hpn⟩ := proc_node_bytes_pos hpos
    obtain ⟨g0, hg0, hn0⟩ := registry_steps_nids hspec.1 p.granule (hmem hpid p hp)
    have := hnodes g0 hg0
    omega
  have hrc : rc = -ENOMEM := by
    rcases hspec.2.1 with c | c | c
    · exact absurd c h0
    · exact c
    · exact absurd c hne
  subst hrc
  exact ⟨registry', s', hres⟩

set_option maxRecDepth 100000 in
/-- Witness for C31 (amended): node id 5 on `registry_four_nodes`. -/
theorem lwkmem_request_unknown_node_witness :
    registry_four_nodes ≠ [] ∧ (0 : Int) < 7 ∧ registry_four_nodes.length < 8 ∧
    (∀ g ∈ registry_four_nodes, g.nid < ((4 : Nat) : Int)) ∧
    ∃ registry' s',
      lwkmem_request env_ok 7 8 [0, 0, 0, 0, 0, 2097152] registry_four_nodes {} =
        some (-ENOMEM, registry', s') :=
  ⟨by decide, by decide, by decide, by decide,
    lwkmem_request_unknown_node env_ok 7 8 [0, 0, 0, 0, 0, 2097152] registry_four_nodes {}
      4 5 2097152 (by decide) rfl (by decide) (by decide) (by decide) (by decide) rfl
      (by decide)⟩

/-! ## Alignment of partitioned blocks under an aligned base -/

/-- C37: alignment under an aligned base. If the base of every process granule and its
watermark (0 for a newly reserved granule) are multiples of 4 KiB, the size of the smallest
usable class, then every block that `partition_task_mem` creates starts at a physical
address that is a multiple of its own class size; in particular every block created in the
largest usable class `K` starts on a boundary of that class. -/
theorem partition_aligned_base (env : Env) (hw : Hw) (fuel : Nat) (s s' : mos_process_t)
    (rc : Int)
    (hbase : ∀ g, g ∈ s.lwkmem_list → g.granule.base % 4096 = 0 ∧ g.offset % 4096 = 0)
    (h : partition_task_mem env hw fuel s = some (rc, s')) :
    (∀ k, k < 4 → ∃ created, s'.blk_list k = created ++ s.blk_list k ∧
      ∀ b, b ∈ created → (b.phys.base + b.offset) % kind_size_u k = 0) ∧
    ∀ K, K < 4 → 0 < num_dTLB hw K → (∀ j, K < j → j < 4 → num_dTLB hw j = 0) →
      ∃ created, s'.blk_list K = created ++ s.blk_list K ∧
        ∀ b, b ∈ created → (b.phys.base + b.offset) % kind_size_u K = 0 := by
  have key : created_aligned s s' :=
    partition_list_spec env hw fuel s.lwkmem_list [] s rc s'
      (fun g hg => by have := hbase g hg; omega) h
  exact ⟨key, fun K hK _ _ => key K hK⟩

set_option maxRecDepth 100000 in
/-- Witness for C37: the granule of 3 MiB at 2 MiB on x86-64. -/
theorem partition_aligned_base_witness :
    (∀ g, g ∈ proc_reserved_3m.lwkmem_list →
      g.granule.base % 4096 = 0 ∧ g.offset % 4096 = 0) ∧
    ∃ s', partition_task_mem env_ok hw_x86_64 10 proc_reserved_3m = some (0, s') ∧
      (∀ k, k < 4 → ∃ created, s'.blk_list k = created ++ proc_reserved_3m.blk_list k ∧
        ∀ b, b ∈ created → (b.phys.base + b.offset) % kind_size_u k = 0) ∧
      ∀ K, K < 4 → 0 < num_dTLB hw_x86_64 K →
        (∀ j, K < j → j < 4 → num_dTLB hw_x86_64 j = 0) →
        ∃ created, s'.blk_list K = created ++ proc_reserved_3m.blk_list K ∧
          ∀ b, b ∈ created → (b.phys.base + b.offset) % kind_size_u K = 0 :=
  ⟨by decide, _, rfl,
    partition_aligned_base env_ok hw_x86_64 10 proc_reserved_3m _ 0 (by decide) rfl⟩

/-! ## Index safety -/

theorem next_larger_le (hw : Hw) (n : Nat) :
    ∀ nxt, nxt ≤ kind_last → next_larger hw n nxt ≤ kind_last := by
  induction n with
  | zero => intro nxt h; simpa [next_larger] using h
  | succ n ih =>
    intro nxt h
    simp only [next_larger]
    split_ifs with hc
    · exact ih (nxt + 1) hc.2
    · exact h

/-- C39: index safety of the demand array. A call of `allocate_blocks` never leaves through
the store to `wanted[k - 1]` with `k = 0` (the 4 KiB class always has dTLB entries, and the
fold inside the while loop is guarded by `k > 0`); and the search of `divide_block` for the
next larger usable class, started at `knd + 1` for a class `knd`, stops at an index that is
at most `kind_last`, and at a class with dTLB entries when it stops below `kind_last`. -/
theorem allocate_blocks_index_safe (env : Env) (hw : Hw) (fuel : Nat) (addr : Nat) (len : Int)
    (prot mmap_flags pgoff : Nat) (opts : allocate_options_t) (s s' : mos_process_t)
    (e : alloc_exit)
    (h : allocate_blocks env hw fuel addr len prot mmap_flags pgoff opts s = some (e, s')) :
    e ≠ alloc_exit.wanted_underflow ∧
    ∀ knd, knd < kind_last →
      next_larger hw kind_last (knd + 1) ≤ kind_last ∧
      (next_larger hw kind_last (knd + 1) < kind_last →
        num_dTLB hw (next_larger hw kind_last (knd + 1)) ≠ 0) := by
  have hacc := allocate_blocks_accounting env hw fuel addr len prot mmap_flags pgoff opts h
  refine ⟨hacc.2.2.2.1, fun knd hk => ⟨next_larger_le hw _ _ (by omega), ?_⟩⟩
  exact next_larger_usable hw kind_last (knd + 1) (by unfold kind_last; omega)

set_option maxRecDepth 100000 in
/-- Witness for C39: 8 KiB asked of a process with one free 4 KiB unit. -/
theorem allocate_blocks_index_safe_witness :
    ∃ e s', allocate_blocks env_ok hw_x86_64 20 0 8192 0 0 0 opts_default proc_one_4k =
        some (e, s') ∧
      e ≠ alloc_exit.wanted_underflow ∧
      ∀ knd, knd < kind_last →
        next_larger hw_x86_64 kind_last (knd + 1) ≤ kind_last ∧
        (next_larger hw_x86_64 kind_last (knd + 1) < kind_last →
          num_dTLB hw_x86_64 (next_larger hw_x86_64 kind_last (knd + 1)) ≠ 0) :=
  ⟨_, _, rfl,
    allocate_blocks_index_safe env_ok hw_x86_64 20 0 8192 0 0 0 opts_default proc_one_4k _ _
      rfl⟩

/-! ## The rotating cursor of the NUMA search -/

theorem find_first_exists {α : Type} {p : α → Bool} {l : List α} {b : α} (hb : b ∈ l)
    (hp : p b = true) : ∃ i e, find_first p l = some (i, e) := by
  cases h : find_first p l with
  | none =>
    have := find_first_none h b hb
    rw [hp] at this
    exact absurd this (by simp)
  | some ie => exact ⟨ie.1, ie.2, rfl⟩

theorem find_available_by_nid_cursor (s : mos_process_t) (d : Nat → Nat → Nat) (knd : Nat)
    (nid : Int) :
    find_available_by_nid { s with domain_order_index := d } knd nid =
      find_available_by_nid s knd nid := rfl

/-- One pass of the do-while loop of `find_available_by_nid_list` when the domain under the
cursor holds a free block of the class: the pass returns a free block of that domain and
leaves the cursor one further, modulo the length of the domain list. -/
theorem nid_do_while_found (opts : allocate_options_t) (knd t start fuel : Nat)
    (s : mos_process_t) (hk : knd < kind_last)
    (hfree : ∃ b ∈ s.blk_list knd, b.free = true ∧
      b.phys.nid = opts.nid_order t (s.domain_order_index t knd))
    (hnid : opts.nid_order t (s.domain_order_index t knd) ≠ -1) :
    ∃ i elt s1, nid_do_while opts knd t start (fuel + 1) s = some (some (some (i, elt)), s1) ∧
      (s.blk_list knd)[i]? = some elt ∧ elt.free = true ∧
      elt.phys.nid = opts.nid_order t (s.domain_order_index t knd) ∧
      s1.blk_list = s.blk_list ∧
      s1.lwkmem_interleave_disable = s.lwkmem_interleave_disable ∧
      s1.domain_order_index t knd =
        (s.domain_order_index t knd + 1) % opts.nid_order_len t := by
  obtain ⟨m, hm⟩ : ∃ m, kind_last - knd = m + 1 := ⟨kind_last - knd - 1, by omega⟩
  obtain ⟨b, hb, hbf, hbn⟩ := hfree
  have hp : (fun elt : blk_list => elt.free &&
      (elt.phys.nid == opts.nid_order t (s.domain_order_index t knd) ||
        opts.nid_order t (s.domain_order_index t knd) == -1)) b = true := by
    simp [hbf, hbn]
  obtain ⟨i, e, hfind⟩ := find_first_exists (p := fun elt : blk_list => elt.free &&
      (elt.phys.nid == opts.nid_order t (s.domain_order_index t knd) ||
        opts.nid_order t (s.domain_order_index t knd) == -1)) hb hp
  have hfind' : find_available_by_nid s knd
      (opts.nid_order t (s.domain_order_index t knd)) = some (i, e) := hfind
  have hs := find_first_some hfind
  simp only [Bool.and_eq_true, Bool.or_eq_true, beq_iff_eq] at hs
  obtain ⟨D, hD⟩ : ∃ D, D = upd2 s.domain_order_index t knd
      ((s.domain_order_index t knd + 1) % opts.nid_order_len t) := ⟨_, rfl⟩
  refine ⟨i, e, { s with domain_order_index := D }, ?_, hs.1, hs.2.1, ?_, rfl, rfl,
    by rw [hD]; exact upd2_same _ _ _ _⟩
  · simp only [nid_do_while, hm, nid_scan, find_available_by_nid_cursor, hfind', ← hD]
    simp
  · rcases hs.2.2 with h1 | h1
    · exact h1
    · exact absurd h1 hnid

/-- One call of `find_available_by_nid_list` when the domain under the cursor of the first
memory type holds a free block of the class; with interleaving disabled the cursor is first
set to 0. -/
theorem find_available_by_nid_list_step (fuel : Nat) (opts : allocate_options_t) (knd : Nat)
    (s : mos_process_t) (c : Nat) (hfuel : 0 < fuel) (hk : knd < kind_last)
    (hlen : opts.nid_order_len (opts.type_order 0) ≠ 0)
    (hc : c = if s.lwkmem_interleave_disable then 0
      else s.domain_order_index (opts.type_order 0) knd)
    (hfree : ∃ b ∈ s.blk_list knd, b.free = true ∧
      b.phys.nid = opts.nid_order (opts.type_order 0) c)
    (hnid : opts.nid_order (opts.type_order 0) c ≠ -1) :
    ∃ i elt s1, find_available_by_nid_list fuel opts knd s = some (some (i, elt), s1) ∧
      (s.blk_list knd)[i]? = some elt ∧ elt.free = true ∧
      elt.phys.nid = opts.nid_order (opts.type_order 0) c ∧
      s1.blk_list = s.blk_list ∧
      s1.lwkmem_interleave_disable = s.lwkmem_interleave_disable ∧
      s1.domain_order_index (opts.type_order 0) knd =
        (c + 1) % opts.nid_order_len (opts.type_order 0) := by
  obtain ⟨fuel', rfl⟩ : ∃ f, fuel = f + 1 := ⟨fuel - 1, by omega⟩
  unfold find_available_by_nid_list lwkmem_type_last
  simp only [nid_types, if_neg hlen]
  generalize hs0 : (if s.lwkmem_interleave_disable = true then
      { s with domain_order_index := upd2 s.domain_order_index (opts.type_order 0) knd 0 }
    else s) = s0
  have h0 : s0.blk_list = s.blk_list ∧
      s0.lwkmem_interleave_disable = s.lwkmem_interleave_disable ∧
      s0.domain_order_index (opts.type_order 0) knd = c := by
    rw [← hs0, hc]
    split_ifs
    · exact ⟨rfl, rfl, upd2_same _ _ _ _⟩
    · exact ⟨rfl, rfl, rfl⟩
  obtain ⟨i, elt, s1, hres, h1, h2, h3, h4, h5, h6⟩ :=
    nid_do_while_found opts knd (opts.type_order 0)
      (s0.domain_order_index (opts.type_order 0) knd) fuel' s0 hk
      (by rw [h0.1, h0.2.2]; exact hfree) (by rw [h0.2.2]; exact hnid)
  rw [hres]
  rw [h0.1] at h1 h4
  rw [h0.2.2] at h3 h6
  exact ⟨i, elt, s1, rfl, h1, h2, h3, h4, h5.trans h0.2.1, h6⟩

/-- Successive calls of `find_available_by_nid_list` while every domain of the list of the
first memory type holds a free block of the class: the `j`-th call returns a block of the
domain at position `(c + j) mod len` of the list, `c` being the cursor before the first call;
with interleaving disabled every call returns a block of the domain at position 0. -/
theorem nid_search_repeat_spec (fuel : Nat) (opts : allocate_options_t) (knd : Nat)
    (hfuel : 0 < fuel) (hk : knd < kind_last)
    (hlen : opts.nid_order_len (opts.type_order 0) ≠ 0)
    (hnid : ∀ d, d < opts.nid_order_len (opts.type_order 0) →
      opts.nid_order (opts.type_order 0) d ≠ -1) :
    ∀ (n : Nat) (s : mos_process_t),
      (∀ d, d < opts.nid_order_len (opts.type_order 0) →
        ∃ b ∈ s.blk_list knd, b.free = true ∧
          b.phys.nid = opts.nid_order (opts.type_order 0) d) →
      s.domain_order_index (opts.type_order 0) knd < opts.nid_order_len (opts.type_order 0) →
      ∃ s', nid_search_repeat fuel opts knd n s =
          some ((List.range n).map (fun j => opts.nid_order (opts.type_order 0)
            (if s.lwkmem_interleave_disable then 0
              else (s.domain_order_index (opts.type_order 0) knd + j) %
                opts.nid_order_len (opts.type_order 0))), s') ∧
        (s.lwkmem_interleave_disable = false →
          s'.domain_order_index (opts.type_order 0) knd =
            (s.domain_order_index (opts.type_order 0) knd + n) %
              opts.nid_order_len (opts.type_order 0)) := by
  intro n
  induction n with
  | zero =>
    intro s _ hcur
    exact ⟨s, rfl, fun _ => (Nat.mod_eq_of_lt hcur).symm⟩
  | succ n ih =>
    intro s hfree hcur
    have hpos : 0 < opts.nid_order_len (opts.type_order 0) := Nat.pos_of_ne_zero hlen
    obtain ⟨c, hc⟩ : ∃ c, c = if s.lwkmem_interleave_disable then 0
        else s.domain_order_index (opts.type_order 0) knd := ⟨_, rfl⟩
    have hclt : c < opts.nid_order_len (opts.type_order 0) := by
      rw [hc]; split_ifs
      · exact hpos
      · exact hcur
    obtain ⟨i, elt, s1, hres, _, _, h3, h4, h5, h6⟩ :=
      find_available_by_nid_list_step fuel opts knd s c hfuel hk hlen hc (hfree c hclt)
        (hnid c hclt)
    obtain ⟨s', hrep, hcur'⟩ := ih s1 (by rw [h4]; exact hfree)
      (by rw [h6]; exact Nat.mod_lt _ hpos)
    refine ⟨s', ?_, fun hd => ?_⟩
    · simp only [nid_search_repeat, hres, hrep, List.range_succ_eq_map, List.map_cons,
        List.map_map, h3, h5, h6]
      by_cases hd : s.lwkmem_interleave_disable = true
      · simp only [hd, if_true] at hc ⊢
        rw [hc]
        rfl
      · have hd' : s.lwkmem_interleave_disable = false := by simpa using hd
        simp only [hd', Bool.false_eq_true, if_false] at hc ⊢
        subst hc
        simp only [Nat.add_zero, Nat.mod_eq_of_lt hcur]
        congr 3
        apply List.map_congr_left
        intro j _
        simp only [Function.comp, Nat.mod_add_mod]
        congr 2
        omega
    · rw [hcur' (by rw [h5]; exact hd), h6, hc, hd]
      simp only [Bool.false_eq_true, if_false, Nat.mod_add_mod]
      congr 1
      omega

/-- C33: the rotating cursor. With the first memory type holding a non-empty domain list
whose domains all hold a free block of class `knd`, and the cursor of that type and class
inside the list: when interleaving is enabled, `n` successive searches return blocks of the
domains at the positions `c, c + 1, ..., c + n - 1` modulo the length of the list, `c` being
the cursor before the first search, and leave the cursor at `(c + n)` modulo the length;
when interleaving is disabled every search returns a block of the first domain of the
list. -/
theorem nid_search_round_robin (fuel : Nat) (opts : allocate_options_t) (knd n : Nat)
    (s : mos_process_t) (hfuel : 0 < fuel) (hk : knd < kind_last)
    (hlen : opts.nid_order_len (opts.type_order 0) ≠ 0)
    (hnid : ∀ d, d < opts.nid_order_len (opts.type_order 0) →
      opts.nid_order (opts.type_order 0) d ≠ -1)
    (hfree : ∀ d, d < opts.nid_order_len (opts.type_order 0) →
      ∃ b ∈ s.blk_list knd, b.free = true ∧
        b.phys.nid = opts.nid_order (opts.type_order 0) d)
    (hcur : s.domain_order_index (opts.type_order 0) knd <
      opts.nid_order_len (opts.type_order 0)) :
    (s.lwkmem_interleave_disable = false →
      ∃ s', nid_search_repeat fuel opts knd n s =
          some ((List.range n).map (fun j => opts.nid_order (opts.type_order 0)
            ((s.domain_order_index (opts.type_order 0) knd + j) %
              opts.nid_order_len (opts.type_order 0))), s') ∧
        s'.domain_order_index (opts.type_order 0) knd =
          (s.domain_order_index (opts.type_order 0) knd + n) %
            opts.nid_order_len (opts.type_order 0)) ∧
    (s.lwkmem_interleave_disable = true →
      ∃ s', nid_search_repeat fuel opts knd n s =
        some (List.replicate n (opts.nid_order (opts.type_order 0) 0), s')) := by
  obtain ⟨s', hrep, hc⟩ := nid_search_repeat_spec fuel opts knd hfuel hk hlen hnid n s hfree hcur
  constructor
  · intro hd
    refine ⟨s', ?_, hc hd⟩
    rw [hrep, hd]
    simp
  · intro hd
    refine ⟨s', ?_⟩
    rw [hrep, hd]
    simp only [if_true, Option.some.injEq, Prod.mk.injEq, and_true]
    apply List.ext_getElem
    · simp
    · intro i h1 h2
      simp

set_option maxRecDepth 100000 in
/-- Witness for C33: seven searches for a 2 MiB block over the three domains of
`opts_three_domains`, the cursor on the second domain. -/
theorem nid_search_round_robin_witness :
    (∃ s', nid_search_repeat 5 opts_three_domains 1 7 proc_three_domains =
      some ([1, 2, 0, 1, 2, 0, 1], s')) ∧
    ((proc_three_domains.lwkmem_interleave_disable = false →
      ∃ s', nid_search_repeat 5 opts_three_domains 1 7 proc_three_domains =
          some ((List.range 7).map (fun j => opts_three_domains.nid_order
            (opts_three_domains.type_order 0)
            ((proc_three_domains.domain_order_index (opts_three_domains.type_order 0) 1 + j) %
              opts_three_domains.nid_order_len (opts_three_domains.type_order 0))), s') ∧
        s'.domain_order_index (opts_three_domains.type_order 0) 1 =
          (proc_three_domains.domain_order_index (opts_three_domains.type_order 0) 1 + 7) %
            opts_three_domains.nid_order_len (opts_three_domains.type_order 0)) ∧
    (proc_three_domains.lwkmem_interleave_disable = true →
      ∃ s', nid_search_repeat 5 opts_three_domains 1 7 proc_three_domains =
        some (List.replicate 7 (opts_three_domains.nid_order
          (opts_three_domains.type_order 0) 0), s'))) :=
  ⟨⟨_, rfl⟩,
    nid_search_round_robin 5 opts_three_domains 1 7 proc_three_domains (by decide) (by decide)
      (by decide) (by decide) (by decide) (by decide)⟩

/-- Every pass of the do-while loop of `find_available_by_nid_list` moves the cursor of the
memory type and class one further, modulo the length of the domain list: when the loop is
left after `j` passes the cursor is `(c + j) mod len`. -/
theorem nid_do_while_cursor (opts : allocate_options_t) (knd t start : Nat) :
    ∀ (fuel : Nat) (s s1 : mos_process_t) (r : Option (Option (Nat × blk_list))),
      nid_do_while opts knd t start fuel s = some (r, s1) →
      ∃ j, 1 ≤ j ∧ j ≤ fuel ∧
        s1.domain_order_index t knd =
          (s.domain_order_index t knd + j) % opts.nid_order_len t ∧
        s1.blk_list = s.blk_list := by
  intro fuel
  induction fuel with
  | zero => intro s s1 r h; simp [nid_do_while] at h
  | succ fuel ih =>
    intro s s1 r h
    simp only [nid_do_while] at h
    split at h
    · simp only [Option.some.injEq, Prod.mk.injEq] at h
      obtain ⟨_, rfl⟩ := h
      exact ⟨1, le_refl 1, by omega, upd2_same _ _ _ _, rfl⟩
    · split_ifs at h with hne
      · obtain ⟨j, h1, h2, h3, h4⟩ := ih _ _ _ h
        refine ⟨j + 1, by omega, by omega, ?_, h4⟩
        rw [h3]
        show (upd2 s.domain_order_index t knd _ t knd + j) % _ = _
        rw [upd2_same, Nat.mod_add_mod]
        congr 1
        omega
      · simp only [Option.some.injEq, Prod.mk.injEq] at h
        obtain ⟨_, rfl⟩ := h
        exact ⟨1, le_refl 1, by omega, upd2_same _ _ _ _, rfl⟩

/-! ## Allocation options -/

/-- C32, as stated, fails: when `kmalloc` returns `NULL` the factory returns `NULL` and no
tier order, search or ceiling is selected. -/
theorem allocate_options_factory_null :
    allocate_options_factory none allocate_site_t.lwkmem_mmap 2097152 0 proc_with_threshold =
      none := rfl

/-- C32, amended: when the `kmalloc` of the options succeeds, `allocate_options_factory`
returns options whose ceiling is `min(max_page_size, heap_page_size)` for the brk site and
`max_page_size` for the other sites; without a threshold (`mcdram_minimum = 0`) the search
is the plain first-free search; with a threshold the search is the NUMA search, the tiers
are ordered [mcdram, dram] exactly when `len >= mcdram_minimum` and
`(mcdram_exempt_flags & flags) == 0`, [dram, mcdram] otherwise, and the domain list and its
length of each tier are those of the process. -/
theorem allocate_options_factory_spec (o : allocate_options_t) (site : allocate_site_t)
    (len flags : Nat) (mosp : mos_process_t) :
    ∃ opts, allocate_options_factory (some o) site len flags mosp = some opts ∧
      opts.max_page_size =
        (if site = allocate_site_t.lwkmem_brk then min mosp.max_page_size mosp.heap_page_size
          else mosp.max_page_size) ∧
      (mosp.mcdram_minimum = 0 →
        opts.find_available = find_available_t.find_available_blk_list) ∧
      (0 < mosp.mcdram_minimum →
        opts.find_available = find_available_t.find_available_by_nid_list ∧
        ((len ≥ mosp.mcdram_minimum ∧ mosp.mcdram_exempt_flags &&& flags = 0) ↔
          (opts.type_order 0 = lwkmem_mcdram ∧ opts.type_order 1 = lwkmem_dram)) ∧
        (¬ (len ≥ mosp.mcdram_minimum ∧ mosp.mcdram_exempt_flags &&& flags = 0) ↔
          (opts.type_order 0 = lwkmem_dram ∧ opts.type_order 1 = lwkmem_mcdram)) ∧
        ∀ t, t < lwkmem_type_last →
          opts.nid_order_len t = mosp.domain_info_len t ∧
          ∀ d, d < mosp.domain_info_len t → opts.nid_order t d = mosp.domain_info t d) := by
  have hmin1 : mosp.heap_page_size < mosp.max_page_size →
      min mosp.max_page_size mosp.heap_page_size = mosp.heap_page_size :=
    fun h => min_eq_right (le_of_lt h)
  have hmin2 : ¬ mosp.heap_page_size < mosp.max_page_size →
      min mosp.max_page_size mosp.heap_page_size = mosp.max_page_size :=
    fun h => min_eq_left (by omega)
  have h2 : ∀ t, t < lwkmem_type_last → t = 0 ∨ t = 1 := by
    intro t ht; unfold lwkmem_type_last at ht; omega
  by_cases hm : mosp.mcdram_minimum > 0 <;>
  by_cases hc : len ≥ mosp.mcdram_minimum ∧ mosp.mcdram_exempt_flags &&& flags = 0 <;>
  by_cases hlt : mosp.heap_page_size < mosp.max_page_size <;>
  cases site <;>
  refine ⟨_, by simp only [allocate_options_factory, hm, hc, hlt, if_true, if_false]; rfl, ?_⟩ <;>
  simp [copy_domain_info, upd, lwkmem_mcdram, lwkmem_dram, hc, hm, hlt, hmin1, hmin2] <;>
  first
    | omega
    | (refine ⟨by omega, fun t ht => ?_⟩
       rcases h2 t ht with rfl | rfl
       · exact ⟨by simp, fun d hd => by simp [hd]⟩
       · exact ⟨by simp, fun d hd => by simp [hd]⟩)

/-! ## Reserve, then release -/

theorem registry_refines_refl (r : List mos_lwk_mem_granule) : registry_refines r r := by
  induction r with
  | nil => exact registry_refines.nil
  | cons e rest ih =>
    exact registry_refines.cons e [e] rest rest (by simp) ⟨rfl, rfl, rfl⟩ ih

theorem granule_chain_replace {fin : Nat} {nid : Int} {elt : mos_lwk_mem_granule}
    {repl post : List mos_lwk_mem_granule}
    (h : ∀ c, granule_chain fin nid c (elt :: post) → granule_chain fin nid c (repl ++ post)) :
    ∀ (pre : List mos_lwk_mem_granule) (b : Nat),
      granule_chain fin nid b (pre ++ elt :: post) →
      granule_chain fin nid b (pre ++ (repl ++ post)) := by
  intro pre
  induction pre with
  | nil => intro b hb; exact h b hb
  | cons a pre ih =>
    intro b hb
    exact ⟨hb.1, hb.2.1, ih _ hb.2.2⟩

/-- Replacing a granule of the registry by granules that cover its range keeps the
refinement. -/
theorem registry_refines_replace {orig cur : List mos_lwk_mem_granule}
    (h : registry_refines orig cur) {elt : mos_lwk_mem_granule}
    {repl : List mos_lwk_mem_granule} (hne : repl ≠ [])
    (hrepl : ∀ fin nid c post, granule_chain fin nid c (elt :: post) →
      granule_chain fin nid c (repl ++ post)) :
    ∀ (l1 l2 : List mos_lwk_mem_granule), cur = l1 ++ elt :: l2 →
      registry_refines orig (l1 ++ (repl ++ l2)) := by
  induction h with
  | nil => intro l1 l2 hc; simp at hc
  | cons e pieces rest cur hp hchain href ih =>
    intro l1 l2 hc
    rcases List.append_eq_append_iff.1 hc with ⟨a, h1, h2⟩ | ⟨c, h1, h2⟩
    · -- l1 = pieces ++ a, cur = a ++ elt :: l2
      subst h1
      have := registry_refines.cons e pieces rest _ hp hchain (ih a l2 h2)
      rw [List.append_assoc]
      exact this
    · -- pieces = l1 ++ c, elt :: l2 = c ++ cur
      cases c with
      | nil =>
        simp only [List.append_nil] at h1
        simp only [List.nil_append] at h2
        subst h1
        exact registry_refines.cons e pieces rest _ hp hchain (ih [] l2 h2.symm)
      | cons x c =>
        simp only [List.cons_append, List.cons.injEq] at h2
        obtain ⟨rfl, rfl⟩ := h2
        subst h1
        have hchain' := granule_chain_replace (hrepl _ _ · c) l1 _ hchain
        have := registry_refines.cons e (l1 ++ (repl ++ c)) rest cur
          (by simp [hne]) hchain' href
        simpa [List.append_assoc] using this

/-- A pass of the loop of `lwkmem_request` keeps the refinement. -/
theorem registry_step_refines {pid nid : Int} {orig a b : List mos_lwk_mem_granule}
    (h : registry_step pid nid a b) (hr : registry_refines orig a) :
    registry_refines orig b := by
  cases h with
  | split l1 elt l2 wanted hf h0 hlt =>
    refine @registry_refines_replace _ _ hr elt [_, _] (by simp) ?_ l1 l2 rfl
    intro fin n c post hc
    obtain ⟨h1, h2, h3⟩ := hc
    refine ⟨h1, h2, ?_, h2, ?_⟩
    · simp only [split_tail]; omega
    · have : (split_tail pid elt wanted).base + (split_tail pid elt wanted).length =
          elt.base + elt.length := by simp only [split_tail]; omega
      rw [this]; exact h3
  | whole l1 elt l2 hf =>
    refine @registry_refines_replace _ _ hr elt [_] (by simp) ?_ l1 l2 rfl
    intro fin n c post hc
    exact hc

theorem registry_steps_refines {pid : Int} {orig a b : List mos_lwk_mem_granule}
    (h : registry_steps pid a b) (hr : registry_refines orig a) :
    registry_refines orig b := by
  induction h with
  | refl => exact hr
  | tail _ hstep ih =>
    obtain ⟨nid, hstep⟩ := hstep
    exact registry_step_refines hstep ih

theorem granule_chain_map_owner (fin : Nat) (nid : Int) (v : Int) :
    ∀ (l : List mos_lwk_mem_granule) (b : Nat), granule_chain fin nid b l →
      granule_chain fin nid b (l.map fun g => { g with owner := v }) := by
  intro l
  induction l with
  | nil => intro b h; exact h
  | cons p r ih => intro b h; exact ⟨h.1, h.2.1, ih _ h.2.2⟩

theorem registry_refines_map_owner {orig cur : List mos_lwk_mem_granule}
    (h : registry_refines orig cur) (v : Int) :
    registry_refines orig (cur.map fun g => { g with owner := v }) := by
  induction h with
  | nil => exact registry_refines.nil
  | cons e pieces rest cur hp hchain _ ih =>
    rw [List.map_append]
    exact registry_refines.cons e _ rest _ (by simpa using hp)
      (granule_chain_map_owner _ _ v _ _ hchain) ih

/-- The adjacency pass merges a run of free granules that cover a range one after the other
into one granule. -/
theorem merge_from_chain (list_head : mos_lwk_mem_granule) (fin : Nat) (nid : Int)
    (t : List mos_lwk_mem_granule) :
    ∀ (r : List mos_lwk_mem_granule) (p : mos_lwk_mem_granule) (b : Nat),
      (∀ x ∈ p :: r, x.owner = -1) → granule_chain fin nid b (p :: r) →
      merge_from list_head p (r ++ t) =
        merge_from list_head { base := b, length := fin - b, nid := nid, owner := -1 } t := by
  intro r
  induction r with
  | nil =>
    intro p b ho hc
    obtain ⟨h1, h2, h3⟩ := hc
    have h4 : p.base + p.length = fin := h3
    have ho' := ho p (List.mem_cons_self _ _)
    have : p = { base := b, length := fin - b, nid := nid, owner := -1 } := by
      cases p
      simp only [mos_lwk_mem_granule.mk.injEq] at *
      omega
    rw [this]
    rfl
  | cons q r ih =>
    intro p b ho hc
    obtain ⟨h1, h2, h3, h4, h5⟩ := hc
    have hp := ho p (List.mem_cons_self _ _)
    have hq := ho q (List.mem_cons_of_mem _ (List.mem_cons_self _ _))
    have ht : merge_test p q = true := by
      rw [merge_test_iff]
      exact ⟨h3.symm, hp, hq⟩
    simp only [List.cons_append, merge_from, if_pos ht]
    apply ih
    · intro x hx
      rcases List.mem_cons.1 hx with rfl | hx
      · exact hq
      · exact ho x (List.mem_cons_of_mem _ (List.mem_cons_of_mem _ hx))
    · refine ⟨h1, h4, ?_⟩
      have : p.base + (q.length + p.length) = q.base + q.length := by omega
      show granule_chain fin nid (p.base + (q.length + p.length)) r
      rw [this]
      exact h5

/-- The adjacency pass undoes a refinement of a registry of free granules of which no two
consecutive ones are address-adjacent, once every piece is free. -/
theorem merge_pass_refines (list_head : mos_lwk_mem_granule) (hh : list_head.owner ≠ -1)
    {orig cur : List mos_lwk_mem_granule} (h : registry_refines orig cur) :
    (∀ g ∈ orig, g.owner = -1) →
    List.Chain' (fun a b => a.base + a.length ≠ b.base) orig →
    (∀ g ∈ cur, g.owner = -1) →
    merge_pass list_head cur = orig := by
  induction h with
  | nil => intro _ _ _; rfl
  | cons e pieces rest cur hp hchain href ih =>
    intro ho hadj hc
    cases pieces with
    | nil => exact absurd rfl hp
    | cons p r =>
      have he := ho e (List.mem_cons_self _ _)
      have hm := merge_from_chain list_head _ _ cur r p e.base
        (fun x hx => hc x (List.mem_append_left _ hx)) hchain
      have hee : (⟨e.base, e.base + e.length - e.base, e.nid, -1⟩ : mos_lwk_mem_granule) =
          e := by
        have hl : e.base + e.length - e.base = e.length := by omega
        rw [hl, ← he]
      rw [hee] at hm
      show merge_from list_head p (r ++ cur) = e :: rest
      rw [hm]
      have ih' := ih (fun g hg => ho g (List.mem_cons_of_mem _ hg))
        (List.Chain'.tail hadj) (fun g hg => hc g (List.mem_append_right _ hg))
      cases href with
      | nil =>
        have : merge_test e list_head = false := by simp [merge_test, hh]
        simp [merge_from, this]
      | cons e2 pieces2 rest2 cur2 hp2 hchain2 href2 =>
        cases pieces2 with
        | nil => exact absurd rfl hp2
        | cons p2 r2 =>
          have hbase : p2.base = e2.base := hchain2.1
          have hne : e.base + e.length ≠ e2.base := by
            rw [List.chain'_cons] at hadj
            exact hadj.1
          have : merge_test e p2 = false := by
            rw [Bool.eq_false_iff, Ne, merge_test_iff, hbase]
            tauto
          simp only [List.cons_append, merge_from, this, Bool.false_eq_true, if_false]
          congr 1

theorem owned_on_list_step {pid : Int} (hpid : 0 < pid) {nid : Int}
    {l1 l2 : List mos_lwk_mem_granule} {elt : mos_lwk_mem_granule} {s s2 : mos_process_t}
    (hJ : owned_on_list pid (l1 ++ elt :: l2) s) (hfree : free_for_nid nid elt = true)
    (repl : List mos_lwk_mem_granule) (g1 : mos_lwk_mem_granule) (hg1 : g1.owner = pid)
    (hs2 : s2.lwkmem_list = { granule := g1, offset := 0 } :: s.lwkmem_list)
    (hrepl : ∀ g ∈ repl, g = g1 ∨ g.owner = elt.owner) :
    owned_on_list pid (l1 ++ (repl ++ l2)) s2 := by
  obtain ⟨hJ1, hJ2⟩ := hJ
  have helt : elt.owner = -1 := by
    rcases hJ2 elt (by simp) with c | ⟨p, hp, hpe⟩
    · exact c
    · have h1 := hJ1 p hp
      rw [hpe] at h1
      have h2 := ((free_for_nid_iff _ _).1 hfree).1
      omega
  constructor
  · intro p hp
    rw [hs2] at hp
    rcases List.mem_cons.1 hp with rfl | hp
    · exact hg1
    · exact hJ1 p hp
  · intro g hg
    simp only [List.mem_append] at hg
    have hold : ∀ g, g ∈ l1 ∨ g ∈ l2 → g.owner = -1 ∨ ∃ p ∈ s2.lwkmem_list, p.granule = g := by
      intro g hg
      rcases hJ2 g (by
        simp only [List.mem_append, List.mem_cons]
        tauto) with c | ⟨p, hp, hpe⟩
      · exact Or.inl c
      · exact Or.inr ⟨p, by rw [hs2]; exact List.mem_cons_of_mem _ hp, hpe⟩
    rcases hg with hg | hg | hg
    · exact hold g (Or.inl hg)
    · rcases hrepl g hg with rfl | ho
      · exact Or.inr ⟨_, by rw [hs2]; exact List.mem_cons_self _ _, rfl⟩
      · exact Or.inl (ho.trans helt)
    · exact hold g (Or.inr hg)

/-- A loop of `lwkmem_request` that is left with `rc = 0` has put every granule it took on
the list of the process. -/
theorem lwkmem_request_while_owned (env : Env) (pid nid : Int) (hpid : 0 < pid) :
    ∀ (fuel wanted : Nat) (registry : List mos_lwk_mem_granule) (s : mos_process_t)
      (registry' : List mos_lwk_mem_granule) (s' : mos_process_t),
      lwkmem_request_while env pid nid fuel wanted registry s = some (0, registry', s') →
      owned_on_list pid registry s → owned_on_list pid registry' s' := by
  intro fuel
  have hne : (-ENOMEM : Int) ≠ 0 := by simp [ENOMEM]
  induction fuel with
  | zero =>
    intro wanted registry s registry' s' h hJ
    simp only [lwkmem_request_while] at h
    split_ifs at h
    simp only [Option.some.injEq, Prod.mk.injEq, true_and] at h
    obtain ⟨rfl, rfl⟩ := h
    exact hJ
  | succ fuel ih =>
    intro wanted registry s registry' s' h hJ
    by_cases hw : wanted = 0
    · simp only [lwkmem_request_while, if_pos hw, Option.some.injEq, Prod.mk.injEq,
        true_and] at h
      obtain ⟨rfl, rfl⟩ := h
      exact hJ
    · rcases lwkmem_request_while_succ env pid nid fuel wanted registry s (by omega) with
        ⟨_, _, he⟩ | ⟨l1, elt, l2, hreg, hfree, _, _, hc⟩
      · rw [he] at h
        simp only [Option.some.injEq, Prod.mk.injEq] at h
        exact absurd h.1 hne
      · subst hreg
        rcases hc with ⟨_, _, he⟩ | ⟨_, _, _, he⟩ | ⟨_, _, _, he⟩ | ⟨_, _, he⟩ | ⟨_, _, he⟩
        · rw [he] at h
          simp only [Option.some.injEq, Prod.mk.injEq] at h
          exact absurd h.1 hne
        · rw [he] at h
          simp only [Option.some.injEq, Prod.mk.injEq] at h
          exact absurd h.1 hne
        · rw [he] at h
          simp only [Option.some.injEq, Prod.mk.injEq, true_and] at h
          obtain ⟨rfl, rfl⟩ := h
          refine owned_on_list_step hpid hJ hfree [_, _] (split_tail pid elt wanted) rfl rfl ?_
          intro g hg
          simp only [List.mem_cons, List.mem_singleton, List.not_mem_nil, or_false] at hg
          rcases hg with rfl | rfl
          · exact Or.inr rfl
          · exact Or.inl rfl
        · rw [he] at h
          simp only [Option.some.injEq, Prod.mk.injEq] at h
          exact absurd h.1 hne
        · rw [he] at h
          refine ih _ _ _ _ _ h ?_
          refine owned_on_list_step hpid hJ hfree [_] { elt with owner := pid } rfl rfl ?_
          intro g hg
          simp only [List.mem_singleton] at hg
          exact Or.inl hg

theorem lwkmem_request_for_owned (env : Env) (pid : Int) (fuel : Nat) (hpid : 0 < pid) :
    ∀ (req : List Nat) (i : Nat) (registry : List mos_lwk_mem_granule) (s : mos_process_t)
      (registry' : List mos_lwk_mem_granule) (s' : mos_process_t),
      lwkmem_request_for env pid fuel i req registry s = some (0, registry', s') →
      owned_on_list pid registry s → owned_on_list pid registry' s' := by
  intro req
  induction req with
  | nil =>
    intro i registry s registry' s' h hJ
    simp only [lwkmem_request_for, Option.some.injEq, Prod.mk.injEq, true_and] at h
    obtain ⟨rfl, rfl⟩ := h
    exact hJ
  | cons r req ih =>
    intro i registry s registry' s' h hJ
    simp only [lwkmem_request_for] at h
    split_ifs at h with hr
    · exact ih _ _ _ _ _ h hJ
    · cases hwh : lwkmem_request_while env pid i fuel
          (max (rounddown_u r MIN_CHUNK_SIZE) MIN_CHUNK_SIZE) registry s with
      | none => rw [hwh] at h; simp at h
      | some res =>
        obtain ⟨rc1, registry1, s1⟩ := res
        rw [hwh] at h
        simp only at h
        split_ifs at h with hz
        · subst hz
          exact ih _ _ _ _ _ h (lwkmem_request_while_owned env pid i hpid _ _ _ _ _ _ hwh hJ)
        · simp only [Option.some.injEq, Prod.mk.injEq] at h
          exact absurd h.1 hz

/-- After a successful `lwkmem_request` on a registry of free granules, every granule of the
registry is free or on the list of the process. -/
theorem lwkmem_request_owned {env : Env} {pid : Int} {fuel : Nat} {req : List Nat}
    {registry registry' : List mos_lwk_mem_granule} {s s' : mos_process_t} (hpid : 0 < pid)
    (hfree : ∀ g ∈ registry, g.owner = -1)
    (h : lwkmem_request env pid fuel req registry s = some (0, registry', s')) :
    owned_on_list pid registry' s' := by
  have hne : (0 : Int) ≠ -EINVAL := by simp [EINVAL]
  have hs := ((lwkmem_request_spec h).2.2 hne).1
  unfold lwkmem_request at h
  simp only at h
  split_ifs at h with h1 h2
  · simp only [Option.some.injEq, Prod.mk.injEq] at h
    exact absurd h.1.symm hne
  · simp only [Option.some.injEq, Prod.mk.injEq] at h
    exact absurd h.1.symm hne
  · refine lwkmem_request_for_owned env pid fuel hpid _ _ _ _ _ _ h ⟨?_, fun g hg => ?_⟩
    · intro p hp
      have : p ∈ s.lwkmem_list := hp
      rw [hs] at this
      simp at this
    · exact Or.inl (hfree g hg)

/-- The stores `owner = -1` through a list of pointers: each entry of the registry stays or
has its owner reset, and it is reset when one of the pointers refers to it. -/
theorem foldl_release_map {α : Type} (f : α → mos_lwk_mem_granule) (l : List α) :
    ∃ ψ : mos_lwk_mem_granule → mos_lwk_mem_granule,
      (∀ e, ψ e = e ∨ ψ e = { e with owner := -1 }) ∧
      (∀ e, (∃ x ∈ l, (f x).base = e.base) → ψ e = { e with owner := -1 }) ∧
      ∀ r : List mos_lwk_mem_granule,
        l.foldl (fun r b => granule_release r (f b)) r = r.map ψ := by
  induction l with
  | nil => exact ⟨id, fun e => Or.inl rfl, fun e h => by simp at h, fun r => by simp⟩
  | cons a l ih =>
    obtain ⟨ψ, h1, h2, h3⟩ := ih
    refine ⟨fun e => ψ (if e.base = (f a).base then { e with owner := -1 } else e),
      fun e => ?_, fun e he => ?_, fun r => ?_⟩
    · simp only
      split_ifs
      · rcases h1 { e with owner := -1 } with c | c <;> exact Or.inr c
      · exact h1 e
    · simp only
      obtain ⟨x, hx, hb⟩ := he
      split_ifs with hc
      · rcases h1 { e with owner := -1 } with c | c <;> exact c
      · rcases List.mem_cons.1 hx with rfl | hx
        · exact absurd hb.symm hc
        · exact h2 e ⟨x, hx, hb⟩
    · rw [List.foldl_cons, h3]
      unfold granule_release
      rw [List.map_map]
      rfl

theorem release_task_mem_blocks_map (r : List mos_lwk_mem_granule) (s : mos_process_t) :
    ∃ ψ : mos_lwk_mem_granule → mos_lwk_mem_granule,
      (∀ e, ψ e = e ∨ ψ e = { e with owner := -1 }) ∧
      (release_task_mem_blocks r s).1 = r.map ψ := by
  have key : ∀ (k : Nat) (rs : List mos_lwk_mem_granule × mos_process_t),
      ∃ ψ : mos_lwk_mem_granule → mos_lwk_mem_granule,
        (∀ e, ψ e = e ∨ ψ e = { e with owner := -1 }) ∧
        (release_kind_blocks k rs).1 = rs.1.map ψ := by
    intro k rs
    obtain ⟨ψ, h1, _, h3⟩ := foldl_release_map (fun b : blk_list => b.phys) (rs.2.blk_list k)
    exact ⟨ψ, h1, h3 rs.1⟩
  have comp : ∀ (ψ φ : mos_lwk_mem_granule → mos_lwk_mem_granule),
      (∀ e, ψ e = e ∨ ψ e = { e with owner := -1 }) →
      (∀ e, φ e = e ∨ φ e = { e with owner := -1 }) →
      ∀ e, φ (ψ e) = e ∨ φ (ψ e) = { e with owner := -1 } := by
    intro ψ φ hψ hφ e
    rcases hψ e with c | c <;> rw [c]
    · exact hφ e
    · rcases hφ { e with owner := -1 } with d | d <;> exact Or.inr d
  unfold release_task_mem_blocks
  obtain ⟨ψ0, a0, b0⟩ := key kind_4k (r, s)
  obtain ⟨ψ1, a1, b1⟩ := key kind_2m (release_kind_blocks kind_4k (r, s))
  obtain ⟨ψ2, a2, b2⟩ := key kind_4m (release_kind_blocks kind_2m
    (release_kind_blocks kind_4k (r, s)))
  obtain ⟨ψ3, a3, b3⟩ := key kind_1g (release_kind_blocks kind_4m (release_kind_blocks kind_2m
    (release_kind_blocks kind_4k (r, s))))
  refine ⟨fun e => ψ3 (ψ2 (ψ1 (ψ0 e))), ?_, ?_⟩
  · exact comp _ ψ3 (comp _ ψ2 (comp ψ0 ψ1 a0 a1) a2) a3
  · rw [b3, b2, b1, b0]
    simp [List.map_map, Function.comp]

theorem registry_steps_all_free {pid : Int} (hpid : 0 < pid) {a b : List mos_lwk_mem_granule}
    (h : registry_steps pid a b) (hb : ∀ g ∈ b, g.owner = -1) : b = a := by
  rcases Relation.ReflTransGen.cases_tail h with c | ⟨m, _, nid, hstep⟩
  · exact c
  · exfalso
    cases hstep with
    | split l1 elt l2 wanted hf h0 hlt =>
      have := hb (split_tail pid elt wanted) (by simp)
      simp only [split_tail] at this
      omega
    | whole l1 elt l2 hf =>
      have := hb { elt with owner := pid } (by simp)
      simp only at this
      omega

/-- C38: reserve then release restores the registry. Starting from a registry in which every
granule is free (owner `-1`) and no two consecutive entries are address-adjacent, a
successful `lwkmem_request` by a process with a positive pid followed by `lwkmem_release` of
that process yields the registry as it was before the request, and leaves the process with
no granules, no blocks and all free counters 0. For the adjacency pass the test is taken to
fail at the list head. -/
theorem request_release_restores (env : Env) (pid : Int) (fuel : Nat) (req : List Nat)
    (registry registry' : List mos_lwk_mem_granule) (s s' : mos_process_t)
    (list_head : mos_lwk_mem_granule)
    (hfree : ∀ g ∈ registry, g.owner = -1)
    (hadj : List.Chain' (fun a b => a.base + a.length ≠ b.base) registry)
    (hpid : 0 < pid)
    (hreq : lwkmem_request env pid fuel req registry s = some (0, registry', s'))
    (hh : list_head.owner ≠ -1) :
    (lwkmem_release list_head registry' s').1 = registry ∧
    (lwkmem_release list_head registry' s').2.lwkmem_list = [] ∧
    ∀ k, k < 4 → (lwkmem_release list_head registry' s').2.blk_list k = [] ∧
      (lwkmem_release list_head registry' s').2.num_blks k = 0 := by
  refine ⟨?_, lwkmem_release_state list_head registry' s'⟩
  have hsteps := (lwkmem_request_spec hreq).1
  obtain ⟨hJ1, hJ2⟩ := lwkmem_request_owned hpid hfree hreq
  obtain ⟨ψb, hb1, hb2⟩ := release_task_mem_blocks_map registry' s'
  have hlist := (release_task_mem_blocks_state registry' s').1
  have hfix : ∀ e : mos_lwk_mem_granule, e.owner = -1 → ({ e with owner := -1 } :
      mos_lwk_mem_granule) = e := by
    intro e he
    cases e
    simp only at he
    subst he
    rfl
  unfold lwkmem_release
  simp only
  split_ifs with hempty
  · rw [hlist] at hempty
    have hnil : s'.lwkmem_list = [] := List.isEmpty_iff.1 hempty
    have hall : ∀ g ∈ registry', g.owner = -1 := by
      intro g hg
      rcases hJ2 g hg with c | ⟨p, hp, _⟩
      · exact c
      · rw [hnil] at hp; simp at hp
    have hreg := registry_steps_all_free hpid hsteps hall
    rw [hb2, hreg]
    rw [hreg] at hall
    conv_rhs => rw [← List.map_id registry]
    apply List.map_congr_left
    intro e he
    rcases hb1 e with c | c
    · rw [c]; rfl
    · rw [c, hfix e (hall e he)]; rfl
  · obtain ⟨ψg, hg1, hg2, hg3⟩ :=
      foldl_release_map (fun p : lwk_process_granule => p.granule)
        (release_task_mem_blocks registry' s').2.lwkmem_list
    simp only
    rw [hg3, hb2, List.map_map]
    have hmap : registry'.map (ψg ∘ ψb) = registry'.map fun g => { g with owner := -1 } := by
      apply List.map_congr_left
      intro e he
      simp only [Function.comp]
      by_cases ho : e.owner = -1
      · have h1 : ψb e = e := by
          rcases hb1 e with c | c
          · exact c
          · rw [c, hfix e ho]
        rw [h1, hfix e ho]
        rcases hg1 e with c | c
        · exact c
        · rw [c, hfix e ho]
      · rcases hJ2 e he with c | ⟨p, hp, hpe⟩
        · exact absurd c ho
        · have hbase : (ψb e).base = e.base := by
            rcases hb1 e with c | c <;> rw [c]
          have := hg2 (ψb e) ⟨p, by rw [hlist]; exact hp, by rw [hbase, hpe]⟩
          rw [this]
          rcases hb1 e with c | c <;> rw [c]
    rw [hmap]
    exact merge_pass_refines list_head hh
      (registry_refines_map_owner (registry_steps_refines hsteps (registry_refines_refl _)) (-1))
      hfree hadj (by simp)

set_option maxRecDepth 100000 in
/-- Witness for C38: pid 7 reserves 3 MiB on node 0 and 4 MiB on node 1 of
`registry_four_nodes`, then releases. -/
theorem request_release_restores_witness :
    (∀ g ∈ registry_four_nodes, g.owner = -1) ∧
    List.Chain' (fun a b => a.base + a.length ≠ b.base) registry_four_nodes ∧
    ∃ registry' s',
      lwkmem_request env_ok 7 8 [3145728, 4194304] registry_four_nodes {} =
        some (0, registry', s') ∧
      (lwkmem_release { owner := 0 } registry' s').1 = registry_four_nodes ∧
      (lwkmem_release { owner := 0 } registry' s').2.lwkmem_list = [] ∧
      ∀ k, k < 4 → (lwkmem_release { owner := 0 } registry' s').2.blk_list k = [] ∧
        (lwkmem_release { owner := 0 } registry' s').2.num_blks k = 0 :=
  ⟨by decide, by simp [registry_four_nodes], _, _, rfl,
    request_release_restores env_ok 7 8 [3145728, 4194304] registry_four_nodes _ {} _
      { owner := 0 } (by decide) (by simp [registry_four_nodes]) (by decide) rfl (by decide)⟩


/-! ## Completeness of allocation under the first-free search -/

theorem next_larger_skips (hw : Hw) (n : Nat) :
    ∀ nxt j, nxt ≤ j → j < next_larger hw n nxt → num_dTLB hw j = 0 := by
  induction n with
  | zero =>
    intro nxt j h1 h2
    simp only [next_larger] at h2
    omega
  | succ n ih =>
    intro nxt j h1 h2
    simp only [next_larger] at h2
    split_ifs at h2 with hc
    · by_cases hj : j = nxt
      · rw [hj]; exact hc.1
      · exact ih (nxt + 1) j (by omega) h2
    · omega

theorem divide_consume_some (env : Env) (hvm : ∀ t, env.vmalloc t = true) (knd nxt : Nat)
    (s : mos_process_t) (i : Nat) (elt : blk_list) :
    (divide_consume env knd nxt s i elt).1 ≠ none := by
  unfold divide_consume
  simp only [hvm]
  split_ifs <;> simp

theorem find_available_first_free {opts : allocate_options_t}
    (hfind : opts.find_available = find_available_t.find_available_blk_list) (fuel knd : Nat)
    (s : mos_process_t) :
    find_available fuel opts knd s = some (find_available_blk_list s knd, s) := by
  unfold find_available
  rw [hfind]

/-- When every `vmalloc` succeeds and the search is the first-free search, `divide_block`
returns `NULL` only if no class above `knd` with dTLB entries holds a free block; the state
is then as before. -/
theorem divide_block_none (env : Env) (hw : Hw) (opts : allocate_options_t)
    (hfind : opts.find_available = find_available_t.find_available_blk_list)
    (hvm : ∀ t, env.vmalloc t = true) (fuel : Nat) :
    ∀ (knd : Nat) (s s1 : mos_process_t),
      divide_block env hw opts fuel knd s = some (none, s1) →
      s1 = s ∧ ∀ j, knd < j → j < 4 → num_dTLB hw j ≠ 0 →
        ∀ b, b ∈ s.blk_list j → b.free = false := by
  induction fuel with
  | zero => intro knd s s1 h; simp [divide_block] at h
  | succ fuel ih =>
    intro knd s s1 h
    simp only [divide_block, find_available_first_free hfind] at h
    have hskip := next_larger_skips hw kind_last (knd + 1)
    split_ifs at h with hlast
    · simp only [Option.some.injEq, Prod.mk.injEq, true_and] at h
      have hlast4 : 4 ≤ next_larger hw kind_last (knd + 1) := hlast
      exact ⟨h.symm, fun j hj hj4 hne => absurd (hskip j (by omega) (by omega)) hne⟩
    · cases hff : find_available_blk_list s (next_larger hw kind_last (knd + 1)) with
      | some ie =>
        obtain ⟨i, elt⟩ := ie
        rw [hff] at h
        simp only [Option.some.injEq] at h
        have := divide_consume_some env hvm knd (next_larger hw kind_last (knd + 1)) s i elt
        rw [h] at this
        exact absurd rfl this
      | none =>
        rw [hff] at h
        simp only at h
        cases hdiv : divide_block env hw opts fuel (next_larger hw kind_last (knd + 1)) s with
        | none => rw [hdiv] at h; simp at h
        | some res =>
          obtain ⟨r, s2⟩ := res
          rw [hdiv] at h
          cases r with
          | some ie =>
            obtain ⟨i, elt⟩ := ie
            simp only [Option.some.injEq] at h
            have := divide_consume_some env hvm knd (next_larger hw kind_last (knd + 1)) s2 i elt
            rw [h] at this
            exact absurd rfl this
          | none =>
            simp only [Option.some.injEq, Prod.mk.injEq, true_and] at h
            obtain ⟨e1, e2⟩ := ih _ s s2 hdiv
            refine ⟨by rw [← h, e1], fun j hj hj4 hne b hb => ?_⟩
            rcases Nat.lt_trichotomy j (next_larger hw kind_last (knd + 1)) with c | c | c
            · exact absurd (hskip j (by omega) c) hne
            · have := find_first_none hff b (by rw [← c]; exact hb)
              simpa using this
            · exact e2 j c hj4 hne b hb

theorem grab_block_quit_vmalloc (env : Env) (hvm : ∀ t, env.vmalloc t = true)
    {prot pgoff : Nat} {len : Int} {k : Nat} {l : alloc_locals} {s s1 : mos_process_t}
    {i : Nat} {elt : blk_list} {e : alloc_exit}
    (h : grab_block env prot pgoff len k l s i elt = (alloc_flow.quit e, s1)) :
    ∃ a, e = alloc_exit.build_failed a := by
  unfold grab_block at h
  simp only [hvm] at h
  split_ifs at h <;>
    simp only [Prod.mk.injEq, alloc_flow.quit.injEq, reduceCtorEq, false_and] at h
  all_goals exact ⟨_, h.1.symm⟩

/-- With the first-free search and every `vmalloc` succeeding, the loop of class `k` leaves
through the exit "block list is empty" only in a state in which no class with dTLB entries
holds a free block. -/
theorem allocate_while_empty (env : Env) (hw : Hw) (opts : allocate_options_t)
    (hfind : opts.find_available = find_available_t.find_available_blk_list)
    (hvm : ∀ t, env.vmalloc t = true) (prot pgoff : Nat) (len : Int) (k : Nat) (fuel : Nat) :
    ∀ (l : alloc_locals) (s s' : mos_process_t),
      allocate_while env hw opts prot pgoff len k fuel l s =
        some (alloc_flow.quit alloc_exit.block_list_empty, s') →
      ∀ j, j < 4 → num_dTLB hw j ≠ 0 → ∀ b, b ∈ s'.blk_list j → b.free = false := by
  induction fuel with
  | zero => intro l s s' h; simp [allocate_while] at h
  | succ fuel ih =>
    intro l s s' h
    simp only [allocate_while, find_available_first_free hfind] at h
    by_cases hpos : 0 < l.wanted k
    swap
    · rw [if_neg hpos] at h
      simp at h
    rw [if_pos hpos] at h
    have hgrab : ∀ (s1 : mos_process_t) (i : Nat) (elt : blk_list),
        (match grab_block env prot pgoff len k l s1 i elt with
          | (alloc_flow.next l1, s2) => allocate_while env hw opts prot pgoff len k fuel l1 s2
          | (alloc_flow.quit e, s2) => some (alloc_flow.quit e, s2)) =
          some (alloc_flow.quit alloc_exit.block_list_empty, s') →
        ∀ j, j < 4 → num_dTLB hw j ≠ 0 → ∀ b, b ∈ s'.blk_list j → b.free = false := by
      intro s1 i elt hm
      cases hg : grab_block env prot pgoff len k l s1 i elt with
      | mk f s2 =>
        rw [hg] at hm
        cases f with
        | next l1 => exact ih l1 s2 s' hm
        | quit e =>
          simp only [Option.some.injEq, Prod.mk.injEq, alloc_flow.quit.injEq] at hm
          obtain ⟨a, ha⟩ := grab_block_quit_vmalloc env hvm hg
          rw [ha] at hm
          simp at hm
    cases hff : find_available_blk_list s k with
    | some ie =>
      obtain ⟨i, elt⟩ := ie
      rw [hff] at h
      exact hgrab s i elt h
    | none =>
      rw [hff] at h
      simp only at h
      cases hdiv : divide_block env hw opts fuel k s with
      | none => rw [hdiv] at h; simp at h
      | some res =>
        obtain ⟨r, s2⟩ := res
        rw [hdiv] at h
        cases r with
        | some ie =>
          obtain ⟨i, elt⟩ := ie
          exact hgrab s2 i elt h
        | none =>
          simp only at h
          by_cases hk0 : k > 0
          · rw [if_pos hk0] at h
            exact ih _ s2 s' h
          · rw [if_neg hk0] at h
            simp only [Option.some.injEq, Prod.mk.injEq, true_and] at h
            obtain ⟨e1, e2⟩ := divide_block_none env hw opts hfind hvm fuel k s s2 hdiv
            have hk : k = 0 := by omega
            subst hk
            rw [← h, e1]
            intro j hj hne b hb
            by_cases hj0 : j = 0
            · subst hj0
              have := find_first_none hff b hb
              simpa using this
            · exact e2 j (by omega) hj hne b hb

theorem allocate_kinds_empty (env : Env) (hw : Hw) (opts : allocate_options_t)
    (hfind : opts.find_available = find_available_t.find_available_blk_list)
    (hvm : ∀ t, env.vmalloc t = true) (prot pgoff : Nat) (len : Int) (fuel : Nat) :
    ∀ (n : Nat) (l : alloc_locals) (s s' : mos_process_t),
      allocate_kinds env hw opts prot pgoff len fuel n l s =
        some (alloc_exit.block_list_empty, s') →
      ∀ j, j < 4 → num_dTLB hw j ≠ 0 → ∀ b, b ∈ s'.blk_list j → b.free = false := by
  intro n
  induction n with
  | zero =>
    intro l s s' h
    simp only [allocate_kinds] at h
    split_ifs at h <;> simp at h
  | succ k ih =>
    intro l s s' h
    simp only [allocate_kinds] at h
    split_ifs at h with h1 h2 h3
    · exact ih l s s' h
    · simp at h
    · exact ih _ s s' h
    · cases hwh : allocate_while env hw opts prot pgoff len k fuel l s with
      | none => rw [hwh] at h; simp at h
      | some res =>
        obtain ⟨f, s1⟩ := res
        rw [hwh] at h
        cases f with
        | next l1 => exact ih l1 s1 s' h
        | quit e =>
          simp only [Option.some.injEq, Prod.mk.injEq] at h
          obtain ⟨rfl, rfl⟩ := h
          exact allocate_while_empty env hw opts hfind hvm prot pgoff len k fuel l s s1 hwh

theorem list_free_bytes_none (k : Nat) (l : List blk_list)
    (h : ∀ b, b ∈ l → b.free = false) : list_free_bytes k l = 0 := by
  induction l with
  | nil => rfl
  | cons b bs ih =>
    rw [list_free_bytes_cons, ih (fun x hx => h x (List.mem_cons_of_mem _ hx)),
      h b (List.mem_cons_self _ _)]
    simp

theorem free_bytes_none (hw : Hw) (s : mos_process_t) (hun : unusable_empty hw s)
    (h : ∀ j, j < 4 → num_dTLB hw j ≠ 0 → ∀ b, b ∈ s.blk_list j → b.free = false) :
    free_bytes s = 0 := by
  have key : ∀ j, j < 4 → list_free_bytes j (s.blk_list j) = 0 := by
    intro j hj
    apply list_free_bytes_none
    intro b hb
    by_cases hz : num_dTLB hw j = 0
    · rw [hun j hj hz] at hb
      simp at hb
    · exact h j hj hz b hb
  unfold free_bytes lists_free_bytes
  rw [key 0 (by omega), key 1 (by omega), key 2 (by omega), key 3 (by omega)]
  rfl

/-- The search function of first-free options does not read the domain lists. -/
theorem divide_block_first_free (env : Env) (hw : Hw) (opts opts' : allocate_options_t)
    (hfind : opts.find_available = find_available_t.find_available_blk_list)
    (hfind' : opts'.find_available = find_available_t.find_available_blk_list) (fuel : Nat) :
    ∀ (knd : Nat) (s : mos_process_t),
      divide_block env hw opts fuel knd s = divide_block env hw opts' fuel knd s := by
  induction fuel with
  | zero => intro knd s; rfl
  | succ fuel ih =>
    intro knd s
    simp only [divide_block, find_available_first_free hfind,
      find_available_first_free hfind', ih]

theorem allocate_while_first_free (env : Env) (hw : Hw) (opts opts' : allocate_options_t)
    (hfind : opts.find_available = find_available_t.find_available_blk_list)
    (hfind' : opts'.find_available = find_available_t.find_available_blk_list)
    (prot pgoff : Nat) (len : Int) (k : Nat) (fuel : Nat) :
    ∀ (l : alloc_locals) (s : mos_process_t),
      allocate_while env hw opts prot pgoff len k fuel l s =
        allocate_while env hw opts' prot pgoff len k fuel l s := by
  induction fuel with
  | zero => intro l s; rfl
  | succ fuel ih =>
    intro l s
    simp only [allocate_while, find_available_first_free hfind,
      find_available_first_free hfind', ih,
      divide_block_first_free env hw opts opts' hfind hfind']

theorem allocate_kinds_first_free (env : Env) (hw : Hw) (opts opts' : allocate_options_t)
    (hfind : opts.find_available = find_available_t.find_available_blk_list)
    (hfind' : opts'.find_available = find_available_t.find_available_blk_list)
    (prot pgoff : Nat) (len : Int) (fuel : Nat) :
    ∀ (n : Nat) (l : alloc_locals) (s : mos_process_t),
      allocate_kinds env hw opts prot pgoff len fuel n l s =
        allocate_kinds env hw opts' prot pgoff len fuel n l s := by
  intro n
  induction n with
  | zero => intro l s; rfl
  | succ n ih =>
    intro l s
    simp only [allocate_kinds, ih,
      allocate_while_first_free env hw opts opts' hfind hfind']

/-- With the first-free search `allocate_blocks` returns once the fuel exceeds the weight of
the free blocks, whatever the domain lists and cursors hold. -/
theorem allocate_blocks_first_free_returns (env : Env) (hw : Hw) (fuel : Nat) (addr : Nat)
    (len : Int) (prot mmap_flags pgoff : Nat) (opts : allocate_options_t) (s : mos_process_t)
    (hfind : opts.find_available = find_available_t.find_available_blk_list)
    (hfuel : 8 + (weight s).toNat ≤ fuel) :
    ∃ e s', allocate_blocks env hw fuel addr len prot mmap_flags pgoff opts s =
      some (e, s') := by
  unfold allocate_blocks
  simp only
  rw [allocate_kinds_first_free env hw opts { opts with nid_order_len := fun _ => 0 } hfind
    hfind]
  refine allocate_kinds_terminates env hw _ prot pgoff _ fuel kind_last _ s (le_refl 4)
    (fun t knd h => absurd rfl h) ?_
  simp only [search_fuel]
  omega

/-- While the demand recorded in `wanted[]` is at most the free bytes, `allocate_blocks`
does not leave through "block list is empty" with no free bytes, and with every `vmalloc`
succeeding it does not leave through the exit for a failed `vmalloc`. -/
theorem allocate_kinds_demand (env : Env) (hw : Hw) (opts : allocate_options_t)
    (hvm : ∀ t, env.vmalloc t = true) (prot pgoff : Nat) (len : Int) (fuel : Nat)
    {l : alloc_locals} {s s' : mos_process_t} {e : alloc_exit}
    (h1 : wanted_bytes l.wanted ≤ free_bytes s) (h2 : ∀ j, j < 4 → 0 ≤ l.wanted j)
    (h : allocate_kinds env hw opts prot pgoff len fuel 4 l s = some (e, s')) :
    (e = alloc_exit.block_list_empty → 0 < free_bytes s') ∧ e ≠ alloc_exit.vmalloc_failed := by
  refine allocate_kinds_inv env hw opts prot pgoff len fuel
    (fun _ l s => wanted_bytes l.wanted ≤ free_bytes s ∧ ∀ j, j < 4 → 0 ≤ l.wanted j)
    (fun e s => (e = alloc_exit.block_list_empty → 0 < free_bytes s) ∧
      e ≠ alloc_exit.vmalloc_failed)
    ?_ ?_ ?_ ?_ ?_ ?_ ?_ ?_ ?_ 4 (le_refl 4) l s ⟨h1, h2⟩ e s' h
  · intro k l s fuel r s1 _ hP hf
    rw [free_bytes_cursor_only (find_available_spec hf).1]
    exact hP
  · intro k l s fuel r s1 hk hP hd
    rw [(divide_block_spec env hw opts fuel hk hd).1]
    exact hP
  · intro k l s i elt l1 s1 hk hP hpos hv hg
    obtain ⟨u, u1, u2, u3, _, u5, _⟩ := grab_block_next_spec env hk hv hpos hg
    refine ⟨?_, fun j hj => ?_⟩
    · rw [u3, wanted_bytes_upd _ hk, u5]
      have := hP.1
      linarith
    · rw [u3]
      unfold upd
      split_ifs
      · omega
      · exact hP.2 j hj
  · intro k l s i elt e s1 _ _ _ _ hg
    obtain ⟨a, rfl⟩ := grab_block_quit_vmalloc env hvm hg
    exact ⟨by simp, by simp⟩
  · intro k l s h0 hk hP hpos
    exact ⟨by rw [wanted_bytes_fold _ h0 hk (hP.2 k hk)]; exact hP.1,
      fold_wanted_nonneg h0 hk hP.2⟩
  · intro l s hP hpos
    refine ⟨fun _ => ?_, by simp⟩
    have a0 := hP.2 1 (by omega)
    have a1 := hP.2 2 (by omega)
    have a2 := hP.2 3 (by omega)
    have := hP.1
    simp only [wanted_bytes, kind_size] at this
    omega
  · intro k l s _ hP _
    exact hP
  · intro l s _ _
    exact ⟨by simp, by simp⟩
  · intro l s _ _
    exact ⟨by simp, by simp⟩

/-- C36 as stated fails: with the first-free search, every block holding at least one unit,
the mapping collaborator returning an address and 4 KiB asked of a process that holds 4 MiB
in free 4 KiB units, `allocate_blocks` returns `-ENOMEM` when the `vmalloc` of the record of
the block that is cut off fails. -/
theorem allocate_blocks_needs_vmalloc :
    opts_default.find_available = find_available_t.find_available_blk_list ∧
    (∀ k, k < 4 → ∀ b, b ∈ proc_4k_only.blk_list k → 1 ≤ b.num_blks) ∧
    roundup 4096 (kind_size kind_4k) ≤ free_bytes proc_4k_only ∧
    0 < env_vmalloc_fails.build_lwkvma 0 0 268435456 4096 0 0 0 1073741824 4096 ∧
    ∃ s', allocate_blocks env_vmalloc_fails hw_x86_64 20 268435456 4096 0 0 0 opts_default
        proc_4k_only = some (alloc_exit.vmalloc_failed, s') ∧
      alloc_exit.vmalloc_failed.ret = -ENOMEM :=
  ⟨rfl, by decide, by decide, by decide, _, rfl, rfl⟩

/-- C36 amended: completeness of allocation under the first-free search. When the mapping
collaborator never fails, every `vmalloc` succeeds, no block sits in a class without dTLB
entries and `roundup(len, 4 KiB)` (with `len ≥ 0`) is at most the bytes held in free blocks,
`allocate_blocks(len)` returns through `return first_addr`, whatever the class mix of the
free blocks and whatever the ceiling: with enough fuel the call returns, and it does not
leave through an error exit.  When the ceiling admits the 4 KiB class, exactly
`roundup(len, 4 KiB)` bytes have moved from free to assigned. -/
theorem allocate_blocks_complete (env : Env) (hw : Hw) (addr : Nat) (len : Int)
    (prot mmap_flags pgoff : Nat) (opts : allocate_options_t) (s : mos_process_t)
    (hfind : opts.find_available = find_available_t.find_available_blk_list)
    (hlen : 0 ≤ len)
    (hfree : roundup len (kind_size kind_4k) ≤ free_bytes s)
    (hun : unusable_empty hw s)
    (hbuild : ∀ t knd a n pr fl pg ph tl, 0 < env.build_lwkvma t knd a n pr fl pg ph tl)
    (hvm : ∀ t, env.vmalloc t = true) :
    ∃ fuel0, ∀ fuel, fuel0 ≤ fuel →
      ∃ p s', allocate_blocks env hw fuel addr len prot mmap_flags pgoff opts s =
          some (alloc_exit.returned p, s') ∧
        (kind_size kind_4k ≤ opts.max_page_size →
          free_bytes s' = free_bytes s - roundup len (kind_size kind_4k) ∧
          assigned_bytes s' = assigned_bytes s + roundup len (kind_size kind_4k)) := by
  refine ⟨8 + (weight s).toNat, fun fuel hfuel => ?_⟩
  obtain ⟨e, s', hres⟩ := allocate_blocks_first_free_returns env hw fuel addr len prot
    mmap_flags pgoff opts s hfind hfuel
  obtain ⟨r1, r2, _, _⟩ := roundup_4k len hlen
  obtain ⟨_, _, h3, h4, h5⟩ := allocate_blocks_accounting env hw fuel addr len prot mmap_flags
    pgoff opts hres
  have hnb := allocate_blocks_no_build_failure env hw fuel addr len prot mmap_flags pgoff opts
    hbuild hres
  obtain ⟨i1, i2⟩ := blocks_wanted_init hw opts (roundup len (kind_size 0))
  have hle : (blocks_wanted hw (roundup len (kind_size 0)) (fun _ => 0) opts).1 ≤
      roundup len (kind_size 0) := by
    have h := blocks_wanted_loop_spec hw opts.max_page_size 4 (le_refl 4)
      (roundup len (kind_size 0)) (fun _ => 0) 0 r1 (fun _ _ => rfl)
    simp only at h
    obtain ⟨_, a2, _, a4, _⟩ := h
    unfold blocks_wanted kind_last
    rw [a2]
    omega
  have hk : kind_size kind_4k = kind_size 0 := rfl
  rw [hk] at hfree
  have hres' := hres
  unfold allocate_blocks kind_last at hres'
  simp only at hres'
  have hun' := unusable_empty_allocate_kinds env hw opts prot pgoff _ fuel 4 (le_refl 4) _ s e
    s' hun hres'
  have hemp := fun h => allocate_kinds_empty env hw opts hfind hvm prot pgoff
    (roundup len (kind_size 0)) fuel 4
    { wanted := (blocks_wanted hw (roundup len (kind_size 0)) (fun _ => 0) opts).2,
      total := (blocks_wanted hw (roundup len (kind_size 0)) (fun _ => 0) opts).1,
      addr := addr, mmap_flags := mmap_flags, first_addr := 0 } s s' h
  have hdem := fun h1 h2 => allocate_kinds_demand env hw opts hvm prot pgoff _ fuel h1 h2 hres'
  have hw1 : wanted_bytes (blocks_wanted hw (roundup len (kind_size 0)) (fun _ => 0) opts).2 ≤
      free_bytes s := by rw [← i1]; omega
  obtain ⟨d1, d2⟩ := hdem hw1 i2
  cases e with
  | returned p =>
    refine ⟨p, s', hres, fun hceil => ?_⟩
    have hT := blocks_wanted_total_len hw opts (roundup len (kind_size 0)) r1 r2 hceil
    obtain ⟨e1, e2⟩ := h5 p rfl
    rw [hT] at e1 e2
    rw [hk]
    exact ⟨e1, e2⟩
  | block_list_empty =>
    exfalso
    have := free_bytes_none hw s' hun' (hemp hres')
    have := d1 rfl
    omega
  | build_failed a => exact absurd rfl (hnb a)
  | vmalloc_failed => exact absurd rfl d2
  | bytes_unallocated t => exact absurd rfl (h3 t)
  | wanted_underflow => exact absurd rfl h4

/-- Witness for C36: 3 MiB asked of `proc_example`, which holds two 1 GiB units, two 2 MiB
units and three 4 KiB units. -/
theorem allocate_blocks_complete_witness :
    opts_default.find_available = find_available_t.find_available_blk_list ∧
    (0 : Int) ≤ 3145728 ∧
    roundup 3145728 (kind_size kind_4k) ≤ free_bytes proc_example ∧
    unusable_empty hw_x86_64 proc_example ∧
    (∀ t knd a n pr fl pg ph tl, 0 < env_never_fails.build_lwkvma t knd a n pr fl pg ph tl) ∧
    (∀ t, env_never_fails.vmalloc t = true) ∧
    ∃ fuel0, ∀ fuel, fuel0 ≤ fuel →
      ∃ p s', allocate_blocks env_never_fails hw_x86_64 fuel 0 3145728 0 0 0 opts_default
          proc_example = some (alloc_exit.returned p, s') ∧
        (kind_size kind_4k ≤ opts_default.max_page_size →
          free_bytes s' = free_bytes proc_example - roundup 3145728 (kind_size kind_4k) ∧
          assigned_bytes s' =
            assigned_bytes proc_example + roundup 3145728 (kind_size kind_4k)) :=
  have hb : ∀ t knd a n pr fl pg ph tl,
      0 < env_never_fails.build_lwkvma t knd a n pr fl pg ph tl := by
    intro t knd a n pr fl pg ph tl
    simp only [env_never_fails]
    split_ifs <;> omega
  have hu : unusable_empty hw_x86_64 proc_example := by
    intro k hk h0
    have h4 : k = 0 ∨ k = 1 ∨ k = 2 ∨ k = 3 := by omega
    rcases h4 with rfl | rfl | rfl | rfl
    · exact absurd h0 (by decide)
    · exact absurd h0 (by decide)
    · rfl
    · exact absurd h0 (by decide)
  ⟨rfl, by decide, by decide, hu, hb, fun _ => rfl,
    allocate_blocks_complete env_never_fails hw_x86_64 0 3145728 0 0 0 opts_default
      proc_example rfl (by decide) (by decide) hu hb (fun _ => rfl)⟩


/-! ## No physical byte in two blocks -/

theorem lists_cover_upd (lists : Nat → List blk_list) {k : Nat} (hk : k < 4)
    (l : List blk_list) (x : Nat) :
    lists_cover (upd lists k l) x =
      lists_cover lists x - list_cover k (lists k) x + list_cover k l x := by
  rcases kind_lt_four_cases hk with rfl | rfl | rfl | rfl <;>
    simp [lists_cover, upd] <;> ring

theorem list_cover_cons (k : Nat) (b : blk_list) (l : List blk_list) (x : Nat) :
    list_cover k (b :: l) x = (if covers k b x then 1 else 0) + list_cover k l x := by
  simp [list_cover]

theorem list_cover_set (k : Nat) {l : List blk_list} {i : Nat} {e : blk_list}
    (b : blk_list) (h : l[i]? = some e) (x : Nat) :
    list_cover k (l.set i b) x = list_cover k l x -
      (if covers k e x then 1 else 0) + (if covers k b x then 1 else 0) := by
  unfold list_cover
  exact sum_map_set _ l i e b h

theorem list_cover_eraseIdx (k : Nat) {l : List blk_list} {i : Nat} {e : blk_list}
    (h : l[i]? = some e) (x : Nat) :
    list_cover k (l.eraseIdx i) x = list_cover k l x - (if covers k e x then 1 else 0) := by
  unfold list_cover
  exact sum_map_eraseIdx _ l i e h

theorem list_cover_insert_after (k : Nat) (l : List blk_list) (i : Nat) (b : blk_list)
    (x : Nat) :
    list_cover k (insert_after l i b) x =
      list_cover k l x + (if covers k b x then 1 else 0) := by
  unfold list_cover
  exact sum_map_insert_after _ l i b

theorem list_cover_nonneg (k : Nat) (l : List blk_list) (x : Nat) : 0 ≤ list_cover k l x := by
  unfold list_cover
  apply List.sum_nonneg
  intro y hy
  simp only [List.mem_map] at hy
  obtain ⟨b, _, rfl⟩ := hy
  split_ifs <;> omega

theorem list_cover_mem (k : Nat) {l : List blk_list} {b : blk_list} (hb : b ∈ l) (x : Nat)
    (hc : covers k b x) : 1 ≤ list_cover k l x := by
  induction l with
  | nil => simp at hb
  | cons a l ih =>
    rw [list_cover_cons]
    have h0 := list_cover_nonneg k l x
    rcases List.mem_cons.1 hb with rfl | hb
    · rw [if_pos hc]; omega
    · have := ih hb
      split_ifs <;> omega

theorem lists_cover_mem (lists : Nat → List blk_list) {k : Nat} (hk : k < 4) {b : blk_list}
    (hb : b ∈ lists k) (x : Nat) (hc : covers k b x) : 1 ≤ lists_cover lists x := by
  have h := list_cover_mem k hb x hc
  have h0 := list_cover_nonneg 0 (lists 0) x
  have h1 := list_cover_nonneg 1 (lists 1) x
  have h2 := list_cover_nonneg 2 (lists 2) x
  have h3 := list_cover_nonneg 3 (lists 3) x
  unfold lists_cover
  rcases kind_lt_four_cases hk with rfl | rfl | rfl | rfl <;> omega

theorem cover_count_blk_range (k : Nat) (l : List blk_list) (x : Nat) :
    (cover_count (l.map (blk_range k)) x : Int) = list_cover k l x := by
  induction l with
  | nil => rfl
  | cons b l ih =>
    rw [List.map_cons, cover_count_cons, list_cover_cons, ← ih]
    have : granule_covers (blk_range k b) x ↔ covers k b x := Iff.rfl
    by_cases hc : covers k b x
    · rw [if_pos hc, if_pos (this.2 hc)]; push_cast; ring
    · rw [if_neg hc, if_neg (fun h => hc (this.1 h))]; push_cast; ring

theorem cover_count_phys_ranges (s : mos_process_t) (x : Nat) :
    (cover_count (phys_ranges s) x : Int) = lists_cover s.blk_list x := by
  unfold phys_ranges lists_cover
  rw [cover_count_append, cover_count_append, cover_count_append]
  push_cast
  rw [cover_count_blk_range, cover_count_blk_range, cover_count_blk_range,
    cover_count_blk_range]

theorem blk_within_refl (k : Nat) (b : blk_list) : blk_within k b k b :=
  ⟨rfl, le_refl _, le_refl _⟩

theorem blk_within_trans {k2 k1 k : Nat} {b2 b1 b : blk_list} (h1 : blk_within k2 b2 k1 b1)
    (h2 : blk_within k1 b1 k b) : blk_within k2 b2 k b :=
  ⟨h1.1.trans h2.1, le_trans h2.2.1 h1.2.1, le_trans h1.2.2 h2.2.2⟩

theorem phys_rel_refl (s : mos_process_t) : phys_rel s s :=
  ⟨rfl, fun k hk b hb => ⟨k, hk, b, hb, blk_within_refl k b⟩, fun _ => rfl⟩

theorem phys_rel_trans {s s1 s2 : mos_process_t} (h1 : phys_rel s s1) (h2 : phys_rel s1 s2) :
    phys_rel s s2 := by
  refine ⟨h2.1.trans h1.1, fun k2 hk2 b2 hb2 => ?_, fun x => (h2.2.2 x).trans (h1.2.2 x)⟩
  obtain ⟨k1, hk1, b1, hb1, w1⟩ := h2.2.1 k2 hk2 b2 hb2
  obtain ⟨k, hk, b, hb, w⟩ := h1.2.1 k1 hk1 b1 hb1
  exact ⟨k, hk, b, hb, blk_within_trans w1 w⟩

theorem phys_rel_of_eq {s s' : mos_process_t} (h1 : s'.lwkmem_list = s.lwkmem_list)
    (h2 : s'.blk_list = s.blk_list) : phys_rel s s' :=
  ⟨h1, fun k hk b hb => ⟨k, hk, b, by rw [← h2]; exact hb, blk_within_refl k b⟩,
    fun x => by rw [h2]⟩

theorem phys_rel_cursor_only {s s1 : mos_process_t} (h : cursor_only s s1) : phys_rel s s1 := by
  refine phys_rel_of_eq ?_ (cursor_only_blk_list h)
  unfold cursor_only at h
  rw [h]

theorem phys_inv_of_rel {s s' : mos_process_t} (hI : phys_inv s.lwkmem_list s)
    (hR : phys_rel s s') : phys_inv s'.lwkmem_list s' := by
  obtain ⟨i1, i2, i3⟩ := hI
  obtain ⟨r1, r2, r3⟩ := hR
  rw [r1]
  refine ⟨i1, fun k' hk' b' hb' => ?_, fun x => by rw [r3]; exact i3 x⟩
  obtain ⟨k, hk, b, hb, w1, w2, w3⟩ := r2 k' hk' b' hb'
  obtain ⟨g, hg, e1, e2⟩ := i2 k hk b hb
  exact ⟨g, hg, w1.trans e1, by omega⟩

/-- What the invariant gives: the physical ranges of the blocks are pairwise disjoint and
every block lies inside its granule. -/
theorem phys_inv_disjoint_inside {l : List lwk_process_granule} {s : mos_process_t}
    (hI : phys_inv l s) : non_overlapping (phys_ranges s) ∧ blocks_inside s := by
  obtain ⟨i1, i2, i3⟩ := hI
  constructor
  · rw [non_overlapping_iff]
    intro x
    have := cover_count_phys_ranges s x
    have := i3 x
    omega
  · intro k hk b hb
    obtain ⟨g, hg, e1, e2⟩ := i2 k hk b hb
    have := i1.2 g hg
    rw [e1]
    omega

theorem covers_split {K ka kb : Nat} {e a b : blk_list} (x : Nat)
    (h1 : blk_addr a = blk_addr e)
    (h2 : blk_addr b = blk_addr e + a.num_blks * kind_size_u ka)
    (h3 : a.num_blks * kind_size_u ka + b.num_blks * kind_size_u kb =
      e.num_blks * kind_size_u K) :
    (if covers K e x then (1 : Int) else 0) =
      (if covers ka a x then 1 else 0) + (if covers kb b x then 1 else 0) := by
  unfold covers
  split_ifs <;> omega

theorem covers_same {K ka : Nat} {e a : blk_list} (x : Nat)
    (h1 : blk_addr a = blk_addr e)
    (h3 : a.num_blks * kind_size_u ka = e.num_blks * kind_size_u K) :
    (if covers K e x then (1 : Int) else 0) = (if covers ka a x then 1 else 0) := by
  unfold covers
  split_ifs <;> omega

theorem pred_mul_add (n S : Nat) (h : 0 < n) : (n - 1) * S + S = n * S := by
  obtain ⟨m, rfl⟩ : ∃ m, n = m + 1 := ⟨n - 1, by omega⟩
  simp [Nat.succ_mul]

theorem sub_mul_add (n w S : Nat) (h : w ≤ n) : w * S + (n - w) * S = n * S := by
  rw [← Nat.add_mul]
  congr 1
  omega

/-- Dividing a block keeps the bytes that lie in blocks: the new block and what is left of
the larger block lie in the range of the larger block and together hold the same bytes. -/
theorem divide_consume_phys (env : Env) {knd nxt : Nat} (h1 : knd < nxt) (h2 : nxt < 4)
    {s1 s2 : mos_process_t} {i : Nat} {elt : blk_list} {r : Option (Nat × blk_list)}
    (hv : valid_free s1 nxt i elt) (h : divide_consume env knd nxt s1 i elt = (r, s2)) :
    phys_rel s1 s2 := by
  have hk : knd < 4 := by omega
  have hne : knd ≠ nxt := by omega
  have hne' : nxt ≠ knd := by omega
  have hratio := ratio_exact_u h1 h2
  obtain ⟨hget, _⟩ := hv
  have hmem := mem_of_getElem? hget
  unfold divide_consume at h
  split_ifs at h with hgt hvm
  · simp only [Prod.mk.injEq] at h
    obtain ⟨_, rfl⟩ := h
    have hsum := pred_mul_add elt.num_blks (kind_size_u nxt) (by omega)
    refine ⟨rfl, fun k' hk' b' hb' => ?_, fun x => ?_⟩
    · simp only at hb'
      by_cases c1 : k' = knd
      · subst c1
        rw [upd_same] at hb'
        rcases List.mem_cons.1 hb' with rfl | hb'
        · refine ⟨nxt, h2, elt, hmem, rfl, le_refl _, ?_⟩
          simp only
          rw [hratio]
          have : kind_size_u nxt ≤ elt.num_blks * kind_size_u nxt :=
            Nat.le_mul_of_pos_left _ (by omega)
          omega
        · exact ⟨k', hk', b', hb', blk_within_refl _ _⟩
      · rw [upd_other _ _ c1] at hb'
        by_cases c2 : k' = nxt
        · subst c2
          rw [upd_same] at hb'
          rcases mem_of_mem_set hb' with rfl | hb'
          · refine ⟨k', h2, elt, hmem, rfl, ?_, ?_⟩
            · simp only; omega
            · simp only; omega
          · exact ⟨k', hk', b', hb', blk_within_refl _ _⟩
        · rw [upd_other _ _ c2] at hb'
          exact ⟨k', hk', b', hb', blk_within_refl _ _⟩
    · simp only
      rw [lists_cover_upd _ hk, lists_cover_upd _ h2, upd_other _ _ hne, list_cover_cons,
        list_cover_set nxt _ hget]
      have := @covers_split nxt knd nxt elt
        { phys := elt.phys, offset := elt.offset,
          num_blks := (cdiv (kind_size nxt) (kind_size knd)).toNat, free := true,
          vma_addr := 0 }
        { elt with num_blks := elt.num_blks - 1, offset := elt.offset + kind_size_u nxt } x
        rfl (by simp only [blk_addr]; rw [hratio]; omega) (by simp only; rw [hratio]; omega)
      omega
  · simp only [Prod.mk.injEq] at h
    obtain ⟨_, rfl⟩ := h
    exact phys_rel_of_eq rfl rfl
  · simp only [Prod.mk.injEq] at h
    obtain ⟨_, rfl⟩ := h
    have hext : elt.num_blks * (cdiv (kind_size nxt) (kind_size knd)).toNat *
        kind_size_u knd = elt.num_blks * kind_size_u nxt := by
      rw [Nat.mul_assoc, hratio]
    refine ⟨rfl, fun k' hk' b' hb' => ?_, fun x => ?_⟩
    · simp only at hb'
      by_cases c1 : k' = knd
      · subst c1
        rw [upd_same] at hb'
        rcases List.mem_cons.1 hb' with rfl | hb'
        · refine ⟨nxt, h2, elt, hmem, rfl, le_refl _, ?_⟩
          simp only
          rw [hext]
        · exact ⟨k', hk', b', hb', blk_within_refl _ _⟩
      · rw [upd_other _ _ c1] at hb'
        by_cases c2 : k' = nxt
        · subst c2
          rw [upd_same] at hb'
          exact ⟨k', hk', b', List.mem_of_mem_eraseIdx hb', blk_within_refl _ _⟩
        · rw [upd_other _ _ c2] at hb'
          exact ⟨k', hk', b', hb', blk_within_refl _ _⟩
    · simp only
      rw [lists_cover_upd _ hk, lists_cover_upd _ h2, upd_other _ _ hne, list_cover_cons,
        list_cover_eraseIdx nxt hget]
      have := @covers_same nxt knd elt
        { elt with num_blks := elt.num_blks * (cdiv (kind_size nxt) (kind_size knd)).toNat } x
        rfl hext
      omega

theorem divide_block_phys (env : Env) (hw : Hw) (opts : allocate_options_t) (fuel : Nat)
    {knd : Nat} {s s1 : mos_process_t} {r : Option (Nat × blk_list)} (hk : knd < 4)
    (h : divide_block env hw opts fuel knd s = some (r, s1)) : phys_rel s s1 :=
  divide_block_rel env hw opts phys_rel phys_rel_refl (fun _ _ _ => phys_rel_trans)
    (fun _ _ hc => phys_rel_cursor_only hc)
    (fun _ _ _ _ _ _ _ h1 h2 hv hd => divide_consume_phys env h1 h2 hv hd)
    fuel hk h

/-- A block `e` of class `k` is replaced by two blocks `a` and `b` that hold its units, `a`
the first ones and `b` the rest. -/
theorem phys_rel_cut {s s' : mos_process_t} {k : Nat} {e a b : blk_list}
    {lnew : List blk_list} (hk : k < 4) (hmem : e ∈ s.blk_list k)
    (hl : s'.lwkmem_list = s.lwkmem_list) (hb : s'.blk_list = upd s.blk_list k lnew)
    (hm : ∀ b', b' ∈ lnew → b' = a ∨ b' = b ∨ b' ∈ s.blk_list k)
    (hc : ∀ x, list_cover k lnew x = list_cover k (s.blk_list k) x -
      (if covers k e x then 1 else 0) + (if covers k a x then 1 else 0) +
      (if covers k b x then 1 else 0))
    (ha1 : a.phys = e.phys) (hb1 : b.phys = e.phys) (ha2 : a.offset = e.offset)
    (hb2 : b.offset = e.offset + a.num_blks * kind_size_u k)
    (hn : a.num_blks + b.num_blks = e.num_blks) : phys_rel s s' := by
  have hsum : a.num_blks * kind_size_u k + b.num_blks * kind_size_u k =
      e.num_blks * kind_size_u k := by rw [← Nat.add_mul, hn]
  refine ⟨hl, fun k' hk' b' hb' => ?_, fun x => ?_⟩
  · rw [hb] at hb'
    by_cases c1 : k' = k
    · subst c1
      rw [upd_same] at hb'
      rcases hm b' hb' with rfl | rfl | hb'
      · exact ⟨k', hk, e, hmem, ha1, by omega, by omega⟩
      · exact ⟨k', hk, e, hmem, hb1, by omega, by omega⟩
      · exact ⟨k', hk', b', hb', blk_within_refl _ _⟩
    · rw [upd_other _ _ c1] at hb'
      exact ⟨k', hk', b', hb', blk_within_refl _ _⟩
  · rw [hb, lists_cover_upd _ hk, hc]
    have := @covers_split k k k e a b x (by simp only [blk_addr]; rw [ha1, ha2])
      (by simp only [blk_addr]; rw [hb1, hb2]; omega) hsum
    omega

/-- A block `e` of class `k` is replaced by a block `a` with the same range. -/
theorem phys_rel_same {s s' : mos_process_t} {k : Nat} {e a : blk_list}
    {lnew : List blk_list} (hk : k < 4) (hmem : e ∈ s.blk_list k)
    (hl : s'.lwkmem_list = s.lwkmem_list) (hb : s'.blk_list = upd s.blk_list k lnew)
    (hm : ∀ b', b' ∈ lnew → b' = a ∨ b' ∈ s.blk_list k)
    (hc : ∀ x, list_cover k lnew x = list_cover k (s.blk_list k) x -
      (if covers k e x then 1 else 0) + (if covers k a x then 1 else 0))
    (ha1 : a.phys = e.phys) (ha2 : a.offset = e.offset) (hn : a.num_blks = e.num_blks) :
    phys_rel s s' := by
  refine ⟨hl, fun k' hk' b' hb' => ?_, fun x => ?_⟩
  · rw [hb] at hb'
    by_cases c1 : k' = k
    · subst c1
      rw [upd_same] at hb'
      rcases hm b' hb' with rfl | hb'
      · exact ⟨k', hk, e, hmem, ha1, by omega, by rw [ha2, hn]⟩
      · exact ⟨k', hk', b', hb', blk_within_refl _ _⟩
    · rw [upd_other _ _ c1] at hb'
      exact ⟨k', hk', b', hb', blk_within_refl _ _⟩
  · rw [hb, lists_cover_upd _ hk, hc]
    have := @covers_same k k e a x (by simp only [blk_addr]; rw [ha1, ha2]) (by rw [hn])
    omega

theorem phys_rel_set {s s' : mos_process_t} {k i : Nat} {e : blk_list} (a : blk_list)
    (hk : k < 4) (hget : (s.blk_list k)[i]? = some e)
    (hl : s'.lwkmem_list = s.lwkmem_list)
    (hb : s'.blk_list = upd s.blk_list k ((s.blk_list k).set i a))
    (ha1 : a.phys = e.phys) (ha2 : a.offset = e.offset) (hn : a.num_blks = e.num_blks) :
    phys_rel s s' :=
  phys_rel_same hk (mem_of_getElem? hget) hl hb (fun _ h => mem_of_mem_set h)
    (fun x => list_cover_set k a hget x) ha1 ha2 hn

/-- Taking a block, whole or in part, keeps the bytes that lie in blocks. -/
theorem grab_block_phys (env : Env) (prot pgoff : Nat) (len : Int) {k : Nat}
    (l : alloc_locals) {s : mos_process_t} {i : Nat} {elt : blk_list}
    (hk : k < 4) (hv : valid_free s k i elt) (hw0 : 0 < l.wanted k) :
    phys_rel s (grab_block env prot pgoff len k l s i elt).2 := by
  obtain ⟨hget, _⟩ := hv
  have hmem := mem_of_getElem? hget
  have hmul := toNat_mul_kind_size hk (le_of_lt hw0)
  unfold grab_block
  simp only
  by_cases hlt : l.wanted k < (elt.num_blks : Int)
  · rw [if_pos hlt]
    have hpart : ∀ (v : Nat) (s' : mos_process_t), s'.lwkmem_list = s.lwkmem_list →
        s'.blk_list = upd s.blk_list k (insert_after ((s.blk_list k).set i
          { elt with offset := elt.offset + (l.wanted k * kind_size k).toNat,
                     num_blks := elt.num_blks - (l.wanted k).toNat }) i
          { phys := elt.phys, offset := elt.offset, num_blks := (l.wanted k).toNat,
            free := false, vma_addr := v }) → phys_rel s s' := by
      intro v s' h1 h2
      refine @phys_rel_cut s s' k elt
        { phys := elt.phys, offset := elt.offset, num_blks := (l.wanted k).toNat,
          free := false, vma_addr := v }
        { elt with offset := elt.offset + (l.wanted k * kind_size k).toNat,
                   num_blks := elt.num_blks - (l.wanted k).toNat } _ hk hmem h1 h2
        (fun b' hb' => ?_) (fun x => ?_) rfl rfl rfl (by simp only; omega)
        (by simp only; omega)
      · rcases mem_insert_after.1 hb' with c | c
        · exact Or.inl c
        · rcases mem_of_mem_set c with c | c
          · exact Or.inr (Or.inl c)
          · exact Or.inr (Or.inr c)
      · rw [list_cover_insert_after, list_cover_set k _ hget]
        ring
    split_ifs
    all_goals first
      | exact phys_rel_of_eq rfl rfl
      | exact hpart _ _ rfl rfl
  · rw [if_neg hlt]
    split_ifs
    all_goals first
      | exact phys_rel_of_eq rfl rfl
      | exact phys_rel_set _ hk hget rfl rfl rfl rfl rfl

/-- A call of `allocate_blocks` keeps the granule list and the bytes that lie in blocks, and
every block afterwards lies in the range of a block that was there before. -/
theorem allocate_blocks_phys (env : Env) (hw : Hw) (fuel : Nat) (addr : Nat) (len : Int)
    (prot mmap_flags pgoff : Nat) (opts : allocate_options_t) {s s' : mos_process_t}
    {e : alloc_exit}
    (h : allocate_blocks env hw fuel addr len prot mmap_flags pgoff opts s = some (e, s')) :
    phys_rel s s' := by
  unfold allocate_blocks at h
  simp only at h
  refine allocate_kinds_inv env hw opts prot pgoff _ fuel (fun _ _ s1 => phys_rel s s1)
    (fun _ s1 => phys_rel s s1) ?_ ?_ ?_ ?_ ?_ ?_ ?_ ?_ ?_ 4 (le_refl 4) _ s (phys_rel_refl s)
    e s' h
  · intro k l s1 fuel r s2 _ hP hf
    exact phys_rel_trans hP (phys_rel_cursor_only (find_available_spec hf).1)
  · intro k l s1 fuel r s2 hk hP hd
    exact phys_rel_trans hP (divide_block_phys env hw opts fuel hk hd)
  · intro k l s1 i elt l1 s2 hk hP hpos hv hg
    have := grab_block_phys env prot pgoff (roundup len (kind_size 0)) l hk hv hpos
    rw [hg] at this
    exact phys_rel_trans hP this
  · intro k l s1 i elt e s2 hk hP hpos hv hg
    have := grab_block_phys env prot pgoff (roundup len (kind_size 0)) l hk hv hpos
    rw [hg] at this
    exact phys_rel_trans hP this
  · intro k l s1 _ _ hP _
    exact hP
  · intro l s1 hP _
    exact hP
  · intro k l s1 _ hP _
    exact hP
  · intro l s1 hP _
    exact hP
  · intro l s1 hP _
    exact hP

theorem split_block_phys (env : Env) {s : mos_process_t} {k i : Nat} {e : blk_list}
    (bl : blk_list) (offset : Nat) (hk : k < 4) (hget : (s.blk_list k)[i]? = some e)
    (h1 : bl.phys = e.phys) (h2 : bl.offset = e.offset) (h3 : bl.num_blks = e.num_blks) :
    phys_rel s (split_block env s k i bl offset).2 := by
  have hmem := mem_of_getElem? hget
  unfold split_block
  simp only
  split_ifs with hc hvm
  · exact phys_rel_refl s
  · rw [and_mask_eq_mod hk] at hc
    push_neg at hc
    obtain ⟨c1, c2⟩ := hc
    have hoff : offset / kind_size_u k * kind_size_u k = offset :=
      Nat.div_mul_cancel (Nat.dvd_of_mod_eq_zero c2)
    refine @phys_rel_cut s _ k e { bl with num_blks := offset / kind_size_u k }
      { phys := bl.phys, offset := bl.offset + offset,
        num_blks := bl.num_blks - offset / kind_size_u k,
        vma_addr := bl.vma_addr + offset, free := bl.free } _ hk hmem rfl rfl
      (fun b' hb' => ?_) (fun x => ?_) h1 h1 h2 (by simp only; omega) (by simp only; omega)
    · rcases List.mem_cons.1 hb' with c | c
      · exact Or.inr (Or.inl c)
      · rcases mem_of_mem_set c with c | c
        · exact Or.inl c
        · exact Or.inr (Or.inr c)
    · rw [list_cover_cons, list_cover_set k _ hget]
      ring
  · exact phys_rel_of_eq rfl rfl

theorem mark_free_phys {s : mos_process_t} {k i : Nat} (bl : blk_list) (hk : k < 4)
    (h : ∀ e, (s.blk_list k)[i]? = some e →
      bl.phys = e.phys ∧ bl.offset = e.offset ∧ bl.num_blks = e.num_blks) :
    phys_rel s (mark_free s k i bl) := by
  unfold mark_free
  cases hget : (s.blk_list k)[i]? with
  | none =>
    have hlen : (s.blk_list k).length ≤ i := by
      by_contra hc
      rw [List.getElem?_eq_getElem (by omega)] at hget
      simp at hget
    refine phys_rel_of_eq rfl ?_
    simp only
    funext j
    by_cases c : j = k
    · subst c
      rw [upd_same, List.set_eq_of_length_le hlen]
    · rw [upd_other _ _ c]
  | some e =>
    obtain ⟨h1, h2, h3⟩ := h e hget
    exact phys_rel_set _ hk hget rfl rfl h1 h2 h3

theorem split_block_some (env : Env) {s s1 : mos_process_t} {k i : Nat} {bl nb : blk_list}
    {offset : Nat} (h : split_block env s k i bl offset = (some nb, s1)) :
    s1.blk_list = upd s.blk_list k
      (nb :: (s.blk_list k).set i { bl with num_blks := offset / kind_size_u k }) := by
  unfold split_block at h
  simp only at h
  split_ifs at h <;> simp only [Prod.mk.injEq, Option.some.injEq, reduceCtorEq, false_and] at h
  obtain ⟨rfl, rfl⟩ := h
  rfl

theorem getElem?_cons_set_succ {α : Type} {l : List α} {i : Nat} {e : α} (a x : α)
    (h : l[i]? = some e) : (a :: l.set i x)[i + 1]? = some x := by
  rw [List.getElem?_cons_succ]
  exact getElem?_set_self' h

/-- A call of `deallocate_block` keeps the granule list and the bytes that lie in blocks. -/
theorem deallocate_block_phys (env : Env) (addr len : Nat) (s : mos_process_t) :
    phys_rel s (deallocate_block env addr len s).2 := by
  unfold deallocate_block
  cases hfa : find_assigned s addr kind_last 0 with
  | none => exact phys_rel_refl s
  | some r =>
    obtain ⟨k, i, bl⟩ := r
    obtain ⟨_, hk4, hget, _⟩ := find_assigned_some _ hfa
    have hk : k < 4 := by unfold kind_last at hk4; omega
    have hsplit : ∀ off, phys_rel s (split_block env s k i bl off).2 :=
      fun off => split_block_phys env bl off hk hget rfl rfl rfl
    have hmark0 : ∀ {s1 : mos_process_t} {nb : blk_list} {l : List blk_list},
        s1.blk_list = upd s.blk_list k (nb :: l) → phys_rel s1 (mark_free s1 k 0 nb) := by
      intro s1 nb l hb
      refine mark_free_phys nb hk (fun e he => ?_)
      rw [hb, upd_same, List.getElem?_cons_zero] at he
      obtain rfl := Option.some.inj he
      exact ⟨rfl, rfl, rfl⟩
    simp only
    split_ifs
    · exact phys_rel_refl s
    · exact phys_rel_refl s
    · exact mark_free_phys bl hk (fun e he => by
        rw [hget] at he
        obtain rfl := Option.some.inj he
        exact ⟨rfl, rfl, rfl⟩)
    · have h1 := hsplit len
      split
      · rename_i s1 heq
        rw [heq] at h1
        exact h1
      · rename_i nb s1 heq
        rw [heq] at h1
        have hb := split_block_some env heq
        refine phys_rel_trans h1 (mark_free_phys _ hk (fun e he => ?_))
        rw [hb, upd_same, getElem?_cons_set_succ _ _ hget] at he
        obtain rfl := Option.some.inj he
        exact ⟨rfl, rfl, rfl⟩
    · have h1 := hsplit (addr - bl.vma_addr)
      split
      · rename_i s1 heq
        rw [heq] at h1
        exact h1
      · rename_i nb s1 heq
        rw [heq] at h1
        exact phys_rel_trans h1 (hmark0 (split_block_some env heq))
    · have h1 := hsplit (addr + len - bl.vma_addr)
      split
      · rename_i s1 heq
        rw [heq] at h1
        exact h1
      · rename_i nb s1 heq
        rw [heq] at h1
        have hb := split_block_some env heq
        have hget1 : (s1.blk_list k)[i + 1]? =
            some { bl with num_blks := (addr + len - bl.vma_addr) / kind_size_u k } := by
          rw [hb, upd_same, getElem?_cons_set_succ _ _ hget]
        have h2 := split_block_phys env
          { bl with num_blks := (addr + len - bl.vma_addr) / kind_size_u k }
          (addr - bl.vma_addr) hk hget1 rfl rfl rfl
        split
        · rename_i s2 heq2
          rw [heq2] at h2
          exact phys_rel_trans h1 h2
        · rename_i nb2 s2 heq2
          rw [heq2] at h2
          have hb2 := split_block_some env heq2
          refine phys_rel_trans h1 (phys_rel_trans h2 (mark_free_phys nb2 hk (fun e he => ?_)))
          rw [hb2, upd_same, List.getElem?_cons_zero] at he
          obtain rfl := Option.some.inj he
          exact ⟨rfl, rfl, rfl⟩

theorem deallocate_loop_phys (env : Env) (fuel : Nat) :
    ∀ (addr len : Nat) (ret0 : Int) (s : mos_process_t) (ret : Int) (s' : mos_process_t),
      deallocate_loop env fuel addr len ret0 s = some (ret, s') → phys_rel s s' := by
  induction fuel with
  | zero => intro addr len ret0 s ret s' h; simp [deallocate_loop] at h
  | succ fuel ih =>
    intro addr len ret0 s ret s' h
    simp only [deallocate_loop] at h
    have hd := deallocate_block_phys env addr len s
    split_ifs at h with hlen hret
    · simp only [Option.some.injEq, Prod.mk.injEq] at h
      obtain ⟨_, rfl⟩ := h
      exact hd
    · exact phys_rel_trans hd (ih _ _ _ _ ret s' h)
    · simp only [Option.some.injEq, Prod.mk.injEq] at h
      obtain ⟨_, rfl⟩ := h
      exact phys_rel_refl s

theorem partition_rel_refl (g : lwk_process_granule) (s : mos_process_t)
    (h : g.offset ≤ g.granule.length) : partition_rel g s g s :=
  ⟨rfl, le_refl _, h, fun _ _ _ hb => Or.inl hb, fun x => by split_ifs <;> omega⟩

theorem partition_rel_of_eq (g : lwk_process_granule) {s s1 : mos_process_t}
    (h : g.offset ≤ g.granule.length) (hb : s1.blk_list = s.blk_list) :
    partition_rel g s g s1 :=
  ⟨rfl, le_refl _, h, fun _ _ _ h1 => Or.inl (by rw [← hb]; exact h1),
    fun x => by rw [hb]; split_ifs <;> omega⟩

theorem partition_rel_trans {g g1 g2 : lwk_process_granule} {s s1 s2 : mos_process_t}
    (h1 : partition_rel g s g1 s1) (h2 : partition_rel g1 s1 g2 s2) :
    partition_rel g s g2 s2 := by
  obtain ⟨a1, a2, a3, a4, a5⟩ := h1
  obtain ⟨b1, b2, b3, b4, b5⟩ := h2
  rw [a1] at b3 b4 b5
  refine ⟨b1.trans a1, by omega, b3, fun k hk b hb => ?_, fun x => ?_⟩
  · rcases b4 k hk b hb with c | ⟨c1, c2, c3⟩
    · rcases a4 k hk b c with d | ⟨d1, d2, d3⟩
      · exact Or.inl d
      · exact Or.inr ⟨d1, d2, by omega⟩
    · exact Or.inr ⟨c1, by omega, c3⟩
  · have u1 := a5 x
    have u2 := b5 x
    split_ifs at u1 u2 ⊢ <;> omega

theorem create_and_link_block_rel (env : Env) (g : lwk_process_granule) (length : Nat)
    {knd : Nat} (s : mos_process_t) (hk : knd < 4)
    (hlen : g.offset + length ≤ g.granule.length) :
    partition_rel g s (create_and_link_block env g length knd s).2.1
      (create_and_link_block env g length knd s).2.2 := by
  unfold create_and_link_block
  split_ifs
  · have hle : length / kind_size_u knd * kind_size_u knd ≤ length := Nat.div_mul_le_self _ _
    refine ⟨rfl, by simp only; omega, by simp only; omega, fun k hk' b hb => ?_, fun x => ?_⟩
    · simp only at hb
      by_cases c : k = knd
      · subst c
        rw [upd_same] at hb
        rcases List.mem_cons.1 hb with rfl | hb
        · exact Or.inr ⟨rfl, le_refl _, by simp only; omega⟩
        · exact Or.inl hb
      · rw [upd_other _ _ c] at hb
        exact Or.inl hb
    · simp only
      rw [lists_cover_upd _ hk, list_cover_cons]
      unfold covers blk_addr
      simp only
      split_ifs <;> omega
  · exact partition_rel_of_eq g (by omega) rfl

theorem partition_align_rel (env : Env) (hw : Hw) (n : Nat) :
    ∀ (knd : Nat) (g : lwk_process_granule) (s : mos_process_t),
      g.offset ≤ g.granule.length →
      partition_rel g s (partition_align env hw n knd g s).2.1
        (partition_align env hw n knd g s).2.2 := by
  induction n with
  | zero => intro knd g s h; exact partition_rel_refl g s h
  | succ n ih =>
    intro knd g s h
    simp only [partition_align]
    by_cases hun : num_dTLB hw knd = 0
    · rw [if_pos hun]; exact ih _ g s h
    · rw [if_neg hun]
      split_ifs
      · exact ih _ g s h
      · have hc := create_and_link_block_rel env g (min (roundup_u (g.granule.base + g.offset)
          (kind_size_u (next_usable hw kind_last (knd + 1))) - (g.granule.base + g.offset))
          (g.granule.length - g.offset)) s (num_dTLB_pos_lt hun)
          (by have := Nat.min_le_right (roundup_u (g.granule.base + g.offset)
                (kind_size_u (next_usable hw kind_last (knd + 1))) -
                (g.granule.base + g.offset)) (g.granule.length - g.offset)
              omega)
        split
        · rename_i g1 s1 heq
          rw [heq] at hc
          exact hc
        · rename_i g1 s1 heq
          rw [heq] at hc
          have h1 : g1.offset ≤ g1.granule.length := by
            rw [hc.1]; exact hc.2.2.1
          exact partition_rel_trans hc (ih _ g1 s1 h1)
      · exact ih _ g s h

theorem partition_fill_rel (env : Env) (hw : Hw) (fuel : Nat) :
    ∀ (knd : Nat) (g : lwk_process_granule) (s : mos_process_t) (ok : Bool)
      (g' : lwk_process_granule) (s' : mos_process_t), g.offset ≤ g.granule.length →
      partition_fill env hw fuel knd g s = some (ok, g', s') → partition_rel g s g' s' := by
  induction fuel with
  | zero => intro knd g s ok g' s' _ h; simp [partition_fill] at h
  | succ fuel ih =>
    intro knd g s ok g' s' hg h
    simp only [partition_fill] at h
    by_cases hdone : g.offset ≥ g.granule.length
    · rw [if_pos hdone] at h
      simp only [Option.some.injEq, Prod.mk.injEq] at h
      obtain ⟨_, rfl, rfl⟩ := h
      exact partition_rel_refl g s hg
    · rw [if_neg hdone] at h
      have hst : partition_rel g s
          (if num_dTLB hw knd = 0 then (true, g, s)
            else if rounddown_u (g.granule.length - g.offset) (kind_size_u knd) = 0
              then (true, g, s)
              else create_and_link_block env g
                (rounddown_u (g.granule.length - g.offset) (kind_size_u knd)) knd s).2.1
          (if num_dTLB hw knd = 0 then (true, g, s)
            else if rounddown_u (g.granule.length - g.offset) (kind_size_u knd) = 0
              then (true, g, s)
              else create_and_link_block env g
                (rounddown_u (g.granule.length - g.offset) (kind_size_u knd)) knd s).2.2 := by
        split_ifs with h1 h2
        · exact partition_rel_refl g s hg
        · exact partition_rel_refl g s hg
        · refine create_and_link_block_rel env g _ s (num_dTLB_pos_lt h1) ?_
          unfold rounddown_u
          omega
      split at h
      · rename_i g1 s1 heq
        simp only [Option.some.injEq, Prod.mk.injEq] at h
        obtain ⟨_, rfl, rfl⟩ := h
        rw [heq] at hst
        exact hst
      · rename_i g1 s1 heq
        rw [heq] at hst
        simp only at hst
        have h1 : g1.offset ≤ g1.granule.length := by
          rw [hst.1]; exact hst.2.2.1
        split_ifs at h
        · exact partition_rel_trans hst (ih _ g1 s1 ok g' s' h1 h)
        · simp only [Option.some.injEq, Prod.mk.injEq] at h
          obtain ⟨_, rfl, rfl⟩ := h
          exact hst
        · exact partition_rel_trans hst (ih _ g1 s1 ok g' s' h1 h)

theorem partition_granule_rel (env : Env) (hw : Hw) (fuel : Nat) (g : lwk_process_granule)
    (s : mos_process_t) (ok : Bool) (g' : lwk_process_granule) (s' : mos_process_t)
    (hg : g.offset ≤ g.granule.length)
    (h : partition_granule env hw fuel g s = some (ok, g', s')) : partition_rel g s g' s' := by
  unfold partition_granule at h
  have ha := partition_align_rel env hw (kind_last - 1) 0 g s hg
  split at h
  · rename_i g1 s1 heq
    simp only [Option.some.injEq, Prod.mk.injEq] at h
    obtain ⟨_, rfl, rfl⟩ := h
    rw [heq] at ha
    exact ha
  · rename_i g1 s1 heq
    rw [heq] at ha
    have h1 : g1.offset ≤ g1.granule.length := by
      rw [ha.1]; exact ha.2.2.1
    exact partition_rel_trans ha (partition_fill_rel env hw fuel _ g1 s1 ok g' s' h1 h)

theorem list_cover_pos (k : Nat) (l : List blk_list) (x : Nat) (h : 1 ≤ list_cover k l x) :
    ∃ b, b ∈ l ∧ covers k b x := by
  induction l with
  | nil => simp [list_cover] at h
  | cons a l ih =>
    rw [list_cover_cons] at h
    by_cases hc : covers k a x
    · exact ⟨a, List.mem_cons_self _ _, hc⟩
    · rw [if_neg hc] at h
      obtain ⟨b, hb, hbx⟩ := ih (by omega)
      exact ⟨b, List.mem_cons_of_mem _ hb, hbx⟩

theorem lists_cover_pos (lists : Nat → List blk_list) (x : Nat)
    (h : 1 ≤ lists_cover lists x) : ∃ k, k < 4 ∧ ∃ b, b ∈ lists k ∧ covers k b x := by
  unfold lists_cover at h
  have h0 := list_cover_nonneg 0 (lists 0) x
  have h1 := list_cover_nonneg 1 (lists 1) x
  have h2 := list_cover_nonneg 2 (lists 2) x
  have h3 := list_cover_nonneg 3 (lists 3) x
  by_cases c0 : 1 ≤ list_cover 0 (lists 0) x
  · exact ⟨0, by omega, list_cover_pos 0 _ x c0⟩
  by_cases c1 : 1 ≤ list_cover 1 (lists 1) x
  · exact ⟨1, by omega, list_cover_pos 1 _ x c1⟩
  by_cases c2 : 1 ≤ list_cover 2 (lists 2) x
  · exact ⟨2, by omega, list_cover_pos 2 _ x c2⟩
  exact ⟨3, by omega, list_cover_pos 3 _ x (by omega)⟩

/-- The invariant is kept when `partition_task_mem` has worked on one granule of the
list. -/
theorem phys_inv_partition_rel {done rest : List lwk_process_granule}
    {g g1 : lwk_process_granule} {s s1 : mos_process_t}
    (hI : phys_inv (done ++ g :: rest) s) (hR : partition_rel g s g1 s1) :
    phys_inv (done ++ g1 :: rest) s1 := by
  obtain ⟨⟨i1, i1'⟩, i2, i3⟩ := hI
  obtain ⟨r1, r2, r3, r4, r5⟩ := hR
  have hmap : (done ++ g1 :: rest).map (fun e => e.granule) =
      (done ++ g :: rest).map (fun e => e.granule) := by
    simp only [List.map_append, List.map_cons, r1]
  have hold : ∀ k, k < 4 → ∀ b, b ∈ s.blk_list k → ∃ e, e ∈ done ++ g1 :: rest ∧
      b.phys = e.granule ∧ b.offset + b.num_blks * kind_size_u k ≤ e.offset := by
    intro k hk b hb
    obtain ⟨e, he, e1, e2⟩ := i2 k hk b hb
    simp only [List.mem_append, List.mem_cons] at he
    rcases he with he | rfl | he
    · exact ⟨e, by simp [he], e1, e2⟩
    · exact ⟨g1, by simp, e1.trans r1.symm, by omega⟩
    · exact ⟨e, by simp [he], e1, e2⟩
  refine ⟨⟨?_, ?_⟩, ?_, ?_⟩
  · have := (List.pairwise_map (f := fun e : lwk_process_granule => e.granule)
      (R := granules_disjoint) (l := done ++ g :: rest)).2 i1
    rw [← hmap] at this
    exact List.pairwise_map.1 this
  · intro e he
    simp only [List.mem_append, List.mem_cons] at he
    rcases he with he | rfl | he
    · exact i1' e (by simp [he])
    · rw [r1]; exact r3
    · exact i1' e (by simp [he])
  · intro k hk b hb
    rcases r4 k hk b hb with c | ⟨c1, _, c3⟩
    · exact hold k hk b c
    · exact ⟨g1, by simp, c1.trans r1.symm, c3⟩
  · intro x
    have h5 := r5 x
    have h3 := i3 x
    by_cases hwin : g.granule.base + g.offset ≤ x ∧ x < g.granule.base + g1.offset
    · rw [if_pos hwin] at h5
      by_cases hpos : 1 ≤ lists_cover s.blk_list x
      · exfalso
        obtain ⟨k, hk, b, hb, hcov⟩ := lists_cover_pos _ x hpos
        obtain ⟨e, he, e1, e2⟩ := i2 k hk b hb
        have hle := i1' e he
        unfold covers blk_addr at hcov
        rw [e1] at hcov
        rw [List.pairwise_append, List.pairwise_cons] at i1
        obtain ⟨_, ⟨p2, _⟩, p3⟩ := i1
        simp only [List.mem_append, List.mem_cons] at he
        rcases he with he | rfl | he
        · have := p3 e he g (List.mem_cons_self _ _)
          unfold granules_disjoint at this
          omega
        · omega
        · have := p2 e he
          unfold granules_disjoint at this
          omega
      · omega
    · rw [if_neg hwin] at h5
      omega

theorem partition_list_phys (env : Env) (hw : Hw) (fuel : Nat) :
    ∀ (rest done : List lwk_process_granule) (s : mos_process_t) (ret : Int)
      (s' : mos_process_t), phys_inv (done ++ rest) s →
      partition_list env hw fuel done rest s = some (ret, s') →
      phys_inv s'.lwkmem_list s' := by
  intro rest
  induction rest with
  | nil =>
    intro done s ret s' hI h
    simp only [partition_list, Option.some.injEq, Prod.mk.injEq] at h
    obtain ⟨_, rfl⟩ := h
    rw [List.append_nil] at hI
    exact hI
  | cons g rest ih =>
    intro done s ret s' hI h
    simp only [partition_list] at h
    have hg : g.offset ≤ g.granule.length := hI.1.2 g (by simp)
    split at h
    · simp at h
    · rename_i g1 s1 heq
      simp only [Option.some.injEq, Prod.mk.injEq] at h
      obtain ⟨_, rfl⟩ := h
      exact phys_inv_partition_rel hI (partition_granule_rel env hw fuel g s false g1 s1 hg heq)
    · rename_i g1 s1 heq
      have := phys_inv_partition_rel hI (partition_granule_rel env hw fuel g s true g1 s1 hg heq)
      refine ih _ s1 ret s' ?_ h
      rw [List.append_assoc]
      exact this

/-- C35: no physical byte is handed out twice. Starting from an initialised process whose
reserved granules are pairwise non-overlapping with their watermarks inside, in every state
that calls of `partition_task_mem`, `allocate_blocks` and `deallocate_blocks` lead to, the
physical ranges `[phys->base + offset, phys->base + offset + num_blks * kind_size[k])` of
the blocks of the process, all classes, free and assigned, are pairwise disjoint, and each
range lies inside its granule: `offset + num_blks * kind_size[k] ≤ phys->length`. -/
theorem blocks_never_overlap (hw : Hw) (s0 s : mos_process_t) (h0 : initialised s0)
    (hg : granules_ok s0.lwkmem_list) (hr : reachable_from hw s0 s) :
    non_overlapping (phys_ranges s) ∧ blocks_inside s := by
  have hI : phys_inv s.lwkmem_list s := by
    induction hr with
    | start =>
      refine ⟨hg, fun k hk b hb => ?_, fun x => ?_⟩
      · rw [(h0 k hk).1] at hb
        simp at hb
      · unfold lists_cover
        rw [(h0 0 (by omega)).1, (h0 1 (by omega)).1, (h0 2 (by omega)).1,
          (h0 3 (by omega)).1]
        simp [list_cover]
    | partition env fuel s ret s' _ hp ih =>
      unfold partition_task_mem at hp
      exact partition_list_phys env hw fuel _ [] s ret s' (by simpa using ih) hp
    | allocate env fuel addr len prot mmap_flags pgoff opts s e s' _ ha ih =>
      exact phys_inv_of_rel ih (allocate_blocks_phys env hw fuel addr len prot mmap_flags
        pgoff opts ha)
    | deallocate env fuel addr len s ret s' _ hd ih =>
      unfold deallocate_blocks at hd
      exact phys_inv_of_rel ih (deallocate_loop_phys env fuel _ _ _ s ret s' hd)
  exact phys_inv_disjoint_inside hI

set_option maxRecDepth 100000 in
/-- Witness for C35: `proc_reserved_two` is partitioned and 8 KiB are allocated. -/
theorem blocks_never_overlap_witness :
    initialised proc_reserved_two ∧ granules_ok proc_reserved_two.lwkmem_list ∧
    ∃ s1 e s2, partition_task_mem env_ok hw_x86_64 10 proc_reserved_two = some (0, s1) ∧
      allocate_blocks env_never_fails hw_x86_64 20 0 8192 0 0 0 opts_default s1 =
        some (e, s2) ∧
      reachable_from hw_x86_64 proc_reserved_two s2 ∧
      (non_overlapping (phys_ranges s2) ∧ blocks_inside s2) :=
  have h0 : initialised proc_reserved_two := fun _ _ => ⟨rfl, rfl⟩
  have hg : granules_ok proc_reserved_two.lwkmem_list := by
    simp [granules_ok, proc_reserved_two, granules_disjoint]
  ⟨h0, hg, _, _, _, rfl, rfl,
    reachable_from.allocate env_never_fails 20 0 8192 0 0 0 opts_default _ _ _
      (reachable_from.partition env_ok 10 proc_reserved_two 0 _ reachable_from.start rfl) rfl,
    blocks_never_overlap hw_x86_64 proc_reserved_two _ h0 hg
      (reachable_from.allocate env_never_fails 20 0 8192 0 0 0 opts_default _ _ _
        (reachable_from.partition env_ok 10 proc_reserved_two 0 _ reachable_from.start rfl)
        rfl)⟩

end MOS
